import Mathlib

/-!
# mkmueller/option: the scalar decoder (`decode.go`) and the option parser (`option.go`)

A shallow embedding of the string-to-scalar decoder of the `option` package, of
its key generator, of its tokenizer and of `New` with the binding of fields and
of the argument container, and the properties of them that the specification
states.

Conventions of the embedding

* A Go `string` is its sequence of bytes: `GoString = List Nat`, every element
  standing for one byte (`0..255`).  `len(s)` is `s.length`, `s[i]` is the
  `i`-th element and `s[:n]` is `s.take n`.
* A `reflect.Value` that can be set is a `Target`: its kind, whether its type
  is `time.Time`, and the value it currently holds.  A function of the source
  that writes through the `reflect.Value` and returns an `error` becomes a
  function returning the new `Target` together with `Option Err` (`none` is
  Go's `nil` error).
* `int` and `uint` are 64 bits wide.
* A function of the source that can panic returns `Except Panic`; a method of
  `*option` that changes the object returns the new object.
* A Go map is the list of its entries; `os.Args` is a parameter of `parse`
  and of `New`.
* The arguments of `New` are `NewArg`s: what each pointer points to, a record
  as the list of its fields, a slice or an array as the list of its elements.
  `New` returns the object, which holds the fields and the container as they
  are after the call, and the `error`.
-/

namespace GoOption

/-- A Go string, as the list of its bytes. -/
abbrev GoString := List Nat

/-- The bytes of an ASCII literal. -/
def str (s : String) : GoString := s.toList.map Char.toNat

/-! ## Byte helpers of `decode.go` -/

/-- `lower` of decode.go: `if 'A' <= r && r <= 'Z' { r += 'a' - 'A' }`. -/
def lower (r : Nat) : Nat :=
  if 65 ≤ r ∧ r ≤ 90 then r + (97 - 65) else r

/-- `toLower` of decode.go. -/
def toLower (s : GoString) : GoString :=
  if s.length = 0 then [] else s.map lower

/-- `upper` of decode.go: `if 'a' <= r && r <= 'z' { r -= 'a' - 'A' }`. -/
def upper (r : Nat) : Nat :=
  if 97 ≤ r ∧ r ≤ 122 then r - (97 - 65) else r

/-- `toUpper` of decode.go. -/
def toUpper (s : GoString) : GoString :=
  if s.length = 0 then [] else s.map upper

/-- The test `v >= '0' && v <= '9'` that decode.go writes inline. -/
def isDigit (v : Nat) : Bool := decide (48 ≤ v ∧ v ≤ 57)

/-! ## `is_int` and `iFix` -/

/-- The loop of `is_int`: `for i, v := range s`, carrying `ok`.  The source
ranges over the runes of `s`; a byte `>= 0x80` belongs to a rune `>= 0x80`,
and both fail each of the two tests, so the loop is run over the bytes. -/
def is_intLoop : GoString → Nat → Bool → Bool
  | [], _, ok => ok
  | v :: vs, i, ok =>
    if i = 0 then
      is_intLoop vs (i + 1) (ok && ((decide (v ≥ 48) && decide (v ≤ 57)) || decide (v ≤ 45)))
    else
      is_intLoop vs (i + 1) (ok && (decide (v ≥ 48) && decide (v ≤ 57)))

/-- `is_int` of decode.go. -/
def is_int (s : GoString) : Bool :=
  match s.length with
  | 0 => false
  | 1 => decide (s.getD 0 0 ≥ 48) && decide (s.getD 0 0 ≤ 57)
  | _ => is_intLoop s 0 true

/-- `iFix` of decode.go. -/
def iFix (s : GoString) : GoString :=
  let n : Int := (s.length : Int) - 1
  if n < 1 then s
  else if s.getD n.toNat 0 ≥ 48 ∧ s.getD n.toNat 0 ≤ 57 then s
  else if !is_int (s.take n.toNat) then s
  else if s.getD n.toNat 0 = 75 then s.take n.toNat ++ str "000"
  else if s.getD n.toNat 0 = 77 then s.take n.toNat ++ str "000000"
  else if s.getD n.toNat 0 = 71 then s.take n.toNat ++ str "000000000"
  else if s.getD n.toNat 0 = 84 then s.take n.toNat ++ str "000000000000"
  else if s.getD n.toNat 0 = 80 then s.take n.toNat ++ str "000000000000000"
  else if s.getD n.toNat 0 = 69 then s.take n.toNat ++ str "000000000000000000"
  else s

/-! ## Errors -/

/-- The two sentinel errors of package strconv: `ErrSyntax` ("invalid syntax")
and `ErrRange` ("value out of range"). -/
inductive NumErr
  | ErrSyntax
  | ErrRange
  deriving DecidableEq, Repr

/-- A `*strconv.NumError`: the failing function, the input and the sentinel. -/
structure NumError where
  Func : String
  Num : GoString
  Err : NumErr
  deriving DecidableEq, Repr

/-- The `error` values that the decoder returns. -/
inductive Err
  /-- The value `errors.New(msg)`. -/
  | new (msg : String)
  /-- A `*strconv.NumError`. -/
  | num (e : NumError)
  /-- A `*time.ParseError` for the given layout and value. -/
  | timeParse (layout value : GoString)
  deriving DecidableEq, Repr

/-! ## The part of package reflect that the decoder uses -/

/-- The kinds of `reflect.Kind`, in declaration order. -/
inductive Kind
  | Invalid | Bool | Int | Int8 | Int16 | Int32 | Int64
  | Uint | Uint8 | Uint16 | Uint32 | Uint64 | Uintptr
  | Float32 | Float64 | Complex64 | Complex128
  | Array | Chan | Func | Interface | Map | Ptr | Slice | String | Struct
  | UnsafePointer
  deriving DecidableEq, Repr

/-- The method `String()` of `reflect.Kind`: the name of the kind. -/
def kindName : Kind → String
  | .Invalid => "invalid" | .Bool => "bool" | .Int => "int" | .Int8 => "int8"
  | .Int16 => "int16" | .Int32 => "int32" | .Int64 => "int64" | .Uint => "uint"
  | .Uint8 => "uint8" | .Uint16 => "uint16" | .Uint32 => "uint32" | .Uint64 => "uint64"
  | .Uintptr => "uintptr" | .Float32 => "float32" | .Float64 => "float64"
  | .Complex64 => "complex64" | .Complex128 => "complex128" | .Array => "array"
  | .Chan => "chan" | .Func => "func" | .Interface => "interface" | .Map => "map"
  | .Ptr => "ptr" | .Slice => "slice" | .String => "string" | .Struct => "struct"
  | .UnsafePointer => "unsafe.Pointer"

/-- The size in bits of a value of an integer kind (`v.typ.size * 8`); `int`,
`uint` and `uintptr` are 64 bits wide.  Kinds that are not integers get 64:
the decoder never asks for their size. -/
def Kind.bitSize : Kind → Nat
  | .Int8 | .Uint8 => 8
  | .Int16 | .Uint16 => 16
  | .Int32 | .Uint32 => 32
  | _ => 64

/-- A `time.Time`, represented by the civil date and clock reading it shows in
its own location, and the offset of that location in seconds east of UTC.
`time.Date` builds a `Time` from such fields and `Time.Format` reads them back;
for fields in their calendar ranges (the only ones `time.Parse` passes on) the
normalisation of `time.Date` changes nothing. -/
structure Time where
  year : Int
  month : Int
  day : Int
  hour : Int
  min : Int
  sec : Int
  nsec : Int
  offset : Int
  deriving DecidableEq, Repr

/-- The value held by a settable `reflect.Value`.  A float is the bit pattern
of the IEEE number; `other` is a value of a kind the decoder does not write. -/
inductive Val
  | bool (b : Bool)
  | int (i : Int)
  | uint (n : Nat)
  | float (bits : Nat)
  | string (s : GoString)
  | time (t : Time)
  | other
  deriving DecidableEq, Repr

/-- A settable `reflect.Value`: its kind, whether its type is `time.Time`
(what `isTimeType(v1.Type())` tests) and the value it holds. -/
structure Target where
  kind : Kind
  isTime : Bool
  val : Val
  deriving DecidableEq, Repr

/-- Conversion of an integer to `int64` (two's complement wrap-around). -/
def toInt64 (x : Int) : Int :=
  (x + 9223372036854775808) % 18446744073709551616 - 9223372036854775808

/-- Conversion of an integer to `uint64`. -/
def toUint64 (x : Int) : Nat := (x % 18446744073709551616).toNat

/-- Conversion of an `int64` to the signed type of `bits` bits. -/
def wrapInt (bits : Nat) (x : Int) : Int :=
  (x + 2 ^ (bits - 1)) % 2 ^ bits - 2 ^ (bits - 1)

/-- `Value.OverflowInt(x)`:
`trunc := (x << (64 - bitSize)) >> (64 - bitSize); return x != trunc`. -/
def Target.OverflowInt (v : Target) (x : Int) : Bool :=
  let bitSize := v.kind.bitSize
  let trunc := toInt64 (x * 2 ^ (64 - bitSize)) / 2 ^ (64 - bitSize)
  x != trunc

/-- `Value.OverflowUint(x)`, the same computation on `uint64`. -/
def Target.OverflowUint (v : Target) (x : Nat) : Bool :=
  let bitSize := v.kind.bitSize
  let trunc := (x * 2 ^ (64 - bitSize)) % 18446744073709551616 / 2 ^ (64 - bitSize)
  x != trunc

/-- `Value.SetInt(x)`: stores `x` converted to the target's integer type. -/
def Target.SetInt (v : Target) (x : Int) : Target :=
  { v with val := .int (wrapInt v.kind.bitSize x) }

/-- `Value.SetUint(x)`: stores `x` converted to the target's unsigned type. -/
def Target.SetUint (v : Target) (x : Nat) : Target :=
  { v with val := .uint (x % 2 ^ v.kind.bitSize) }

/-- `Value.SetBool(x)`. -/
def Target.SetBool (v : Target) (x : Bool) : Target :=
  { v with val := .bool x }

/-- `Value.SetString(x)`. -/
def Target.SetString (v : Target) (x : GoString) : Target :=
  { v with val := .string x }

/-- `Value.Set(reflect.ValueOf(t))` for a `time.Time`. -/
def Target.SetTime (v : Target) (t : Time) : Target :=
  { v with val := .time t }

/-! ## The part of package strconv that the decoder uses -/

/-- The function `lower` of package strconv: `c | ('x' - 'X')`. -/
def strconvLower (c : Nat) : Nat := c ||| 32

/-- The digit loop of `strconv.ParseUint` for base 10, `n` being the `uint64`
accumulator.  The result is the pair that `ParseUint` returns from inside or
after the loop. -/
def parseUintLoop (s0 : GoString) (maxVal : Nat) : GoString → Nat → Nat × Option NumError
  | [], n => (n, none)
  | c :: cs, n =>
    let d : Option Nat :=
      if 48 ≤ c ∧ c ≤ 57 then some (c - 48)
      else if 97 ≤ strconvLower c ∧ strconvLower c ≤ 122 then some (strconvLower c - 97 + 10)
      else none
    match d with
    | none => (0, some ⟨"ParseUint", s0, .ErrSyntax⟩)
    | some d =>
      if d ≥ 10 then (0, some ⟨"ParseUint", s0, .ErrSyntax⟩)
      else if n ≥ 18446744073709551615 / 10 + 1 then
        (maxVal, some ⟨"ParseUint", s0, .ErrRange⟩)
      else
        let n10 := n * 10 % 18446744073709551616
        let n1 := (n10 + d) % 18446744073709551616
        if n1 < n10 ∨ n1 > maxVal then (maxVal, some ⟨"ParseUint", s0, .ErrRange⟩)
        else parseUintLoop s0 maxVal cs n1

/-- `strconv.ParseUint(s, 10, bitSize)`. -/
def parseUint (s : GoString) (bitSize : Nat) : Nat × Option NumError :=
  if s = [] then (0, some ⟨"ParseUint", s, .ErrSyntax⟩)
  else
    let bitSize := if bitSize = 0 then 64 else bitSize
    let maxVal := (2 ^ bitSize % 18446744073709551616 + 18446744073709551616 - 1)
      % 18446744073709551616
    parseUintLoop s maxVal s 0

/-- `strconv.ParseInt(s, 10, bitSize)`. -/
def parseInt (s0 : GoString) (bitSize : Nat) : Int × Option NumError :=
  if s0 = [] then (0, some ⟨"ParseInt", s0, .ErrSyntax⟩)
  else
    let neg := decide (s0.getD 0 0 = 45)
    let s := if s0.getD 0 0 = 43 then s0.drop 1 else if s0.getD 0 0 = 45 then s0.drop 1 else s0
    match parseUint s bitSize with
    | (_, some ⟨_, _, .ErrSyntax⟩) => (0, some ⟨"ParseInt", s0, .ErrSyntax⟩)
    | (un, _) =>
      let bitSize := if bitSize = 0 then 64 else bitSize
      let cutoff : Nat := 2 ^ (bitSize - 1) % 18446744073709551616
      if !neg ∧ un ≥ cutoff then (toInt64 ((cutoff : Int) - 1), some ⟨"ParseInt", s0, .ErrRange⟩)
      else if neg ∧ un > cutoff then (toInt64 (-toInt64 cutoff), some ⟨"ParseInt", s0, .ErrRange⟩)
      else
        let n := toInt64 un
        (if neg then toInt64 (-n) else n, none)

/-- The loop of the fast path of `strconv.Atoi`: `ch -= '0'` on a byte, then
`n = n*10 + int(ch)` on an `int`; `none` when a byte is not a digit. -/
def atoiLoop : GoString → Int → Option Int
  | [], n => some n
  | ch :: cs, n =>
    let ch1 := (ch + 256 - 48) % 256
    if ch1 > 9 then none else atoiLoop cs (toInt64 (n * 10 + ch1))

/-- `strconv.Atoi(s)` with `intSize == 64`. -/
def atoi (s0 : GoString) : Int × Option NumError :=
  let sLen := s0.length
  if 0 < sLen ∧ sLen < 19 then
    let signed := decide (s0.getD 0 0 = 45 ∨ s0.getD 0 0 = 43)
    let s := if signed then s0.drop 1 else s0
    if signed ∧ s.length < 1 then (0, some ⟨"Atoi", s0, .ErrSyntax⟩)
    else
      match atoiLoop s 0 with
      | none => (0, some ⟨"Atoi", s0, .ErrSyntax⟩)
      | some n => (if s0.getD 0 0 = 45 then toInt64 (-n) else n, none)
  else
    match parseInt s0 0 with
    | (i64, some nerr) => (i64, some { nerr with Func := "Atoi" })
    | (i64, none) => (i64, none)

/-- What the decoder needs of floating point: `strconv.ParseFloat(s, bitSize)`,
giving the bits of the `float64` result or the sentinel of its `*NumError`, and
the conversion `float32(x)` that `Value.SetFloat` applies to a `float32`
target.  Both are parameters of the embedding. -/
structure FloatLib where
  ParseFloat : GoString → Nat → Except NumErr Nat
  toFloat32 : Nat → Nat

/-- A float library whose `ParseFloat` rejects every input; it stands in where
a concrete library has to be named and no float is decoded. -/
def FloatLib.rejecting : FloatLib := ⟨fun _ _ => .error .ErrSyntax, fun x => x⟩

/-- `Value.SetFloat(x)`. -/
def Target.SetFloat (fl : FloatLib) (v : Target) (x : Nat) : Target :=
  { v with val := .float (if v.kind = .Float32 then fl.toFloat32 x else x) }

/-! ## The part of package time that the decoder uses

`time.Parse` and `Time.Format` as documented for current Go releases, for
layouts built from the reference elements `2006`, `01`, `02`, `15`, `04`, `05`
and `-0700`.  A layout is given with the chunks that `nextStdChunk` splits it
into: a literal prefix followed by a reference element, repeatedly (none of
the layouts used has text after its last element). -/

/-- The reference elements that occur in the layouts of decode.go. -/
inductive Std
  | stdLongYear | stdZeroMonth | stdZeroDay | stdHour | stdZeroMinute | stdZeroSecond
  | stdNumTZ
  deriving DecidableEq, Repr

/-- A layout string together with its chunks. -/
structure Layout where
  text : GoString
  chunks : List (GoString × Std)
  deriving DecidableEq, Repr

/-- `format_time = "15:04:05"`. -/
def format_time : Layout :=
  ⟨str "15:04:05", [([], .stdHour), (str ":", .stdZeroMinute), (str ":", .stdZeroSecond)]⟩

/-- `format_date = "2006-01-02"`. -/
def format_date : Layout :=
  ⟨str "2006-01-02", [([], .stdLongYear), (str "-", .stdZeroMonth), (str "-", .stdZeroDay)]⟩

/-- `format_datetime = "2006-01-02 15:04:05"`. -/
def format_datetime : Layout :=
  ⟨str "2006-01-02 15:04:05",
    [([], .stdLongYear), (str "-", .stdZeroMonth), (str "-", .stdZeroDay),
     (str " ", .stdHour), (str ":", .stdZeroMinute), (str ":", .stdZeroSecond)]⟩

/-- `format_offset_time = "15:04:05 -0700"`. -/
def format_offset_time : Layout :=
  ⟨str "15:04:05 -0700",
    [([], .stdHour), (str ":", .stdZeroMinute), (str ":", .stdZeroSecond),
     (str " ", .stdNumTZ)]⟩

/-- `format_offset_datetime = "2006-01-02 15:04:05 -0700"`. -/
def format_offset_datetime : Layout :=
  ⟨str "2006-01-02 15:04:05 -0700",
    [([], .stdLongYear), (str "-", .stdZeroMonth), (str "-", .stdZeroDay),
     (str " ", .stdHour), (str ":", .stdZeroMinute), (str ":", .stdZeroSecond),
     (str " ", .stdNumTZ)]⟩

/-- The empty layout, the zero value of `tformat` in `set_time`. -/
def format_empty : Layout := ⟨[], []⟩

/-- `cutspace` of package time: drops the leading spaces. -/
def cutspace : GoString → GoString
  | [] => []
  | c :: cs => if c = 32 then cutspace cs else c :: cs

/-- The loop of `skip(value, prefix)` of package time, by recursion on the
prefix.  A space of the prefix makes the source cut the leading spaces of both
the prefix and the value; `afterSpace` says that this has just happened, so
that the further spaces of the prefix are dropped. -/
def skipLoop : Bool → GoString → GoString → Option GoString
  | _, value, [] => some value
  | afterSpace, value, p :: ps =>
    if p = 32 then
      if afterSpace then skipLoop true value ps
      else if value.length > 0 ∧ value.getD 0 0 ≠ 32 then none
      else skipLoop true (cutspace value) ps
    else if value.length = 0 ∨ value.getD 0 0 ≠ p then none
    else skipLoop false (value.drop 1) ps

/-- `skip(value, prefix)` of package time: a run of spaces of the prefix
matches any run of spaces of the value (or its end), every other byte matches
itself; `none` is `errBad`. -/
def skip (value pre : GoString) : Option GoString := skipLoop false value pre

/-- `isDigit(s, i)` of package time. -/
def timeIsDigit (s : GoString) (i : Nat) : Bool :=
  if s.length ≤ i then false else decide (48 ≤ s.getD i 0 ∧ s.getD i 0 ≤ 57)

/-- `getnum(s, fixed)` of package time: one or two digits, two when `fixed`. -/
def getnum (s : GoString) (fixed : Bool) : Option (Int × GoString) :=
  if !timeIsDigit s 0 then none
  else if !timeIsDigit s 1 then
    if fixed then none else some (((s.getD 0 0 : Nat) : Int) - 48, s.drop 1)
  else some ((((s.getD 0 0 : Nat) : Int) - 48) * 10 + (((s.getD 1 0 : Nat) : Int) - 48), s.drop 2)

/-- `leadingInt(s)` of package time: the leading digits as a `uint64` and the
rest, or `none` on overflow. -/
def leadingInt : GoString → Nat → Option (Nat × GoString)
  | [], x => some (x, [])
  | c :: cs, x =>
    if c < 48 ∨ c > 57 then some (x, c :: cs)
    else if x > 9223372036854775808 / 10 then none
    else if x * 10 + c - 48 > 9223372036854775808 then none
    else leadingInt cs (x * 10 + c - 48)

/-- `atoi(s)` of package time. -/
def timeAtoi (s : GoString) : Option Int :=
  let neg := decide (s.length > 0 ∧ s.getD 0 0 = 45)
  let s1 := if s.length > 0 ∧ (s.getD 0 0 = 45 ∨ s.getD 0 0 = 43) then s.drop 1 else s
  match leadingInt s1 0 with
  | some (q, []) => some (if neg then toInt64 (-toInt64 q) else toInt64 q)
  | _ => none

/-- The number of leading digits of `value` from index `n` on, added to `n`:
the loop `for ; n < len(value) && isDigit(value, n); n++` of `Parse`. -/
def digitRun (value : GoString) (n : Nat) : Nat :=
  n + ((value.drop n).takeWhile fun c => decide (48 ≤ c ∧ c ≤ 57)).length

/-- `parseNanoseconds(value, nbytes)` of package time. -/
def parseNanoseconds (value : GoString) (nbytes : Nat) : Option Int :=
  if ¬ (value.getD 0 0 = 46 ∨ value.getD 0 0 = 44) then none
  else
    let nb := if nbytes > 10 then 10 else nbytes
    match timeAtoi ((value.take nb).drop 1) with
    | none => none
    | some ns => if ns < 0 then none else some (ns * 10 ^ (10 - nb))

/-- The fields that `Parse` collects, with the initial values it gives them. -/
structure ParseState where
  year : Int := 0
  month : Int := -1
  day : Int := -1
  hour : Int := 0
  min : Int := 0
  sec : Int := 0
  nsec : Int := 0
  zoneOffset : Int := -1
  deriving DecidableEq, Repr

/-- `isLeap(year)` of package time. -/
def isLeap (year : Int) : Bool :=
  year % 4 = 0 ∧ (year % 100 ≠ 0 ∨ year % 400 = 0)

/-- `daysIn(m, year)` of package time. -/
def daysIn (m : Int) (year : Int) : Int :=
  if m = 2 then (if isLeap year then 29 else 28)
  else if m = 4 ∨ m = 6 ∨ m = 9 ∨ m = 11 then 30
  else 31

/-- One reference element of `Parse`: the case of the `switch std & stdMask`
for `std`, followed by the test of `rangeErrString` and `err`.  The result is
the updated fields and the rest of the value, `none` when the source returns a
`*ParseError`. -/
def parseStd (std : Std) (st : ParseState) (value : GoString) :
    Option (ParseState × GoString) :=
  match std with
  | .stdLongYear =>
    if value.length < 4 ∨ !timeIsDigit value 0 then none
    else
      match timeAtoi (value.take 4) with
      | none => none
      | some y => some ({ st with year := y }, value.drop 4)
  | .stdZeroMonth =>
    match getnum value true with
    | none => none
    | some (m, rest) => if m ≤ 0 ∨ 12 < m then none else some ({ st with month := m }, rest)
  | .stdZeroDay =>
    match getnum value true with
    | none => none
    | some (d, rest) => some ({ st with day := d }, rest)
  | .stdHour =>
    match getnum value false with
    | none => none
    | some (h, rest) => if h < 0 ∨ 24 ≤ h then none else some ({ st with hour := h }, rest)
  | .stdZeroMinute =>
    match getnum value true with
    | none => none
    | some (m, rest) => if m < 0 ∨ 60 ≤ m then none else some ({ st with min := m }, rest)
  | .stdZeroSecond =>
    match getnum value true with
    | none => none
    | some (sec, rest) =>
      if sec < 0 ∨ 60 ≤ sec then none
      else if rest.length ≥ 2 ∧ (rest.getD 0 0 = 46 ∨ rest.getD 0 0 = 44) ∧ timeIsDigit rest 1 then
        -- a fractional second in the value, none in the layout
        let n := digitRun rest 2
        match parseNanoseconds rest n with
        | none => none
        | some ns => some ({ st with sec := sec, nsec := ns }, rest.drop n)
      else some ({ st with sec := sec }, rest)
  | .stdNumTZ =>
    if value.length < 5 then none
    else
      match getnum ((value.take 3).drop 1) true, getnum ((value.take 5).drop 3) true with
      | some (hr, _), some (mm, _) =>
        if hr > 24 ∨ mm > 60 then none
        else if value.getD 0 0 = 43 then
          some ({ st with zoneOffset := (hr * 60 + mm) * 60 }, value.drop 5)
        else if value.getD 0 0 = 45 then
          some ({ st with zoneOffset := -((hr * 60 + mm) * 60) }, value.drop 5)
        else none
      | _, _ => none

/-- The loop of `Parse` over the chunks of the layout: skip the prefix, read
the element; after the last chunk the value must be used up ("extra text"). -/
def parseChunks : List (GoString × Std) → ParseState → GoString → Option ParseState
  | [], st, value => if value.length ≠ 0 then none else some st
  | (pre, std) :: rest, st, value =>
    match skip value pre with
    | none => none
    | some v =>
      match parseStd std st v with
      | none => none
      | some (st1, v1) => parseChunks rest st1 v1

/-- `time.Parse(layout, value)`: after the loop, month and day default to 1,
the day of the month is validated, and the time is built in the zone of the
parsed offset, or in UTC when there is none. -/
def timeParse (layout : Layout) (value : GoString) : Except Err Time :=
  match parseChunks layout.chunks {} value with
  | none => .error (.timeParse layout.text value)
  | some st =>
    let month := if st.month < 0 then 1 else st.month
    let day := if st.day < 0 then 1 else st.day
    if day < 1 ∨ day > daysIn month st.year then .error (.timeParse layout.text value)
    else
      .ok ⟨st.year, month, day, st.hour, st.min, st.sec, st.nsec,
        if st.zoneOffset ≠ -1 then st.zoneOffset else 0⟩

/-- The digit loop of `appendInt` of package time: the decimal digits of `u`
in front of `acc`; the fuel is the size of the source's buffer, `[20]byte`. -/
def appendIntLoop : Nat → Nat → GoString → GoString
  | 0, u, acc => (48 + u) :: acc
  | fuel + 1, u, acc =>
    if u ≥ 10 then appendIntLoop fuel (u / 10) ((48 + (u - u / 10 * 10)) :: acc)
    else (48 + u) :: acc

/-- `appendInt(b, x, width)` of package time, as the bytes it appends: a sign
for a negative `x`, zero padding up to `width`, the decimal digits. -/
def appendInt (x : Int) (width : Nat) : GoString :=
  let digits := appendIntLoop 20 x.natAbs []
  (if x < 0 then [45] else []) ++ List.replicate (width - digits.length) 48 ++ digits

/-- One reference element of `Time.Format`. -/
def formatStd (t : Time) : Std → GoString
  | .stdLongYear => appendInt t.year 4
  | .stdZeroMonth => appendInt t.month 2
  | .stdZeroDay => appendInt t.day 2
  | .stdHour => appendInt t.hour 2
  | .stdZeroMinute => appendInt t.min 2
  | .stdZeroSecond => appendInt t.sec 2
  | .stdNumTZ =>
    let zone := Int.tdiv t.offset 60
    let azone := if zone < 0 then -zone else zone
    (if zone < 0 then [45] else [43]) ++ appendInt (Int.tdiv azone 60) 2
      ++ appendInt (Int.tmod azone 60) 2

/-- `t.Format(layout)`. -/
def Time.Format (t : Time) (layout : Layout) : GoString :=
  (layout.chunks.map fun c => c.1 ++ formatStd t c.2).flatten

/-! ## The decoder: `setScalar` and its helpers -/

/-- `set_bool` of decode.go. -/
def set_bool (v1 : Target) (val : GoString) : Target × Option Err :=
  let val := toLower val
  if val = str "true" ∨ val = str "yes" ∨ val = str "on" ∨ val = str "1" then
    (v1.SetBool true, none)
  else if val = str "false" ∨ val = str "no" ∨ val = str "off" ∨ val = str "0" then
    (v1.SetBool false, none)
  else (v1, some (.new "invalid value for bool"))

/-- `set_int` of decode.go. -/
def set_int (v1 : Target) (val : GoString) : Target × Option Err :=
  let val := iFix val
  match atoi val with
  | (v, none) =>
    if v1.OverflowInt (toInt64 v) then (v1, some (.new "Overflow"))
    else (v1.SetInt (toInt64 v), none)
  | (_, some err) => (v1, some (.num err))

/-- `set_int64` of decode.go. -/
def set_int64 (v1 : Target) (val : GoString) : Target × Option Err :=
  let val := iFix val
  match parseInt val 64 with
  | (v, none) => (v1.SetInt (toInt64 v), none)
  | (_, some err) => (v1, some (.num err))

/-- `set_uint` of decode.go. -/
def set_uint (v1 : Target) (val : GoString) : Target × Option Err :=
  let val := iFix val
  match atoi val with
  | (v, none) =>
    if v1.OverflowUint (toUint64 v) then (v1, some (.new "Overflow"))
    else (v1.SetUint (toUint64 v), none)
  | (_, some err) => (v1, some (.num err))

/-- `set_uint64` of decode.go. -/
def set_uint64 (v1 : Target) (val : GoString) : Target × Option Err :=
  let val := iFix val
  match parseUint val 64 with
  | (v, none) => (v1.SetUint (toUint64 v), none)
  | (_, some err) => (v1, some (.num err))

/-- `set_float` of decode.go. -/
def set_float (fl : FloatLib) (v1 : Target) (val : GoString) : Target × Option Err :=
  match (if v1.kind = .Float32 then fl.ParseFloat val 32 else fl.ParseFloat val 64) with
  | .ok v => (v1.SetFloat fl v, none)
  | .error e => (v1, some (.num ⟨"ParseFloat", val, e⟩))

/-- `set_time` of decode.go. -/
def set_time (v1 : Target) (val : GoString) : Target × Option Err :=
  let tformat : Layout :=
    match val.length with
    | 25 => format_offset_datetime
    | 19 => format_datetime
    | 14 => format_offset_time
    | 10 => format_date
    | 8 => format_time
    | _ => format_empty
  match timeParse tformat val with
  | .ok t => (v1.SetTime t, none)
  | .error err => (v1, some err)

/-- `setScalar` of decode.go: the new state of the target and the error. -/
def setScalar (fl : FloatLib) (v1 : Target) (val : GoString) : Target × Option Err :=
  match v1.kind with
  | .Struct =>
    if v1.isTime then set_time v1 val
    else (v1, some (.new "type not allowed: struct"))
  | .String => (v1.SetString val, none)
  | .Bool => set_bool v1 val
  | .Int8 | .Int16 | .Int32 => set_int v1 val
  | .Int64 | .Int => set_int64 v1 val
  | .Uint8 | .Uint16 | .Uint32 => set_uint v1 val
  | .Uint64 | .Uint => set_uint64 v1 val
  | .Float32 | .Float64 => set_float fl v1 val
  | k => (v1, some (.new ("type not allowed: " ++ kindName k)))

/-- `isScalar` of decode.go. -/
def isScalar (v1 : Target) : Bool :=
  match v1.kind with
  | .Bool | .Int | .String
  | .Int8 | .Int16 | .Int32 | .Int64
  | .Uint | .Uint8 | .Uint16 | .Uint32 | .Uint64
  | .Float32 | .Float64 => true
  | .Struct => v1.isTime
  | _ => false

/-! ## The option parser (`option.go`): types and library models -/

/-- A panic: the string given to `panic` (by option.go, or by package reflect),
or a run-time error of the Go runtime (an index or a slice bound out of
range). -/
inductive Panic
  | msg (m : GoString)
  | runtime
  deriving DecidableEq, Repr

/-- The constant `typ_arg` of option.go. -/
def typ_arg : Int := 0

/-- The constant `typ_sect` of option.go. -/
def typ_sect : Int := 1

/-- The constant `typ_flag` of option.go. -/
def typ_flag : Int := 2

/-- The constant `typ_option` of option.go. -/
def typ_option : Int := 3

/-- The constant `typ_uoption` of option.go. -/
def typ_uoption : Int := -3

/-- The constant `slice_limit` of option.go. -/
def slice_limit : Int := 32767

/-- The byte of the constant `qt = "\""`. -/
def qt : Nat := 34

/-- The byte of the constant `delimiter = ":"`. -/
def delimiter : Nat := 58

/-- The struct `vst` of option.go: one item of `o.vdata`. -/
structure vst where
  key : GoString
  val : GoString
  typ : Int
  deriving DecidableEq, Repr

/-- The struct `opt` of option.go: the descriptor of one field. -/
structure opt where
  fld : Target
  name : GoString
  typ : GoString
  u_key : GoString
  gnu_key : GoString
  text : GoString
  placeholder : GoString
  deriving DecidableEq, Repr

/-- A Go map with string keys, as the list of its entries in the order in
which the keys were first stored.  The source only stores and looks up. -/
abbrev GoMap (α : Type) := List (GoString × α)

/-- The lookup `v, ok := m[k]`: `none` when `ok` is false. -/
def GoMap.get {α : Type} : GoMap α → GoString → Option α
  | [], _ => none
  | (k1, v) :: rest, k => if k1 = k then some v else GoMap.get rest k

/-- The store `m[k] = v`. -/
def GoMap.set {α : Type} : GoMap α → GoString → α → GoMap α
  | [], k, v => [(k, v)]
  | (k1, v1) :: rest, k, v =>
    if k1 = k then (k, v) :: rest else (k1, v1) :: GoMap.set rest k v

/-- A `reflect.Value` of a slice or of an array, as `o.argSliceRef` holds it:
the capacity of a slice, the elements `v.Index(i)` for `i < v.Len()`, and for a
slice the zero value of its element type, with which `reflect.MakeSlice` fills
a new slice.  `invalid` is the zero `reflect.Value`. -/
inductive SliceRef
  | invalid
  | slice (cap : Nat) (elems : List Target) (zero : Target)
  | array (elems : List Target)
  deriving DecidableEq, Repr

/-- The struct `option` of option.go without the fields of help.go (`help`,
`dochead`, `args`, `arg_called` and `cmd`).  The `reflect.Value` `fld` of a
descriptor refers to a field of the record given to `New`: the model keeps the
value of the field in the descriptor, so that the record after `New` is read
off `optionList`; likewise the slice or array given to `New` is read off
`argSliceRef`. -/
structure option where
  vmap : GoMap Nat
  vdata : List vst
  optionList : List opt
  keys : GoMap Bool
  hasArgSlice : Bool
  argSliceRef : SliceRef
  argSliceCap : Int
  opt_count : Int
  argLimit : Int
  deriving DecidableEq, Repr

/-- The object that `New` starts from: `&option{}` with its maps made. -/
def option.init : option :=
  { vmap := [], vdata := [], optionList := [], keys := [], hasArgSlice := false,
    argSliceRef := .invalid, argSliceCap := 0, opt_count := 0, argLimit := 0 }

/-- One field of the record given to `New`: `v.Type().Field(n).Name`,
`v.Type().Field(n).Tag`, `v.Field(n).Type().String()` and `v.Field(n)`. -/
structure StructField where
  Name : GoString
  Tag : GoString
  typ : GoString
  fld : Target
  deriving DecidableEq, Repr

/-- The conversion `string(b)` of a byte: the UTF-8 encoding of the code point
`b`, one byte below 0x80 and two bytes from there on. -/
def byteToString (b : Nat) : GoString :=
  if b < 128 then [b] else [192 + b / 64, 128 + b % 64]

/-- `strings.Replace(s, old, new, -1)` for one-byte `old` and `new`. -/
def stringsReplace (s : GoString) (old new : Nat) : GoString :=
  s.map (fun c => if c = old then new else c)

/-- `strings.Trim(s, cutset)` for a cutset of one ASCII byte: all leading and
all trailing bytes equal to it are removed. -/
def stringsTrim (s : GoString) (c : Nat) : GoString :=
  ((s.reverse.dropWhile (fun b => b == c)).reverse).dropWhile (fun b => b == c)

/-- `strings.SplitN(s, sep, n)` for a one-byte separator: `nil` for `n = 0`,
otherwise at most `n` pieces, the last one the rest of `s` unsplit. -/
def stringsSplitN (sep : Nat) : Nat → GoString → List GoString
  | 0, _ => []
  | n + 1, s =>
    if n = 0 then [s]
    else if s.contains sep then
      s.takeWhile (fun b => b != sep) ::
        stringsSplitN sep n ((s.dropWhile (fun b => b != sep)).drop 1)
    else [s]

/-- The class `\w` of package regexp: `[0-9A-Za-z_]`. -/
def isWordByte (c : Nat) : Bool :=
  (decide (48 ≤ c) && decide (c ≤ 57)) || (decide (65 ≤ c) && decide (c ≤ 90)) ||
    c == 95 || (decide (97 ≤ c) && decide (c ≤ 122))

/-- The class `[\w-]`. -/
def isKeyByte (c : Nat) : Bool := isWordByte c || c == 45

/-- The class `[a-zA-Z]`. -/
def isLetterByte (c : Nat) : Bool :=
  (decide (97 ≤ c) && decide (c ≤ 122)) || (decide (65 ≤ c) && decide (c ≤ 90))

/-- The submatches `m[1]`, `m[2]` of
`rx.gnuKeywordAssign.FindStringSubmatch(arg)` for the pattern
`^--(\w[\w-]*)=(.*)$`, `none` when there is no match.  The key is the longest
run of `[\w-]` after the dashes and must be followed by `=`; `.` matches
every byte but the newline and `$` only the end of the text. -/
def rx_gnuKeywordAssign (arg : GoString) : Option (GoString × GoString) :=
  match arg with
  | 45 :: 45 :: c :: rest =>
    if isWordByte c then
      match rest.dropWhile isKeyByte with
      | 61 :: val =>
        if val.all (fun b => b != 10) then some (c :: rest.takeWhile isKeyByte, val)
        else none
      | _ => none
    else none
  | _ => none

/-- The submatch `m[1]` of `rx.gnuKeyword.FindStringSubmatch(arg)` for the
pattern `^--(\w[\w-]*)$`. -/
def rx_gnuKeyword (arg : GoString) : Option GoString :=
  match arg with
  | 45 :: 45 :: c :: rest =>
    if isWordByte c && rest.all isKeyByte then some (c :: rest) else none
  | _ => none

/-- The submatch `m[1]` of `rx.flag.FindStringSubmatch(arg)` for the pattern
`^-([a-zA-Z]+)$`. -/
def rx_flag (arg : GoString) : Option GoString :=
  match arg with
  | 45 :: c :: rest =>
    if isLetterByte c && rest.all isLetterByte then some (c :: rest) else none
  | _ => none

/-! ## The option parser (`option.go`): the tokenizer `parse` -/

/-- The loop `for _,c := range m[1]` of `parse` over the letters of a flag
argument; every letter is one ASCII byte, so `string(c)` is that byte. -/
def parseFlags : GoString → option → GoString → option × GoString
  | [], o, lastkey => (o, lastkey)
  | c :: cs, o, _ =>
    let key := [c]
    let o1 := { o with vdata := o.vdata ++ [vst.mk key [] 0] }
    let o2 := { o1 with vmap := o1.vmap.set key (o1.vdata.length - 1) }
    parseFlags cs o2 key

/-- The end of the loop body of `parse` (the `if _lastkey != ""` statement):
the argument is the value of the pending key, or an argument by itself.
`o.vdata[ndx]` with `ndx = len(o.vdata) - 1` panics when `o.vdata` is empty. -/
def parseValue (o : option) (lastkey : GoString) (arg : GoString) :
    Except Panic (option × GoString) :=
  if lastkey ≠ [] then
    match o.vdata.length with
    | 0 => .error .runtime
    | ndx + 1 =>
      .ok ({ o with vdata := o.vdata.modify (fun x => { x with val := stringsTrim arg qt }) ndx },
        [])
  else
    .ok ({ o with vdata := o.vdata ++ [vst.mk [] (stringsTrim arg qt) typ_arg] }, lastkey)

/-- The body of the loop of `parse` for one argument `arg` (`i > 0`): the new
object and the new `_lastkey`. -/
def parseArg (o : option) (lastkey : GoString) (arg : GoString) :
    Except Panic (option × GoString) :=
  if arg.length > 0 ∧ arg.head? = some 45 then
    match rx_gnuKeywordAssign arg with
    | some (key, val) =>
      let o1 := { o with vdata := o.vdata ++ [vst.mk key (stringsTrim val qt) typ_uoption] }
      .ok ({ o1 with vmap := o1.vmap.set key (o1.vdata.length - 1) }, key)
    | none =>
      match rx_gnuKeyword arg with
      | some key =>
        let o1 := { o with vdata := o.vdata ++ [vst.mk key [] 0] }
        .ok ({ o1 with vmap := o1.vmap.set key (o1.vdata.length - 1) }, key)
      | none =>
        match rx_flag arg with
        | some letters => .ok (parseFlags letters o lastkey)
        | none => parseValue o lastkey arg
  else parseValue o lastkey arg

/-- The loop `for i,arg := range os.Args` of `parse`, from index `i` on. -/
def parseLoop : List GoString → Nat → option → GoString → Except Panic option
  | [], _, o, _ => .ok o
  | arg :: rest, i, o, lastkey =>
    if i = 0 then parseLoop rest (i + 1) o lastkey
    else
      match parseArg o lastkey arg with
      | .error p => .error p
      | .ok (o1, lastkey1) => parseLoop rest (i + 1) o1 lastkey1

/-- `parse` of option.go, `os.Args` being given as `osArgs`. -/
def option.parse (o : option) (osArgs : List GoString) : Except Panic option :=
  parseLoop osArgs 0 o []

/-! ## The option parser (`option.go`): field names and keys -/

/-- `isUpper` of option.go. -/
def isUpper (c : Nat) : Bool := decide (c ≥ 65) && decide (c ≤ 90)

/-- `isLower` of option.go. -/
def isLower (c : Nat) : Bool := decide (c ≥ 97) && decide (c ≤ 122)

/-- `isPublic` of option.go: `isUpper(s[0])`; `s[0]` panics on the empty
string. -/
def isPublic (s : GoString) : Except Panic Bool :=
  match s with
  | [] => .error .runtime
  | c :: _ => .ok (isUpper c)

/-- The variables of the loop of `camelToSnake`. -/
structure SnakeVars where
  lastu : Bool
  lastw : Bool
  i : Int
  bs : GoString
  deriving DecidableEq, Repr

/-- The body of the loop of `camelToSnake` for the byte `c`. -/
def camelToSnakeStep (st : SnakeVars) (c : Nat) : SnakeVars :=
  let i := st.i + 1
  let w := isLower c
  let u := isUpper c
  let i := if c = 95 then 0 else i
  if i > 1 ∧ u ≠ st.lastu ∧ st.lastw = true then
    { lastu := u, lastw := w, i := 0, bs := st.bs ++ [95] ++ byteToString (lower c) }
  else
    { lastu := u, lastw := w, i := i, bs := st.bs ++ byteToString (lower c) }

/-- `camelToSnake` of option.go. -/
def camelToSnake (s : GoString) : GoString :=
  (s.foldl camelToSnakeStep { lastu := false, lastw := false, i := 0, bs := [] }).bs

/-- The end of `autoKeys` (the statement on `gnu_key` and the return). -/
def option.autoKeysGnu (o : option) (u_key gnu_key : GoString) :
    option × GoString × GoString :=
  if (o.keys.get gnu_key).isNone then
    ({ o with keys := o.keys.set gnu_key true }, u_key, gnu_key)
  else (o, u_key, [])

/-- `autoKeys` of option.go: the object with its new key registry, `u_key`
and `gnu_key`.  `name[0:1]` panics on the empty string. -/
def option.autoKeys (o : option) (name : GoString) :
    Except Panic (option × GoString × GoString) :=
  if name.length < 1 then .error .runtime
  else
    let u_key := toLower (name.take 1)
    let gnu_key := stringsReplace (toLower (camelToSnake name)) 95 45
    if (o.keys.get u_key).isNone then
      .ok (option.autoKeysGnu { o with keys := o.keys.set u_key true } u_key gnu_key)
    else
      let u_key := toUpper u_key
      if (o.keys.get u_key).isNone then
        .ok (option.autoKeysGnu { o with keys := o.keys.set u_key true } u_key gnu_key)
      else .ok (option.autoKeysGnu o [] gnu_key)

/-- The end of `keyCheck` (the statement on `gnu_key` and `return nil`). -/
def option.keyCheckGnu (o : option) (gnu_key : GoString) : option × Option GoString :=
  if gnu_key ≠ [] then
    if (o.keys.get gnu_key).isNone then ({ o with keys := o.keys.set gnu_key true }, none)
    else (o, some (str "key already used (" ++ gnu_key ++ str ")"))
  else (o, none)

/-- `keyCheck` of option.go: the object with its new key registry and the
message of the error returned (`none` is `nil`; the error is `errors.New` of
the message). -/
def option.keyCheck (o : option) (u_key gnu_key : GoString) : option × Option GoString :=
  if u_key ≠ [] then
    if (o.keys.get u_key).isNone then
      option.keyCheckGnu { o with keys := o.keys.set u_key true } gnu_key
    else (o, some (str "key already used (" ++ u_key ++ str ")"))
  else option.keyCheckGnu o gnu_key

/-- The values that `createKeyNames` returns. -/
structure KeyNames where
  u_key : GoString
  gnu_key : GoString
  placeholder : GoString
  help : GoString
  deriving DecidableEq, Repr

/-- The end of `createKeyNames`: the call of `keyCheck`, the panic with the
message of its error, and the return. -/
def option.createKeyNamesCheck (o : option) (k : KeyNames) : Except Panic (option × KeyNames) :=
  match o.keyCheck k.u_key k.gnu_key with
  | (_, some e) => .error (.msg e)
  | (o1, none) => .ok (o1, k)

/-- The two places of `createKeyNames` that return the keys of `autoKeys`. -/
def option.createKeyNamesAuto (o : option) (name placeholder help : GoString) :
    Except Panic (option × KeyNames) :=
  match o.autoKeys name with
  | .error p => .error p
  | .ok (o1, u_key, gnu_key) => .ok (o1, ⟨u_key, gnu_key, placeholder, help⟩)

/-- `createKeyNames` of option.go: the object with its new key registry and
the four strings returned.  A `switch` without a matching case does nothing. -/
def option.createKeyNames (o : option) (name typ tag : GoString) :
    Except Panic (option × KeyNames) :=
  let placeholder := typ
  if tag = [] then o.createKeyNamesAuto name placeholder []
  else
    match stringsSplitN delimiter 4 tag with
    | [] | [_] => o.createKeyNamesAuto name placeholder tag
    | [a0, a1] =>
      if a0.length = 1 then o.createKeyNamesCheck ⟨a0, [], placeholder, a1⟩
      else o.createKeyNamesCheck ⟨[], a0, placeholder, a1⟩
    | [a0, a1, a2] =>
      if a0.length > 1 then
        .error (.msg (str "unix tyle flag should be a single character"))
      else o.createKeyNamesCheck ⟨a0, a1, placeholder, a2⟩
    | [a0, a1, a2, a3] =>
      if a0.length > 1 then
        .error (.msg (str "unix tyle flag should be a single character"))
      else o.createKeyNamesCheck ⟨a0, a1, a2, a3⟩
    | _ => o.createKeyNamesCheck ⟨[], [], placeholder, []⟩

/-- The loop of `genoptionList` over the fields of the record. -/
def genoptionListLoop : List StructField → option → Except Panic option
  | [], o => .ok o
  | f :: rest, o =>
    match isPublic f.Name with
    | .error p => .error p
    | .ok false => .error (.msg (str "private field not allowed (" ++ f.Name ++ str ")"))
    | .ok true =>
      if isScalar f.fld = false then
        .error (.msg (str "type " ++ str (kindName f.fld.kind) ++ str " not allowed (" ++
          f.Name ++ str ")"))
      else
        match o.createKeyNames f.Name f.typ f.Tag with
        | .error p => .error p
        | .ok (o1, k) =>
          genoptionListLoop rest
            { o1 with
              opt_count := o1.opt_count + 1
              optionList := o1.optionList ++
                [opt.mk f.fld f.Name f.typ k.u_key k.gnu_key k.help k.placeholder] }

/-- `genoptionList` of option.go; the record `v` is the list of its fields. -/
def option.genoptionList (o : option) (v : List StructField) : Except Panic option :=
  genoptionListLoop v o

/-! ## The option parser (`option.go`): binding, `New` -/

/-- The `error` values that `New` returns: the error of the decoder unchanged,
the error `errors.New(err.Error() + " \"" + key + "\"")` made from an error
`err` of the decoder and a key, or an error made from a message. -/
inductive OptError
  | decode (err : Err)
  | keyed (err : Err) (key : GoString)
  | text (msg : GoString)
  deriving DecidableEq, Repr

/-- The method `Error` of the errors that `New` returns; `errorText` is the
method `Error` of the errors of the decoder, which the packages errors, strconv
and time define. -/
def OptError.Error (errorText : Err → GoString) : OptError → GoString
  | .decode err => errorText err
  | .keyed err key => errorText err ++ str " \"" ++ key ++ str "\""
  | .text msg => msg

/-- What a pointer given to `New` points to (`reflect.ValueOf(vi).Elem()`): a
struct with its fields, a slice, an array, or a value of another kind. -/
inductive Elem
  | record (fields : List StructField)
  | slice (cap : Nat) (elems : List Target) (zero : Target)
  | array (elems : List Target)
  | other (k : Kind)
  deriving DecidableEq, Repr

/-- One argument of `New`: a value that is not a pointer, or a pointer. -/
inductive NewArg
  | nonPointer
  | pointer (e : Elem)
  deriving DecidableEq, Repr

/-- The verb `%v` of package fmt for an `int`: its base-10 string. -/
def fmtInt (n : Int) : GoString := appendInt n 0

/-- `strings.Join(a, sep)`. -/
def stringsJoin : List GoString → GoString → GoString
  | [], _ => []
  | [s], _ => s
  | s :: t :: rest, sep => s ++ sep ++ stringsJoin (t :: rest) sep

/-- `v.Len()` of a slice or an array. -/
def SliceRef.Len : SliceRef → Nat
  | .invalid => 0
  | .slice _ elems _ => elems.length
  | .array elems => elems.length

/-- `v.Index(i)`: the element, `none` for the panic on an index out of range. -/
def SliceRef.Index : SliceRef → Nat → Option Target
  | .invalid, _ => none
  | .slice _ elems _, i => elems.get? i
  | .array elems, i => elems.get? i

/-- The panic of `v.Index(i)` on an index out of range: package reflect panics
with a string that names the kind of the value.  On a value that is neither a
slice nor an array `Index` panics with a `*ValueError`, for which the run-time
panic stands. -/
def SliceRef.indexPanic : SliceRef → Panic
  | .invalid => .runtime
  | .slice _ _ _ => .msg (str "reflect: slice index out of range")
  | .array _ => .msg (str "reflect: array index out of range")

/-- The slice or array after a write through `v.Index(i)`. -/
def SliceRef.setIndex : SliceRef → Nat → Target → SliceRef
  | .invalid, _, _ => .invalid
  | .slice cap elems zero, i, t => .slice cap (elems.set i t) zero
  | .array elems, i, t => .array (elems.set i t)

/-- The body of the loop of `calcArgLimit` for one argument of `New`. -/
def calcArgLimitStep (o : option) : NewArg → Except Panic option
  | .nonPointer => .error (.msg (str "expected struct or slice pointer"))
  | .pointer (.record fields) => .ok { o with argLimit := o.argLimit + fields.length }
  | .pointer (.slice cap _ _) =>
    if cap = 0 then .ok { o with argLimit := slice_limit, argSliceCap := slice_limit }
    else .ok { o with argSliceCap := cap, argLimit := o.argLimit + cap }
  | .pointer (.array elems) =>
    .ok { o with argSliceCap := elems.length, argLimit := o.argLimit + elems.length }
  | .pointer (.other _) => .ok o

/-- `calcArgLimit` of option.go. -/
def option.calcArgLimit (o : option) : List NewArg → Except Panic option
  | [] => .ok o
  | vi :: rest =>
    match calcArgLimitStep o vi with
    | .error p => .error p
    | .ok o1 => option.calcArgLimit o1 rest

/-- The loop of `getArgs` over `o.vdata`, with the variables `args` and
`count`. -/
def getArgsLoop (o : option) : List vst → List GoString → Int → List GoString × Option OptError
  | [], args, _ => (args, none)
  | v :: rest, args, count =>
    if v.typ = typ_arg ∨ v.typ = typ_flag then
      if count + 1 > o.argLimit then
        (args, some (.text (str "number of arguments supplied exceeds limit (" ++
          fmtInt o.argSliceCap ++ str ")")))
      else if v.val ≠ [] then getArgsLoop o rest (args ++ [v.val]) (count + 1)
      else getArgsLoop o rest args (count + 1)
    else getArgsLoop o rest args count

/-- `getArgs` of option.go. -/
def option.getArgs (o : option) : List GoString × Option OptError :=
  getArgsLoop o o.vdata [] 0

/-- The loop of `setArray` from index `i` on, on the slice or array `v`. -/
def setArrayLoop (fl : FloatLib) : List GoString → Nat → SliceRef →
    Except Panic (SliceRef × Option OptError)
  | [], _, v => .ok (v, none)
  | a :: rest, i, v =>
    match v.Index i with
    | none => .error v.indexPanic
    | some t =>
      match setScalar fl t a with
      | (t1, some err) => .ok (v.setIndex i t1, some (.decode err))
      | (t1, none) => setArrayLoop fl rest (i + 1) (v.setIndex i t1)

/-- `setArray` of option.go. -/
def option.setArray (fl : FloatLib) (o : option) (args : List GoString) :
    Except Panic (option × Option OptError) :=
  match setArrayLoop fl args 0 o.argSliceRef with
  | .error p => .error p
  | .ok (v, err) => .ok ({ o with argSliceRef := v }, err)

/-- `setSlice` of option.go: the slice is replaced by a new one of
`len(args)` zero elements, then filled by `setArray`. -/
def option.setSlice (fl : FloatLib) (o : option) (args : List GoString) :
    Except Panic (option × Option OptError) :=
  match o.argSliceRef with
  | .slice _ _ zero =>
    option.setArray fl
      { o with argSliceRef := .slice args.length (List.replicate args.length zero) zero } args
  | _ => .error .runtime

/-- `checkUndefinedOptions` of option.go. -/
def option.checkUndefinedOptions (o : option) : Option OptError :=
  let xtra := (o.vdata.filter fun v =>
    decide (v.key ≠ [] ∧ (v.typ ≠ typ_flag ∧ v.typ ≠ typ_option))).map fun v => v.key
  if xtra.length = 0 then none
  else
    some (.text (str "Invalid command line option" ++ (if xtra.length > 1 then str "s" else []) ++
      str ": (" ++ stringsJoin xtra (str ", ") ++ str ")"))

/-- The lookup at the head of the loop body of `getOptions`: the index `ndx`
and the key `key` for the descriptor `x`, `none` when neither of its keys is in
`o.vmap` (the `continue`). -/
def option.hit (o : option) (x : opt) : Option (Nat × GoString) :=
  match o.vmap.get x.u_key with
  | some ndx => some (ndx, x.u_key)
  | none =>
    match o.vmap.get x.gnu_key with
    | some ndx => some (ndx, x.gnu_key)
    | none => none

/-- The value that `getOptions` decodes for a field of kind `k` from the event
`ev` (the variable `val` of the loop body). -/
def optionValue (k : Kind) (ev : vst) : GoString :=
  if k = .Bool then
    if ev.typ = typ_uoption then (if ev.val = [] then str "0" else ev.val) else str "1"
  else ev.val

/-- The type that `getOptions` gives to the event of a field of kind `k`. -/
def optionTyp (k : Kind) : Int := if k = .Bool then typ_flag else typ_option

/-- The body of the loop of `getOptions` for the descriptor `x`: the object,
the field that `x.fld` refers to, and the error returned (`none` when the loop
goes on).  `o.vdata[ndx]` panics on an index out of range. -/
def getOption (fl : FloatLib) (o : option) (x : opt) :
    Except Panic (option × Target × Option OptError) :=
  match o.hit x with
  | none => .ok (o, x.fld, none)
  | some (ndx, key) =>
    match o.vdata.get? ndx with
    | none => .error .runtime
    | some ev =>
      let o1 :=
        { o with vdata := o.vdata.modify (fun e => { e with typ := optionTyp x.fld.kind }) ndx }
      match setScalar fl x.fld (optionValue x.fld.kind ev) with
      | (fld1, some err) => .ok (o1, fld1, some (.keyed err key))
      | (fld1, none) => .ok (o1, fld1, none)

/-- The loop of `getOptions` over the descriptors; `done` holds those already
visited, with the fields as they are now. -/
def getOptionsLoop (fl : FloatLib) : List opt → List opt → option →
    Except Panic (option × Option OptError)
  | [], done, o => .ok ({ o with optionList := done }, none)
  | x :: rest, done, o =>
    match getOption fl o x with
    | .error p => .error p
    | .ok (o1, fld1, some err) =>
      .ok ({ o1 with optionList := done ++ { x with fld := fld1 } :: rest }, some err)
    | .ok (o1, fld1, none) => getOptionsLoop fl rest (done ++ [{ x with fld := fld1 }]) o1

/-- `getOptions` of option.go. -/
def option.getOptions (fl : FloatLib) (o : option) : Except Panic (option × Option OptError) :=
  getOptionsLoop fl o.optionList [] o

/-- The part of `varAssign` for a slice or an array: `getArgs`, then `setSlice`
or `setArray`. -/
def option.assignArgs (fl : FloatLib) (o : option) (isSlice : Bool) :
    Except Panic (option × Option OptError) :=
  match o.getArgs with
  | (_, some err) => .ok (o, some err)
  | (args, none) => if isSlice then o.setSlice fl args else o.setArray fl args

/-- The loop of `varAssign` from index `i` on; `n` is `len(v2)`. -/
def varAssignLoop (fl : FloatLib) (n : Nat) : List NewArg → Nat → option →
    Except Panic (option × Option OptError)
  | [], _, o => .ok (o, none)
  | vi :: rest, i, o =>
    match vi with
    | .nonPointer => .error .runtime
    | .pointer (.record fields) =>
      if i = 1 then .error (.msg (str "second argument should not be a struct pointer"))
      else
        match o.genoptionList fields with
        | .error p => .error p
        | .ok o1 =>
          match o1.getOptions fl with
          | .error p => .error p
          | .ok (o2, some err) => .ok (o2, some err)
          | .ok (o2, none) => varAssignLoop fl n rest (i + 1) o2
    | .pointer (.slice cap elems zero) =>
      if i = 0 ∧ n = 2 then .error (.msg (str "first argument cannot be a slice"))
      else
        match option.assignArgs fl
          { o with hasArgSlice := true, argSliceRef := .slice cap elems zero } true with
        | .error p => .error p
        | .ok (o1, some err) => .ok (o1, some err)
        | .ok (o1, none) => varAssignLoop fl n rest (i + 1) o1
    | .pointer (.array elems) =>
      if i = 0 ∧ n = 2 then .error (.msg (str "first argument cannot be an array"))
      else
        match option.assignArgs fl
          { o with hasArgSlice := true, argSliceRef := .array elems } false with
        | .error p => .error p
        | .ok (o1, some err) => .ok (o1, some err)
        | .ok (o1, none) => varAssignLoop fl n rest (i + 1) o1
    | .pointer (.other _) => .error (.msg (str "expected struct or slice pointer"))

/-- `varAssign` of option.go. -/
def option.varAssign (fl : FloatLib) (o : option) (v2 : List NewArg) :
    Except Panic (option × Option OptError) :=
  varAssignLoop fl v2.length v2 0 o

/-- `New` of option.go, `os.Args` being given as `osArgs`: a panic, or the
object and the error returned.  `getCmd` reads `os.Args[0]`. -/
def New (fl : FloatLib) (osArgs : List GoString) (v2 : List NewArg) :
    Except Panic (option × Option OptError) :=
  if v2.length = 0 ∨ v2.length > 2 then .error (.msg (str "expected one or two arguments"))
  else if osArgs.length = 0 then .error .runtime
  else
    match option.init.calcArgLimit v2 with
    | .error p => .error p
    | .ok o1 =>
      match o1.parse osArgs with
      | .error p => .error p
      | .ok o2 =>
        match o2.varAssign fl v2 with
        | .error p => .error p
        | .ok (o3, some err) => .ok (o3, some err)
        | .ok (o3, none) => .ok (o3, o3.checkUndefinedOptions)

/-! ## The help text (`help.go`): `wrap` -/

/-- `strings.Split(s, sep)` for a one-byte separator: the pieces of `s` between
the separators; one empty piece for the empty string. -/
def stringsSplit (sep : Nat) : GoString → List GoString
  | [] => [[]]
  | c :: rest =>
    if c = sep then [] :: stringsSplit sep rest
    else
      match stringsSplit sep rest with
      | [] => [[c]]
      | w :: ws => (c :: w) :: ws

/-- The variables `line` and `sl` of `wrap`. -/
structure WrapVars where
  line : GoString
  sl : Int
  deriving DecidableEq, Repr

/-- The body of the loop of `wrap` for the word `word`.  The assignment
`sl = width - len(word)+1` is `(width - len(word)) + 1`. -/
def wrapStep (width : Int) (st : WrapVars) (word : GoString) : WrapVars :=
  if (word.length : Int) + 1 > st.sl then
    { line := st.line ++ [10] ++ word, sl := width - word.length + 1 }
  else
    { sl := st.sl - (word.length + 1)
      line := (if st.line ≠ [] then st.line ++ [32] else st.line) ++ word }

/-- `wrap` of help.go. -/
def wrap (s : GoString) (width : Int) : GoString :=
  ((stringsSplit 32 s).foldl (wrapStep width) { line := [], sl := width }).line

/-! ## Vocabulary of the specification -/

/-- An integer literal in the sense of the specification: an optional single
leading `-` followed by one or more decimal digits. -/
def isIntLiteral (p : GoString) : Bool :=
  match p with
  | 45 :: ds => !ds.isEmpty && ds.all isDigit
  | ds => !ds.isEmpty && ds.all isDigit

/-- The number that a run of decimal digits denotes. -/
def digitsValue (ds : GoString) : Nat := ds.foldl (fun a c => a * 10 + (c - 48)) 0

/-- The number that an integer literal denotes. -/
def numeric (p : GoString) : Int :=
  match p with
  | 45 :: ds => -(digitsValue ds : Int)
  | ds => (digitsValue ds : Int)

/-- The canonical base-10 string of a natural number. -/
def decimal (n : Nat) : GoString :=
  if n = 0 then [48] else (Nat.digits 10 n).reverse.map (· + 48)

/-- The canonical base-10 string of an integer. -/
def decimalInt (n : Int) : GoString :=
  if n < 0 then 45 :: decimal n.natAbs else decimal n.toNat

/-- ASCII lower-casing of a string: every byte `A`..`Z` moved to `a`..`z`. -/
def asciiLower (s : GoString) : GoString :=
  s.map fun c => if 65 ≤ c ∧ c ≤ 90 then c + 32 else c

/-- The suffix letters `K M G T P E` with their decimal exponents. -/
def suffixExponent (c : Nat) : Option Nat :=
  if c = 75 then some 3 else if c = 77 then some 6 else if c = 71 then some 9
  else if c = 84 then some 12 else if c = 80 then some 15 else if c = 69 then some 18
  else none

/-- The signed integer kinds that `setScalar` decodes. -/
def isSignedKind (k : Kind) : Bool :=
  k = .Int8 ∨ k = .Int16 ∨ k = .Int32 ∨ k = .Int64 ∨ k = .Int

/-- The unsigned integer kinds that `setScalar` decodes. -/
def isUnsignedKind (k : Kind) : Bool :=
  k = .Uint8 ∨ k = .Uint16 ∨ k = .Uint32 ∨ k = .Uint64 ∨ k = .Uint

/-- The range of an integer kind: `[-2^(W-1), 2^(W-1)-1]` for a signed kind of
`W` bits, `[0, 2^W-1]` for an unsigned one. -/
def inRange (k : Kind) (n : Int) : Prop :=
  if isSignedKind k then -(2 : Int) ^ (k.bitSize - 1) ≤ n ∧ n ≤ (2 : Int) ^ (k.bitSize - 1) - 1
  else 0 ≤ n ∧ n ≤ ((2 ^ k.bitSize - 1 : Nat) : Int)

/-- An overflow error of the decoder: its own `Overflow`, or the `ErrRange` of
package strconv ("value out of range"). -/
def Err.isOverflow : Err → Bool
  | .new msg => msg = "Overflow"
  | .num e => e.Err = .ErrRange
  | .timeParse _ _ => false

/-- The format that `set_time` selects for an input of length `n`. -/
def selectedFormat (n : Nat) : Layout :=
  match n with
  | 25 => format_offset_datetime
  | 19 => format_datetime
  | 14 => format_offset_time
  | 10 => format_date
  | 8 => format_time
  | _ => format_empty

/-- No two adjacent bytes of the string are both spaces. -/
def noDoubleSpace : GoString → Bool
  | [] => true
  | [_] => true
  | a :: b :: cs => !(decide (a = 32) && decide (b = 32)) && noDoubleSpace (b :: cs)

/-- The last five bytes of a string: the text of the offset in an input of the
two formats that end in `-0700`. -/
def offsetText (s : GoString) : GoString := s.drop (s.length - 5)

/-- An offset text that `Format` writes back as it is: not `-0000` (written
`+0000`) and not with `60` for the minutes (carried into the hours). -/
def plainOffset (z : GoString) : Bool :=
  decide (z ≠ str "-0000") && decide (z.drop 3 ≠ str "60")

/-- The width of a reference element in a formatted time. -/
def Std.width : Std → Nat
  | .stdLongYear => 4
  | .stdNumTZ => 5
  | _ => 2

/-- The field of the parse state that a reference element sets. -/
def ParseState.field (st : ParseState) : Std → Int
  | .stdLongYear => st.year
  | .stdZeroMonth => st.month
  | .stdZeroDay => st.day
  | .stdHour => st.hour
  | .stdZeroMinute => st.min
  | .stdZeroSecond => st.sec
  | .stdNumTZ => st.zoneOffset

/-- The time that `Parse` builds from the fields it has collected. -/
def ParseState.toTime (st : ParseState) : Time :=
  ⟨st.year, if st.month < 0 then 1 else st.month, if st.day < 0 then 1 else st.day,
    st.hour, st.min, st.sec, st.nsec, if st.zoneOffset ≠ -1 then st.zoneOffset else 0⟩

/-- In a list of chunks the element `-0700` occurs at the end only. -/
def tzLast : List (GoString × Std) → Bool
  | [] => true
  | [_] => true
  | c :: d :: cs => decide (c.2 ≠ .stdNumTZ) && tzLast (d :: cs)

/-- The number of bytes of a time formatted with the given chunks. -/
def chunksWidth (chunks : List (GoString × Std)) : Nat :=
  (chunks.map fun c => c.1.length + c.2.width).sum

/-- The results that decoding into an admitted target can give: success, the
two errors that decode.go makes itself, a `*strconv.NumError`, or a
`*time.ParseError`. -/
def IsDecodeResult (r : Option Err) : Prop :=
  r = none ∨ r = some (.new "invalid value for bool") ∨ r = some (.new "Overflow") ∨
    (∃ e, r = some (.num e)) ∨ ∃ l x, r = some (.timeParse l x)

/-- Whether `x` is a value of the type of the target `v`: what a successful
decode into `v` may store. -/
def holdsValueOf (v : Target) (x : Val) : Bool :=
  match x with
  | .bool _ => v.kind = .Bool
  | .int _ => isSignedKind v.kind
  | .uint _ => isUnsignedKind v.kind
  | .float _ => v.kind = .Float32 ∨ v.kind = .Float64
  | .string _ => v.kind = .String
  | .time _ => v.kind = .Struct ∧ v.isTime = true
  | .other => false

/-- Atomicity of a setter: it succeeds and writes a value, or fails and leaves
the target. -/
def Atomic (v : Target) (r : Target × Option Err) (x : Val → Prop) : Prop :=
  (r.2 = none ∧ ∃ y, x y ∧ r.1 = { v with val := y }) ∨ (r.2 ≠ none ∧ r.1 = v)

/-- The snake form of the specification: the name lower-cased, with one `_`
put before each uppercase letter that immediately follows a lowercase letter.
`afterLower` says whether the byte before the first one is a lowercase
letter. -/
def snakeOf : Bool → GoString → GoString
  | _, [] => []
  | afterLower, c :: cs =>
    (if afterLower = true ∧ 65 ≤ c ∧ c ≤ 90 then [95] else []) ++
      (if 65 ≤ c ∧ c ≤ 90 then c + 32 else c) :: snakeOf (decide (97 ≤ c ∧ c ≤ 122)) cs

/-- The string with every `_` replaced by `-`. -/
def hyphenated (s : GoString) : GoString := s.map fun c => if c = 95 then 45 else c

/-- No two `_` stand side by side. -/
def noDoubleUnderscore (s : GoString) : Prop := s.Chain' fun a b => a ≠ 95 ∨ b ≠ 95

/-- The object holds no entry for the key in its key registry. -/
def option.unused (o : option) (k : GoString) : Bool := (o.keys.get k).isNone

/-- The string with its ASCII lowercase letters replaced by the uppercase
ones. -/
def asciiUpper (s : GoString) : GoString :=
  s.map fun c => if 97 ≤ c ∧ c ≤ 122 then c - 32 else c

/-- The registry after a key has been given out: a key that is not empty is
stored in it. -/
def GoMap.register (m : GoMap Bool) (k : GoString) : GoMap Bool :=
  if k = [] then m else m.set k true

/-- The long key that `autoKeys` derives from a field name (its second
statement). -/
def derivedLongKey (name : GoString) : GoString :=
  stringsReplace (toLower (camelToSnake name)) 95 45

/-- The short key that `autoKeys` gives according to the specification: the
lowercase first letter if unused, else the uppercase first letter if unused,
else none. -/
def autoShort (o : option) (name : GoString) : GoString :=
  if o.unused (asciiLower (name.take 1)) = true then asciiLower (name.take 1)
  else if o.unused (asciiUpper (name.take 1)) = true then asciiUpper (name.take 1)
  else []

/-- The long key that `autoKeys` gives: the derived long key if it is unused
and is not the short key just given to the field, else none. -/
def autoLong (o : option) (name : GoString) : GoString :=
  if o.unused (derivedLongKey name) = true ∧ derivedLongKey name ≠ autoShort o name then
    derivedLongKey name
  else []

/-- A tag written from its segments: the segments joined by `:`. -/
def joinColon : List GoString → GoString
  | [] => []
  | [s] => s
  | s :: t :: rest => s ++ 58 :: joinColon (t :: rest)

/-- The segments of a tag as the specification reads it: one to four of them,
and no colon in a segment, the fourth apart (it is the rest of the tag). -/
def tagSegments : List GoString → Prop
  | [h] => 58 ∉ h
  | [k, h] => 58 ∉ k ∧ 58 ∉ h
  | [s, l, h] => 58 ∉ s ∧ 58 ∉ l ∧ 58 ∉ h
  | [s, l, p, _] => 58 ∉ s ∧ 58 ∉ l ∧ 58 ∉ p
  | _ => False

/-- The keys, placeholder and help text that the specification reads off a tag
of two to four segments, for a field of type `typ`. -/
def tagKeyNames (typ : GoString) : List GoString → KeyNames
  | [k, h] => if k.length = 1 then ⟨k, [], typ, h⟩ else ⟨[], k, typ, h⟩
  | [s, l, h] => ⟨s, l, typ, h⟩
  | [s, l, p, h] => ⟨s, l, p, h⟩
  | _ => ⟨[], [], typ, []⟩

/-- An explicit short key `u` and long key `g` collide with the registry: one
that is not empty is already in use, or the long key is the short key. -/
def keysCollide (o : option) (u g : GoString) : Prop :=
  (u ≠ [] ∧ o.unused u = false) ∨ (g ≠ [] ∧ (o.unused g = false ∨ g = u))

/-- The object after the keys `u` and `g` have been given out. -/
def option.withKeys (o : option) (u g : GoString) : option :=
  { o with keys := (o.keys.register u).register g }

/-- The tags that the specification calls fatal: three or four segments with
a short-key segment longer than one character, or an explicit key that is not
empty and already in use (by an earlier field, or by the short key of the same
tag). -/
def tagIsFatal (o : option) : List GoString → Prop
  | [k, _] => k ≠ [] ∧ o.unused k = false
  | [s, l, _] => 1 < s.length ∨ keysCollide o s l
  | [s, l, _, _] => 1 < s.length ∨ keysCollide o s l
  | _ => False

/-- All the keys of a list of field descriptors that are not empty: for each
descriptor its short key, then its long key. -/
def descriptorKeys (l : List opt) : List GoString :=
  (l.flatMap fun d => [d.u_key, d.gnu_key]).filter fun k => decide (k ≠ [])

/-- The field name is exported, as option.go reads it: its first byte is an
uppercase ASCII letter. -/
def exported : GoString → Bool
  | [] => false
  | c :: _ => decide (65 ≤ c ∧ c ≤ 90)

/-- The field is admissible: its type is scalar and its name is exported. -/
def admissible (f : StructField) : Prop := exported f.Name = true ∧ isScalar f.fld = true

/-- The message with which a field that is not admissible is rejected; it
names the field. -/
def rejection (f : StructField) : GoString :=
  if exported f.Name = true then
    str "type " ++ str (kindName f.fld.kind) ++ str " not allowed (" ++ f.Name ++ str ")"
  else str "private field not allowed (" ++ f.Name ++ str ")"

/-- The invariant of the loop of `genoptionList`: the keys of the descriptors
are pairwise distinct and all stored in the registry. -/
def KeysInvariant (o : option) : Prop :=
  (descriptorKeys o.optionList).Nodup ∧ ∀ k ∈ descriptorKeys o.optionList, o.unused k = false

/-- The record of the test "Given different flags" of option_test.go: three
untagged boolean fields. -/
def recordFlags : List StructField :=
  [⟨str "Towel", [], str "bool", ⟨.Bool, false, .bool false⟩⟩,
    ⟨str "Tarantula", [], str "bool", ⟨.Bool, false, .bool false⟩⟩,
    ⟨str "Turnbuckle", [], str "bool", ⟨.Bool, false, .bool false⟩⟩]

/-- The record of the test "Given a duplicate key" of option_test.go. -/
def recordDuplicateKey : List StructField :=
  [⟨str "A", str "a:A flag", str "int", ⟨.Int, false, .int 0⟩⟩,
    ⟨str "B", str "a:A flag", str "int", ⟨.Int, false, .int 0⟩⟩]

/-- What a descriptor takes from its field: the value, the name and the name
of the type. -/
def opt.origin (d : opt) : Target × GoString × GoString := (d.fld, d.name, d.typ)

/-- What a field gives to its descriptor. -/
def StructField.origin (f : StructField) : Target × GoString × GoString :=
  (f.fld, f.Name, f.typ)

/-- An ASCII letter. -/
def isAsciiLetter (c : Nat) : Bool := decide ((65 ≤ c ∧ c ≤ 90) ∨ (97 ≤ c ∧ c ≤ 122))

/-- The flag arguments `-c1`, ..., `-cn` for the letters `c1..cn`. -/
def separateFlags (cs : GoString) : List GoString := cs.map fun c => [45, c]

/-- The events of the flags `c1..cn`: one for each letter, without a value. -/
def flagEvents (cs : GoString) : List vst := cs.map fun c => vst.mk [c] [] 0

/-- The stripping that the specification describes: when the string starts and
ends with a double quote exactly that first and that last byte are removed,
and otherwise the string is kept. -/
def stripOnePair (a : GoString) : GoString :=
  if a.head? = some 34 ∧ a.getLast? = some 34 then (a.drop 1).dropLast else a

/-- The string neither starts nor ends with a double quote. -/
def noOuterQuote (m : GoString) : Prop := m.head? ≠ some 34 ∧ m.getLast? ≠ some 34

/-- A string variable holding `""`. -/
def stringVar : Target := ⟨.String, false, .string []⟩

/-- A string variable holding `s`. -/
def stringOf (s : GoString) : Target := ⟨.String, false, .string s⟩

/-- A bool variable holding `false`. -/
def boolVar : Target := ⟨.Bool, false, .bool false⟩

/-- An int variable holding `0`. -/
def intVar : Target := ⟨.Int, false, .int 0⟩

/-- An untagged field with the given name, type name and variable. -/
def field (name typ : String) (t : Target) : StructField := ⟨str name, [], str typ, t⟩

/-- The values that the fields of the record hold after `New`. -/
def option.fields (o : option) : List Val := o.optionList.map fun d => d.fld.val

/-- The event table of a command line: the object that `parse` makes of the
fresh object of `New`. -/
def tokenize (osArgs : List GoString) : option :=
  match option.init.parse osArgs with
  | .ok o => o
  | .error _ => option.init

/-- The events of the object `src` put into the object `o`. -/
def option.withEvents (o src : option) : option :=
  { o with vdata := src.vdata, vmap := src.vmap }

/-- What `parse` guarantees of the event table: an event is typed 0 or, with a
key, `typ_uoption`, and a key of the map is not empty and maps to the index of
an event that carries it. -/
def EventsOK (o : option) : Prop :=
  (∀ ev ∈ o.vdata, ev.typ = 0 ∨ (ev.typ = typ_uoption ∧ ev.key ≠ [])) ∧
    ∀ k i, o.vmap.get k = some i → k ≠ [] ∧ ∃ ev, o.vdata.get? i = some ev ∧ ev.key = k

/-- The object `o` with the event table, the argument container and the limits
of the object `fr`: what `genoptionList` neither reads nor writes. -/
def option.withFrame (o fr : option) : option :=
  { o with
    vmap := fr.vmap, vdata := fr.vdata, hasArgSlice := fr.hasArgSlice,
    argSliceRef := fr.argSliceRef, argSliceCap := fr.argSliceCap, argLimit := fr.argLimit }

/-- Every key of the map of events is not empty and maps to the index of an
event that carries it. -/
def MapOK (o : option) : Prop :=
  ∀ k i, o.vmap.get k = some i → k ≠ [] ∧ ∃ ev, o.vdata.get? i = some ev ∧ ev.key = k

/-- The object after the loop body of `getOptions` for the descriptor `x`: the
event of `x`, if it has one, has the type of an option of a field. -/
def option.mark (o : option) (x : opt) : option :=
  match o.hit x with
  | none => o
  | some (ndx, _) =>
    { o with vdata := o.vdata.modify (fun e => { e with typ := optionTyp x.fld.kind }) ndx }

/-- The descriptors of a record: the list that `genoptionList` makes for it on
a fresh object. -/
def descriptors (v : List StructField) : Except Panic (List opt) :=
  match option.init.genoptionList v with
  | .error p => .error p
  | .ok o => .ok o.optionList

/-- The descriptor `x1` is the descriptor `x` after `getOptions` has bound it
on the event table of `o`: the field is untouched when `x` has no event, and
otherwise holds what the decoder stores for the value of the event, whose type
is the one it had or the type of a claimed option. -/
def Bound (fl : FloatLib) (o : option) (x x1 : opt) : Prop :=
  x1 = { x with fld := x1.fld } ∧ (o.hit x = none → x1.fld = x.fld) ∧
    ∀ ndx key ev, o.hit x = some (ndx, key) → o.vdata.get? ndx = some ev →
      ∃ t : Int, (t = ev.typ ∨ t = typ_flag ∨ t = typ_option) ∧
        setScalar fl x.fld (optionValue x.fld.kind { ev with typ := t }) = (x1.fld, none)

/-- The events that `getArgs` counts and reads: those typed `typ_arg` or
`typ_flag`. -/
def argEvents (l : List vst) : List vst :=
  l.filter fun v => decide (v.typ = typ_arg ∨ v.typ = typ_flag)

/-- The message of the error of `getArgs` for the capacity `c`. -/
def tooManyArguments (c : Nat) : GoString :=
  str "number of arguments supplied exceeds limit (" ++ decimal c ++ str ")"

/-- The positional events of an event table: those without a key. -/
def positional (l : List vst) : List vst := l.filter fun v => decide (v.key = [])

/-- The leftover arguments of a command line for a call of `New` without a
record: the values, if not empty, of the events that `getArgs` reads. -/
def leftover (osArgs : List GoString) : List GoString :=
  ((argEvents (tokenize osArgs).vdata).map vst.val).filter fun a => decide (a ≠ [])

/-- The event of index `i` is claimed by a field: one of the descriptors `ds`
finds it through the map of the event table `tok`. -/
def claimedBy (ds : List opt) (tok : option) (i : Nat) : Prop :=
  ∃ x ∈ ds, ∃ key, tok.hit x = some (i, key)

/-- The test of `claimedBy`. -/
def isClaimed (ds : List opt) (tok : option) (i : Nat) : Bool :=
  ds.any fun x =>
    match tok.hit x with
    | some (j, _) => j == i
    | none => false

/-- The keys, in the order of the events, of the events of `tok` with a key
that no descriptor of `ds` claims. -/
def unclaimedKeys (ds : List opt) (tok : option) : List GoString :=
  (tok.vdata.enum.filter fun p => decide (p.2.key ≠ []) && !isClaimed ds tok p.1).map
    fun p => p.2.key

/-- The message for the unknown options `keys`: "Invalid command line option",
an "s" when there is more than one key, ": (", the keys joined by ", ", and
")". -/
def unknownOptions (keys : List GoString) : GoString :=
  str "Invalid command line option" ++ (if 1 < keys.length then str "s" else []) ++ str ": (" ++
    (str ", ").intercalate keys ++ str ")"

/-- The record `myStk` of option_test.go. -/
def recordMyStk : List StructField :=
  [field "Answer" "int" intVar, field "Poem" "string" stringVar, field "Towel" "bool" boolVar]

/-- The descriptors of the record `myStk`. -/
def descriptorsMyStk : List opt :=
  [opt.mk intVar (str "Answer") (str "int") (str "a") (str "answer") [] (str "int"),
    opt.mk stringVar (str "Poem") (str "string") (str "p") (str "poem") [] (str "string"),
    opt.mk boolVar (str "Towel") (str "bool") (str "t") (str "towel") [] (str "bool")]

/-- A bare flag argument: a dash and one or more ASCII letters. -/
def isBareFlags (a : GoString) : Bool :=
  match a with
  | 45 :: c :: cs => (c :: cs).all isAsciiLetter
  | _ => false

/-- A plain word: an argument that does not start with a dash. -/
def isPlainWord (a : GoString) : Bool := decide (a.head? ≠ some 45)

/-- The plain words of a list of arguments, in their order, with their
surrounding quotes stripped; a word of which nothing is left is not an
argument. -/
def strippedWords (args : List GoString) : List GoString :=
  ((args.filter isPlainWord).map fun w => stringsTrim w qt).filter fun a => decide (a ≠ [])

/-- The values of the events that are not empty, in the order of the events. -/
def eventValues (l : List vst) : List GoString :=
  (l.map vst.val).filter fun a => decide (a ≠ [])

/-- The record `struct{ C, P bool }` of option_test.go. -/
def recordCP : List StructField := [field "C" "bool" boolVar, field "P" "bool" boolVar]

/-- The descriptors of the record `struct{ C, P bool }`. -/
def descriptorsCP : List opt :=
  [opt.mk boolVar (str "C") (str "bool") (str "c") [] [] (str "bool"),
    opt.mk boolVar (str "P") (str "bool") (str "p") [] [] (str "bool")]

/-- A long key that `parse` can read: a string of the form `\w[\w-]*`. -/
def isLongKey (w : GoString) : Bool :=
  match w with
  | c :: rest => isWordByte c && rest.all isKeyByte
  | [] => false

/-- The arguments that may follow the record in a call of `New`: nothing, or
one pointer to a slice or to an array. -/
def validRest : List NewArg → Bool
  | [] => true
  | [.pointer (.slice _ _ _)] => true
  | [.pointer (.array _)] => true
  | _ => false

/-- The argument container after a call of `New` that finds no leftover
argument: `setSlice` has made the slice empty, an array is as it was. -/
def restRef : List NewArg → SliceRef
  | [.pointer (.slice _ _ zero)] => .slice 0 [] zero
  | [.pointer (.array elems)] => .array elems
  | _ => .invalid

/-- The failure behind an error of `New`: the error of the decoder without the
key that `getOptions` adds to its message. -/
def OptError.cause : OptError → OptError
  | .keyed err _ => .decode err
  | e => e

/-- What a call of `New` leaves to its caller: the panic, or the descriptors
with the fields as they are now, the argument container, and the failure. -/
def outcome (r : Except Panic (option × Option OptError)) :
    Except Panic (List opt × SliceRef × Option OptError) :=
  match r with
  | .error p => .error p
  | .ok (o, e) => .ok (o.optionList, o.argSliceRef, e.map OptError.cause)

/-- The invariant of the loop of `parse`, on the object and the pending key
`_lastkey`: a pending key is the key of the last event; a key of the map maps
to the index of an event that carries it, and no later event carries it; no
key of the map is empty; and the key of every event with a key is in the
map. -/
def TokenizerInv (o : option) (lastkey : GoString) : Prop :=
  (lastkey ≠ [] → ∃ xs x, o.vdata = xs ++ [x] ∧ x.key = lastkey) ∧
    (∀ k i, o.vmap.get k = some i →
      ∃ ev, o.vdata.get? i = some ev ∧ ev.key = k ∧
        ∀ j ev1, i < j → o.vdata.get? j = some ev1 → ev1.key ≠ k) ∧
    (∀ k i, o.vmap.get k = some i → k ≠ []) ∧
    ∀ ev ∈ o.vdata, ev.key ≠ [] → ∃ i, o.vmap.get ev.key = some i

/-- The invariant `TokenizerInv` on the list of the keys of the events. -/
def KeysInv (keys : List GoString) (vmap : GoMap Nat) (lastkey : GoString) : Prop :=
  (lastkey ≠ [] → keys.getLast? = some lastkey) ∧
    (∀ k i, vmap.get k = some i → keys.get? i = some k ∧ ∀ j, i < j → keys.get? j ≠ some k) ∧
    (∀ k i, vmap.get k = some i → k ≠ []) ∧
    ∀ k ∈ keys, k ≠ [] → ∃ i, vmap.get k = some i

/-- The argument matches none of the three patterns of an option. -/
def noOptionForm (arg : GoString) : Prop :=
  rx_gnuKeywordAssign arg = none ∧ rx_gnuKeyword arg = none ∧ rx_flag arg = none

/-- The lines of a text: its pieces between the newlines. -/
def textLines (s : GoString) : List GoString := stringsSplit 10 s

/-- The words of a text: its pieces between the spaces. -/
def textWords (s : GoString) : List GoString := stringsSplit 32 s

/-- What the loop body of `getOptions` does for the descriptor `x` on the event
table of `tok`: the field afterwards and the error. -/
def bindResult (fl : FloatLib) (tok : option) (x : opt) : Target × Option OptError :=
  match getOption fl tok x with
  | .ok (_, t, r) => (t, r)
  | .error _ => (x.fld, none)

/-- The descriptor `x` with its field as the loop body of `getOptions` leaves
it. -/
def bound (fl : FloatLib) (tok : option) (x : opt) : opt :=
  { x with fld := (bindResult fl tok x).1 }

/-- No two descriptors of the list find the same event. -/
def NoClash (o : option) (l : List opt) : Prop :=
  l.Pairwise fun x y => ∀ i k j k1, o.hit x = some (i, k) → o.hit y = some (j, k1) → i ≠ j

/-- The string is a key of the descriptor. -/
def opt.hasKey (x : opt) (k : GoString) : Prop := k ≠ [] ∧ (k = x.u_key ∨ k = x.gnu_key)

/-- The record of the example of `New` in examples_test.go. -/
def recordExample : List StructField :=
  [field "Answer" "int" intVar, field "Babel" "bool" boolVar,
    field "Question" "string" stringVar]

/-- The descriptors of the record of the example. -/
def descriptorsExample : List opt :=
  [opt.mk intVar (str "Answer") (str "int") (str "a") (str "answer") [] (str "int"),
    opt.mk boolVar (str "Babel") (str "bool") (str "b") (str "babel") [] (str "bool"),
    opt.mk stringVar (str "Question") (str "string") (str "q") (str "question") []
      (str "string")]

/-- The leftover arguments of a command line in a call of `New` with a record
whose descriptors `ds` are all bound: the values, if not empty, of the events
that `getArgs` reads in the event table after `getOptions`. -/
def leftoverAfter (ds : List opt) (osArgs : List GoString) : List GoString :=
  ((argEvents (ds.foldl option.mark (tokenize osArgs)).vdata).map vst.val).filter
    fun a => decide (a ≠ [])

/-- The slice or array that an argument of `New` points to; `invalid` for an
argument that is no pointer to a container. -/
def NewArg.container : NewArg → SliceRef
  | .pointer (.slice cap elems zero) => .slice cap elems zero
  | .pointer (.array elems) => .array elems
  | _ => .invalid

/-- The container is a slice: `varAssign` then calls `setSlice`, and `setArray`
otherwise. -/
def SliceRef.isSlice : SliceRef → Bool
  | .slice _ _ _ => true
  | _ => false

/-- The elements that the loop of `setArray` writes to for `n` arguments: those
of the array, and for a slice the `n` zero elements of the new slice that
`setSlice` makes. -/
def writtenElems : SliceRef → Nat → List Target
  | .slice _ _ zero, n => List.replicate n zero
  | .array elems, _ => elems
  | .invalid, _ => []

/-- The container with the elements `l` after the loop of `setArray` for `n`
arguments. -/
def writtenRef : SliceRef → Nat → List Target → SliceRef
  | .slice _ _ zero, n, l => .slice n l zero
  | .array _, _, l => .array l
  | .invalid, _, _ => .invalid

/-- A choice for the method `Error` of the errors of the decoder, for the
examples: the message of an error of `errors.New`; the input of a
`*strconv.NumError` and the value of a `*time.ParseError` stand for their
messages, which the packages strconv and time make. -/
def sampleErrorText : Err → GoString
  | .new msg => str msg
  | .num e => e.Num
  | .timeParse _ value => value

/-- The positional events of a list of plain words. -/
def wordsEvents (ws : List GoString) : List vst :=
  ws.map fun w => vst.mk [] (stringsTrim w qt) typ_arg

/-- The value that the first of the words after a key gives to its event. -/
def firstValue : List GoString → GoString
  | [] => []
  | w :: _ => stringsTrim w qt

/-- The value of an integer field of kind `k` that holds `n`. -/
def integerVal (k : Kind) (n : Int) : Val :=
  if isSignedKind k then .int n else .uint n.toNat

/-- The descriptors of a record after the binding of the command line
`-a n -b`: the field of `xa` holds `n`, the field of `xb` is true, and the
others are as they were. -/
def boundAB (ds : List opt) (xa xb : opt) (n : Int) : List opt :=
  ds.map fun x =>
    if x = xa then { x with fld := { x.fld with val := integerVal x.fld.kind n } }
    else if x = xb then { x with fld := x.fld.SetBool true }
    else x

/-- The tag of the field `f` is fatal for the object `o` with which
`createKeyNames` reaches it: read as its segments, it is one of the fatal
tags. -/
def fatalTag (o : option) (f : StructField) : Prop :=
  ∃ segs, tagSegments segs ∧ joinColon segs = f.Tag ∧ tagIsFatal o segs

/-! ## Lemmas on the strconv model -/

theorem foldl_digits_le (ds : GoString) (n : Nat) :
    n ≤ ds.foldl (fun a c => a * 10 + (c - 48)) n := by
  induction ds generalizing n with
  | nil => simp
  | cons c cs ih =>
    simp only [List.foldl_cons]
    exact le_trans (by omega) (ih _)

theorem parseUintLoop_digits (s0 : GoString) (M : Nat) (hM : M < 18446744073709551616)
    (ds : GoString) (hds : ∀ c ∈ ds, 48 ≤ c ∧ c ≤ 57) (n : Nat) (hn : n ≤ M) :
    parseUintLoop s0 M ds n =
      if ds.foldl (fun a c => a * 10 + (c - 48)) n ≤ M
      then (ds.foldl (fun a c => a * 10 + (c - 48)) n, none)
      else (M, some ⟨"ParseUint", s0, .ErrRange⟩) := by
  induction ds generalizing n with
  | nil => simp [parseUintLoop, hn]
  | cons c cs ih =>
    have hc := hds c (List.mem_cons_self _ _)
    have hcs : ∀ c ∈ cs, 48 ≤ c ∧ c ≤ 57 := fun x hx => hds x (List.mem_cons_of_mem _ hx)
    have hge := foldl_digits_le cs (n * 10 + (c - 48))
    simp only [parseUintLoop, hc, and_self, if_true, List.foldl_cons]
    have hd : ¬ (c - 48 ≥ 10) := by omega
    simp only [hd, if_false]
    by_cases h1 : n ≥ 18446744073709551615 / 10 + 1
    · have : ¬ (cs.foldl (fun a c => a * 10 + (c - 48)) (n * 10 + (c - 48)) ≤ M) := by omega
      simp [h1, this]
    · simp only [h1, if_false]
      have e10 : n * 10 % 18446744073709551616 = n * 10 := by omega
      rw [e10]
      by_cases h2 : (n * 10 + (c - 48)) % 18446744073709551616 < n * 10 ∨
          (n * 10 + (c - 48)) % 18446744073709551616 > M
      · have : ¬ (cs.foldl (fun a c => a * 10 + (c - 48)) (n * 10 + (c - 48)) ≤ M) := by omega
        simp [h2, this]
      · have e1 : (n * 10 + (c - 48)) % 18446744073709551616 = n * 10 + (c - 48) := by omega
        simp only [h2, if_false]
        rw [e1]
        exact ih hcs _ (by omega)

theorem parseUintLoop_nondigit (s0 : GoString) (M : Nat) (cs : GoString)
    (h : ∃ c ∈ cs, ¬ (48 ≤ c ∧ c ≤ 57)) (n : Nat) :
    ∃ e, (parseUintLoop s0 M cs n).2 = some ⟨"ParseUint", s0, e⟩ := by
  induction cs generalizing n with
  | nil => simp at h
  | cons c cs ih =>
    by_cases hc : 48 ≤ c ∧ c ≤ 57
    · have hcs : ∃ c ∈ cs, ¬ (48 ≤ c ∧ c ≤ 57) := by
        obtain ⟨x, hx, hnx⟩ := h
        rcases List.mem_cons.mp hx with rfl | hx
        · exact absurd hc hnx
        · exact ⟨x, hx, hnx⟩
      simp only [parseUintLoop, hc, and_self, if_true]
      split_ifs
      · exact ⟨_, rfl⟩
      · exact ⟨_, rfl⟩
      · exact ⟨_, rfl⟩
      · exact ih hcs _
    · simp only [parseUintLoop, hc, if_false]
      generalize strconvLower c = x
      by_cases hx : 97 ≤ x ∧ x ≤ 122
      · have : x - 97 + 10 ≥ 10 := by omega
        simp only [hx, and_self, if_true, this]
        exact ⟨_, rfl⟩
      · simp only [hx, if_false]
        exact ⟨_, rfl⟩

theorem parseUint_digits (ds : GoString) (hne : ds ≠ []) (hds : ∀ c ∈ ds, 48 ≤ c ∧ c ≤ 57)
    (b : Nat) (hb : b = 0 ∨ b = 64) :
    parseUint ds b =
      if digitsValue ds ≤ 18446744073709551615 then (digitsValue ds, none)
      else (18446744073709551615, some ⟨"ParseUint", ds, .ErrRange⟩) := by
  have hmax : (2 ^ (if b = 0 then 64 else b) % 18446744073709551616 + 18446744073709551616 - 1)
      % 18446744073709551616 = 18446744073709551615 := by
    rcases hb with rfl | rfl <;> norm_num
  simp only [parseUint, hne, if_false, hmax]
  exact parseUintLoop_digits ds _ (by norm_num) ds hds 0 (by norm_num)

theorem parseUint_nondigit (cs : GoString) (h : ∃ c ∈ cs, ¬ (48 ≤ c ∧ c ≤ 57)) (b : Nat) :
    ∃ e, (parseUint cs b).2 = some ⟨"ParseUint", cs, e⟩ := by
  have hne : cs ≠ [] := by
    rintro rfl
    simp at h
  simp only [parseUint, hne, if_false]
  exact parseUintLoop_nondigit cs _ cs h 0

theorem toInt64_eq (x : Int) (h1 : -9223372036854775808 ≤ x) (h2 : x ≤ 9223372036854775807) :
    toInt64 x = x := by
  unfold toInt64
  omega

theorem isIntLiteral_cases (p : GoString) (h : isIntLiteral p = true) :
    (∃ ds, p = 45 :: ds ∧ ds ≠ [] ∧ ∀ c ∈ ds, 48 ≤ c ∧ c ≤ 57) ∨
    (p ≠ [] ∧ ∀ c ∈ p, 48 ≤ c ∧ c ≤ 57) := by
  unfold isIntLiteral at h
  split at h
  · rename_i ds
    left
    refine ⟨ds, rfl, ?_, ?_⟩
    · intro hds
      simp [hds] at h
    · intro c hc
      simp only [Bool.and_eq_true, List.all_eq_true, isDigit, decide_eq_true_eq] at h
      exact h.2 c hc
  · right
    constructor
    · intro hp
      simp [hp] at h
    · intro c hc
      simp only [Bool.and_eq_true, List.all_eq_true, isDigit, decide_eq_true_eq] at h
      exact h.2 c hc

theorem parseInt_digits (ds : GoString) (hne : ds ≠ []) (hds : ∀ c ∈ ds, 48 ≤ c ∧ c ≤ 57)
    (b : Nat) (hb : b = 0 ∨ b = 64) :
    parseInt ds b =
      if digitsValue ds ≤ 9223372036854775807 then ((digitsValue ds : Int), none)
      else (9223372036854775807, some ⟨"ParseInt", ds, .ErrRange⟩) := by
  obtain ⟨c, cs, rfl⟩ := List.exists_cons_of_ne_nil hne
  have hc := hds c (List.mem_cons_self _ _)
  have h43 : c ≠ 43 := by omega
  have h45 : c ≠ 45 := by omega
  have hcut : 2 ^ ((if b = 0 then 64 else b) - 1) % 18446744073709551616
      = 9223372036854775808 := by
    rcases hb with rfl | rfl <;> norm_num
  simp only [parseInt, List.getD_cons_zero, h43, h45, if_false, decide_False,
    parseUint_digits (c :: cs) hne hds b hb, hcut, reduceCtorEq]
  by_cases h1 : digitsValue (c :: cs) ≤ 18446744073709551615
  · simp only [h1, if_true]
    by_cases h2 : digitsValue (c :: cs) ≤ 9223372036854775807
    · have h3 : ¬ (digitsValue (c :: cs) ≥ 9223372036854775808) := by omega
      simp only [h2, if_true, Bool.not_false, true_and, h3, if_false, Bool.false_eq_true,
        false_and]
      rw [toInt64_eq _ (by omega) (by omega)]
    · have h3 : digitsValue (c :: cs) ≥ 9223372036854775808 := by omega
      simp [h2, h3, toInt64]
  · have h2 : ¬ (digitsValue (c :: cs) ≤ 9223372036854775807) := by omega
    simp [h1, h2, toInt64]

theorem parseInt_neg_digits (ds : GoString) (hne : ds ≠ []) (hds : ∀ c ∈ ds, 48 ≤ c ∧ c ≤ 57)
    (b : Nat) (hb : b = 0 ∨ b = 64) :
    parseInt (45 :: ds) b =
      if digitsValue ds ≤ 9223372036854775808 then (-(digitsValue ds : Int), none)
      else (-9223372036854775808, some ⟨"ParseInt", 45 :: ds, .ErrRange⟩) := by
  have hcut : 2 ^ ((if b = 0 then 64 else b) - 1) % 18446744073709551616
      = 9223372036854775808 := by
    rcases hb with rfl | rfl <;> norm_num
  have hmin : toInt64 (-toInt64 9223372036854775808) = -9223372036854775808 := by
    decide
  simp only [parseInt, List.getD_cons_zero, if_false, if_true, decide_True, List.drop_succ_cons,
    List.drop_zero, parseUint_digits ds hne hds b hb, hcut, reduceCtorEq,
    Nat.reduceEqDiff]
  by_cases h1 : digitsValue ds ≤ 18446744073709551615
  · simp only [h1, if_true]
    by_cases h2 : digitsValue ds ≤ 9223372036854775808
    · have h3 : ¬ (digitsValue ds > 9223372036854775808) := by omega
      simp only [h2, if_true, Bool.not_true, Bool.false_eq_true, false_and, if_false, h3,
        and_false]
      have e : toInt64 (-toInt64 (digitsValue ds : Int)) = -(digitsValue ds : Int) := by
        unfold toInt64
        omega
      rw [e]
    · have h3 : digitsValue ds > 9223372036854775808 := by omega
      simp [h2, h3, hmin]
  · have h2 : ¬ (digitsValue ds ≤ 9223372036854775808) := by omega
    simp [h1, h2, hmin]

theorem numeric_neg (ds : GoString) : numeric (45 :: ds) = -(digitsValue ds : Int) := rfl

theorem numeric_digits (p : GoString) (hne : p ≠ []) (hp : ∀ c ∈ p, 48 ≤ c ∧ c ≤ 57) :
    numeric p = (digitsValue p : Int) := by
  obtain ⟨c, cs, rfl⟩ := List.exists_cons_of_ne_nil hne
  have hc := hp c (List.mem_cons_self _ _)
  unfold numeric
  split
  · rename_i ds heq
    simp only [List.cons.injEq] at heq
    omega
  · rfl

theorem parseInt_literal_ok (p : GoString) (hp : isIntLiteral p = true)
    (b : Nat) (hb : b = 0 ∨ b = 64)
    (h1 : -9223372036854775808 ≤ numeric p) (h2 : numeric p ≤ 9223372036854775807) :
    parseInt p b = (numeric p, none) := by
  rcases isIntLiteral_cases p hp with ⟨ds, rfl, hne, hds⟩ | ⟨hne, hds⟩
  · rw [numeric_neg] at h1 h2 ⊢
    rw [parseInt_neg_digits ds hne hds b hb, if_pos (by omega)]
  · rw [numeric_digits p hne hds] at h1 h2 ⊢
    rw [parseInt_digits p hne hds b hb, if_pos (by omega)]

theorem parseInt_literal_range (p : GoString) (hp : isIntLiteral p = true)
    (b : Nat) (hb : b = 0 ∨ b = 64)
    (h : numeric p < -9223372036854775808 ∨ 9223372036854775807 < numeric p) :
    (parseInt p b).2 = some ⟨"ParseInt", p, .ErrRange⟩ := by
  rcases isIntLiteral_cases p hp with ⟨ds, rfl, hne, hds⟩ | ⟨hne, hds⟩
  · rw [numeric_neg] at h
    rw [parseInt_neg_digits ds hne hds b hb, if_neg (by omega)]
  · rw [numeric_digits p hne hds] at h
    rw [parseInt_digits p hne hds b hb, if_neg (by omega)]

theorem foldl_digits_lt (ds : GoString) (hds : ∀ c ∈ ds, 48 ≤ c ∧ c ≤ 57) (n : Nat) :
    ds.foldl (fun a c => a * 10 + (c - 48)) n < (n + 1) * 10 ^ ds.length := by
  induction ds generalizing n with
  | nil => simp
  | cons c cs ih =>
    have hc := hds c (List.mem_cons_self _ _)
    have hcs : ∀ c ∈ cs, 48 ≤ c ∧ c ≤ 57 := fun x hx => hds x (List.mem_cons_of_mem _ hx)
    simp only [List.foldl_cons, List.length_cons]
    calc cs.foldl (fun a c => a * 10 + (c - 48)) (n * 10 + (c - 48))
        < (n * 10 + (c - 48) + 1) * 10 ^ cs.length := ih hcs _
      _ ≤ ((n + 1) * 10) * 10 ^ cs.length := Nat.mul_le_mul_right _ (by omega)
      _ = (n + 1) * 10 ^ (cs.length + 1) := by ring

theorem digitsValue_lt (ds : GoString) (hds : ∀ c ∈ ds, 48 ≤ c ∧ c ≤ 57) (k : Nat)
    (hk : ds.length ≤ k) : digitsValue ds < 10 ^ k := by
  have h := foldl_digits_lt ds hds 0
  have h2 : 10 ^ ds.length ≤ 10 ^ k := Nat.pow_le_pow_right (by norm_num) hk
  unfold digitsValue
  omega

theorem atoiLoop_digits (ds : GoString) (hds : ∀ c ∈ ds, 48 ≤ c ∧ c ≤ 57) (n : Nat)
    (h : ds.foldl (fun a c => a * 10 + (c - 48)) n ≤ 9223372036854775807) :
    atoiLoop ds (n : Int) = some ((ds.foldl (fun a c => a * 10 + (c - 48)) n : Nat) : Int) := by
  induction ds generalizing n with
  | nil => simp [atoiLoop]
  | cons c cs ih =>
    have hc := hds c (List.mem_cons_self _ _)
    have hcs : ∀ c ∈ cs, 48 ≤ c ∧ c ≤ 57 := fun x hx => hds x (List.mem_cons_of_mem _ hx)
    simp only [List.foldl_cons] at h ⊢
    have hge := foldl_digits_le cs (n * 10 + (c - 48))
    have e1 : (c + 256 - 48) % 256 = c - 48 := by omega
    have e2 : ¬ (c - 48 > 9) := by omega
    have e3 : toInt64 ((n : Int) * 10 + ((c - 48 : Nat) : Int)) = ((n * 10 + (c - 48) : Nat) : Int) := by
      rw [toInt64_eq _ (by omega) (by omega)]
      push_cast
      rfl
    simp only [atoiLoop, e1, e2, if_false, e3]
    exact ih hcs _ h

theorem atoiLoop_nondigit (cs : GoString) (h : ∃ c ∈ cs, c < 256 ∧ ¬ (48 ≤ c ∧ c ≤ 57))
    (n : Int) : atoiLoop cs n = none := by
  induction cs generalizing n with
  | nil => simp at h
  | cons c cs ih =>
    by_cases hc : (c + 256 - 48) % 256 > 9
    · simp only [atoiLoop, hc, if_true]
    · simp only [atoiLoop, hc, if_false]
      apply ih
      obtain ⟨x, hx, hlt, hnx⟩ := h
      rcases List.mem_cons.mp hx with rfl | hx
      · omega
      · exact ⟨x, hx, hlt, hnx⟩

theorem atoi_digits_short (p : GoString) (hne : p ≠ []) (hp : ∀ c ∈ p, 48 ≤ c ∧ c ≤ 57)
    (hlen : p.length < 19) : atoi p = ((digitsValue p : Int), none) := by
  obtain ⟨c, cs, rfl⟩ := List.exists_cons_of_ne_nil hne
  have hc := hp c (List.mem_cons_self _ _)
  have h43 : c ≠ 43 := by omega
  have h45 : c ≠ 45 := by omega
  have hv := digitsValue_lt (c :: cs) hp 18 (by omega)
  have hloop := atoiLoop_digits (c :: cs) hp 0 (by unfold digitsValue at hv; omega)
  have hpos : 0 < (c :: cs).length := by simp
  simp only [atoi, hpos, hlen, and_self, if_true, List.getD_cons_zero, h43, h45, or_self,
    decide_False, Bool.false_eq_true, if_false, false_and]
  rw [show ((0 : Int) = ((0 : Nat) : Int)) from rfl, hloop]
  rfl

theorem atoi_neg_digits_short (ds : GoString) (hne : ds ≠ [])
    (hds : ∀ c ∈ ds, 48 ≤ c ∧ c ≤ 57) (hlen : (45 :: ds).length < 19) :
    atoi (45 :: ds) = (-(digitsValue ds : Int), none) := by
  have hv := digitsValue_lt ds hds 18 (by simp at hlen; omega)
  have hloop := atoiLoop_digits ds hds 0 (by unfold digitsValue at hv; omega)
  have hpos : 0 < (45 :: ds).length := by simp
  have hl : ¬ (ds.length < 1) := by
    have := List.length_pos.mpr hne
    omega
  simp only [atoi, hpos, hlen, and_self, if_true, List.getD_cons_zero, true_or,
    decide_True, List.drop_succ_cons, List.drop_zero, hl, and_false, if_false]
  rw [show ((0 : Int) = ((0 : Nat) : Int)) from rfl, hloop]
  simp only []
  rw [toInt64_eq _ (by unfold digitsValue at hv; omega) (by unfold digitsValue at hv; omega)]
  rfl

theorem atoi_long (p : GoString) (hlen : ¬ p.length < 19) :
    atoi p = match parseInt p 0 with
      | (i64, some nerr) => (i64, some { nerr with Func := "Atoi" })
      | (i64, none) => (i64, none) := by
  simp only [atoi, hlen, and_false, if_false]

theorem atoi_literal_ok (p : GoString) (hp : isIntLiteral p = true)
    (h1 : -9223372036854775808 ≤ numeric p) (h2 : numeric p ≤ 9223372036854775807) :
    atoi p = (numeric p, none) := by
  by_cases hlen : p.length < 19
  · rcases isIntLiteral_cases p hp with ⟨ds, rfl, hne, hds⟩ | ⟨hne, hds⟩
    · rw [numeric_neg, atoi_neg_digits_short ds hne hds hlen]
    · rw [numeric_digits p hne hds, atoi_digits_short p hne hds hlen]
  · rw [atoi_long p hlen, parseInt_literal_ok p hp 0 (Or.inl rfl) h1 h2]

theorem atoi_literal_range (p : GoString) (hp : isIntLiteral p = true)
    (h : numeric p < -9223372036854775808 ∨ 9223372036854775807 < numeric p) :
    (atoi p).2 = some ⟨"Atoi", p, .ErrRange⟩ := by
  have hlen : ¬ p.length < 19 := by
    intro hlen
    rcases isIntLiteral_cases p hp with ⟨ds, rfl, hne, hds⟩ | ⟨hne, hds⟩
    · have hv := digitsValue_lt ds hds 18 (by simp at hlen; omega)
      rw [numeric_neg] at h
      omega
    · have hv := digitsValue_lt p hds 18 (by omega)
      rw [numeric_digits p hne hds] at h
      omega
  have hr := parseInt_literal_range p hp 0 (Or.inl rfl) h
  rw [atoi_long p hlen]
  revert hr
  generalize parseInt p 0 = r
  rcases r with ⟨i, _ | e⟩
  · simp
  · intro hr
    simp only [Option.some.injEq] at hr
    subst hr
    rfl

theorem parseUintLoop_shape (s0 : GoString) (M : Nat) (cs : GoString) (n : Nat) :
    (parseUintLoop s0 M cs n).2 = none ∨
    parseUintLoop s0 M cs n = (0, some ⟨"ParseUint", s0, .ErrSyntax⟩) ∨
    parseUintLoop s0 M cs n = (M, some ⟨"ParseUint", s0, .ErrRange⟩) := by
  induction cs generalizing n with
  | nil => simp [parseUintLoop]
  | cons c cs ih =>
    simp only [parseUintLoop]
    split
    · simp
    · split_ifs
      · simp
      · simp
      · simp
      · exact ih _

theorem parseUint_shape (s : GoString) (b : Nat) (hb : b = 0 ∨ b = 64) :
    (parseUint s b).2 = none ∨
    parseUint s b = (0, some ⟨"ParseUint", s, .ErrSyntax⟩) ∨
    parseUint s b = (18446744073709551615, some ⟨"ParseUint", s, .ErrRange⟩) := by
  have hmax : (2 ^ (if b = 0 then 64 else b) % 18446744073709551616 + 18446744073709551616 - 1)
      % 18446744073709551616 = 18446744073709551615 := by
    rcases hb with rfl | rfl <;> norm_num
  by_cases h : s = []
  · subst h
    simp [parseUint]
  · simp only [parseUint, h, if_false, hmax]
    exact parseUintLoop_shape s _ s 0

/-- An error of `ParseUint` on the unsigned part makes `ParseInt` fail. -/
theorem parseInt_error (s0 : GoString) (b : Nat) (hb : b = 0 ∨ b = 64)
    (h : (parseUint (if s0.getD 0 0 = 43 then s0.drop 1
      else if s0.getD 0 0 = 45 then s0.drop 1 else s0) b).2 ≠ none) :
    ∃ e, (parseInt s0 b).2 = some ⟨"ParseInt", s0, e⟩ := by
  have hcut : 2 ^ ((if b = 0 then 64 else b) - 1) % 18446744073709551616
      = 9223372036854775808 := by
    rcases hb with rfl | rfl <;> norm_num
  by_cases h0 : s0 = []
  · subst h0
    exact ⟨_, rfl⟩
  · simp only [parseInt, h0, if_false, hcut]
    revert h
    generalize (if s0.getD 0 0 = 43 then s0.drop 1
      else if s0.getD 0 0 = 45 then s0.drop 1 else s0) = s
    intro h
    rcases parseUint_shape s b hb with h1 | h1 | h1
    · exact absurd h1 h
    · rw [h1]
      exact ⟨_, rfl⟩
    · rw [h1]
      generalize s0.getD 0 0 = c0
      by_cases hneg : c0 = 45
      · simp [hneg]
      · simp [hneg]

theorem parseInt_trailing_nondigit (d : GoString) (c : Nat) (hd : isIntLiteral d = true)
    (hc : ¬ (48 ≤ c ∧ c ≤ 57)) (b : Nat) (hb : b = 0 ∨ b = 64) :
    ∃ e, (parseInt (d ++ [c]) b).2 = some ⟨"ParseInt", d ++ [c], e⟩ := by
  apply parseInt_error _ b hb
  rcases isIntLiteral_cases d hd with ⟨ds, rfl, _, _⟩ | ⟨hne, hds⟩
  · simp only [List.cons_append, List.getD_cons_zero, if_true, List.drop_succ_cons,
      List.drop_zero, Nat.reduceEqDiff, if_false]
    obtain ⟨e, he⟩ := parseUint_nondigit (ds ++ [c]) ⟨c, by simp, hc⟩ b
    rw [he]
    simp
  · obtain ⟨c0, cs, rfl⟩ := List.exists_cons_of_ne_nil hne
    have hc0 := hds c0 (List.mem_cons_self _ _)
    have h43 : c0 ≠ 43 := by omega
    have h45 : c0 ≠ 45 := by omega
    simp only [List.cons_append, List.getD_cons_zero, h43, h45, if_false]
    obtain ⟨e, he⟩ := parseUint_nondigit (c0 :: (cs ++ [c])) ⟨c, by simp, hc⟩ b
    rw [he]
    simp

theorem atoi_trailing_nondigit (d : GoString) (c : Nat) (hd : isIntLiteral d = true)
    (hb : c < 256) (hc : ¬ (48 ≤ c ∧ c ≤ 57)) :
    ∃ e, (atoi (d ++ [c])).2 = some e := by
  by_cases hlen : (d ++ [c]).length < 19
  · have hpos : 0 < (d ++ [c]).length := by simp
    rcases isIntLiteral_cases d hd with ⟨ds, rfl, _, _⟩ | ⟨hne, hds⟩
    · have hloop := atoiLoop_nondigit (ds ++ [c]) ⟨c, by simp, hb, hc⟩ 0
      have hl : ¬ ((ds ++ [c]).length < 1) := by simp
      simp only [List.cons_append] at hpos hlen
      simp only [atoi, hpos, hlen, and_self, if_true, List.cons_append, List.getD_cons_zero,
        true_or, decide_True, List.drop_succ_cons, List.drop_zero, hl, and_false, if_false,
        hloop]
      exact ⟨_, rfl⟩
    · obtain ⟨c0, cs, rfl⟩ := List.exists_cons_of_ne_nil hne
      have hc0 := hds c0 (List.mem_cons_self _ _)
      have h43 : c0 ≠ 43 := by omega
      have h45 : c0 ≠ 45 := by omega
      have hloop := atoiLoop_nondigit (c0 :: (cs ++ [c])) ⟨c, by simp, hb, hc⟩ 0
      simp only [List.cons_append] at hpos hlen
      simp only [atoi, hpos, hlen, and_self, if_true, List.cons_append, List.getD_cons_zero,
        h43, h45, or_self, decide_False, Bool.false_eq_true, false_and, if_false, hloop]
      exact ⟨_, rfl⟩
  · obtain ⟨e, he⟩ := parseInt_trailing_nondigit d c hd hc 0 (Or.inl rfl)
    rw [atoi_long _ hlen]
    revert he
    generalize parseInt (d ++ [c]) 0 = r
    rcases r with ⟨i, _ | e1⟩
    · simp
    · intro _
      exact ⟨_, rfl⟩

/-! ## Lemmas on `is_int` and `iFix` -/

theorem is_intLoop_succ (vs : GoString) (i : Nat) (ok : Bool) :
    is_intLoop vs (i + 1) ok = (ok && vs.all isDigit) := by
  induction vs generalizing i ok with
  | nil => simp [is_intLoop]
  | cons v vs ih =>
    simp only [is_intLoop, Nat.add_one_ne_zero, if_false, ih, List.all_cons, isDigit,
      Bool.decide_and, ge_iff_le, Bool.and_assoc]

/-- What `is_int` computes: a single digit, or at least two bytes of which the
first is a digit or any byte up to `-` and the others are digits. -/
theorem is_int_eq (s : GoString) :
    is_int s = match s with
      | [] => false
      | [c] => isDigit c
      | c :: cs => (isDigit c || decide (c ≤ 45)) && cs.all isDigit := by
  match s with
  | [] => rfl
  | [c] => simp [is_int, isDigit]
  | c :: c2 :: cs =>
    simp only [is_int, List.length_cons, is_intLoop, if_true, Bool.true_and, zero_add,
      one_ne_zero, if_false, is_intLoop_succ, isDigit, Bool.decide_and, ge_iff_le,
      List.all_cons, Bool.and_assoc]

theorem is_int_of_literal (d : GoString) (hd : isIntLiteral d = true) : is_int d = true := by
  rw [is_int_eq]
  rcases isIntLiteral_cases d hd with ⟨ds, rfl, hne, hds⟩ | ⟨hne, hds⟩
  · obtain ⟨c, cs, rfl⟩ := List.exists_cons_of_ne_nil hne
    simp only [Bool.and_eq_true, Bool.or_eq_true, decide_eq_true_eq, List.all_eq_true, isDigit]
    exact ⟨Or.inr (by omega), hds⟩
  · match d, hne, hds with
    | [c], _, hds =>
      simp only [isDigit, decide_eq_true_eq]
      exact hds c (List.mem_cons_self _ _)
    | c :: c2 :: cs, _, hds =>
      simp only [Bool.and_eq_true, Bool.or_eq_true, decide_eq_true_eq, List.all_eq_true,
        isDigit]
      exact ⟨Or.inl (hds c (List.mem_cons_self _ _)),
        fun x hx => hds x (List.mem_cons_of_mem _ hx)⟩

/-- The body of `iFix` on a string with a last byte `c` after a non-empty `d`. -/
theorem iFix_append (d : GoString) (c : Nat) (hd : d ≠ []) :
    iFix (d ++ [c]) =
      if 48 ≤ c ∧ c ≤ 57 then d ++ [c]
      else if is_int d = false then d ++ [c]
      else match suffixExponent c with
        | some e => d ++ List.replicate e 48
        | none => d ++ [c] := by
  have hlen : 0 < d.length := List.length_pos.mpr hd
  have hn : ((((d ++ [c]).length : Nat) : Int) - 1).toNat = d.length := by
    simp
  have hn1 : ¬ ((((d ++ [c]).length : Nat) : Int) - 1 < 1) := by
    simp only [List.length_append, List.length_singleton]
    omega
  have hget : (d ++ [c]).getD d.length 0 = c := by
    simp [List.getD_eq_getElem?_getD]
  have htake : (d ++ [c]).take d.length = d := by simp
  simp only [iFix, hn, hn1, if_false, hget, htake, ge_iff_le]
  by_cases hc : 48 ≤ c ∧ c ≤ 57
  · simp only [hc, and_self, if_true]
  · simp only [hc, if_false]
    cases hi : is_int d
    · simp
    · simp only [Bool.not_true, Bool.false_eq_true, if_false, suffixExponent]
      by_cases h1 : c = 75
      · subst h1; rfl
      by_cases h2 : c = 77
      · subst h2; rfl
      by_cases h3 : c = 71
      · subst h3; rfl
      by_cases h4 : c = 84
      · subst h4; rfl
      by_cases h5 : c = 80
      · subst h5; rfl
      by_cases h6 : c = 69
      · subst h6; rfl
      simp only [h1, h2, h3, h4, h5, h6, if_false, reduceCtorEq, ite_self]

theorem iFix_short (s : GoString) (h : s.length < 2) : iFix s = s := by
  have : (s.length : Int) - 1 < 1 := by omega
  simp only [iFix, this, if_true]

theorem digitsValue_append_zeros (ds : GoString) (e : Nat) :
    digitsValue (ds ++ List.replicate e 48) = digitsValue ds * 10 ^ e := by
  unfold digitsValue
  rw [List.foldl_append]
  generalize ds.foldl (fun a c => a * 10 + (c - 48)) 0 = n
  induction e generalizing n with
  | zero => simp
  | succ e ih =>
    simp only [List.replicate_succ, List.foldl_cons, Nat.sub_self, Nat.add_zero]
    rw [ih, pow_succ]
    ring

theorem isIntLiteral_append_zeros (d : GoString) (e : Nat) (hd : isIntLiteral d = true) :
    isIntLiteral (d ++ List.replicate e 48) = true := by
  rcases isIntLiteral_cases d hd with ⟨ds, rfl, hne, hds⟩ | ⟨hne, hds⟩
  · obtain ⟨c, cs, rfl⟩ := List.exists_cons_of_ne_nil hne
    simp only [isIntLiteral, List.cons_append, List.isEmpty_cons, Bool.not_false,
      Bool.true_and, List.all_eq_true, isDigit, decide_eq_true_eq]
    intro x hx
    rcases List.mem_cons.mp hx with rfl | hx
    · exact hds _ (List.mem_cons_self _ _)
    · rcases List.mem_append.mp hx with hx | hx
      · exact hds _ (List.mem_cons_of_mem _ hx)
      · rw [List.eq_of_mem_replicate hx]
        omega
  · obtain ⟨c, cs, rfl⟩ := List.exists_cons_of_ne_nil hne
    have hc := hds c (List.mem_cons_self _ _)
    have h45 : c ≠ 45 := by omega
    unfold isIntLiteral
    split
    · rename_i ds heq
      simp only [List.cons_append, List.cons.injEq] at heq
      omega
    · simp only [List.cons_append, List.isEmpty_cons, Bool.not_false,
        Bool.true_and, List.all_eq_true, isDigit, decide_eq_true_eq]
      intro x hx
      rcases List.mem_cons.mp hx with rfl | hx
      · exact hc
      · rcases List.mem_append.mp hx with hx | hx
        · exact hds _ (List.mem_cons_of_mem _ hx)
        · rw [List.eq_of_mem_replicate hx]
          omega

theorem numeric_append_zeros (d : GoString) (e : Nat) (hd : isIntLiteral d = true) :
    numeric (d ++ List.replicate e 48) = numeric d * 10 ^ e := by
  rcases isIntLiteral_cases d hd with ⟨ds, rfl, _, _⟩ | ⟨hne, hds⟩
  · rw [List.cons_append, numeric_neg, numeric_neg, digitsValue_append_zeros]
    push_cast
    ring
  · have h1 := isIntLiteral_append_zeros d e hd
    rcases isIntLiteral_cases _ h1 with ⟨ds, heq, _, _⟩ | ⟨hne2, hds2⟩
    · obtain ⟨c, cs, rfl⟩ := List.exists_cons_of_ne_nil hne
      have hc := hds c (List.mem_cons_self _ _)
      simp only [List.cons_append, List.cons.injEq] at heq
      omega
    · rw [numeric_digits _ hne2 hds2, numeric_digits d hne hds, digitsValue_append_zeros]
      push_cast
      ring

theorem isIntLiteral_ne_nil (d : GoString) (hd : isIntLiteral d = true) : d ≠ [] := by
  rintro rfl
  simp [isIntLiteral] at hd

theorem iFix_suffix (d : GoString) (L e : Nat) (hd : isIntLiteral d = true)
    (hL : suffixExponent L = some e) : iFix (d ++ [L]) = d ++ List.replicate e 48 := by
  have hnd : ¬ (48 ≤ L ∧ L ≤ 57) := by
    intro h
    unfold suffixExponent at hL
    split_ifs at hL <;> omega
  rw [iFix_append d L (isIntLiteral_ne_nil d hd), if_neg hnd, is_int_of_literal d hd, hL]
  simp

theorem wrapInt_64 (x : Int) (h1 : -9223372036854775808 ≤ x) (h2 : x ≤ 9223372036854775807) :
    wrapInt 64 x = x := by
  unfold wrapInt
  norm_num
  omega

/-- When the three parsers of package strconv reject the string that `iFix`
returns, `setScalar` fails on every integer kind with their `*NumError` and
leaves the target as it was. -/
theorem setScalar_int_fails (fl : FloatLib) (v : Target) (p : GoString)
    (hk : isSignedKind v.kind = true ∨ isUnsignedKind v.kind = true)
    (h1 : ∃ e, (atoi (iFix p)).2 = some e) (h2 : ∃ e, (parseInt (iFix p) 64).2 = some e)
    (h3 : ∃ e, (parseUint (iFix p) 64).2 = some e) :
    (setScalar fl v p).1 = v ∧ ∃ e, (setScalar fl v p).2 = some (.num e) := by
  obtain ⟨e1, h1⟩ := h1
  obtain ⟨e2, h2⟩ := h2
  obtain ⟨e3, h3⟩ := h3
  have hint : set_int v p = (v, some (.num e1)) := by
    simp only [set_int]
    revert h1
    generalize atoi (iFix p) = r
    rcases r with ⟨x, _ | e⟩ <;> simp
  have hint64 : set_int64 v p = (v, some (.num e2)) := by
    simp only [set_int64]
    revert h2
    generalize parseInt (iFix p) 64 = r
    rcases r with ⟨x, _ | e⟩ <;> simp
  have huint : set_uint v p = (v, some (.num e1)) := by
    simp only [set_uint]
    revert h1
    generalize atoi (iFix p) = r
    rcases r with ⟨x, _ | e⟩ <;> simp
  have huint64 : set_uint64 v p = (v, some (.num e3)) := by
    simp only [set_uint64]
    revert h3
    generalize parseUint (iFix p) 64 = r
    rcases r with ⟨x, _ | e⟩ <;> simp
  simp only [isSignedKind, isUnsignedKind, Bool.decide_or, Bool.or_eq_true,
    decide_eq_true_eq] at hk
  rcases hk with (hk | hk | hk | hk | hk) | (hk | hk | hk | hk | hk) <;>
    simp only [setScalar, hk, hint, hint64, huint, huint64] <;>
    exact ⟨trivial, _, rfl⟩

theorem atoi_single_nondigit (c : Nat) (hb : c < 256) (hc : ¬ (48 ≤ c ∧ c ≤ 57)) :
    ∃ e, (atoi [c]).2 = some e := by
  have hloop : atoiLoop [c] 0 = none := atoiLoop_nondigit [c] ⟨c, by simp, hb, hc⟩ 0
  by_cases hs : c = 45 ∨ c = 43
  · simp only [atoi, List.length_singleton, Nat.lt_one_iff, List.getD_cons_zero, hs,
      decide_True, if_true, List.drop_succ_cons, List.drop_zero, List.length_nil]
    simp
  · simp only [atoi, List.length_singleton, List.getD_cons_zero, hs, decide_False,
      Bool.false_eq_true, if_false, false_and, hloop]
    simp

/-! ## Lemmas on canonical decimal strings -/

theorem foldl_reverse_digits (L : List Nat) :
    ((L.reverse.map (· + 48)).foldl (fun a c => a * 10 + (c - 48)) 0) = Nat.ofDigits 10 L := by
  induction L with
  | nil => rfl
  | cons h t ih =>
    simp only [List.reverse_cons, List.map_append, List.map_cons, List.map_nil,
      List.foldl_append, List.foldl_cons, List.foldl_nil, ih, Nat.ofDigits_cons]
    omega

theorem decimal_digits (n : Nat) : ∀ c ∈ decimal n, 48 ≤ c ∧ c ≤ 57 := by
  intro c hc
  unfold decimal at hc
  split_ifs at hc with h0
  · simp only [List.mem_singleton] at hc
    omega
  · simp only [List.mem_map, List.mem_reverse] at hc
    obtain ⟨d, hd, rfl⟩ := hc
    have := Nat.digits_lt_base (by norm_num : 1 < 10) hd
    omega

theorem decimal_ne_nil (n : Nat) : decimal n ≠ [] := by
  unfold decimal
  split_ifs with h0
  · simp
  · simp only [ne_eq, List.map_eq_nil_iff, List.reverse_eq_nil_iff]
    exact Nat.digits_ne_nil_iff_ne_zero.mpr h0

theorem digitsValue_decimal (n : Nat) : digitsValue (decimal n) = n := by
  unfold decimal digitsValue
  split_ifs with h0
  · subst h0
    rfl
  · rw [foldl_reverse_digits, Nat.ofDigits_digits]

theorem isIntLiteral_digits (p : GoString) (hne : p ≠ []) (hp : ∀ c ∈ p, 48 ≤ c ∧ c ≤ 57) :
    isIntLiteral p = true := by
  obtain ⟨c, cs, rfl⟩ := List.exists_cons_of_ne_nil hne
  have hc := hp c (List.mem_cons_self _ _)
  unfold isIntLiteral
  split
  · rename_i ds heq
    simp only [List.cons.injEq] at heq
    omega
  · simp only [List.isEmpty_cons, Bool.not_false, Bool.true_and, List.all_eq_true, isDigit,
      decide_eq_true_eq]
    exact hp

theorem isIntLiteral_neg_digits (ds : GoString) (hne : ds ≠ [])
    (hds : ∀ c ∈ ds, 48 ≤ c ∧ c ≤ 57) : isIntLiteral (45 :: ds) = true := by
  obtain ⟨c, cs, rfl⟩ := List.exists_cons_of_ne_nil hne
  simp only [isIntLiteral, List.isEmpty_cons, Bool.not_false, Bool.true_and, List.all_eq_true,
    isDigit, decide_eq_true_eq]
  exact hds

theorem isIntLiteral_decimalInt (n : Int) : isIntLiteral (decimalInt n) = true := by
  unfold decimalInt
  split_ifs
  · exact isIntLiteral_neg_digits _ (decimal_ne_nil _) (decimal_digits _)
  · exact isIntLiteral_digits _ (decimal_ne_nil _) (decimal_digits _)

theorem numeric_decimalInt (n : Int) : numeric (decimalInt n) = n := by
  unfold decimalInt
  split_ifs with h
  · rw [numeric_neg, digitsValue_decimal]
    omega
  · rw [numeric_digits _ (decimal_ne_nil _) (decimal_digits _), digitsValue_decimal]
    omega

/-- `iFix` returns an integer literal as it is: its last byte is a digit. -/
theorem iFix_literal (p : GoString) (hp : isIntLiteral p = true) : iFix p = p := by
  by_cases hlen : p.length < 2
  · exact iFix_short p hlen
  · have hne : p ≠ [] := isIntLiteral_ne_nil p hp
    have hlast : 48 ≤ p.getLast hne ∧ p.getLast hne ≤ 57 := by
      rcases isIntLiteral_cases p hp with ⟨ds, rfl, hne2, hds⟩ | ⟨_, hds⟩
      · rw [List.getLast_cons hne2]
        exact hds _ (List.getLast_mem hne2)
      · exact hds _ (List.getLast_mem hne)
    have hsplit := List.dropLast_append_getLast hne
    have hd : p.dropLast ≠ [] := by
      intro h
      have := congrArg List.length h
      simp only [List.length_dropLast, List.length_nil] at this
      omega
    rw [← hsplit, iFix_append _ _ hd, if_pos hlast]

/-! ## Lemmas on the reflect model -/

/-- `OverflowInt` on an `int64` value says whether it is outside the range of
the target's width. -/
theorem OverflowInt_iff (v : Target) (x : Int) (hk : isSignedKind v.kind = true)
    (h1 : -9223372036854775808 ≤ x) (h2 : x ≤ 9223372036854775807) :
    v.OverflowInt x = true ↔
      (x < -(2 : Int) ^ (v.kind.bitSize - 1) ∨ (2 : Int) ^ (v.kind.bitSize - 1) - 1 < x) := by
  rcases v with ⟨k, t, y⟩
  simp only [isSignedKind, Bool.decide_or, Bool.or_eq_true, decide_eq_true_eq] at hk
  rcases hk with rfl | rfl | rfl | rfl | rfl <;>
    simp only [Target.OverflowInt, Kind.bitSize, toInt64, bne_iff_ne, ne_eq] <;>
    norm_num <;> omega

theorem wrapInt_eq (k : Kind) (x : Int) (hk : isSignedKind k = true)
    (h1 : -(2 : Int) ^ (k.bitSize - 1) ≤ x) (h2 : x ≤ (2 : Int) ^ (k.bitSize - 1) - 1) :
    wrapInt k.bitSize x = x := by
  simp only [isSignedKind, Bool.decide_or, Bool.or_eq_true, decide_eq_true_eq] at hk
  rcases hk with rfl | rfl | rfl | rfl | rfl <;>
    simp only [wrapInt, Kind.bitSize] at h1 h2 ⊢ <;>
    norm_num at h1 h2 ⊢ <;> omega

theorem signed_range_int64 (k : Kind) (x : Int) (hk : isSignedKind k = true)
    (h1 : -(2 : Int) ^ (k.bitSize - 1) ≤ x) (h2 : x ≤ (2 : Int) ^ (k.bitSize - 1) - 1) :
    -9223372036854775808 ≤ x ∧ x ≤ 9223372036854775807 := by
  simp only [isSignedKind, Bool.decide_or, Bool.or_eq_true, decide_eq_true_eq] at hk
  rcases hk with rfl | rfl | rfl | rfl | rfl <;>
    simp only [Kind.bitSize] at h1 h2 <;>
    norm_num at h1 h2 <;> omega

/-- `OverflowUint` says whether a `uint64` value exceeds the target's width. -/
theorem OverflowUint_iff (v : Target) (x : Nat) (hk : isUnsignedKind v.kind = true)
    (h : x ≤ 18446744073709551615) :
    v.OverflowUint x = true ↔ 2 ^ v.kind.bitSize - 1 < x := by
  rcases v with ⟨k, t, y⟩
  simp only [isUnsignedKind, Bool.decide_or, Bool.or_eq_true, decide_eq_true_eq] at hk
  rcases hk with rfl | rfl | rfl | rfl | rfl <;>
    simp only [Target.OverflowUint, Kind.bitSize, bne_iff_ne, ne_eq] <;>
    norm_num <;> omega

/-! ## Lemmas on the time model -/

theorem appendInt_two (a b : Nat) (ha : 48 ≤ a ∧ a ≤ 57) (hb : 48 ≤ b ∧ b ≤ 57) :
    appendInt (((a : Int) - 48) * 10 + ((b : Int) - 48)) 2 = [a, b] := by
  have hx : ((a : Int) - 48) * 10 + ((b : Int) - 48) = (((a - 48) * 10 + (b - 48) : Nat) : Int) := by
    omega
  have hnn : ¬ ((((a - 48) * 10 + (b - 48) : Nat) : Int) < 0) := by omega
  rw [hx]
  simp only [appendInt, Int.natAbs_ofNat, hnn, if_false, List.nil_append]
  by_cases h10 : (a - 48) * 10 + (b - 48) ≥ 10
  · have h1 : ((a - 48) * 10 + (b - 48)) / 10 = a - 48 := by omega
    have h2 : ¬ (a - 48 ≥ 10) := by omega
    simp only [appendIntLoop, h10, if_true, h1, h2, if_false, List.length_cons,
      List.length_nil, List.replicate_zero, List.nil_append, Nat.sub_self]
    congr 1
    · omega
    · congr 1
      omega
  · have ha0 : a = 48 := by omega
    subst ha0
    simp only [appendIntLoop, h10, if_false, List.length_cons, List.length_nil]
    simp only [Nat.sub_self, Nat.zero_mul, Nat.zero_add, List.replicate_succ, List.replicate_zero,
      List.singleton_append, Nat.reduceSub]
    congr 1
    congr 1
    omega

theorem appendIntLoop_lt (fuel u : Nat) (acc : GoString) (h : u < 10) :
    appendIntLoop fuel u acc = (48 + u) :: acc := by
  have h1 : ¬ (u ≥ 10) := by omega
  cases fuel <;> simp only [appendIntLoop, h1, if_false]

theorem appendIntLoop_ge (fuel u : Nat) (acc : GoString) (h : u ≥ 10) :
    appendIntLoop (fuel + 1) u acc = appendIntLoop fuel (u / 10) ((48 + u % 10) :: acc) := by
  have e : u - u / 10 * 10 = u % 10 := by omega
  simp only [appendIntLoop, h, if_true, e]

theorem appendInt_four (x : Nat) (hx : x < 10000) :
    appendInt (x : Int) 4 = [48 + x / 1000, 48 + x / 100 % 10, 48 + x / 10 % 10, 48 + x % 10] := by
  have hnn : ¬ ((x : Int) < 0) := by omega
  simp only [appendInt, Int.natAbs_ofNat, hnn, if_false, List.nil_append]
  by_cases h1 : x ≥ 10
  · rw [appendIntLoop_ge 19 x [] h1]
    by_cases h2 : x / 10 ≥ 10
    · rw [appendIntLoop_ge 18 _ _ h2]
      by_cases h3 : x / 10 / 10 ≥ 10
      · rw [appendIntLoop_ge 17 _ _ h3, appendIntLoop_lt 17 (x / 10 / 10 / 10) _ (by omega)]
        simp only [List.length_cons, List.length_nil, Nat.reduceAdd, Nat.sub_self,
          List.replicate_zero, List.nil_append, List.cons.injEq, and_true]
        omega
      · rw [appendIntLoop_lt 18 (x / 10 / 10) _ (by omega)]
        simp only [List.length_cons, List.length_nil, Nat.reduceAdd, Nat.reduceSub,
          List.replicate_succ, List.replicate_zero, List.cons_append, List.nil_append,
          List.cons.injEq, and_true]
        omega
    · rw [appendIntLoop_lt 19 (x / 10) _ (by omega)]
      simp only [List.length_cons, List.length_nil, Nat.reduceAdd, Nat.reduceSub,
        List.replicate_succ, List.replicate_zero, List.cons_append, List.nil_append,
        List.cons.injEq, and_true]
      omega
  · rw [appendIntLoop_lt 20 x _ (by omega)]
    simp only [List.length_cons, List.length_nil, Nat.reduceAdd, Nat.reduceSub,
      List.replicate_succ, List.replicate_zero, List.cons_append, List.nil_append,
      List.cons.injEq, and_true]
    omega

theorem timeAtoi_four (a b c d : Nat) (ha : 48 ≤ a ∧ a ≤ 57) :
    timeAtoi [a, b, c, d] =
      if (48 ≤ b ∧ b ≤ 57) ∧ (48 ≤ c ∧ c ≤ 57) ∧ (48 ≤ d ∧ d ≤ 57)
      then some ((((a - 48) * 1000 + (b - 48) * 100 + (c - 48) * 10 + (d - 48) : Nat)) : Int)
      else none := by
  have h45 : ¬ (a = 45) := by omega
  have h43 : ¬ (a = 43) := by omega
  have hna : ¬ (a < 48 ∨ a > 57) := by omega
  have hxa : ¬ (0 > 9223372036854775808 / 10) := by norm_num
  have hya : ¬ (0 * 10 + a - 48 > 9223372036854775808) := by omega
  simp only [timeAtoi, List.length_cons, List.length_nil, List.getD_cons_zero, h45, h43,
    or_self, and_false, decide_False, if_false, leadingInt, hna, hxa, hya, Bool.false_eq_true]
  by_cases hb : 48 ≤ b ∧ b ≤ 57
  · have hnb : ¬ (b < 48 ∨ b > 57) := by omega
    have hxb : ¬ (0 * 10 + a - 48 > 9223372036854775808 / 10) := by omega
    have hyb : ¬ ((0 * 10 + a - 48) * 10 + b - 48 > 9223372036854775808) := by omega
    simp only [hnb, hxb, hyb, if_false, hb, true_and]
    by_cases hc : 48 ≤ c ∧ c ≤ 57
    · have hnc : ¬ (c < 48 ∨ c > 57) := by omega
      have hxc : ¬ ((0 * 10 + a - 48) * 10 + b - 48 > 9223372036854775808 / 10) := by omega
      have hyc : ¬ (((0 * 10 + a - 48) * 10 + b - 48) * 10 + c - 48 > 9223372036854775808) := by
        omega
      simp only [hnc, hxc, hyc, if_false, hc, true_and]
      by_cases hd : 48 ≤ d ∧ d ≤ 57
      · have hnd : ¬ (d < 48 ∨ d > 57) := by omega
        have hxd : ¬ (((0 * 10 + a - 48) * 10 + b - 48) * 10 + c - 48
            > 9223372036854775808 / 10) := by omega
        have hyd : ¬ ((((0 * 10 + a - 48) * 10 + b - 48) * 10 + c - 48) * 10 + d - 48
            > 9223372036854775808) := by omega
        simp only [hnd, hxd, hyd, if_false, hd, if_true]
        rw [toInt64_eq _ (by omega) (by omega)]
        congr 1
        omega
      · have hnd : d < 48 ∨ d > 57 := by omega
        simp only [hnd, if_true, hd, if_false]
    · have hnc : c < 48 ∨ c > 57 := by omega
      simp only [hnc, if_true, hc, false_and, if_false]
  · have hnb : b < 48 ∨ b > 57 := by omega
    simp only [hnb, if_true, hb, false_and, if_false]

theorem getnum_fixed (v : GoString) (x : Int) (r : GoString)
    (h : getnum v true = some (x, r)) :
    ∃ a b, v = a :: b :: r ∧ (48 ≤ a ∧ a ≤ 57) ∧ (48 ≤ b ∧ b ≤ 57) ∧
      x = ((a : Int) - 48) * 10 + ((b : Int) - 48) := by
  match v with
  | [] => simp [getnum, timeIsDigit] at h
  | [a] => simp [getnum, timeIsDigit] at h
  | a :: b :: rest =>
    simp only [getnum, timeIsDigit, List.length_cons, List.getD_cons_zero, List.getD_cons_succ,
      Nat.le_zero_eq, Nat.add_one_ne_zero, if_false, Bool.not_eq_true', decide_eq_false_iff_not,
      show ¬ (rest.length + 1 + 1 ≤ 1) from by omega, List.drop_succ_cons, List.drop_zero] at h
    by_cases ha : 48 ≤ a ∧ a ≤ 57
    · by_cases hb : 48 ≤ b ∧ b ≤ 57
      · simp only [ha, hb, and_self, not_true_eq_false, if_false, Option.some.injEq,
          Prod.mk.injEq] at h
        exact ⟨a, b, by rw [h.2], ha, hb, h.1.symm⟩
      · simp [ha, hb] at h
    · simp [ha] at h

theorem getnum_free (v : GoString) (x : Int) (r : GoString)
    (h : getnum v false = some (x, r)) :
    (∃ a b, v = a :: b :: r ∧ (48 ≤ a ∧ a ≤ 57) ∧ (48 ≤ b ∧ b ≤ 57) ∧
      x = ((a : Int) - 48) * 10 + ((b : Int) - 48)) ∨
    (∃ a, v = a :: r ∧ (48 ≤ a ∧ a ≤ 57)) := by
  match v with
  | [] => simp [getnum, timeIsDigit] at h
  | [a] =>
    by_cases ha : 48 ≤ a ∧ a ≤ 57
    · simp only [getnum, timeIsDigit, List.length_cons, List.length_nil, List.getD_cons_zero,
        ha, and_self, decide_True, Nat.le_zero_eq, Nat.add_one_ne_zero, if_false,
        Bool.not_true, Bool.false_eq_true, Nat.le_refl, if_true, Bool.not_false,
        List.drop_succ_cons, List.drop_zero, Option.some.injEq, Prod.mk.injEq, zero_add] at h
      exact Or.inr ⟨a, by rw [h.2], ha⟩
    · simp [getnum, timeIsDigit, ha] at h
  | a :: b :: rest =>
    simp only [getnum, timeIsDigit, List.length_cons, List.getD_cons_zero, List.getD_cons_succ,
      Nat.le_zero_eq, Nat.add_one_ne_zero, if_false, Bool.not_eq_true', decide_eq_false_iff_not,
      show ¬ (rest.length + 1 + 1 ≤ 1) from by omega, List.drop_succ_cons, List.drop_zero] at h
    by_cases ha : 48 ≤ a ∧ a ≤ 57
    · by_cases hb : 48 ≤ b ∧ b ≤ 57
      · simp only [ha, hb, and_self, not_true_eq_false, if_false, Option.some.injEq,
          Prod.mk.injEq] at h
        exact Or.inl ⟨a, b, by rw [h.2], ha, hb, h.1.symm⟩
      · simp only [ha, hb, and_self, not_true_eq_false, if_false, not_false_eq_true, if_true,
          Bool.false_eq_true, Option.some.injEq, Prod.mk.injEq] at h
        exact Or.inr ⟨a, by rw [h.2], ha⟩
    · simp [ha] at h

/-- What a successful reference element of `Parse` has read: a text in front of
the rest of the value, of the element's width unless it is a one-digit hour or
seconds with a fraction; only the element's own field has changed; and when
the text has the element's width (and is a plain offset, for `-0700`),
`Format` writes that text back from any state with the same field. -/
theorem parseStd_spec (std : Std) (st : ParseState) (v : GoString) (st1 : ParseState)
    (v1 : GoString) (h : parseStd std st v = some (st1, v1)) :
    ∃ txt, v = txt ++ v1 ∧
      (∀ std2, std2 ≠ std → st1.field std2 = st.field std2) ∧
      (txt.length = std.width ∨ (std = .stdHour ∧ txt.length = 1) ∨
        (std = .stdZeroSecond ∧ txt.length ≥ 4)) ∧
      (txt.length = std.width → (std = .stdNumTZ → plainOffset txt = true) →
        ∀ stf : ParseState, stf.field std = st1.field std →
          formatStd stf.toTime std = txt) := by
  cases std
  case stdLongYear =>
    simp only [parseStd] at h
    split_ifs at h with hc
    simp only [not_or, not_lt, Bool.not_eq_true', Bool.not_eq_false] at hc
    match v, hc with
    | a :: b :: c :: d :: rest, hc =>
      have ha : 48 ≤ a ∧ a ≤ 57 := by
        simpa [timeIsDigit] using hc.2
      simp only [List.take_succ_cons, List.take_zero, timeAtoi_four a b c d ha] at h
      split_ifs at h with hd
      simp only [List.drop_succ_cons, List.drop_zero, Option.some.injEq, Prod.mk.injEq] at h
      obtain ⟨h1, h2⟩ := h
      subst h1 h2
      refine ⟨[a, b, c, d], rfl, ?_, Or.inl rfl, ?_⟩
      · intro std2 hne
        cases std2 <;> first | rfl | exact absurd rfl hne
      · intro _ _ stf hf
        simp only [ParseState.field] at hf
        simp only [formatStd, ParseState.toTime, hf]
        rw [appendInt_four _ (by omega)]
        simp only [List.cons.injEq, and_true]
        omega
  case stdZeroMonth =>
    simp only [parseStd] at h
    cases hg : getnum v true with
    | none => simp [hg] at h
    | some r =>
      obtain ⟨x, rest⟩ := r
      obtain ⟨a, b, rfl, ha, hb, rfl⟩ := getnum_fixed v x rest hg
      simp only [hg] at h
      split_ifs at h with hc
      simp only [Option.some.injEq, Prod.mk.injEq] at h
      obtain ⟨h1, h2⟩ := h
      subst h1 h2
      refine ⟨[a, b], rfl, ?_, Or.inl rfl, ?_⟩
      · intro std2 hne
        cases std2 <;> first | rfl | exact absurd rfl hne
      · intro _ _ stf hf
        simp only [ParseState.field] at hf
        have hpos : ¬ (((a : Int) - 48) * 10 + ((b : Int) - 48) < 0) := by omega
        simp only [formatStd, ParseState.toTime, hf, hpos, if_false]
        exact appendInt_two a b ha hb
  case stdZeroDay =>
    simp only [parseStd] at h
    cases hg : getnum v true with
    | none => simp [hg] at h
    | some r =>
      obtain ⟨x, rest⟩ := r
      obtain ⟨a, b, rfl, ha, hb, rfl⟩ := getnum_fixed v x rest hg
      simp only [hg, Option.some.injEq, Prod.mk.injEq] at h
      obtain ⟨h1, h2⟩ := h
      subst h1 h2
      refine ⟨[a, b], rfl, ?_, Or.inl rfl, ?_⟩
      · intro std2 hne
        cases std2 <;> first | rfl | exact absurd rfl hne
      · intro _ _ stf hf
        simp only [ParseState.field] at hf
        have hpos : ¬ (((a : Int) - 48) * 10 + ((b : Int) - 48) < 0) := by omega
        simp only [formatStd, ParseState.toTime, hf, hpos, if_false]
        exact appendInt_two a b ha hb
  case stdHour =>
    simp only [parseStd] at h
    cases hg : getnum v false with
    | none => simp [hg] at h
    | some r =>
      obtain ⟨x, rest⟩ := r
      simp only [hg] at h
      split_ifs at h with hc
      simp only [Option.some.injEq, Prod.mk.injEq] at h
      obtain ⟨h1, h2⟩ := h
      subst h1 h2
      rcases getnum_free v x rest hg with ⟨a, b, rfl, ha, hb, rfl⟩ | ⟨a, rfl, ha⟩
      · refine ⟨[a, b], rfl, ?_, Or.inl rfl, ?_⟩
        · intro std2 hne
          cases std2 <;> first | rfl | exact absurd rfl hne
        · intro _ _ stf hf
          simp only [ParseState.field] at hf
          simp only [formatStd, ParseState.toTime, hf]
          exact appendInt_two a b ha hb
      · refine ⟨[a], rfl, ?_, Or.inr (Or.inl ⟨rfl, rfl⟩), ?_⟩
        · intro std2 hne
          cases std2 <;> first | rfl | exact absurd rfl hne
        · intro hw
          simp [Std.width] at hw
  case stdZeroMinute =>
    simp only [parseStd] at h
    cases hg : getnum v true with
    | none => simp [hg] at h
    | some r =>
      obtain ⟨x, rest⟩ := r
      obtain ⟨a, b, rfl, ha, hb, rfl⟩ := getnum_fixed v x rest hg
      simp only [hg] at h
      split_ifs at h with hc
      simp only [Option.some.injEq, Prod.mk.injEq] at h
      obtain ⟨h1, h2⟩ := h
      subst h1 h2
      refine ⟨[a, b], rfl, ?_, Or.inl rfl, ?_⟩
      · intro std2 hne
        cases std2 <;> first | rfl | exact absurd rfl hne
      · intro _ _ stf hf
        simp only [ParseState.field] at hf
        simp only [formatStd, ParseState.toTime, hf]
        exact appendInt_two a b ha hb
  case stdZeroSecond =>
    simp only [parseStd] at h
    cases hg : getnum v true with
    | none => simp [hg] at h
    | some r =>
      obtain ⟨x, rest⟩ := r
      obtain ⟨a, b, rfl, ha, hb, rfl⟩ := getnum_fixed v x rest hg
      simp only [hg] at h
      split_ifs at h with hc hfr
      · -- a fraction follows the seconds
        cases hp : parseNanoseconds rest (digitRun rest 2) with
        | none => simp [hp] at h
        | some ns =>
          simp only [hp, Option.some.injEq, Prod.mk.injEq] at h
          obtain ⟨h1, h2⟩ := h
          subst h1 h2
          refine ⟨a :: b :: rest.take (digitRun rest 2), ?_, ?_, Or.inr (Or.inr ⟨rfl, ?_⟩), ?_⟩
          · simp only [List.cons_append, List.take_append_drop]
          · intro std2 hne
            cases std2 <;> first | rfl | exact absurd rfl hne
          · have hn : 2 ≤ digitRun rest 2 := by
              unfold digitRun
              omega
            simp only [List.length_cons, List.length_take]
            omega
          · intro hw
            have hn : 2 ≤ digitRun rest 2 := by
              unfold digitRun
              omega
            simp only [List.length_cons, List.length_take, Std.width] at hw
            omega
      · simp only [Option.some.injEq, Prod.mk.injEq] at h
        obtain ⟨h1, h2⟩ := h
        subst h1 h2
        refine ⟨[a, b], rfl, ?_, Or.inl rfl, ?_⟩
        · intro std2 hne
          cases std2 <;> first | rfl | exact absurd rfl hne
        · intro _ _ stf hf
          simp only [ParseState.field] at hf
          simp only [formatStd, ParseState.toTime, hf]
          exact appendInt_two a b ha hb
  case stdNumTZ =>
    rcases v with _ | ⟨sg, _ | ⟨h1, _ | ⟨h2, _ | ⟨m1, _ | ⟨m2, rest⟩⟩⟩⟩⟩
    · simp [parseStd] at h
    · simp [parseStd] at h
    · simp [parseStd] at h
    · simp [parseStd] at h
    · simp [parseStd] at h
    · have hlen : ¬ ((sg :: h1 :: h2 :: m1 :: m2 :: rest).length < 5) := by simp
      simp only [parseStd, hlen, if_false, List.take_succ_cons, List.take_zero,
        List.drop_succ_cons, List.drop_zero, List.getD_cons_zero] at h
      cases hgh : getnum [h1, h2] true with
      | none => simp [hgh] at h
      | some rh =>
        cases hgm : getnum [m1, m2] true with
        | none => simp [hgh, hgm] at h
        | some rm =>
          obtain ⟨hr, rh2⟩ := rh
          obtain ⟨mm, rm2⟩ := rm
          obtain ⟨a, b, hab, ha, hb, rfl⟩ := getnum_fixed _ hr rh2 hgh
          obtain ⟨c, d, hcd, hc, hd, rfl⟩ := getnum_fixed _ mm rm2 hgm
          simp only [List.cons.injEq] at hab hcd
          obtain ⟨rfl, rfl, _⟩ := hab
          obtain ⟨rfl, rfl, _⟩ := hcd
          simp only [hgh, hgm] at h
          by_cases hrange : ((h1 : Int) - 48) * 10 + ((h2 : Int) - 48) > 24 ∨
              ((m1 : Int) - 48) * 10 + ((m2 : Int) - 48) > 60
          · simp [hrange] at h
          simp only [hrange, if_false] at h
          by_cases hplus : sg = 43
          · -- sign `+`
            subst hplus
            simp only [if_true] at h
            simp only [Option.some.injEq, Prod.mk.injEq] at h
            obtain ⟨h1', h2'⟩ := h
            subst h1' h2'
            refine ⟨[43, h1, h2, m1, m2], rfl, ?_, Or.inl rfl, ?_⟩
            · intro std2 hne
              cases std2 <;> first | rfl | exact absurd rfl hne
            · intro _ hplain stf hf
              have hp := hplain rfl
              simp only [plainOffset, str, Bool.and_eq_true, decide_eq_true_eq, ne_eq,
                List.drop_succ_cons, List.drop_zero] at hp
              have hm60 : ¬ (m1 = 54 ∧ m2 = 48) := by
                intro hh
                apply hp.2
                rw [hh.1, hh.2]
                rfl
              simp only [ParseState.field] at hf
              have hne1 : stf.zoneOffset ≠ -1 := by rw [hf]; omega
              have hzone : Int.tdiv stf.zoneOffset 60 =
                  (((h1 : Int) - 48) * 10 + ((h2 : Int) - 48)) * 60
                    + (((m1 : Int) - 48) * 10 + ((m2 : Int) - 48)) := by
                rw [hf]
                exact Int.mul_tdiv_cancel _ (by norm_num)
              have hnneg : ¬ ((((h1 : Int) - 48) * 10 + ((h2 : Int) - 48)) * 60
                    + (((m1 : Int) - 48) * 10 + ((m2 : Int) - 48)) < 0) := by omega
              have hq : Int.tdiv ((((h1 : Int) - 48) * 10 + ((h2 : Int) - 48)) * 60
                    + (((m1 : Int) - 48) * 10 + ((m2 : Int) - 48))) 60
                  = ((h1 : Int) - 48) * 10 + ((h2 : Int) - 48) := by
                rw [Int.tdiv_eq_ediv (by omega) (by norm_num)]
                omega
              have hr : Int.tmod ((((h1 : Int) - 48) * 10 + ((h2 : Int) - 48)) * 60
                    + (((m1 : Int) - 48) * 10 + ((m2 : Int) - 48))) 60
                  = ((m1 : Int) - 48) * 10 + ((m2 : Int) - 48) := by
                rw [Int.tmod_eq_emod (by omega) (by norm_num)]
                omega
              simp only [formatStd, ParseState.toTime, hne1, ne_eq, not_false_eq_true, if_true,
                hzone, hnneg, if_false, hq, hr, appendInt_two h1 h2 ha hb,
                appendInt_two m1 m2 hc hd]
              rfl
          by_cases hminus : sg = 45
          · -- sign `-`
            subst hminus
            simp only [Nat.reduceEqDiff, if_false, if_true] at h
            simp only [Option.some.injEq, Prod.mk.injEq] at h
            obtain ⟨h1', h2'⟩ := h
            subst h1' h2'
            refine ⟨[45, h1, h2, m1, m2], rfl, ?_, Or.inl rfl, ?_⟩
            · intro std2 hne
              cases std2 <;> first | rfl | exact absurd rfl hne
            · intro _ hplain stf hf
              have hp := hplain rfl
              simp only [plainOffset, str, Bool.and_eq_true, decide_eq_true_eq, ne_eq,
                List.drop_succ_cons, List.drop_zero] at hp
              have hm60 : ¬ (m1 = 54 ∧ m2 = 48) := by
                intro hh
                apply hp.2
                rw [hh.1, hh.2]
                rfl
              have hzero : ¬ (h1 = 48 ∧ h2 = 48 ∧ m1 = 48 ∧ m2 = 48) := by
                intro hh
                apply hp.1
                rw [hh.1, hh.2.1, hh.2.2.1, hh.2.2.2]
                rfl
              simp only [ParseState.field] at hf
              have hne1 : stf.zoneOffset ≠ -1 := by rw [hf]; omega
              have hzone : Int.tdiv stf.zoneOffset 60 =
                  -((((h1 : Int) - 48) * 10 + ((h2 : Int) - 48)) * 60
                    + (((m1 : Int) - 48) * 10 + ((m2 : Int) - 48))) := by
                rw [hf, Int.neg_tdiv]
                congr 1
                exact Int.mul_tdiv_cancel _ (by norm_num)
              have hneg : -((((h1 : Int) - 48) * 10 + ((h2 : Int) - 48)) * 60
                    + (((m1 : Int) - 48) * 10 + ((m2 : Int) - 48))) < 0 := by omega
              have hq : Int.tdiv ((((h1 : Int) - 48) * 10 + ((h2 : Int) - 48)) * 60
                    + (((m1 : Int) - 48) * 10 + ((m2 : Int) - 48))) 60
                  = ((h1 : Int) - 48) * 10 + ((h2 : Int) - 48) := by
                rw [Int.tdiv_eq_ediv (by omega) (by norm_num)]
                omega
              have hr : Int.tmod ((((h1 : Int) - 48) * 10 + ((h2 : Int) - 48)) * 60
                    + (((m1 : Int) - 48) * 10 + ((m2 : Int) - 48))) 60
                  = ((m1 : Int) - 48) * 10 + ((m2 : Int) - 48) := by
                rw [Int.tmod_eq_emod (by omega) (by norm_num)]
                omega
              simp only [formatStd, ParseState.toTime, hne1, ne_eq, not_false_eq_true, if_true,
                hzone, hneg, neg_neg, hq, hr, appendInt_two h1 h2 ha hb,
                appendInt_two m1 m2 hc hd]
              rfl

          · simp [hplus, hminus] at h

theorem noDoubleSpace_tail (a : Nat) (v : GoString) (h : noDoubleSpace (a :: v) = true) :
    noDoubleSpace v = true := by
  cases v with
  | nil => rfl
  | cons b cs =>
    simp only [noDoubleSpace, Bool.and_eq_true] at h
    exact h.2

theorem noDoubleSpace_append (u v : GoString) (h : noDoubleSpace (u ++ v) = true) :
    noDoubleSpace v = true := by
  induction u with
  | nil => exact h
  | cons a u ih => exact ih (noDoubleSpace_tail a _ h)

theorem cutspace_of_head (v : GoString) (h : v.getD 0 0 ≠ 32) : cutspace v = v := by
  cases v with
  | nil => rfl
  | cons c cs =>
    simp only [List.getD_cons_zero] at h
    simp only [cutspace, h, if_false]

/-- `skip` on the prefixes of the layouts of decode.go: the value starts with
the prefix; a space prefix also matches the empty value. -/
theorem skip_spec (v pre v1 : GoString)
    (hpre : pre = [] ∨ pre = [45] ∨ pre = [58] ∨ pre = [32])
    (hsp : noDoubleSpace v = true) (h : skip v pre = some v1) :
    v = pre ++ v1 ∨ (v = [] ∧ v1 = []) := by
  rcases hpre with rfl | rfl | rfl | rfl
  · simp only [skip, skipLoop, Option.some.injEq] at h
    left
    simp [h]
  · cases v with
    | nil => simp [skip, skipLoop] at h
    | cons c cs =>
      simp only [skip, skipLoop, Nat.reduceEqDiff, if_false, List.length_cons,
        Nat.add_one_ne_zero, List.getD_cons_zero, false_or, List.drop_succ_cons,
        List.drop_zero] at h
      split_ifs at h with hc
      simp only [Option.some.injEq] at h
      left
      simp only [not_not] at hc
      rw [hc, h]
      rfl
  · cases v with
    | nil => simp [skip, skipLoop] at h
    | cons c cs =>
      simp only [skip, skipLoop, Nat.reduceEqDiff, if_false, List.length_cons,
        Nat.add_one_ne_zero, List.getD_cons_zero, false_or, List.drop_succ_cons,
        List.drop_zero] at h
      split_ifs at h with hc
      simp only [Option.some.injEq] at h
      left
      simp only [not_not] at hc
      rw [hc, h]
      rfl
  · cases v with
    | nil =>
      simp only [skip, skipLoop, if_true, List.length_nil, Nat.lt_irrefl, false_and, if_false,
        Bool.false_eq_true, cutspace, Option.some.injEq, gt_iff_lt] at h
      right
      exact ⟨rfl, h.symm⟩
    | cons c cs =>
      simp only [skip, skipLoop, if_true, Bool.false_eq_true, if_false, List.length_cons,
        gt_iff_lt, Nat.zero_lt_succ, true_and, List.getD_cons_zero, ne_eq] at h
      split_ifs at h with hc
      simp only [not_not] at hc
      subst hc
      simp only [Option.some.injEq, cutspace, if_true] at h
      left
      have hcs : cs.getD 0 0 ≠ 32 := by
        cases cs with
        | nil => simp
        | cons d ds =>
          simp only [noDoubleSpace, decide_True, Bool.true_and, Bool.and_eq_true,
            Bool.not_eq_true', decide_eq_false_iff_not] at hsp
          simpa using hsp.1
      rw [cutspace_of_head cs hcs] at h
      rw [h]
      rfl

theorem offsetText_append (u v : GoString) (h : 5 ≤ v.length) :
    offsetText (u ++ v) = offsetText v := by
  unfold offsetText
  rw [List.length_append, List.drop_append_eq_append_drop]
  have h1 : u.length + v.length - 5 - u.length = v.length - 5 := by omega
  have h2 : u.length ≤ u.length + v.length - 5 := by omega
  rw [h1, List.drop_of_length_le h2]
  rfl

theorem offsetText_self (u v : GoString) (h : v.length = 5) :
    offsetText (u ++ v) = v := by
  rw [offsetText_append u v (by omega)]
  unfold offsetText
  simp [h]

theorem tzLast_tail (c : GoString × Std) (cs : List (GoString × Std))
    (h : tzLast (c :: cs) = true) : tzLast cs = true := by
  cases cs with
  | nil => rfl
  | cons d ds =>
    simp only [tzLast, Bool.and_eq_true] at h
    exact h.2

theorem tzLast_head (c : GoString × Std) (cs : List (GoString × Std))
    (h : tzLast (c :: cs) = true) (hc : c.2 = .stdNumTZ) : cs = [] := by
  cases cs with
  | nil => rfl
  | cons d ds =>
    simp only [tzLast, Bool.and_eq_true, decide_eq_true_eq] at h
    exact absurd hc h.1

/-- The loop of `Parse` over chunks whose prefixes are those of decode.go's
layouts, whose elements are distinct and where `-0700` comes last, on a value
without two adjacent spaces.  Fields of elements that do not occur are kept; a
value read with `-0700` has five bytes at least; and the length of the value is
the width of the layout, less one for a one-digit hour, plus the length of a
fraction of the seconds.  When there is neither and the offset is plain,
formatting the final state gives the value back. -/
theorem parseChunks_spec (chunks : List (GoString × Std)) :
    (∀ c ∈ chunks, c.1 = [] ∨ c.1 = [45] ∨ c.1 = [58] ∨ c.1 = [32]) →
    (chunks.map Prod.snd).Nodup → tzLast chunks = true →
    ∀ (st : ParseState) (v : GoString) (stf : ParseState),
      parseChunks chunks st v = some stf → noDoubleSpace v = true →
      (∀ std, std ∉ chunks.map Prod.snd → stf.field std = st.field std) ∧
      (Std.stdNumTZ ∈ chunks.map Prod.snd → 5 ≤ v.length) ∧
      ∃ short long : Nat, v.length + short = chunksWidth chunks + long ∧
        (short = 0 ∨ (short = 1 ∧ Std.stdHour ∈ chunks.map Prod.snd)) ∧
        (long = 0 ∨ (2 ≤ long ∧ Std.stdZeroSecond ∈ chunks.map Prod.snd)) ∧
        (short = 0 → long = 0 →
          (Std.stdNumTZ ∈ chunks.map Prod.snd → plainOffset (offsetText v) = true) →
          (chunks.map fun c => c.1 ++ formatStd stf.toTime c.2).flatten = v) := by
  induction chunks with
  | nil =>
    intro _ _ _ st v stf h _
    simp only [parseChunks] at h
    split_ifs at h with hv
    simp only [ne_eq, List.length_eq_zero, not_not] at hv
    simp only [Option.some.injEq] at h
    subst h hv
    refine ⟨fun _ _ => rfl, by simp, 0, 0, by simp [chunksWidth], Or.inl rfl, Or.inl rfl, ?_⟩
    intro _ _ _
    rfl
  | cons c rest ih =>
    intro hpre hnodup htz st v stf h hsp
    obtain ⟨pre, std⟩ := c
    have hpre1 := hpre (pre, std) (List.mem_cons_self _ _)
    have hpre2 : ∀ c ∈ rest, c.1 = [] ∨ c.1 = [45] ∨ c.1 = [58] ∨ c.1 = [32] :=
      fun c hc => hpre c (List.mem_cons_of_mem _ hc)
    simp only [List.map_cons, List.nodup_cons] at hnodup
    obtain ⟨hnotin, hnodup2⟩ := hnodup
    have htz2 := tzLast_tail _ _ htz
    simp only [parseChunks] at h
    cases hs : skip v pre with
    | none => simp [hs] at h
    | some v1 =>
      simp only [hs] at h
      cases hps : parseStd std st v1 with
      | none => simp [hps] at h
      | some r =>
        obtain ⟨st1, v2⟩ := r
        simp only [hps] at h
        obtain ⟨txt, hv1, hframe, hlen, hrender⟩ := parseStd_spec std st v1 st1 v2 hps
        have htxtpos : 1 ≤ txt.length := by
          rcases hlen with hl | ⟨_, hl⟩ | ⟨_, hl⟩
          · rw [hl]
            cases std <;> simp [Std.width]
          · omega
          · omega
        have hv : v = pre ++ v1 := by
          rcases skip_spec v pre v1 hpre1 hsp hs with hv | ⟨_, hv1e⟩
          · exact hv
          · rw [hv1e] at hv1
            have := congrArg List.length hv1
            simp only [List.length_nil, List.length_append] at this
            omega
        have hsp1 : noDoubleSpace v1 = true := noDoubleSpace_append pre v1 (hv ▸ hsp)
        have hsp2 : noDoubleSpace v2 = true := noDoubleSpace_append txt v2 (hv1 ▸ hsp1)
        obtain ⟨hF, hT, short, long, hL, hshort, hlong, hR⟩ :=
          ih hpre2 hnodup2 htz2 st1 v2 stf h hsp2
        have hvlen : v.length = pre.length + txt.length + v2.length := by
          rw [hv, hv1]
          simp only [List.length_append]
          omega
        have hfield : stf.field std = st1.field std := hF std hnotin
        refine ⟨?_, ?_, ?_⟩
        · intro std2 hstd2
          simp only [List.map_cons, List.mem_cons, not_or] at hstd2
          rw [hF std2 hstd2.2, hframe std2 hstd2.1]
        · intro hmem
          simp only [List.map_cons, List.mem_cons] at hmem
          rcases hmem with hmem | hmem
          · rcases hlen with hl | ⟨hh, _⟩ | ⟨hh, _⟩
            · rw [← hmem] at hl
              simp only [Std.width] at hl
              omega
            · rw [hh] at hmem
              exact absurd hmem (by decide)
            · rw [hh] at hmem
              exact absurd hmem (by decide)
          · have := hT hmem
            omega
        · have hW : chunksWidth ((pre, std) :: rest) =
              pre.length + std.width + chunksWidth rest := by
            simp only [chunksWidth, List.map_cons, List.sum_cons]
          rcases hlen with hl | ⟨hh, hl⟩ | ⟨hh, hl⟩
          · -- the text has the width of the element
            refine ⟨short, long, by rw [hW]; omega, ?_, ?_, ?_⟩
            · rcases hshort with h0 | ⟨h1, hm⟩
              · exact Or.inl h0
              · exact Or.inr ⟨h1, List.mem_cons_of_mem _ hm⟩
            · rcases hlong with h0 | ⟨h1, hm⟩
              · exact Or.inl h0
              · exact Or.inr ⟨h1, List.mem_cons_of_mem _ hm⟩
            · intro hs0 hl0 hplain
              have hrest := hR hs0 hl0 (by
                intro hmem
                have h5 := hT hmem
                have := hplain (List.mem_cons_of_mem _ hmem)
                rw [hv, hv1, ← List.append_assoc, offsetText_append _ v2 h5] at this
                exact this)
              have hhead : formatStd stf.toTime std = txt := by
                apply hrender hl _ stf hfield
                intro hstd
                have hrest0 : rest = [] := tzLast_head _ _ htz hstd
                subst hrest0
                simp only [parseChunks] at h
                split_ifs at h with hv2
                simp only [ne_eq, List.length_eq_zero, not_not] at hv2
                have := hplain (by simp [hstd])
                rw [hv, hv1, hv2, List.append_nil, offsetText_self pre txt
                  (by rw [hl, hstd]; rfl)] at this
                exact this
              simp only [List.map_cons, List.flatten_cons, hhead, hrest]
              rw [hv, hv1, List.append_assoc]
          · -- a one-digit hour
            subst hh
            have hs0 : short = 0 := by
              rcases hshort with h0 | ⟨_, hm⟩
              · exact h0
              · exact absurd hm hnotin
            refine ⟨1, long, by rw [hW]; simp only [Std.width]; omega, ?_, ?_, ?_⟩
            · exact Or.inr ⟨rfl, List.mem_cons_self _ _⟩
            · rcases hlong with h0 | ⟨h1, hm⟩
              · exact Or.inl h0
              · exact Or.inr ⟨h1, List.mem_cons_of_mem _ hm⟩
            · intro h10
              omega
          · -- seconds with a fraction
            subst hh
            have hl0 : long = 0 := by
              rcases hlong with h0 | ⟨_, hm⟩
              · exact h0
              · exact absurd hm hnotin
            refine ⟨short, txt.length - 2, by rw [hW]; simp only [Std.width]; omega, ?_, ?_, ?_⟩
            · rcases hshort with h0 | ⟨h1, hm⟩
              · exact Or.inl h0
              · exact Or.inr ⟨h1, List.mem_cons_of_mem _ hm⟩
            · exact Or.inr ⟨by omega, List.mem_cons_self _ _⟩
            · intro _ h20
              omega

theorem set_time_eq (v : Target) (s : GoString) :
    set_time v s = match timeParse (selectedFormat s.length) s with
      | .ok t => (v.SetTime t, none)
      | .error err => (v, some err) := rfl

theorem timeParse_ok (l : Layout) (s : GoString) (t : Time) (h : timeParse l s = .ok t) :
    ∃ st, parseChunks l.chunks {} s = some st ∧ t = st.toTime := by
  simp only [timeParse] at h
  cases hp : parseChunks l.chunks {} s with
  | none => simp [hp] at h
  | some st =>
    simp only [hp] at h
    by_cases hd : (if st.day < 0 then 1 else st.day) < 1 ∨
        (if st.day < 0 then 1 else st.day) > daysIn (if st.month < 0 then 1 else st.month) st.year
    · simp only [hd, if_true, reduceCtorEq] at h
    · simp only [hd, if_false, Except.ok.injEq] at h
      exact ⟨st, rfl, h.symm⟩

/-- Round trip for one layout of decode.go: a value as long as the layout is
wide, without two adjacent spaces and with a plain offset, is formatted back
as it was. -/
theorem roundtrip_layout (l : Layout) (s : GoString) (t : Time)
    (hpre : ∀ c ∈ l.chunks, c.1 = [] ∨ c.1 = [45] ∨ c.1 = [58] ∨ c.1 = [32])
    (hnodup : (l.chunks.map Prod.snd).Nodup) (htz : tzLast l.chunks = true)
    (hw : s.length = chunksWidth l.chunks)
    (h : timeParse l s = .ok t) (hsp : noDoubleSpace s = true)
    (hoff : Std.stdNumTZ ∈ l.chunks.map Prod.snd → plainOffset (offsetText s) = true) :
    t.Format l = s := by
  obtain ⟨st, hp, rfl⟩ := timeParse_ok l s t h
  obtain ⟨_, _, short, long, hL, hshort, hlong, hR⟩ :=
    parseChunks_spec l.chunks hpre hnodup htz {} s st hp hsp
  have hs0 : short = 0 := by
    rcases hshort with h0 | ⟨h1, _⟩ <;> rcases hlong with h2 | ⟨h3, _⟩ <;> omega
  have hl0 : long = 0 := by omega
  exact hR hs0 hl0 hoff

/-! ### What `Format` writes -/

theorem appendIntLoop_bytes (fuel u : Nat) (acc : GoString) (hacc : ∀ c ∈ acc, 48 ≤ c) :
    ∀ c ∈ appendIntLoop fuel u acc, 48 ≤ c := by
  induction fuel generalizing u acc with
  | zero =>
    intro c hc
    simp only [appendIntLoop, List.mem_cons] at hc
    rcases hc with rfl | hc
    · omega
    · exact hacc c hc
  | succ fuel ih =>
    intro c hc
    simp only [appendIntLoop] at hc
    split_ifs at hc with h
    · refine ih _ _ ?_ c hc
      intro x hx
      rcases List.mem_cons.mp hx with rfl | hx
      · omega
      · exact hacc x hx
    · rcases List.mem_cons.mp hc with rfl | hc
      · omega
      · exact hacc c hc

theorem appendIntLoop_length (fuel u : Nat) (acc : GoString) :
    acc.length + 1 ≤ (appendIntLoop fuel u acc).length := by
  induction fuel generalizing u acc with
  | zero => simp [appendIntLoop]
  | succ fuel ih =>
    simp only [appendIntLoop]
    split_ifs with h
    · have := ih (u / 10) ((48 + (u - u / 10 * 10)) :: acc)
      simp only [List.length_cons] at this
      omega
    · simp

/-- `appendInt` of a number that is not negative writes at least `width`
bytes, all of them `0` or above. -/
theorem appendInt_nonneg (x : Int) (w : Nat) (hx : 0 ≤ x) :
    (∀ c ∈ appendInt x w, 48 ≤ c) ∧ w ≤ (appendInt x w).length ∧
      1 ≤ (appendInt x w).length := by
  have hnn : ¬ (x < 0) := by omega
  have hb := appendIntLoop_bytes 20 x.natAbs [] (by simp)
  have hl := appendIntLoop_length 20 x.natAbs []
  simp only [appendInt, hnn, if_false, List.nil_append]
  refine ⟨?_, ?_, ?_⟩
  · intro c hc
    rcases List.mem_append.mp hc with hc | hc
    · rw [List.eq_of_mem_replicate hc]
    · exact hb c hc
  · simp only [List.length_append, List.length_replicate]
    omega
  · simp only [List.length_append, List.length_replicate, List.length_nil] at hl ⊢
    omega

/-- `appendInt` writes no space and at least one byte. -/
theorem appendInt_no_space (x : Int) (w : Nat) :
    (∀ c ∈ appendInt x w, c ≠ 32) ∧ appendInt x w ≠ [] := by
  have hb := appendIntLoop_bytes 20 x.natAbs [] (by simp)
  have hl := appendIntLoop_length 20 x.natAbs []
  simp only [appendInt]
  constructor
  · intro c hc
    rcases List.mem_append.mp hc with hc | hc
    · rcases List.mem_append.mp hc with hc | hc
      · split_ifs at hc
        · simp only [List.mem_singleton] at hc
          omega
        · simp at hc
      · rw [List.eq_of_mem_replicate hc]
        omega
    · have := hb c hc
      omega
  · intro h
    have := congrArg List.length h
    simp only [List.length_append, List.length_nil, List.length_replicate] at this hl
    omega

/-- Every reference element is written without a space and is not empty. -/
theorem formatStd_no_space (t : Time) (std : Std) :
    (∀ c ∈ formatStd t std, c ≠ 32) ∧ formatStd t std ≠ [] := by
  cases std
  case stdNumTZ =>
    simp only [formatStd]
    constructor
    · intro c hc
      rcases List.mem_append.mp hc with hc | hc
      · rcases List.mem_append.mp hc with hc | hc
        · split_ifs at hc <;> simp only [List.mem_singleton] at hc <;> omega
        · exact (appendInt_no_space _ _).1 c hc
      · exact (appendInt_no_space _ _).1 c hc
    · intro h
      have := congrArg List.length h
      simp only [List.length_append, List.length_nil] at this
      split_ifs at this <;> simp at this
  all_goals exact appendInt_no_space _ _

theorem noDoubleSpace_text_append (txt rest : GoString) (h1 : ∀ c ∈ txt, c ≠ 32)
    (h2 : noDoubleSpace rest = true) : noDoubleSpace (txt ++ rest) = true := by
  induction txt with
  | nil => exact h2
  | cons a t ih =>
    have ha : a ≠ 32 := h1 a (List.mem_cons_self _ _)
    have ht := ih (fun c hc => h1 c (List.mem_cons_of_mem _ hc))
    cases hx : t ++ rest with
    | nil => simp [hx, noDoubleSpace]
    | cons b cs =>
      rw [hx] at ht
      simp only [List.cons_append, hx, noDoubleSpace, ha, decide_False, Bool.false_and,
        Bool.not_false, Bool.true_and, ht]

/-- A time formatted with chunks whose prefixes are those of decode.go's
layouts has no two adjacent spaces. -/
theorem format_noDoubleSpace (t : Time) (chunks : List (GoString × Std))
    (hpre : ∀ c ∈ chunks, c.1 = [] ∨ c.1 = [45] ∨ c.1 = [58] ∨ c.1 = [32]) :
    noDoubleSpace (chunks.map fun c => c.1 ++ formatStd t c.2).flatten = true := by
  induction chunks with
  | nil => rfl
  | cons c rest ih =>
    obtain ⟨pre, std⟩ := c
    have hrest := ih (fun c hc => hpre c (List.mem_cons_of_mem _ hc))
    obtain ⟨hns, hne⟩ := formatStd_no_space t std
    have hbody := noDoubleSpace_text_append (formatStd t std) _ hns hrest
    obtain ⟨a, as, has⟩ := List.exists_cons_of_ne_nil hne
    have ha : a ≠ 32 := hns a (by rw [has]; exact List.mem_cons_self _ _)
    have hp : pre = [] ∨ pre = [45] ∨ pre = [58] ∨ pre = [32] :=
      hpre (pre, std) (List.mem_cons_self _ _)
    simp only [List.map_cons, List.flatten_cons, List.append_assoc]
    rw [has] at hbody ⊢
    simp only [List.cons_append] at hbody ⊢
    rcases hp with rfl | rfl | rfl | rfl
    · exact hbody
    · simp only [List.cons_append, List.nil_append, noDoubleSpace, ha, decide_False,
        Bool.and_false, Bool.not_false, Bool.true_and]
      exact hbody
    · simp only [List.cons_append, List.nil_append, noDoubleSpace, ha, decide_False,
        Bool.and_false, Bool.not_false, Bool.true_and]
      exact hbody
    · simp only [List.cons_append, List.nil_append, noDoubleSpace, ha, decide_False,
        Bool.and_false, Bool.not_false, Bool.true_and]
      exact hbody

theorem appendInt_of_lt_100 (x : Int) (h0 : 0 ≤ x) (h1 : x < 100) :
    appendInt x 2 = [48 + x.toNat / 10, 48 + x.toNat % 10] := by
  have h := appendInt_two (48 + x.toNat / 10) (48 + x.toNat % 10) (by omega) (by omega)
  have e : (((48 + x.toNat / 10 : Nat) : Int) - 48) * 10 + (((48 + x.toNat % 10 : Nat) : Int) - 48)
      = x := by
    omega
  rw [e] at h
  exact h

theorem appendInt_length_of_ge_100 (x : Int) (h : 100 ≤ x) : 3 ≤ (appendInt x 2).length := by
  have hnn : ¬ (x < 0) := by omega
  have h1 : x.natAbs ≥ 10 := by omega
  have h2 : x.natAbs / 10 ≥ 10 := by omega
  have hl := appendIntLoop_length 18 (x.natAbs / 10 / 10)
    [48 + x.natAbs / 10 % 10, 48 + x.natAbs % 10]
  simp only [appendInt, hnn, if_false, List.nil_append, List.length_append,
    appendIntLoop_ge 19 _ _ h1, appendIntLoop_ge 18 _ _ h2]
  simp only [List.length_cons, List.length_nil] at hl
  omega

/-- The offset that `Format` writes is plain: it is never `-0000`, and its
minutes are below 60. -/
theorem formatTZ_plain (t : Time) (front : GoString) :
    5 ≤ (formatStd t .stdNumTZ).length ∧
    plainOffset (offsetText (front ++ formatStd t .stdNumTZ)) = true := by
  simp only [formatStd]
  generalize hzone : Int.tdiv t.offset 60 = zone
  generalize haz : (if zone < 0 then -zone else zone) = az
  have haz0 : 0 ≤ az := by
    rw [← haz]
    split_ifs <;> omega
  have hq : Int.tdiv az 60 = az / 60 := Int.tdiv_eq_ediv haz0 (by norm_num)
  have hr : Int.tmod az 60 = az % 60 := Int.tmod_eq_emod haz0 (by norm_num)
  rw [hq, hr]
  obtain ⟨hhb, hhl, _⟩ := appendInt_nonneg (az / 60) 2 (by omega)
  have hmm := appendInt_of_lt_100 (az % 60) (by omega) (by omega)
  rw [hmm]
  generalize hhh : appendInt (az / 60) 2 = hh at hhb hhl
  generalize hm1 : 48 + (az % 60).toNat / 10 = m1
  generalize hm2 : 48 + (az % 60).toNat % 10 = m2
  have hm1le : m1 ≤ 53 := by omega
  generalize hsg : (if zone < 0 then [45] else [43] : GoString) = sg
  have hsgl : sg.length = 1 := by
    rw [← hsg]
    split_ifs <;> rfl
  have hlen : (sg ++ hh ++ [m1, m2]).length = hh.length + 3 := by
    simp only [List.length_append, List.length_cons, List.length_nil, hsgl]
    omega
  refine ⟨by rw [hlen]; omega, ?_⟩
  rw [offsetText_append front _ (by rw [hlen]; omega)]
  have hs5 : str "-0000" = [45, 48, 48, 48, 48] := by decide
  have hs2 : str "60" = [54, 48] := by decide
  simp only [plainOffset, Bool.and_eq_true, decide_eq_true_eq, offsetText, hlen, hs5, hs2]
  have hk : hh.length + 3 - 5 = hh.length - 2 := by omega
  rw [hk]
  constructor
  · -- not `-0000`
    intro heq
    by_cases h100 : az / 60 < 100
    · have hhh2 := appendInt_of_lt_100 (az / 60) (by omega) h100
      rw [hhh] at hhh2
      rw [hhh2] at heq
      simp only [List.length_cons, List.length_nil, Nat.reduceAdd, Nat.sub_self,
        List.drop_zero] at heq
      rw [← hsg] at heq
      by_cases hz : zone < 0
      · simp only [hz, if_true, List.cons_append, List.nil_append, List.cons.injEq,
          true_and, and_true] at heq
        rw [if_pos hz] at haz
        omega
      · simp only [hz, if_false, List.cons_append, List.nil_append, List.cons.injEq] at heq
        omega
    · have hl3 := appendInt_length_of_ge_100 (az / 60) (by omega)
      rw [hhh] at hl3
      have hhead := congrArg List.head? heq
      rw [List.head?_drop] at hhead
      obtain ⟨s0, hs0⟩ : ∃ s0, sg = [s0] := by
        rw [← hsg]
        split_ifs
        · exact ⟨45, rfl⟩
        · exact ⟨43, rfl⟩
      rw [hs0] at hhead
      have hidx : hh.length - 2 = (hh.length - 3) + 1 := by omega
      rw [hidx] at hhead
      simp only [List.cons_append, List.nil_append, List.getElem?_cons_succ] at hhead
      rw [List.getElem?_append_left (by omega), List.getElem?_eq_getElem (by omega)] at hhead
      have hmem := hhb _ (List.getElem_mem (l := hh) (n := hh.length - 3) (by omega))
      simp only [List.head?_cons, Option.some.injEq] at hhead
      omega
  · -- the minutes are not `60`
    intro heq
    rw [List.drop_drop] at heq
    have hk2 : hh.length - 2 + 3 = (sg ++ hh).length := by
      simp only [List.length_append, hsgl]
      omega
    rw [hk2, List.drop_left] at heq
    simp only [List.cons.injEq] at heq
    omega

/-! ## Lemmas on `setScalar` -/

theorem set_bool_error (v : Target) (val : GoString) :
    (set_bool v val).2 = none ∨ (set_bool v val).2 = some (.new "invalid value for bool") := by
  simp only [set_bool]
  split_ifs <;> simp

theorem set_int_error (v : Target) (val : GoString) :
    (set_int v val).2 = none ∨ (set_int v val).2 = some (.new "Overflow") ∨
      ∃ e, (set_int v val).2 = some (.num e) := by
  simp only [set_int]
  generalize atoi (iFix val) = r
  rcases r with ⟨x, _ | e⟩
  · simp only []
    split_ifs <;> simp
  · simp

theorem set_uint_error (v : Target) (val : GoString) :
    (set_uint v val).2 = none ∨ (set_uint v val).2 = some (.new "Overflow") ∨
      ∃ e, (set_uint v val).2 = some (.num e) := by
  simp only [set_uint]
  generalize atoi (iFix val) = r
  rcases r with ⟨x, _ | e⟩
  · simp only []
    split_ifs <;> simp
  · simp

theorem set_int64_error (v : Target) (val : GoString) :
    (set_int64 v val).2 = none ∨ ∃ e, (set_int64 v val).2 = some (.num e) := by
  simp only [set_int64]
  generalize parseInt (iFix val) 64 = r
  rcases r with ⟨x, _ | e⟩ <;> simp

theorem set_uint64_error (v : Target) (val : GoString) :
    (set_uint64 v val).2 = none ∨ ∃ e, (set_uint64 v val).2 = some (.num e) := by
  simp only [set_uint64]
  generalize parseUint (iFix val) 64 = r
  rcases r with ⟨x, _ | e⟩ <;> simp

theorem set_float_error (fl : FloatLib) (v : Target) (val : GoString) :
    (set_float fl v val).2 = none ∨ ∃ e, (set_float fl v val).2 = some (.num e) := by
  simp only [set_float]
  generalize (if v.kind = Kind.Float32 then fl.ParseFloat val 32 else fl.ParseFloat val 64) = r
  rcases r with e | x <;> simp

theorem timeParse_error (l : Layout) (val : GoString) (e : Err)
    (h : timeParse l val = .error e) : e = .timeParse l.text val := by
  simp only [timeParse] at h
  split at h
  · simp only [Except.error.injEq] at h
    exact h.symm
  · split_ifs at h <;>
      (simp only [Except.error.injEq] at h
       exact h.symm)

theorem set_time_error (v : Target) (val : GoString) :
    (set_time v val).2 = none ∨ ∃ l x, (set_time v val).2 = some (.timeParse l x) := by
  simp only [set_time]
  generalize (match val.length with
    | 25 => format_offset_datetime
    | 19 => format_datetime
    | 14 => format_offset_time
    | 10 => format_date
    | 8 => format_time
    | _ => format_empty) = l
  cases h : timeParse l val with
  | ok t => simp
  | error e =>
    right
    exact ⟨_, _, congrArg some (timeParse_error _ _ _ h)⟩

/-- The errors that `setScalar` can return for a target that `isScalar`
admits. -/
theorem setScalar_scalar_error (fl : FloatLib) (v : Target) (val : GoString)
    (h : isScalar v = true) : IsDecodeResult (setScalar fl v val).2 := by
  rcases v with ⟨k, t, x⟩
  have hb : IsDecodeResult (set_bool ⟨k, t, x⟩ val).2 :=
    (set_bool_error ⟨k, t, x⟩ val).imp id Or.inl
  have hi : IsDecodeResult (set_int ⟨k, t, x⟩ val).2 :=
    (set_int_error ⟨k, t, x⟩ val).imp id fun h => Or.inr (h.imp id Or.inl)
  have hu : IsDecodeResult (set_uint ⟨k, t, x⟩ val).2 :=
    (set_uint_error ⟨k, t, x⟩ val).imp id fun h => Or.inr (h.imp id Or.inl)
  have hi64 : IsDecodeResult (set_int64 ⟨k, t, x⟩ val).2 :=
    (set_int64_error ⟨k, t, x⟩ val).imp id fun h => Or.inr (Or.inr (Or.inl h))
  have hu64 : IsDecodeResult (set_uint64 ⟨k, t, x⟩ val).2 :=
    (set_uint64_error ⟨k, t, x⟩ val).imp id fun h => Or.inr (Or.inr (Or.inl h))
  have hf : IsDecodeResult (set_float fl ⟨k, t, x⟩ val).2 :=
    (set_float_error fl ⟨k, t, x⟩ val).imp id fun h => Or.inr (Or.inr (Or.inl h))
  have ht : IsDecodeResult (set_time ⟨k, t, x⟩ val).2 :=
    (set_time_error ⟨k, t, x⟩ val).imp id fun h => Or.inr (Or.inr (Or.inr h))
  cases k <;> simp only [isScalar, Bool.false_eq_true] at h
  case Bool => exact hb
  case Int => exact hi64
  case Int8 => exact hi
  case Int16 => exact hi
  case Int32 => exact hi
  case Int64 => exact hi64
  case Uint => exact hu64
  case Uint8 => exact hu
  case Uint16 => exact hu
  case Uint32 => exact hu
  case Uint64 => exact hu64
  case Float32 => exact hf
  case Float64 => exact hf
  case String => exact Or.inl rfl
  case Struct =>
    subst h
    exact ht

/-- `set_int` (kinds `int8`, `int16`, `int32`) on a string that `iFix` turns
into an integer literal of value `n`: `n` is stored when it fits the width,
otherwise the target is kept and the error is `Overflow` or Atoi's `ErrRange`. -/
theorem set_int_literal (v : Target) (p : GoString)
    (hk : v.kind = .Int8 ∨ v.kind = .Int16 ∨ v.kind = .Int32)
    (hq : isIntLiteral (iFix p) = true) :
    (-(2 : Int) ^ (v.kind.bitSize - 1) ≤ numeric (iFix p) ∧
        numeric (iFix p) ≤ (2 : Int) ^ (v.kind.bitSize - 1) - 1 →
      set_int v p = ({ v with val := .int (numeric (iFix p)) }, none)) ∧
    (¬ (-(2 : Int) ^ (v.kind.bitSize - 1) ≤ numeric (iFix p) ∧
        numeric (iFix p) ≤ (2 : Int) ^ (v.kind.bitSize - 1) - 1) →
      set_int v p = (v, some (.new "Overflow")) ∨
      set_int v p = (v, some (.num ⟨"Atoi", iFix p, .ErrRange⟩))) := by
  have hs : isSignedKind v.kind = true := by
    rcases hk with hk | hk | hk <;> rw [hk] <;> rfl
  generalize hn : numeric (iFix p) = n
  constructor
  · rintro ⟨h1, h2⟩
    obtain ⟨h3, h4⟩ := signed_range_int64 v.kind n hs h1 h2
    have ha := atoi_literal_ok (iFix p) hq (by rw [hn]; exact h3) (by rw [hn]; exact h4)
    have ho : v.OverflowInt n = false := by
      cases hov : v.OverflowInt n
      · rfl
      · have := (OverflowInt_iff v n hs h3 h4).mp hov
        omega
    simp only [set_int, ha, hn, toInt64_eq n h3 h4, ho, Bool.false_eq_true, if_false,
      Target.SetInt, wrapInt_eq v.kind n hs h1 h2]
  · intro hout
    by_cases h64 : -9223372036854775808 ≤ n ∧ n ≤ 9223372036854775807
    · left
      have ha := atoi_literal_ok (iFix p) hq (by rw [hn]; exact h64.1) (by rw [hn]; exact h64.2)
      have ho : v.OverflowInt n = true := by
        apply (OverflowInt_iff v n hs h64.1 h64.2).mpr
        omega
      simp only [set_int, ha, hn, toInt64_eq n h64.1 h64.2, ho, if_true]
    · right
      have ha := atoi_literal_range (iFix p) hq (by rw [hn]; omega)
      simp only [set_int]
      revert ha
      generalize atoi (iFix p) = r
      rcases r with ⟨x, _ | e⟩
      · simp
      · intro ha
        simp only [Option.some.injEq] at ha
        subst ha
        rfl

/-- `set_int64` (kinds `int64`, `int`) on a string that `iFix` turns into an
integer literal of value `n`: `n` is stored when it is an `int64`, otherwise the
target is kept and the error is ParseInt's `ErrRange`. -/
theorem set_int64_literal (v : Target) (p : GoString)
    (hk : v.kind = .Int64 ∨ v.kind = .Int)
    (hq : isIntLiteral (iFix p) = true) :
    (-9223372036854775808 ≤ numeric (iFix p) ∧ numeric (iFix p) ≤ 9223372036854775807 →
      set_int64 v p = ({ v with val := .int (numeric (iFix p)) }, none)) ∧
    (¬ (-9223372036854775808 ≤ numeric (iFix p) ∧ numeric (iFix p) ≤ 9223372036854775807) →
      set_int64 v p = (v, some (.num ⟨"ParseInt", iFix p, .ErrRange⟩))) := by
  have hb : v.kind.bitSize = 64 := by
    rcases hk with hk | hk <;> rw [hk] <;> rfl
  constructor
  · rintro ⟨h1, h2⟩
    have hp := parseInt_literal_ok _ hq 64 (Or.inr rfl) h1 h2
    simp only [set_int64, hp, Target.SetInt, hb]
    rw [toInt64_eq _ h1 h2, wrapInt_64 _ h1 h2]
  · intro hout
    have hp := parseInt_literal_range _ hq 64 (Or.inr rfl) (by omega)
    simp only [set_int64]
    revert hp
    generalize parseInt (iFix p) 64 = r
    rcases r with ⟨x, _ | e⟩
    · simp
    · intro hp
      simp only [Option.some.injEq] at hp
      subst hp
      rfl

theorem unsigned_max_le (k : Kind) (hk : k = .Uint8 ∨ k = .Uint16 ∨ k = .Uint32) :
    2 ^ k.bitSize - 1 ≤ 4294967295 := by
  rcases hk with rfl | rfl | rfl <;> simp only [Kind.bitSize] <;> norm_num

/-- `set_uint` (kinds `uint8`, `uint16`, `uint32`) on a string that `iFix`
turns into an integer literal of value `n`: `n` is stored when it fits the
width, otherwise the target is kept and the error is `Overflow` or Atoi's
`ErrRange`. -/
theorem set_uint_literal (v : Target) (p : GoString)
    (hk : v.kind = .Uint8 ∨ v.kind = .Uint16 ∨ v.kind = .Uint32)
    (hq : isIntLiteral (iFix p) = true) :
    (0 ≤ numeric (iFix p) ∧ numeric (iFix p) ≤ ((2 ^ v.kind.bitSize - 1 : Nat) : Int) →
      set_uint v p = ({ v with val := .uint (numeric (iFix p)).toNat }, none)) ∧
    (¬ (0 ≤ numeric (iFix p) ∧ numeric (iFix p) ≤ ((2 ^ v.kind.bitSize - 1 : Nat) : Int)) →
      set_uint v p = (v, some (.new "Overflow")) ∨
      set_uint v p = (v, some (.num ⟨"Atoi", iFix p, .ErrRange⟩))) := by
  have hs : isUnsignedKind v.kind = true := by
    rcases hk with hk | hk | hk <;> rw [hk] <;> rfl
  have hmax := unsigned_max_le v.kind hk
  generalize hn : numeric (iFix p) = n
  constructor
  · rintro ⟨h1, h2⟩
    have ha := atoi_literal_ok (iFix p) hq (by rw [hn]; omega) (by rw [hn]; omega)
    have h64 := toInt64_eq n (by omega) (by omega)
    have hu : toUint64 n = n.toNat := by
      unfold toUint64
      congr 1
      omega
    have ho : v.OverflowUint n.toNat = false := by
      cases hov : v.OverflowUint n.toNat
      · rfl
      · have := (OverflowUint_iff v n.toNat hs (by omega)).mp hov
        omega
    have hmod : n.toNat % 2 ^ v.kind.bitSize = n.toNat := by
      apply Nat.mod_eq_of_lt
      have : 0 < 2 ^ v.kind.bitSize := Nat.pow_pos (by norm_num)
      omega
    simp only [set_uint, ha, hn, h64, hu, ho, Bool.false_eq_true, if_false, Target.SetUint,
      hmod]
  · intro hout
    by_cases h64 : -9223372036854775808 ≤ n ∧ n ≤ 9223372036854775807
    · left
      have ha := atoi_literal_ok (iFix p) hq (by rw [hn]; exact h64.1) (by rw [hn]; exact h64.2)
      have hlt : toUint64 n ≤ 18446744073709551615 := by
        unfold toUint64
        omega
      have ho : v.OverflowUint (toUint64 n) = true := by
        apply (OverflowUint_iff v _ hs hlt).mpr
        unfold toUint64
        omega
      simp only [set_uint, ha, hn, toInt64_eq n h64.1 h64.2, ho, if_true]
    · right
      have ha := atoi_literal_range (iFix p) hq (by rw [hn]; omega)
      simp only [set_uint]
      revert ha
      generalize atoi (iFix p) = r
      rcases r with ⟨x, _ | e⟩
      · simp
      · intro ha
        simp only [Option.some.injEq] at ha
        subst ha
        rfl

/-- `set_uint64` (kinds `uint64`, `uint`) on a string that `iFix` turns into an
integer literal: a literal with a sign is a syntax error of `ParseUint`; one
without is stored when it is a `uint64` and is a range error otherwise. -/
theorem set_uint64_literal (v : Target) (p : GoString)
    (hk : v.kind = .Uint64 ∨ v.kind = .Uint)
    (hq : isIntLiteral (iFix p) = true) :
    ((iFix p).getD 0 0 = 45 →
      set_uint64 v p = (v, some (.num ⟨"ParseUint", iFix p, .ErrSyntax⟩))) ∧
    ((iFix p).getD 0 0 ≠ 45 → numeric (iFix p) ≤ 18446744073709551615 →
      set_uint64 v p = ({ v with val := .uint (numeric (iFix p)).toNat }, none)) ∧
    ((iFix p).getD 0 0 ≠ 45 → 18446744073709551615 < numeric (iFix p) →
      set_uint64 v p = (v, some (.num ⟨"ParseUint", iFix p, .ErrRange⟩))) := by
  have hb : v.kind.bitSize = 64 := by
    rcases hk with hk | hk <;> rw [hk] <;> rfl
  rcases isIntLiteral_cases _ hq with ⟨ds, heq, hne, hds⟩ | ⟨hne, hds⟩
  · have hsyn : parseUint (45 :: ds) 64 = (0, some ⟨"ParseUint", 45 :: ds, .ErrSyntax⟩) := by
      simp [parseUint, parseUintLoop, strconvLower]
    rw [heq]
    refine ⟨fun _ => ?_, fun h => ?_, fun h => ?_⟩
    · simp only [set_uint64, heq, hsyn]
    · simp at h
    · simp at h
  · obtain ⟨c, cs, hcs⟩ := List.exists_cons_of_ne_nil hne
    have hc : 48 ≤ c ∧ c ≤ 57 := hds c (by rw [hcs]; exact List.mem_cons_self _ _)
    have h45 : (iFix p).getD 0 0 ≠ 45 := by
      rw [hcs, List.getD_cons_zero]
      omega
    have hnum := numeric_digits _ hne hds
    have hpu := parseUint_digits _ hne hds 64 (Or.inr rfl)
    refine ⟨fun h => absurd h h45, fun _ h => ?_, fun _ h => ?_⟩
    · rw [hnum] at h ⊢
      have hle : digitsValue (iFix p) ≤ 18446744073709551615 := by omega
      have hu : toUint64 ((digitsValue (iFix p) : Nat) : Int) = digitsValue (iFix p) := by
        unfold toUint64
        omega
      have hmod : digitsValue (iFix p) % 2 ^ 64 = digitsValue (iFix p) := by
        apply Nat.mod_eq_of_lt
        norm_num
        omega
      simp only [set_uint64, hpu, hle, if_true, Target.SetUint, hb, hu, hmod, Int.toNat_ofNat]
    · rw [hnum] at h
      have hle : ¬ digitsValue (iFix p) ≤ 18446744073709551615 := by omega
      simp only [set_uint64, hpu, hle, if_false]

theorem setScalar_set_int (fl : FloatLib) (v : Target) (val : GoString)
    (h : v.kind = .Int8 ∨ v.kind = .Int16 ∨ v.kind = .Int32) :
    setScalar fl v val = set_int v val := by
  rcases h with h | h | h <;> simp only [setScalar, h]

theorem setScalar_set_int64 (fl : FloatLib) (v : Target) (val : GoString)
    (h : v.kind = .Int64 ∨ v.kind = .Int) : setScalar fl v val = set_int64 v val := by
  rcases h with h | h <;> simp only [setScalar, h]

theorem setScalar_set_uint (fl : FloatLib) (v : Target) (val : GoString)
    (h : v.kind = .Uint8 ∨ v.kind = .Uint16 ∨ v.kind = .Uint32) :
    setScalar fl v val = set_uint v val := by
  rcases h with h | h | h <;> simp only [setScalar, h]

theorem setScalar_set_uint64 (fl : FloatLib) (v : Target) (val : GoString)
    (h : v.kind = .Uint64 ∨ v.kind = .Uint) : setScalar fl v val = set_uint64 v val := by
  rcases h with h | h <;> simp only [setScalar, h]

/-- For a non-empty value whose length selects no format, `set_time` returns
the `*ParseError` of the empty layout and leaves the target as it was. -/
theorem set_time_other_length (v : Target) (s : GoString) (hne : s ≠ [])
    (hlen : s.length ≠ 8 ∧ s.length ≠ 10 ∧ s.length ≠ 14 ∧ s.length ≠ 19 ∧ s.length ≠ 25) :
    set_time v s = (v, some (.timeParse [] s)) := by
  have hsel : selectedFormat s.length = format_empty := by
    unfold selectedFormat
    split <;> first | rfl | omega
  have hl : s.length ≠ 0 := by
    intro h
    exact hne (List.length_eq_zero.mp h)
  rw [set_time_eq, hsel]
  simp only [timeParse, format_empty, parseChunks, hl, ne_eq, not_false_eq_true, if_true]

/-! ## Lemmas on the atomicity of the setters -/

theorem set_bool_atomic (v : Target) (val : GoString) :
    Atomic v (set_bool v val) (fun y => ∃ b, y = .bool b) := by
  simp only [set_bool, Atomic]
  split_ifs
  · exact Or.inl ⟨rfl, _, ⟨true, rfl⟩, rfl⟩
  · exact Or.inl ⟨rfl, _, ⟨false, rfl⟩, rfl⟩
  · exact Or.inr ⟨by simp, rfl⟩

theorem set_int_atomic (v : Target) (val : GoString) :
    Atomic v (set_int v val) (fun y => ∃ i, y = .int i) := by
  simp only [set_int, Atomic]
  generalize atoi (iFix val) = r
  rcases r with ⟨x, _ | e⟩
  · simp only []
    split_ifs
    · exact Or.inr ⟨by simp, rfl⟩
    · exact Or.inl ⟨rfl, _, ⟨_, rfl⟩, rfl⟩
  · exact Or.inr ⟨by simp, rfl⟩

theorem set_uint_atomic (v : Target) (val : GoString) :
    Atomic v (set_uint v val) (fun y => ∃ i, y = .uint i) := by
  simp only [set_uint, Atomic]
  generalize atoi (iFix val) = r
  rcases r with ⟨x, _ | e⟩
  · simp only []
    split_ifs
    · exact Or.inr ⟨by simp, rfl⟩
    · exact Or.inl ⟨rfl, _, ⟨_, rfl⟩, rfl⟩
  · exact Or.inr ⟨by simp, rfl⟩

theorem set_int64_atomic (v : Target) (val : GoString) :
    Atomic v (set_int64 v val) (fun y => ∃ i, y = .int i) := by
  simp only [set_int64, Atomic]
  generalize parseInt (iFix val) 64 = r
  rcases r with ⟨x, _ | e⟩
  · exact Or.inl ⟨rfl, _, ⟨_, rfl⟩, rfl⟩
  · exact Or.inr ⟨by simp, rfl⟩

theorem set_uint64_atomic (v : Target) (val : GoString) :
    Atomic v (set_uint64 v val) (fun y => ∃ i, y = .uint i) := by
  simp only [set_uint64, Atomic]
  generalize parseUint (iFix val) 64 = r
  rcases r with ⟨x, _ | e⟩
  · exact Or.inl ⟨rfl, _, ⟨_, rfl⟩, rfl⟩
  · exact Or.inr ⟨by simp, rfl⟩

theorem set_float_atomic (fl : FloatLib) (v : Target) (val : GoString) :
    Atomic v (set_float fl v val) (fun y => ∃ i, y = .float i) := by
  simp only [set_float, Atomic]
  generalize (if v.kind = Kind.Float32 then fl.ParseFloat val 32 else fl.ParseFloat val 64) = r
  rcases r with e | x
  · exact Or.inr ⟨by simp, rfl⟩
  · exact Or.inl ⟨rfl, _, ⟨_, rfl⟩, rfl⟩

theorem set_time_atomic (v : Target) (val : GoString) :
    Atomic v (set_time v val) (fun y => ∃ i, y = .time i) := by
  have h : ∀ l : Layout, Atomic v
      (match timeParse l val with
        | .ok t => (v.SetTime t, none)
        | .error err => (v, some err)) (fun y => ∃ i, y = .time i) := by
    intro l
    cases timeParse l val with
    | ok t => exact Or.inl ⟨rfl, _, ⟨_, rfl⟩, rfl⟩
    | error e => exact Or.inr ⟨by simp, rfl⟩
  exact h _

theorem Atomic.mono {v : Target} {r : Target × Option Err} {p q : Val → Prop}
    (h : Atomic v r p) (hpq : ∀ y, p y → q y) : Atomic v r q := by
  rcases h with ⟨h1, y, hy, h2⟩ | h
  · exact Or.inl ⟨h1, y, hpq y hy, h2⟩
  · exact Or.inr h

/-! ## Lemmas on `camelToSnake` -/

theorem isLower_eq (c : Nat) : isLower c = decide (97 ≤ c ∧ c ≤ 122) := by
  simp [isLower, Bool.decide_and]

theorem isUpper_eq (c : Nat) : isUpper c = decide (65 ≤ c ∧ c ≤ 90) := by
  simp [isUpper, Bool.decide_and]

theorem toLower_map (s : GoString) : toLower s = s.map lower := by
  cases s <;> simp [toLower]

theorem toUpper_map (s : GoString) : toUpper s = s.map upper := by
  cases s <;> simp [toUpper]

/-- The loop of `camelToSnake` computes `snakeOf` on ASCII bytes, from every
state of the loop variables that the loop can reach. -/
theorem camelToSnake_loop (cs : GoString) :
    ∀ st : SnakeVars, (∀ c ∈ cs, c < 128) → 0 ≤ st.i →
      (st.lastw = true → st.lastu = false ∧ 1 ≤ st.i) →
      (cs.foldl camelToSnakeStep st).bs = st.bs ++ snakeOf st.lastw cs := by
  induction cs with
  | nil => intro st _ _ _; simp [snakeOf]
  | cons c cs ih =>
    intro st hascii hi hinv
    have hc : c < 128 := hascii c (List.mem_cons_self _ _)
    have hcs : ∀ d ∈ cs, d < 128 := fun d hd => hascii d (List.mem_cons_of_mem _ hd)
    have hlow : byteToString (lower c) = [if 65 ≤ c ∧ c ≤ 90 then c + 32 else c] := by
      simp only [byteToString, lower]
      split_ifs <;> first | rfl | omega
    rw [List.foldl_cons]
    by_cases hins : st.lastw = true ∧ 65 ≤ c ∧ c ≤ 90
    · obtain ⟨hw, h1, h2⟩ := hins
      obtain ⟨hu, hi1⟩ := hinv hw
      have hstep : camelToSnakeStep st c =
          { lastu := isUpper c, lastw := isLower c, i := 0,
            bs := st.bs ++ [95] ++ byteToString (lower c) } := by
        have hu1 : isUpper c = true := by simp [isUpper, h1, h2]
        have hne : c ≠ 95 := by omega
        simp only [camelToSnakeStep, hne, if_false, hu, hw, hu1]
        rw [if_pos]
        exact ⟨by omega, by simp, trivial⟩
      rw [hstep, ih _ hcs (le_refl 0)]
      · simp only [hlow, snakeOf, hw, h1, h2, isLower_eq, and_self, if_true,
          List.append_assoc, List.singleton_append, List.cons_append, List.nil_append]
      · intro hw2
        simp only [isLower_eq, decide_eq_true_eq] at hw2
        omega
    · have hstep : camelToSnakeStep st c =
          { lastu := isUpper c, lastw := isLower c, i := if c = 95 then 0 else st.i + 1,
            bs := st.bs ++ byteToString (lower c) } := by
        simp only [camelToSnakeStep]
        rw [if_neg]
        rintro ⟨hgt, hne, hw⟩
        obtain ⟨hu, hi1⟩ := hinv hw
        apply hins
        refine ⟨hw, ?_⟩
        rw [hu] at hne
        have hu1 : isUpper c = true := by
          cases h : isUpper c
          · exact absurd h hne
          · rfl
        simpa [isUpper] using hu1
      rw [hstep, ih _ hcs]
      · have hpre : (if st.lastw = true ∧ 65 ≤ c ∧ c ≤ 90 then [95] else ([] : GoString)) = [] :=
          if_neg hins
        simp only [hlow, snakeOf, hpre, isLower_eq, List.nil_append, List.append_assoc,
          List.singleton_append]
      · show 0 ≤ (if c = 95 then 0 else st.i + 1)
        split_ifs <;> omega
      · intro hw2
        simp only [isLower_eq, decide_eq_true_eq] at hw2
        refine ⟨?_, ?_⟩
        · simp only [isUpper_eq, decide_eq_false_iff_not]
          omega
        · show 1 ≤ (if c = 95 then 0 else st.i + 1)
          rw [if_neg (by omega)]
          omega

theorem camelToSnake_eq_snakeOf (s : GoString) (h : ∀ c ∈ s, c < 128) :
    camelToSnake s = snakeOf false s := by
  have := camelToSnake_loop s { lastu := false, lastw := false, i := 0, bs := [] } h
    (le_refl 0) (by simp)
  simpa [camelToSnake] using this

theorem map_lower_snakeOf (s : GoString) : ∀ b, (snakeOf b s).map lower = snakeOf b s := by
  induction s with
  | nil => intro b; simp [snakeOf]
  | cons c cs ih =>
    intro b
    simp only [snakeOf, List.map_append, List.map_cons, ih]
    congr 1
    · split_ifs <;> simp [lower]
    · congr 1
      simp only [lower]
      split_ifs <;> omega

theorem snakeOf_head (s : GoString) :
    (snakeOf false s).head? = s.head?.map fun c => if 65 ≤ c ∧ c ≤ 90 then c + 32 else c := by
  cases s <;> simp [snakeOf]

theorem noDoubleUnderscore_snakeOf (s : GoString) :
    ∀ b, noDoubleUnderscore s → noDoubleUnderscore (snakeOf b s) := by
  induction s with
  | nil => intro b _; simp [snakeOf, noDoubleUnderscore]
  | cons c cs ih =>
    intro b h
    simp only [noDoubleUnderscore] at h ih ⊢
    rw [List.chain'_cons'] at h
    obtain ⟨hhead, hcs⟩ := h
    have htail : List.Chain' (fun a b => a ≠ 95 ∨ b ≠ 95)
        ((if 65 ≤ c ∧ c ≤ 90 then c + 32 else c) :: snakeOf (decide (97 ≤ c ∧ c ≤ 122)) cs) := by
      rw [List.chain'_cons']
      refine ⟨?_, ih _ hcs⟩
      intro y hy
      by_cases hc : c = 95
      · subst hc
        right
        simp only [show decide (97 ≤ 95 ∧ 95 ≤ 122) = false by decide, snakeOf_head] at hy
        cases cs with
        | nil => simp at hy
        | cons d ds =>
          simp only [List.head?_cons, Option.map_some', Option.mem_def, Option.some.injEq] at hy
          have hd : d ≠ 95 := by
            rcases hhead d (by simp) with h1 | h1
            · exact absurd rfl h1
            · exact h1
          rw [← hy]
          split_ifs <;> omega
      · left
        split_ifs <;> omega
    simp only [snakeOf]
    by_cases hins : b = true ∧ 65 ≤ c ∧ c ≤ 90
    · rw [if_pos hins, List.singleton_append, List.chain'_cons']
      refine ⟨?_, htail⟩
      intro y hy
      simp only [List.head?_cons, Option.mem_def, Option.some.injEq] at hy
      right
      rw [← hy]
      split_ifs <;> omega
    · rw [if_neg hins, List.nil_append]
      exact htail

/-! ## Lemmas on the key registry and `autoKeys` -/

theorem GoMap.get_set {α : Type} (m : GoMap α) (k k1 : GoString) (v : α) :
    (m.set k v).get k1 = if k1 = k then some v else m.get k1 := by
  induction m with
  | nil =>
    simp only [GoMap.set, GoMap.get]
    by_cases h : k1 = k
    · simp [h]
    · have : ¬ k = k1 := fun e => h e.symm
      simp [h, this]
  | cons e rest ih =>
    rcases e with ⟨k2, v2⟩
    simp only [GoMap.set]
    by_cases h2 : k2 = k
    · subst h2
      simp only [if_true, GoMap.get]
      by_cases h : k2 = k1
      · simp [h]
      · have : ¬ k1 = k2 := fun e => h e.symm
        simp [h, this]
    · simp only [h2, if_false, GoMap.get, ih]
      by_cases h : k2 = k1
      · subst h
        simp [h2]
      · simp [h]

theorem unused_set (o : option) (k k1 : GoString) :
    option.unused { o with keys := o.keys.set k true } k1 =
      (decide (k1 ≠ k) && o.unused k1) := by
  simp only [option.unused, GoMap.get_set]
  by_cases h : k1 = k <;> simp [h]

theorem upper_lower (c : Nat) : upper (lower c) = upper c := by
  simp only [upper, lower]
  split_ifs <;> omega

theorem toUpper_toLower (s : GoString) : toUpper (toLower s) = toUpper s := by
  simp [toUpper_map, toLower_map, upper_lower]

theorem camelToSnake_length_loop (cs : GoString) :
    ∀ st : SnakeVars, st.bs.length + cs.length ≤ (cs.foldl camelToSnakeStep st).bs.length := by
  induction cs with
  | nil => intro st; simp
  | cons c cs ih =>
    intro st
    rw [List.foldl_cons]
    refine le_trans ?_ (ih _)
    have hb : 1 ≤ (byteToString (lower c)).length := by
      simp only [byteToString]; split_ifs <;> simp
    simp only [camelToSnakeStep]
    split_ifs <;> simp only [List.length_append, List.length_cons] <;> omega

theorem derivedLongKey_length (name : GoString) : name.length ≤ (derivedLongKey name).length := by
  have := camelToSnake_length_loop name { lastu := false, lastw := false, i := 0, bs := [] }
  simp only [derivedLongKey, stringsReplace, List.length_map, toLower_map]
  simpa [camelToSnake] using this

theorem derivedLongKey_ascii (s : GoString) (h : ∀ c ∈ s, c < 128) :
    derivedLongKey s = hyphenated (snakeOf false s) := by
  simp only [derivedLongKey, stringsReplace, hyphenated, toLower_map,
    camelToSnake_eq_snakeOf s h, map_lower_snakeOf]

theorem toLower_asciiLower (s : GoString) : toLower s = asciiLower s := by
  rw [toLower_map, asciiLower]
  apply List.map_congr_left
  intro c _
  simp only [lower]

theorem toUpper_asciiUpper (s : GoString) : toUpper s = asciiUpper s := by
  rw [toUpper_map, asciiUpper]
  apply List.map_congr_left
  intro c _
  simp only [upper]

theorem autoShort_length (o : option) (name : GoString) : (autoShort o name).length ≤ 1 := by
  simp only [autoShort, asciiLower, asciiUpper]
  split_ifs <;> simp

theorem unused_register (o : option) (k k1 : GoString) :
    option.unused { o with keys := o.keys.register k } k1 =
      (o.unused k1 && !(decide (k ≠ []) && decide (k1 = k))) := by
  simp only [GoMap.register]
  by_cases h : k = []
  · simp [h]
  · simp only [h, if_false, unused_set]
    by_cases h1 : k1 = k <;> simp [h, h1]

/-- What `autoKeys` returns and registers. -/
theorem autoKeys_spec (o : option) (name : GoString) (h : name ≠ []) :
    o.autoKeys name = .ok
      ({ o with keys := (o.keys.register (autoShort o name)).register (autoLong o name) },
        autoShort o name, autoLong o name) := by
  have hlen : ¬ name.length < 1 := by
    cases name with
    | nil => exact absurd rfl h
    | cons c cs => simp
  have hlo : toLower (name.take 1) ≠ [] := by
    cases name with
    | nil => exact absurd rfl h
    | cons c cs => simp [toLower_map]
  have hup : toUpper (name.take 1) ≠ [] := by
    cases name with
    | nil => exact absurd rfl h
    | cons c cs => simp [toUpper_map]
  have hlong : derivedLongKey name ≠ [] := by
    intro e
    have := derivedLongKey_length name
    rw [e] at this
    cases name with
    | nil => exact absurd rfl h
    | cons c cs => simp at this
  have hdl : stringsReplace (toLower (camelToSnake name)) 95 45 = derivedLongKey name := rfl
  simp only [option.autoKeys, hlen, if_false, toUpper_toLower, hdl]
  generalize hLo : toLower (name.take 1) = lo at hlo ⊢
  generalize hUp : toUpper (name.take 1) = up at hup ⊢
  generalize hLg : derivedLongKey name = long at hlong ⊢
  have hs : autoShort o name =
      if o.unused lo = true then lo else if o.unused up = true then up else [] := by
    simp only [autoShort, ← toLower_asciiLower, ← toUpper_asciiUpper, hLo, hUp]
  have hl : autoLong o name =
      if o.unused long = true ∧ long ≠ autoShort o name then long else [] := by
    simp only [autoLong, hLg]
  have hgnu : ∀ (o2 : option) (u : GoString), o2.autoKeysGnu u long =
      (if o2.unused long = true then { o2 with keys := o2.keys.set long true } else o2, u,
        if o2.unused long = true then long else []) := by
    intro o2 u
    simp only [option.autoKeysGnu, option.unused]
    split_ifs <;> rfl
  have hun : ∀ k, (o.keys.get k).isNone = o.unused k := fun k => rfl
  simp only [hgnu, hun]
  by_cases h1 : o.unused lo = true
  · rw [if_pos h1] at hs
    simp only [h1, if_true, unused_set]
    by_cases h2 : o.unused long = true ∧ long ≠ lo
    · have hl2 : autoLong o name = long := by rw [hl, hs, if_pos h2]
      rw [hs, hl2]
      simp [h2.1, h2.2, GoMap.register, hlo, hlong]
    · have hl2 : autoLong o name = [] := by rw [hl, hs, if_neg h2]
      have h2b : (decide (long ≠ lo) && o.unused long) = false := by
        by_cases ha : long = lo
        · simp [ha]
        · simp only [ne_eq, ha, not_false_eq_true, decide_True, Bool.true_and]
          cases hb : o.unused long
          · rfl
          · exact absurd ⟨hb, ha⟩ h2
      rw [hs, hl2]
      simp only [h2b, GoMap.register, hlo, if_false, if_true]
      simp
  · rw [if_neg h1] at hs
    simp only [h1]
    by_cases h1u : o.unused up = true
    · rw [if_pos h1u] at hs
      simp only [h1u, if_true, unused_set]
      by_cases h2 : o.unused long = true ∧ long ≠ up
      · have hl2 : autoLong o name = long := by rw [hl, hs, if_pos h2]
        rw [hs, hl2]
        simp [h2.1, h2.2, GoMap.register, hup, hlong]
      · have hl2 : autoLong o name = [] := by rw [hl, hs, if_neg h2]
        have h2b : (decide (long ≠ up) && o.unused long) = false := by
          by_cases ha : long = up
          · simp [ha]
          · simp only [ne_eq, ha, not_false_eq_true, decide_True, Bool.true_and]
            cases hb : o.unused long
            · rfl
            · exact absurd ⟨hb, ha⟩ h2
        rw [hs, hl2]
        simp only [h2b, GoMap.register, hup, if_false, if_true]
        simp
    · rw [if_neg h1u] at hs
      simp only [h1u]
      by_cases h2 : o.unused long = true
      · have hl2 : autoLong o name = long := by rw [hl, hs, if_pos ⟨h2, hlong⟩]
        rw [hs, hl2]
        simp [h2, GoMap.register, hlong]
      · have hl2 : autoLong o name = [] := by
          rw [hl, hs, if_neg (fun hh => h2 hh.1)]
        rw [hs, hl2]
        simp [h2, GoMap.register]

theorem derivedLongKey_no_upper (name : GoString) :
    ∀ b ∈ derivedLongKey name, ¬ (65 ≤ b ∧ b ≤ 90) := by
  intro b hb
  simp only [derivedLongKey, stringsReplace, toLower_map, List.map_map, List.mem_map,
    Function.comp] at hb
  obtain ⟨x, _, rfl⟩ := hb
  simp only [lower]
  split_ifs <;> omega

theorem unused_register_of_false (o : option) (g k : GoString) (h : o.unused k = false) :
    option.unused { o with keys := o.keys.register g } k = false := by
  rw [unused_register, h, Bool.false_and]

theorem unused_register_self (o : option) (k : GoString) (h : k ≠ []) :
    option.unused { o with keys := o.keys.register k } k = false := by
  rw [unused_register]
  simp [h]

theorem autoLong_ne_upper (o : option) (name : GoString) (c : Nat) (h1 : 65 ≤ c) (h2 : c ≤ 90) :
    autoLong o name ≠ [c] := by
  intro e
  simp only [autoLong] at e
  split_ifs at e
  exact derivedLongKey_no_upper name c (by rw [e]; simp) ⟨h1, h2⟩

/-! ## Lemmas on `createKeyNames` -/

theorem contains_colon_append (a r : GoString) : (a ++ 58 :: r).contains 58 = true := by
  simp [List.contains, List.elem_eq_mem]

theorem contains_colon_false (a : GoString) (h : 58 ∉ a) : a.contains 58 = false := by
  simp [List.contains, List.elem_eq_mem, h]

theorem takeWhile_colon (a r : GoString) (h : 58 ∉ a) :
    (a ++ 58 :: r).takeWhile (fun b => b != 58) = a := by
  induction a with
  | nil => simp
  | cons c cs ih =>
    have hc : c ≠ 58 := fun e => h (by simp [e])
    have hcs : 58 ∉ cs := fun e => h (List.mem_cons_of_mem _ e)
    have hb : (c != 58) = true := by simp [hc]
    rw [List.cons_append, List.takeWhile_cons, hb, if_pos rfl, ih hcs]

theorem dropWhile_colon (a r : GoString) (h : 58 ∉ a) :
    (a ++ 58 :: r).dropWhile (fun b => b != 58) = 58 :: r := by
  induction a with
  | nil => simp
  | cons c cs ih =>
    have hc : c ≠ 58 := fun e => h (by simp [e])
    have hcs : 58 ∉ cs := fun e => h (List.mem_cons_of_mem _ e)
    have hb : (c != 58) = true := by simp [hc]
    rw [List.cons_append, List.dropWhile_cons, hb, if_pos rfl, ih hcs]

theorem stringsSplitN_colon (n : Nat) (a r : GoString) (h : 58 ∉ a) :
    stringsSplitN 58 (n + 2) (a ++ 58 :: r) = a :: stringsSplitN 58 (n + 1) r := by
  rw [stringsSplitN]
  simp only [Nat.add_one_ne_zero, if_false, contains_colon_append, if_true, takeWhile_colon a r h,
    dropWhile_colon a r h, List.drop_succ_cons, List.drop_zero]

theorem stringsSplitN_last (n : Nat) (a : GoString) (h : 58 ∉ a) :
    stringsSplitN 58 (n + 1) a = [a] := by
  rw [stringsSplitN]
  simp only [contains_colon_false a h, Bool.false_eq_true, if_false, ite_self]

theorem stringsSplitN_one (a : GoString) : stringsSplitN 58 1 a = [a] := by
  rw [stringsSplitN]
  simp

/-- `strings.SplitN(tag, ":", 4)` gives back the segments a tag is written from. -/
theorem stringsSplitN_joinColon (segs : List GoString) (h : tagSegments segs) :
    stringsSplitN delimiter 4 (joinColon segs) = segs := by
  simp only [delimiter]
  match segs, h with
  | [a], h => exact stringsSplitN_last 3 a h
  | [a, b], h =>
    simp only [joinColon]
    rw [stringsSplitN_colon 2 a b h.1, stringsSplitN_last 2 b h.2]
  | [a, b, c], h =>
    simp only [joinColon]
    rw [stringsSplitN_colon 2 a _ h.1, stringsSplitN_colon 1 b _ h.2.1,
      stringsSplitN_last 1 c h.2.2]
  | [a, b, c, d], h =>
    simp only [joinColon]
    rw [stringsSplitN_colon 2 a _ h.1, stringsSplitN_colon 1 b _ h.2.1,
      stringsSplitN_colon 0 c _ h.2.2, stringsSplitN_one]

theorem joinColon_ne_nil (a b : GoString) (rest : List GoString) :
    joinColon (a :: b :: rest) ≠ [] := by
  simp [joinColon]

/-- What `keyCheck` returns: an error exactly when the keys collide, and
otherwise the registry with the keys stored. -/
theorem keyCheck_spec (o : option) (u g : GoString) :
    (keysCollide o u g → ∃ e, (o.keyCheck u g).2 = some e) ∧
      (¬ keysCollide o u g →
        o.keyCheck u g = ({ o with keys := (o.keys.register u).register g }, none)) := by
  have hun : ∀ (o2 : option) k, (o2.keys.get k).isNone = o2.unused k := fun _ _ => rfl
  have hgnu : ∀ o2 : option, o2.keyCheckGnu g =
      if g ≠ [] ∧ o2.unused g = false then
        (o2, some (str "key already used (" ++ g ++ str ")"))
      else ({ o2 with keys := o2.keys.register g }, none) := by
    intro o2
    simp only [option.keyCheckGnu, hun, GoMap.register]
    by_cases hg : g = []
    · simp [hg]
    · cases hu : o2.unused g <;> simp [hg]
  simp only [option.keyCheck, hun, hgnu, keysCollide]
  by_cases hu : u = []
  · subst hu
    simp only [ne_eq, not_true_eq_false, if_false, false_and, false_or, GoMap.register, if_true]
    by_cases hg : g ≠ [] ∧ o.unused g = false
    · simp [hg.1, hg.2]
    · rw [if_neg hg]
      constructor
      · rintro ⟨h1, h2 | h2⟩
        · exact absurd ⟨h1, h2⟩ hg
        · exact absurd h2 h1
      · intro _; rfl
  · simp only [ne_eq, hu, not_false_eq_true, if_true, true_and]
    cases huu : o.unused u
    · simp
    · simp only [if_true, Bool.true_eq_false, false_or]
      have hreg : o.keys.set u true = o.keys.register u := by simp [GoMap.register, hu]
      have hx := unused_register o u g
      rw [hreg]
      by_cases hg : g ≠ [] ∧ (o.unused g = false ∨ g = u)
      · have : option.unused { o with keys := o.keys.register u } g = false := by
          rw [hx]
          rcases hg.2 with h2 | h2
          · simp [h2]
          · simp [h2, hu]
        simp [hg.1, this, hg.2]
      · have : ¬ (g ≠ [] ∧ option.unused { o with keys := o.keys.register u } g = false) := by
          rintro ⟨h1, h2⟩
          apply hg
          refine ⟨h1, ?_⟩
          rw [hx] at h2
          by_cases h3 : g = u
          · exact Or.inr h3
          · left
            simpa [h3] using h2
        rw [if_neg this]
        exact ⟨fun h => absurd h hg, fun _ => rfl⟩

theorem createKeyNamesCheck_spec (o : option) (k : KeyNames) :
    (keysCollide o k.u_key k.gnu_key → ∃ p, o.createKeyNamesCheck k = .error p) ∧
      (¬ keysCollide o k.u_key k.gnu_key →
        o.createKeyNamesCheck k =
          .ok ({ o with keys := (o.keys.register k.u_key).register k.gnu_key }, k)) := by
  obtain ⟨h1, h2⟩ := keyCheck_spec o k.u_key k.gnu_key
  constructor
  · intro hc
    obtain ⟨e, he⟩ := h1 hc
    refine ⟨.msg e, ?_⟩
    simp only [option.createKeyNamesCheck]
    rcases hr : o.keyCheck k.u_key k.gnu_key with ⟨o1, r⟩
    rw [hr] at he
    simp only at he
    subst he
    rfl
  · intro hc
    simp only [option.createKeyNamesCheck, h2 hc]

theorem createKeyNamesAuto_spec (o : option) (name p h : GoString) (hname : name ≠ []) :
    o.createKeyNamesAuto name p h = .ok
      ({ o with keys := (o.keys.register (autoShort o name)).register (autoLong o name) },
        ⟨autoShort o name, autoLong o name, p, h⟩) := by
  simp only [option.createKeyNamesAuto, autoKeys_spec o name hname]

theorem createKeyNames_one (o : option) (name typ h : GoString) (hname : name ≠ [])
    (hh : 58 ∉ h) :
    o.createKeyNames name typ h = .ok
      ({ o with keys := (o.keys.register (autoShort o name)).register (autoLong o name) },
        ⟨autoShort o name, autoLong o name, typ, h⟩) := by
  simp only [option.createKeyNames]
  by_cases he : h = []
  · rw [if_pos he, createKeyNamesAuto_spec o name typ [] hname, he]
  · rw [if_neg he]
    have := stringsSplitN_joinColon [h] hh
    simp only [joinColon] at this
    rw [this]
    exact createKeyNamesAuto_spec o name typ h hname

theorem createKeyNames_two (o : option) (name typ k h : GoString) (hk : 58 ∉ k) (hh : 58 ∉ h) :
    o.createKeyNames name typ (joinColon [k, h]) = o.createKeyNamesCheck (tagKeyNames typ [k, h]) := by
  simp only [option.createKeyNames]
  rw [if_neg (joinColon_ne_nil _ _ _), stringsSplitN_joinColon [k, h] ⟨hk, hh⟩]
  simp only [tagKeyNames]
  split_ifs <;> rfl

theorem createKeyNames_three (o : option) (name typ s l h : GoString) (hs : 58 ∉ s)
    (hl : 58 ∉ l) (hh : 58 ∉ h) :
    o.createKeyNames name typ (joinColon [s, l, h]) =
      if 1 < s.length then .error (.msg (str "unix tyle flag should be a single character"))
      else o.createKeyNamesCheck (tagKeyNames typ [s, l, h]) := by
  simp only [option.createKeyNames]
  rw [if_neg (joinColon_ne_nil _ _ _), stringsSplitN_joinColon [s, l, h] ⟨hs, hl, hh⟩]
  simp only [tagKeyNames, gt_iff_lt]

theorem createKeyNames_four (o : option) (name typ s l p h : GoString) (hs : 58 ∉ s)
    (hl : 58 ∉ l) (hp : 58 ∉ p) :
    o.createKeyNames name typ (joinColon [s, l, p, h]) =
      if 1 < s.length then .error (.msg (str "unix tyle flag should be a single character"))
      else o.createKeyNamesCheck (tagKeyNames typ [s, l, p, h]) := by
  simp only [option.createKeyNames]
  rw [if_neg (joinColon_ne_nil _ _ _), stringsSplitN_joinColon [s, l, p, h] ⟨hs, hl, hp⟩]
  simp only [tagKeyNames, gt_iff_lt]

/-- For a tag of two to four segments `createKeyNames` panics exactly when the
tag is fatal, and otherwise returns what the tag says and stores its keys. -/
theorem createKeyNames_explicit (o : option) (name typ : GoString) (segs : List GoString)
    (hsegs : tagSegments segs) (hlen : 2 ≤ segs.length) :
    (tagIsFatal o segs → ∃ p, o.createKeyNames name typ (joinColon segs) = .error p) ∧
      (¬ tagIsFatal o segs →
        o.createKeyNames name typ (joinColon segs) = .ok
          (o.withKeys (tagKeyNames typ segs).u_key (tagKeyNames typ segs).gnu_key,
            tagKeyNames typ segs)) := by
  match segs, hsegs, hlen with
  | [k, h], hsegs, _ =>
    rw [createKeyNames_two o name typ k h hsegs.1 hsegs.2]
    have hc := createKeyNamesCheck_spec o (tagKeyNames typ [k, h])
    have hiff : tagIsFatal o [k, h] ↔
        keysCollide o (tagKeyNames typ [k, h]).u_key (tagKeyNames typ [k, h]).gnu_key := by
      simp only [tagIsFatal, tagKeyNames, keysCollide]
      by_cases h1 : k.length = 1
      · have hne : k ≠ [] := by intro e; rw [e] at h1; simp at h1
        simp [h1, hne]
      · simp only [h1, if_false, ne_eq, not_true_eq_false, false_and, false_or]
        constructor
        · rintro ⟨a, b⟩; exact ⟨a, Or.inl b⟩
        · rintro ⟨a, b | b⟩
          · exact ⟨a, b⟩
          · exact absurd b a
    rw [hiff]
    exact hc
  | [s, l, h], hsegs, _ =>
    rw [createKeyNames_three o name typ s l h hsegs.1 hsegs.2.1 hsegs.2.2]
    have hc := createKeyNamesCheck_spec o (tagKeyNames typ [s, l, h])
    simp only [tagIsFatal]
    by_cases h1 : 1 < s.length
    · simp [h1]
    · simp only [h1, if_false, false_or]
      exact hc
  | [s, l, p, h], hsegs, _ =>
    rw [createKeyNames_four o name typ s l p h hsegs.1 hsegs.2.1 hsegs.2.2]
    have hc := createKeyNamesCheck_spec o (tagKeyNames typ [s, l, p, h])
    simp only [tagIsFatal]
    by_cases h1 : 1 < s.length
    · simp [h1]
    · simp only [h1, if_false, false_or]
      exact hc

/-! ## Lemmas on `genoptionList` -/

theorem colon_split (s : GoString) : 58 ∉ s ∨ ∃ a r, 58 ∉ a ∧ s = a ++ 58 :: r := by
  induction s with
  | nil => left; simp
  | cons c cs ih =>
    by_cases hc : c = 58
    · right; exact ⟨[], cs, by simp, by simp [hc]⟩
    · rcases ih with h | ⟨a, r, ha, hs⟩
      · left
        simp only [List.mem_cons, not_or]
        exact ⟨fun e => hc e.symm, h⟩
      · right
        refine ⟨c :: a, r, ?_, by simp [hs]⟩
        simp only [List.mem_cons, not_or]
        exact ⟨fun e => hc e.symm, ha⟩

/-- Every tag is written from one to four segments. -/
theorem tag_decompose (tag : GoString) : ∃ segs, tagSegments segs ∧ joinColon segs = tag := by
  rcases colon_split tag with h | ⟨a, r, ha, rfl⟩
  · exact ⟨[tag], h, rfl⟩
  · rcases colon_split r with h | ⟨b, r2, hb, rfl⟩
    · exact ⟨[a, r], ⟨ha, h⟩, rfl⟩
    · rcases colon_split r2 with h | ⟨c, r3, hc, rfl⟩
      · exact ⟨[a, b, r2], ⟨ha, hb, h⟩, rfl⟩
      · exact ⟨[a, b, c, r3], ⟨ha, hb, hc⟩, rfl⟩

theorem autoShort_unused (o : option) (name : GoString) (h : autoShort o name ≠ []) :
    o.unused (autoShort o name) = true := by
  simp only [autoShort] at h ⊢
  split_ifs at h ⊢ with h1 h2
  · exact h1
  · exact h2
  · exact absurd rfl h

theorem autoLong_unused (o : option) (name : GoString) (h : autoLong o name ≠ []) :
    o.unused (autoLong o name) = true ∧ autoLong o name ≠ autoShort o name := by
  simp only [autoLong] at h ⊢
  split_ifs at h ⊢ with h1
  · exact h1
  · exact absurd rfl h

/-- The keys that `createKeyNames` returns are new to the registry, differ
from each other, and are stored in it. -/
theorem createKeyNames_keys (o o1 : option) (name typ tag : GoString) (kn : KeyNames)
    (hname : name ≠ []) (h : o.createKeyNames name typ tag = .ok (o1, kn)) :
    o1 = o.withKeys kn.u_key kn.gnu_key ∧
      (kn.u_key ≠ [] → o.unused kn.u_key = true) ∧
      (kn.gnu_key ≠ [] → o.unused kn.gnu_key = true ∧ kn.gnu_key ≠ kn.u_key) := by
  obtain ⟨segs, hsegs, rfl⟩ := tag_decompose tag
  by_cases hlen : 2 ≤ segs.length
  · obtain ⟨h1, h2⟩ := createKeyNames_explicit o name typ segs hsegs hlen
    by_cases hf : tagIsFatal o segs
    · obtain ⟨p, hp⟩ := h1 hf
      rw [hp] at h
      cases h
    · rw [h2 hf] at h
      simp only [Except.ok.injEq, Prod.mk.injEq] at h
      obtain ⟨ho, hk⟩ := h
      subst hk
      refine ⟨ho.symm, ?_⟩
      have hnc : ¬ keysCollide o (tagKeyNames typ segs).u_key (tagKeyNames typ segs).gnu_key := by
        match segs, hsegs, hlen with
        | [k, h], _, _ =>
          simp only [tagIsFatal] at hf
          simp only [tagKeyNames, keysCollide]
          by_cases hk1 : k.length = 1
          · have hne : k ≠ [] := by intro e; rw [e] at hk1; simp at hk1
            simpa [hk1, hne] using hf
          · simp only [hk1, if_false, ne_eq, not_true_eq_false, false_and, false_or]
            rintro ⟨a, b | b⟩
            · exact hf ⟨a, b⟩
            · exact a b
        | [s, l, h], _, _ =>
          simp only [tagIsFatal, not_or] at hf
          exact hf.2
        | [s, l, p, h], _, _ =>
          simp only [tagIsFatal, not_or] at hf
          exact hf.2
      simp only [keysCollide, not_or, not_and] at hnc
      constructor
      · intro hu
        have := hnc.1 hu
        simpa using this
      · intro hg
        have := hnc.2 hg
        exact ⟨by simpa using this.1, this.2⟩
  · match segs, hsegs, hlen with
    | [hh], hsegs, _ =>
      simp only [joinColon] at h
      rw [createKeyNames_one o name typ hh hname hsegs] at h
      simp only [Except.ok.injEq, Prod.mk.injEq] at h
      obtain ⟨ho, hk⟩ := h
      subst hk
      exact ⟨ho.symm, autoShort_unused o name, autoLong_unused o name⟩
    | _ :: _ :: _, _, hlen => exact absurd (by simp) hlen

theorem descriptorKeys_append (l : List opt) (d : opt) :
    descriptorKeys (l ++ [d]) =
      descriptorKeys l ++ [d.u_key, d.gnu_key].filter fun k => decide (k ≠ []) := by
  simp [descriptorKeys, List.flatMap_append]

theorem unused_withKeys (o : option) (u g k : GoString) :
    (o.withKeys u g).unused k =
      (o.unused k && !(decide (u ≠ []) && decide (k = u)) &&
        !(decide (g ≠ []) && decide (k = g))) := by
  have h1 := unused_register { o with keys := o.keys.register u } g k
  have h2 := unused_register o u k
  simp only at h1
  simp only [option.withKeys]
  rw [h1, h2]

theorem isPublic_ok (name : GoString) :
    isPublic name = .ok true ↔ exported name = true := by
  cases name with
  | nil => simp [isPublic, exported]
  | cons c cs => simp [isPublic, exported, isUpper_eq]

theorem isPublic_false (name : GoString) (h : name ≠ []) (he : exported name = false) :
    isPublic name = .ok false := by
  cases name with
  | nil => exact absurd rfl h
  | cons c cs =>
    simp only [exported] at he
    simp only [isPublic, isUpper_eq, he]

theorem exported_ne_nil (name : GoString) (h : exported name = true) : name ≠ [] := by
  intro e; subst e; simp [exported] at h

/-- One turn of the loop of `genoptionList` on an admissible field. -/
theorem genoptionListLoop_cons (f : StructField) (rest : List StructField) (o o1 : option)
    (k : KeyNames) (hf : admissible f)
    (hc : o.createKeyNames f.Name f.typ f.Tag = .ok (o1, k)) :
    genoptionListLoop (f :: rest) o =
      genoptionListLoop rest
        { o1 with
          opt_count := o1.opt_count + 1
          optionList := o1.optionList ++
            [opt.mk f.fld f.Name f.typ k.u_key k.gnu_key k.help k.placeholder] } := by
  rw [genoptionListLoop]
  simp only [(isPublic_ok f.Name).2 hf.1, hf.2, Bool.true_eq_false, if_false, hc]

theorem genoptionListLoop_cons_error (f : StructField) (rest : List StructField) (o : option)
    (p : Panic) (hf : admissible f) (hc : o.createKeyNames f.Name f.typ f.Tag = .error p) :
    genoptionListLoop (f :: rest) o = .error p := by
  rw [genoptionListLoop]
  simp only [(isPublic_ok f.Name).2 hf.1, hf.2, Bool.true_eq_false, if_false, hc]

theorem genoptionListLoop_reject (f : StructField) (rest : List StructField) (o : option)
    (hf : ¬ admissible f) (hname : f.Name ≠ []) :
    genoptionListLoop (f :: rest) o = .error (.msg (rejection f)) := by
  rw [genoptionListLoop]
  by_cases he : exported f.Name = true
  · have hs : isScalar f.fld = false := by
      cases h : isScalar f.fld
      · rfl
      · exact absurd ⟨he, h⟩ hf
    simp only [(isPublic_ok f.Name).2 he, hs, if_true, rejection, he]
  · have he2 : exported f.Name = false := by
      cases h : exported f.Name
      · rfl
      · exact absurd h he
    simp only [isPublic_false f.Name hname he2, rejection, he2, Bool.false_eq_true, if_false]

theorem genoptionListLoop_reject_any (f : StructField) (rest : List StructField) (o : option)
    (hf : ¬ admissible f) : ∃ p, genoptionListLoop (f :: rest) o = .error p := by
  by_cases hname : f.Name = []
  · refine ⟨.runtime, ?_⟩
    rw [genoptionListLoop]
    simp [hname, isPublic]
  · exact ⟨_, genoptionListLoop_reject f rest o hf hname⟩

theorem KeysInvariant_step (o o1 : option) (f : StructField) (k : KeyNames)
    (hf : admissible f) (hinv : KeysInvariant o)
    (h : o.createKeyNames f.Name f.typ f.Tag = .ok (o1, k)) :
    KeysInvariant { o1 with
      opt_count := o1.opt_count + 1
      optionList := o1.optionList ++
        [opt.mk f.fld f.Name f.typ k.u_key k.gnu_key k.help k.placeholder] } := by
  obtain ⟨ho1, hu, hg⟩ := createKeyNames_keys o o1 f.Name f.typ f.Tag k
    (exported_ne_nil _ hf.1) h
  subst ho1
  obtain ⟨hnd, hreg⟩ := hinv
  have hol : (o.withKeys k.u_key k.gnu_key).optionList = o.optionList := rfl
  have hun : ∀ (l : List opt) (c : Int) x, option.unused
      { o.withKeys k.u_key k.gnu_key with opt_count := c, optionList := l } x =
        (o.withKeys k.u_key k.gnu_key).unused x := fun _ _ _ => rfl
  simp only [KeysInvariant, hol, descriptorKeys_append, hun, unused_withKeys]
  constructor
  · rw [List.nodup_append]
    refine ⟨hnd, ?_, ?_⟩
    · simp only [List.filter_cons, List.filter_nil]
      by_cases h1 : k.u_key = [] <;> by_cases h2 : k.gnu_key = []
      · simp [h1, h2]
      · simp [h1, h2]
      · simp [h1, h2]
      · have := (hg h2).2
        simp [h1, h2, Ne.symm this]
    · intro x hx hx2
      have hxu := hreg x hx
      simp only [List.filter_cons, List.filter_nil] at hx2
      by_cases h1 : k.u_key = [] <;> by_cases h2 : k.gnu_key = [] <;>
        simp only [h1, h2, ne_eq, not_true_eq_false, decide_False, not_false_eq_true,
          decide_True, if_true, if_false, Bool.false_eq_true, List.mem_cons, List.mem_singleton,
          List.not_mem_nil, or_false] at hx2
      · have := (hg h2).1
        rw [← hx2, hxu] at this
        cases this
      · have := hu h1
        rw [← hx2, hxu] at this
        cases this
      · rcases hx2 with e | e
        · have := hu h1
          rw [← e, hxu] at this
          cases this
        · have := (hg h2).1
          rw [← e, hxu] at this
          cases this
  · intro x hx
    rw [List.mem_append] at hx
    rcases hx with hx | hx
    · simp [hreg x hx]
    · simp only [List.mem_filter, List.mem_cons, List.mem_singleton, List.not_mem_nil, or_false,
        decide_eq_true_eq] at hx
      rcases hx with ⟨e | e, hne⟩
      · subst e
        simp [hne]
      · subst e
        simp [hne]

theorem KeysInvariant_loop (v : List StructField) :
    ∀ o o1 : option, KeysInvariant o → genoptionListLoop v o = .ok o1 → KeysInvariant o1 := by
  induction v with
  | nil =>
    intro o o1 hinv h
    simp only [genoptionListLoop, Except.ok.injEq] at h
    exact h ▸ hinv
  | cons f rest ih =>
    intro o o1 hinv h
    by_cases hf : admissible f
    · rcases hc : o.createKeyNames f.Name f.typ f.Tag with p | ⟨o2, k⟩
      · rw [genoptionListLoop_cons_error f rest o p hf hc] at h
        cases h
      · rw [genoptionListLoop_cons f rest o o2 k hf hc] at h
        exact ih _ _ (KeysInvariant_step o o2 f k hf hinv hc) h
    · obtain ⟨p, hp⟩ := genoptionListLoop_reject_any f rest o hf
      rw [hp] at h
      cases h

theorem genoptionListLoop_panics (v : List StructField) :
    ∀ o : option, (∃ f ∈ v, ¬ admissible f) → ∃ p, genoptionListLoop v o = .error p := by
  induction v with
  | nil => rintro o ⟨f, hf, _⟩; simp at hf
  | cons f rest ih =>
    rintro o ⟨g, hg, hna⟩
    by_cases hf : admissible f
    · have hg2 : g ∈ rest := by
        rcases List.mem_cons.1 hg with e | e
        · subst e; exact absurd hf hna
        · exact e
      rcases hc : o.createKeyNames f.Name f.typ f.Tag with p | ⟨o2, k⟩
      · exact ⟨p, genoptionListLoop_cons_error f rest o p hf hc⟩
      · rw [genoptionListLoop_cons f rest o o2 k hf hc]
        exact ih _ ⟨g, hg2, hna⟩
    · exact genoptionListLoop_reject_any f rest o hf

theorem genoptionListLoop_append (pre rest : List StructField) :
    ∀ o o1 : option, genoptionListLoop pre o = .ok o1 →
      genoptionListLoop (pre ++ rest) o = genoptionListLoop rest o1 := by
  induction pre with
  | nil =>
    intro o o1 h
    simp only [genoptionListLoop, Except.ok.injEq] at h
    simp [h]
  | cons f pre ih =>
    intro o o1 h
    by_cases hf : admissible f
    · rcases hc : o.createKeyNames f.Name f.typ f.Tag with p | ⟨o2, k⟩
      · rw [genoptionListLoop_cons_error f pre o p hf hc] at h
        cases h
      · rw [genoptionListLoop_cons f pre o o2 k hf hc] at h
        rw [List.cons_append, genoptionListLoop_cons f (pre ++ rest) o o2 k hf hc]
        exact ih _ _ h
    · obtain ⟨p, hp⟩ := genoptionListLoop_reject_any f pre o hf
      rw [hp] at h
      cases h

theorem genoptionListLoop_descriptors (v : List StructField) :
    ∀ o o1 : option, genoptionListLoop v o = .ok o1 →
      (∀ f ∈ v, admissible f) ∧
        o1.optionList.map opt.origin = o.optionList.map opt.origin ++ v.map StructField.origin := by
  induction v with
  | nil =>
    intro o o1 h
    simp only [genoptionListLoop, Except.ok.injEq] at h
    simp [h]
  | cons f rest ih =>
    intro o o1 h
    by_cases hf : admissible f
    · rcases hc : o.createKeyNames f.Name f.typ f.Tag with p | ⟨o2, k⟩
      · rw [genoptionListLoop_cons_error f rest o p hf hc] at h
        cases h
      · rw [genoptionListLoop_cons f rest o o2 k hf hc] at h
        obtain ⟨h1, h2⟩ := ih _ _ h
        obtain ⟨ho2, _, _⟩ := createKeyNames_keys o o2 f.Name f.typ f.Tag k
          (exported_ne_nil _ hf.1) hc
        subst ho2
        refine ⟨?_, ?_⟩
        · intro g hg
          rcases List.mem_cons.1 hg with e | e
          · exact e ▸ hf
          · exact h1 g e
        · rw [h2]
          simp [option.withKeys, opt.origin, StructField.origin]
    · obtain ⟨p, hp⟩ := genoptionListLoop_reject_any f rest o hf
      rw [hp] at h
      cases h

theorem genoptionListLoop_completes (v : List StructField) :
    ∀ o : option, (∀ f ∈ v, admissible f ∧ 58 ∉ f.Tag) → ∃ o1, genoptionListLoop v o = .ok o1 := by
  induction v with
  | nil => intro o _; exact ⟨o, rfl⟩
  | cons f rest ih =>
    intro o h
    obtain ⟨hf, htag⟩ := h f (List.mem_cons_self _ _)
    have hc := createKeyNames_one o f.Name f.typ f.Tag (exported_ne_nil _ hf.1) htag
    rw [genoptionListLoop_cons f rest o _ _ hf hc]
    exact ih _ fun g hg => h g (List.mem_cons_of_mem _ hg)

/-! ## Lemmas on the tokenizer `parse` -/

theorem parseLoop_ok (arg : GoString) (rest : List GoString) (i : Nat) (o o1 : option)
    (lastkey lastkey1 : GoString) (h : parseArg o lastkey arg = .ok (o1, lastkey1)) :
    parseLoop (arg :: rest) (i + 1) o lastkey = parseLoop rest (i + 2) o1 lastkey1 := by
  rw [parseLoop]
  simp only [Nat.add_one_ne_zero, if_false, h]

theorem parseLoop_error (arg : GoString) (rest : List GoString) (i : Nat) (o : option)
    (lastkey : GoString) (p : Panic) (h : parseArg o lastkey arg = .error p) :
    parseLoop (arg :: rest) (i + 1) o lastkey = .error p := by
  rw [parseLoop]
  simp only [Nat.add_one_ne_zero, if_false, h]

/-- After index 0 the index plays no part in the loop of `parse`. -/
theorem parseLoop_index (args : List GoString) :
    ∀ (i j : Nat) (o : option) (lastkey : GoString),
      parseLoop args (i + 1) o lastkey = parseLoop args (j + 1) o lastkey := by
  induction args with
  | nil => intro i j o lastkey; simp [parseLoop]
  | cons arg rest ih =>
    intro i j o lastkey
    rcases h : parseArg o lastkey arg with p | ⟨o1, l1⟩
    · rw [parseLoop_error _ _ _ _ _ _ h, parseLoop_error _ _ _ _ _ _ h]
    · rw [parseLoop_ok _ _ _ _ _ _ _ h, parseLoop_ok _ _ _ _ _ _ _ h]
      exact ih (i + 1) (j + 1) o1 l1

theorem parse_cons (o : option) (cmd : GoString) (args : List GoString) :
    o.parse (cmd :: args) = parseLoop args 1 o [] := by
  simp only [option.parse]
  rw [parseLoop]
  simp

theorem isLetterByte_iff (c : Nat) : isLetterByte c = true ↔ isAsciiLetter c = true := by
  simp only [isLetterByte, isAsciiLetter, Bool.or_eq_true, Bool.and_eq_true, decide_eq_true_eq]
  constructor
  · rintro (h | h)
    · exact Or.inr h
    · exact Or.inl h
  · rintro (h | h)
    · exact Or.inr h
    · exact Or.inl h

/-- A flag argument goes through the flag branch of `parse`. -/
theorem parseArg_flag (o : option) (lastkey : GoString) (c : Nat) (cs : GoString)
    (h : ∀ d ∈ c :: cs, isAsciiLetter d = true) :
    parseArg o lastkey (45 :: c :: cs) = .ok (parseFlags (c :: cs) o lastkey) := by
  have hc : isAsciiLetter c = true := h c (List.mem_cons_self _ _)
  have hc45 : c ≠ 45 := by
    simp only [isAsciiLetter, decide_eq_true_eq] at hc
    omega
  have h1 : rx_gnuKeywordAssign (45 :: c :: cs) = none := by
    unfold rx_gnuKeywordAssign
    split
    · rename_i heq
      simp only [List.cons.injEq, true_and] at heq
      exact absurd heq.1 hc45
    · rfl
  have h2 : rx_gnuKeyword (45 :: c :: cs) = none := by
    unfold rx_gnuKeyword
    split
    · rename_i heq
      simp only [List.cons.injEq, true_and] at heq
      exact absurd heq.1 hc45
    · rfl
  have h3 : rx_flag (45 :: c :: cs) = some (c :: cs) := by
    have hcs : cs.all isLetterByte = true := by
      rw [List.all_eq_true]
      intro d hd
      exact (isLetterByte_iff d).2 (h d (List.mem_cons_of_mem _ hd))
    simp only [rx_flag, (isLetterByte_iff c).2 hc, hcs, Bool.and_self, if_true]
  simp only [parseArg, List.length_cons, List.head?_cons, gt_iff_lt, Nat.zero_lt_succ, and_self,
    if_true, h1, h2, h3]

theorem parseFlags_cons (c : Nat) (cs : GoString) (o : option) (lastkey : GoString) :
    parseFlags (c :: cs) o lastkey =
      parseFlags cs (parseFlags [c] o lastkey).1 (parseFlags [c] o lastkey).2 := by
  simp only [parseFlags]

/-- The events that the loop over the letters of a flag argument appends, and
the key it leaves pending. -/
theorem parseFlags_events (cs : GoString) :
    ∀ (o : option) (lastkey : GoString),
      (parseFlags cs o lastkey).1.vdata = o.vdata ++ flagEvents cs ∧
        (parseFlags cs o lastkey).2 = (cs.getLast?.map fun c => [c]).getD lastkey := by
  induction cs with
  | nil => intro o lastkey; simp [parseFlags, flagEvents]
  | cons c cs ih =>
    intro o lastkey
    rw [parseFlags]
    obtain ⟨h1, h2⟩ := ih
      { o with
        vdata := o.vdata ++ [vst.mk [c] [] 0]
        vmap := o.vmap.set [c] ((o.vdata ++ [vst.mk [c] [] 0]).length - 1) } [c]
    constructor
    · rw [h1]
      simp [flagEvents]
    · rw [h2]
      cases cs with
      | nil => simp
      | cons d ds =>
        have hl : (d :: ds).getLast? = some ((d :: ds).getLast (List.cons_ne_nil _ _)) :=
          List.getLast?_eq_getLast _ _
        rw [List.getLast?_cons_cons, hl]
        rfl

/-- Separate flag arguments leave the tokenizer where the ganged argument
leaves it. -/
theorem parseLoop_separateFlags (cs : GoString) (rest : List GoString) :
    ∀ (i : Nat) (o : option) (lastkey : GoString), (∀ c ∈ cs, isAsciiLetter c = true) →
      parseLoop (separateFlags cs ++ rest) (i + 1) o lastkey =
        parseLoop rest (i + 1) (parseFlags cs o lastkey).1 (parseFlags cs o lastkey).2 := by
  induction cs with
  | nil => intro i o lastkey _; simp [separateFlags, parseFlags]
  | cons c cs ih =>
    intro i o lastkey h
    have hc : ∀ d ∈ [c], isAsciiLetter d = true := by
      intro d hd
      simp only [List.mem_singleton] at hd
      exact hd ▸ h c (List.mem_cons_self _ _)
    have hstep := parseArg_flag o lastkey c [] hc
    simp only [separateFlags, List.map_cons, List.cons_append] at ih ⊢
    rw [parseLoop_ok _ _ _ _ _ _ _ hstep, parseFlags_cons,
      parseLoop_index _ (i + 1) i]
    exact ih i _ _ fun d hd => h d (List.mem_cons_of_mem _ hd)

theorem rx_flag_ne_nil (arg l : GoString) (h : rx_flag arg = some l) : l ≠ [] := by
  unfold rx_flag at h
  split at h
  · split_ifs at h
    simp only [Option.some.injEq] at h
    rw [← h]
    simp
  · cases h

theorem parseValue_total (o : option) (lastkey arg : GoString)
    (h : lastkey ≠ [] → o.vdata ≠ []) :
    ∃ o1 l1, parseValue o lastkey arg = .ok (o1, l1) ∧ (l1 ≠ [] → o1.vdata ≠ []) := by
  simp only [parseValue]
  by_cases hl : lastkey = []
  · subst hl
    simp only [ne_eq, not_true_eq_false, if_false]
    exact ⟨_, _, rfl, fun hh => absurd rfl hh⟩
  · simp only [ne_eq, hl, not_false_eq_true, if_true]
    have hv := h hl
    cases hd : o.vdata with
    | nil => exact absurd hd hv
    | cons x xs =>
      simp only [List.length_cons]
      exact ⟨_, _, rfl, fun hh => absurd rfl hh⟩

/-- One turn of the loop of `parse` never panics on a state in which a pending
key has an event, and leads to such a state. -/
theorem parseArg_total (o : option) (lastkey arg : GoString)
    (h : lastkey ≠ [] → o.vdata ≠ []) :
    ∃ o1 l1, parseArg o lastkey arg = .ok (o1, l1) ∧ (l1 ≠ [] → o1.vdata ≠ []) := by
  simp only [parseArg]
  split_ifs
  · rcases h1 : rx_gnuKeywordAssign arg with _ | ⟨key, val⟩
    · rcases h2 : rx_gnuKeyword arg with _ | key
      · rcases h3 : rx_flag arg with _ | letters
        · exact parseValue_total o lastkey arg h
        · refine ⟨_, _, rfl, fun _ => ?_⟩
          rw [(parseFlags_events letters o lastkey).1]
          have := rx_flag_ne_nil arg letters h3
          cases letters with
          | nil => exact absurd rfl this
          | cons c cs => simp [flagEvents]
      · exact ⟨_, _, rfl, fun _ => by simp⟩
    · exact ⟨_, _, rfl, fun _ => by simp⟩
  · exact parseValue_total o lastkey arg h

theorem parseLoop_total (args : List GoString) :
    ∀ (i : Nat) (o : option) (lastkey : GoString), (lastkey ≠ [] → o.vdata ≠ []) →
      ∃ o1, parseLoop args (i + 1) o lastkey = .ok o1 := by
  induction args with
  | nil => intro i o lastkey _; exact ⟨o, by simp [parseLoop]⟩
  | cons arg rest ih =>
    intro i o lastkey h
    obtain ⟨o1, l1, h1, h2⟩ := parseArg_total o lastkey arg h
    rw [parseLoop_ok _ _ _ _ _ _ _ h1]
    exact ih (i + 1) o1 l1 h2

/-- `parse` never panics. -/
theorem parse_total (o : option) (osArgs : List GoString) : ∃ o1, o.parse osArgs = .ok o1 := by
  cases osArgs with
  | nil => exact ⟨o, by simp [option.parse, parseLoop]⟩
  | cons cmd args =>
    rw [parse_cons]
    exact parseLoop_total args 0 o [] fun hh => absurd rfl hh

theorem modify_last {α : Type} (f : α → α) (xs : List α) (x : α) :
    (xs ++ [x]).modify f xs.length = xs ++ [f x] := by
  induction xs with
  | nil => rfl
  | cons a l ih =>
    simp only [List.cons_append, List.length_cons]
    rw [List.modify_succ_cons, ih]

theorem parseArg_plain (o : option) (lastkey w : GoString) (h : w.head? ≠ some 45) :
    parseArg o lastkey w = parseValue o lastkey w := by
  simp only [parseArg]
  rw [if_neg]
  exact fun hh => h hh.2

theorem parseValue_pending (o : option) (lastkey w : GoString) (xs : List vst) (x : vst)
    (hl : lastkey ≠ []) (hv : o.vdata = xs ++ [x]) :
    parseValue o lastkey w =
      .ok ({ o with vdata := xs ++ [{ x with val := stringsTrim w qt }] }, []) := by
  simp only [parseValue, ne_eq, hl, not_false_eq_true, if_true, hv, List.length_append,
    List.length_singleton, modify_last]

/-! ## Lemmas on `strings.Trim` -/

theorem dropWhile_replicate_append (c n : Nat) (l : GoString) :
    (List.replicate n c ++ l).dropWhile (fun b => b == c) = l.dropWhile (fun b => b == c) := by
  induction n with
  | zero => simp
  | succ n ih => simp [List.replicate_succ, List.dropWhile_cons, ih]

theorem dropWhile_of_head (c : Nat) (l : GoString) (h : l.head? ≠ some c) :
    l.dropWhile (fun b => b == c) = l := by
  cases l with
  | nil => rfl
  | cons x xs =>
    have hx : x ≠ c := by
      intro e; apply h; simp [e]
    simp [List.dropWhile_cons, hx]

/-- `strings.Trim` removes every leading and every trailing quote and nothing
else. -/
theorem stringsTrim_spec (i j : Nat) (m : GoString) (h : noOuterQuote m) :
    stringsTrim (List.replicate i 34 ++ m ++ List.replicate j 34) 34 = m := by
  obtain ⟨h1, h2⟩ := h
  simp only [stringsTrim, List.reverse_append, List.reverse_replicate, List.append_assoc]
  rw [dropWhile_replicate_append]
  by_cases hm : m = []
  · subst hm
    simp only [List.reverse_nil, List.nil_append]
    have : (List.replicate i 34).dropWhile (fun b => b == 34) = [] := by
      have := dropWhile_replicate_append 34 i []
      rw [List.append_nil] at this
      rw [this]
      rfl
    rw [this]
    rfl
  · have hr : (m.reverse ++ List.replicate i 34).dropWhile (fun b => b == 34) =
        m.reverse ++ List.replicate i 34 := by
      apply dropWhile_of_head
      rw [List.head?_append_of_ne_nil _ (by simpa using hm), List.head?_reverse]
      exact h2
    rw [hr, List.reverse_append, List.reverse_reverse, List.reverse_replicate,
      dropWhile_replicate_append]
    exact dropWhile_of_head 34 m h1

theorem takeWhile_eq_replicate (c : Nat) (l : GoString) :
    l.takeWhile (fun b => b == c) = List.replicate (l.takeWhile (fun b => b == c)).length c := by
  apply List.eq_replicate_of_mem
  intro b hb
  have := List.mem_takeWhile_imp hb
  simpa using this

/-- Every string is a run of quotes, a part without outer quotes, and a run of
quotes. -/
theorem quotes_decompose (a : GoString) :
    ∃ i j m, noOuterQuote m ∧ a = List.replicate i 34 ++ m ++ List.replicate j 34 := by
  have h1 : a = a.takeWhile (fun b => b == 34) ++ a.dropWhile (fun b => b == 34) :=
    (List.takeWhile_append_dropWhile _ a).symm
  generalize hr : a.dropWhile (fun b => b == 34) = r at h1
  have hrh : r.head? ≠ some 34 := by
    rw [← hr]
    intro e
    have := List.head?_dropWhile_not (fun b => b == 34) a
    rw [e] at this
    simp at this
  have h2 : r.reverse = r.reverse.takeWhile (fun b => b == 34) ++
      r.reverse.dropWhile (fun b => b == 34) := (List.takeWhile_append_dropWhile _ _).symm
  generalize hs : r.reverse.dropWhile (fun b => b == 34) = s at h2
  have hsh : s.head? ≠ some 34 := by
    rw [← hs]
    intro e
    have := List.head?_dropWhile_not (fun b => b == 34) r.reverse
    rw [e] at this
    simp at this
  have h3 : r = s.reverse ++ (r.reverse.takeWhile (fun b => b == 34)).reverse := by
    have := congrArg List.reverse h2
    simpa using this
  rw [takeWhile_eq_replicate 34 r.reverse, List.reverse_replicate] at h3
  rw [takeWhile_eq_replicate 34 a] at h1
  refine ⟨(List.takeWhile (fun b => b == 34) a).length,
    (List.takeWhile (fun b => b == 34) r.reverse).length, s.reverse, ⟨?_, ?_⟩, ?_⟩
  · intro e
    by_cases hs0 : s = []
    · subst hs0; simp at e
    · apply hrh
      rw [h3, List.head?_append_of_ne_nil _ (by simpa using hs0)]
      exact e
  · rw [List.getLast?_reverse]
    exact hsh
  · conv_lhs => rw [h1, h3]
    rw [List.append_assoc]

theorem rx_gnuKeywordAssign_dash (arg key val : GoString)
    (h : rx_gnuKeywordAssign arg = some (key, val)) : arg.length > 0 ∧ arg.head? = some 45 := by
  unfold rx_gnuKeywordAssign at h
  split at h
  · simp
  · cases h

theorem parseArg_assign (o : option) (lastkey arg key val : GoString)
    (h : rx_gnuKeywordAssign arg = some (key, val)) :
    parseArg o lastkey arg =
      .ok ({ o with
        vdata := o.vdata ++ [vst.mk key (stringsTrim val qt) typ_uoption]
        vmap := o.vmap.set key ((o.vdata ++ [vst.mk key (stringsTrim val qt) typ_uoption]).length - 1) },
        key) := by
  simp only [parseArg, rx_gnuKeywordAssign_dash arg key val h, and_self, if_true, h]

theorem parseValue_positional (o : option) (w : GoString) :
    parseValue o [] w =
      .ok ({ o with vdata := o.vdata ++ [vst.mk [] (stringsTrim w qt) typ_arg] }, []) := by
  simp [parseValue]

/-! ## Lemmas on `New` and on the event table -/

theorem New_ok (fl : FloatLib) (osArgs : List GoString) (v2 : List NewArg) (o1 o2 o3 : option)
    (hn : v2.length = 1 ∨ v2.length = 2) (hargs : osArgs ≠ [])
    (h1 : option.init.calcArgLimit v2 = .ok o1) (h2 : o1.parse osArgs = .ok o2)
    (h3 : o2.varAssign fl v2 = .ok (o3, none)) :
    New fl osArgs v2 = .ok (o3, o3.checkUndefinedOptions) := by
  have hl : ¬ (v2.length = 0 ∨ v2.length > 2) := by omega
  have ha : ¬ osArgs.length = 0 := by
    cases osArgs with
    | nil => exact absurd rfl hargs
    | cons a l => simp
  simp only [New, hl, ha, if_false, h1, h2, h3]

theorem New_err (fl : FloatLib) (osArgs : List GoString) (v2 : List NewArg) (o1 o2 o3 : option)
    (e : OptError) (hn : v2.length = 1 ∨ v2.length = 2) (hargs : osArgs ≠ [])
    (h1 : option.init.calcArgLimit v2 = .ok o1) (h2 : o1.parse osArgs = .ok o2)
    (h3 : o2.varAssign fl v2 = .ok (o3, some e)) :
    New fl osArgs v2 = .ok (o3, some e) := by
  have hl : ¬ (v2.length = 0 ∨ v2.length > 2) := by omega
  have ha : ¬ osArgs.length = 0 := by
    cases osArgs with
    | nil => exact absurd rfl hargs
    | cons a l => simp
  simp only [New, hl, ha, if_false, h1, h2, h3]

theorem New_panic (fl : FloatLib) (osArgs : List GoString) (v2 : List NewArg) (o1 o2 : option)
    (p : Panic) (hn : v2.length = 1 ∨ v2.length = 2) (hargs : osArgs ≠ [])
    (h1 : option.init.calcArgLimit v2 = .ok o1) (h2 : o1.parse osArgs = .ok o2)
    (h3 : o2.varAssign fl v2 = .error p) :
    New fl osArgs v2 = .error p := by
  have hl : ¬ (v2.length = 0 ∨ v2.length > 2) := by omega
  have ha : ¬ osArgs.length = 0 := by
    cases osArgs with
    | nil => exact absurd rfl hargs
    | cons a l => simp
  simp only [New, hl, ha, if_false, h1, h2, h3]

/-- The loop over the letters of a flag argument reads and writes the events
only. -/
theorem parseFlags_withEvents (cs : GoString) :
    ∀ (o q : option) (lastkey : GoString), q.vdata = o.vdata → q.vmap = o.vmap →
      parseFlags cs q lastkey =
        (q.withEvents (parseFlags cs o lastkey).1, (parseFlags cs o lastkey).2) := by
  induction cs with
  | nil =>
    intro o q lastkey h1 h2
    simp only [parseFlags, option.withEvents, ← h1, ← h2]
  | cons c cs ih =>
    intro o q lastkey h1 h2
    rw [parseFlags, parseFlags]
    rw [ih { o with
        vdata := o.vdata ++ [vst.mk [c] [] 0]
        vmap := o.vmap.set [c] ((o.vdata ++ [vst.mk [c] [] 0]).length - 1) }
      { q with
        vdata := q.vdata ++ [vst.mk [c] [] 0]
        vmap := q.vmap.set [c] ((q.vdata ++ [vst.mk [c] [] 0]).length - 1) } [c]
      (by simp [h1]) (by simp [h1, h2])]
    rfl

theorem parseValue_withEvents (o q o1 : option) (lastkey arg l1 : GoString)
    (hv : q.vdata = o.vdata) (hm : q.vmap = o.vmap)
    (h : parseValue o lastkey arg = .ok (o1, l1)) :
    parseValue q lastkey arg = .ok (q.withEvents o1, l1) ∧ o1.vmap = o.vmap := by
  simp only [parseValue] at h ⊢
  by_cases hl : lastkey = []
  · simp only [hl, ne_eq, not_true_eq_false, if_false, Except.ok.injEq, Prod.mk.injEq] at h ⊢
    obtain ⟨h1, h2⟩ := h
    subst h1
    simp [option.withEvents, hv, hm, h2]
  · simp only [ne_eq, hl, not_false_eq_true, if_true] at h ⊢
    rw [hv]
    cases hd : o.vdata with
    | nil => rw [hd] at h; cases h
    | cons x xs =>
      rw [hd] at h
      simp only [List.length_cons, Except.ok.injEq, Prod.mk.injEq] at h ⊢
      obtain ⟨h1, h2⟩ := h
      subst h1
      simp [option.withEvents, h2, hm]

/-- One turn of the loop of `parse` reads and writes the events only. -/
theorem parseArg_withEvents (o q o1 : option) (lastkey arg l1 : GoString)
    (hv : q.vdata = o.vdata) (hm : q.vmap = o.vmap)
    (h : parseArg o lastkey arg = .ok (o1, l1)) :
    parseArg q lastkey arg = .ok (q.withEvents o1, l1) := by
  simp only [parseArg] at h ⊢
  split_ifs at h ⊢
  · rcases h1 : rx_gnuKeywordAssign arg with _ | ⟨key, val⟩
    · rw [h1] at h
      simp only at h ⊢
      rcases h2 : rx_gnuKeyword arg with _ | key
      · rw [h2] at h
        simp only at h ⊢
        rcases h3 : rx_flag arg with _ | letters
        · rw [h3] at h
          simp only at h ⊢
          exact (parseValue_withEvents o q o1 lastkey arg l1 hv hm h).1
        · rw [h3] at h
          simp only [Except.ok.injEq] at h ⊢
          rw [parseFlags_withEvents letters o q lastkey hv hm, h]
      · rw [h2] at h
        simp only [Except.ok.injEq, Prod.mk.injEq] at h ⊢
        obtain ⟨h3, h4⟩ := h
        subst h3
        simp [option.withEvents, hv, hm, h4]
    · rw [h1] at h
      simp only [Except.ok.injEq, Prod.mk.injEq] at h ⊢
      obtain ⟨h3, h4⟩ := h
      subst h3
      simp [option.withEvents, hv, hm, h4]
  · exact (parseValue_withEvents o q o1 lastkey arg l1 hv hm h).1

theorem withEvents_vdata (q o : option) : (q.withEvents o).vdata = o.vdata := rfl

theorem withEvents_vmap (q o : option) : (q.withEvents o).vmap = o.vmap := rfl

theorem withEvents_withEvents (q o p : option) :
    (q.withEvents o).withEvents p = q.withEvents p := rfl

theorem parseLoop_withEvents (args : List GoString) :
    ∀ (i : Nat) (o q o1 : option) (lastkey : GoString), q.vdata = o.vdata → q.vmap = o.vmap →
      parseLoop args (i + 1) o lastkey = .ok o1 →
      parseLoop args (i + 1) q lastkey = .ok (q.withEvents o1) := by
  induction args with
  | nil =>
    intro i o q o1 lastkey hv hm h
    simp only [parseLoop, Except.ok.injEq] at h ⊢
    subst h
    cases q
    simp only [option.withEvents] at hv hm ⊢
    simp [hv, hm]
  | cons arg rest ih =>
    intro i o q o1 lastkey hv hm h
    rcases ha : parseArg o lastkey arg with p | ⟨o2, l2⟩
    · rw [parseLoop_error _ _ _ _ _ _ ha] at h
      cases h
    · rw [parseLoop_ok _ _ _ _ _ _ _ ha] at h
      rw [parseLoop_ok _ _ _ _ _ _ _ (parseArg_withEvents o q o2 lastkey arg l2 hv hm ha)]
      have := ih (i + 1) o2 (q.withEvents o2) o1 l2 rfl rfl h
      rw [withEvents_withEvents] at this
      exact this

theorem parse_tokenize (osArgs : List GoString) :
    option.init.parse osArgs = .ok (tokenize osArgs) := by
  obtain ⟨o1, h⟩ := parse_total option.init osArgs
  simp only [tokenize, h]

/-- In `New` the object after `parse` is the object before it with the event
table of the command line. -/
theorem parse_eq_tokenize (o : option) (osArgs : List GoString) (hv : o.vdata = [])
    (hm : o.vmap = []) : o.parse osArgs = .ok (o.withEvents (tokenize osArgs)) := by
  have h := parse_tokenize osArgs
  cases osArgs with
  | nil =>
    simp only [option.parse, parseLoop, Except.ok.injEq] at h ⊢
    rw [← h]
    cases o
    simp only [option.withEvents, option.init] at hv hm ⊢
    simp [hv, hm]
  | cons cmd args =>
    rw [parse_cons] at h ⊢
    exact parseLoop_withEvents args 0 option.init o _ [] (by simp [hv, option.init])
      (by simp [hm, option.init]) h

theorem EventsOK_init : EventsOK option.init := by
  refine ⟨fun ev h => ?_, fun k i h => ?_⟩
  · simp [option.init] at h
  · simp [option.init, GoMap.get] at h

theorem get?_append_some {α : Type} (xs ys : List α) (i : Nat) (x : α)
    (h : xs.get? i = some x) : (xs ++ ys).get? i = some x := by
  have hi : i < xs.length := by
    by_contra hc
    rw [List.get?_eq_none.2 (by omega)] at h
    cases h
  rw [List.get?_eq_getElem?, List.getElem?_append_left hi, ← List.get?_eq_getElem?]
  exact h

theorem get?_append_length {α : Type} (xs : List α) (x : α) :
    (xs ++ [x]).get? xs.length = some x := by
  induction xs with
  | nil => rfl
  | cons a l ih => simp

/-- An option event appended by `parse` keeps the event table well formed. -/
theorem EventsOK_push (o : option) (key val : GoString) (typ : Int) (h : EventsOK o)
    (hk : key ≠ []) (ht : typ = 0 ∨ typ = typ_uoption) :
    EventsOK { o with
      vdata := o.vdata ++ [vst.mk key val typ]
      vmap := o.vmap.set key ((o.vdata ++ [vst.mk key val typ]).length - 1) } := by
  refine ⟨fun ev hev => ?_, fun k i hki => ?_⟩
  · simp only [List.mem_append, List.mem_singleton] at hev
    rcases hev with hev | hev
    · exact h.1 ev hev
    · subst hev
      exact ht.imp id fun e => ⟨e, hk⟩
  · simp only [GoMap.get_set, List.length_append, List.length_singleton,
      Nat.add_sub_cancel] at hki
    by_cases hkk : k = key
    · rw [if_pos hkk] at hki
      simp only [Option.some.injEq] at hki
      subst hki
      subst hkk
      exact ⟨hk, _, get?_append_length _ _, rfl⟩
    · rw [if_neg hkk] at hki
      obtain ⟨h1, ev, h2, h3⟩ := h.2 k i hki
      exact ⟨h1, ev, get?_append_some _ _ _ _ h2, h3⟩

theorem EventsOK_positional (o : option) (val : GoString) (h : EventsOK o) :
    EventsOK { o with vdata := o.vdata ++ [vst.mk [] val typ_arg] } := by
  refine ⟨fun ev hev => ?_, fun k i hki => ?_⟩
  · simp only [List.mem_append, List.mem_singleton] at hev
    rcases hev with hev | hev
    · exact h.1 ev hev
    · subst hev
      exact Or.inl rfl
  · obtain ⟨h1, ev, h2, h3⟩ := h.2 k i hki
    exact ⟨h1, ev, get?_append_some _ _ _ _ h2, h3⟩

theorem get?_modify_some {α : Type} (f : α → α) (xs : List α) (n i : Nat) (x : α)
    (h : xs.get? i = some x) : (xs.modify f n).get? i = some (if n = i then f x else x) := by
  rw [List.get?_eq_getElem?] at h ⊢
  rw [List.getElem?_modify, h]
  by_cases hn : n = i <;> simp [hn]

/-- A change of the value or of the type of one event keeps the keys of the
event table. -/
theorem EventsOK_modify (o : option) (f : vst → vst) (n : Nat) (h : EventsOK o)
    (hk : ∀ x, (f x).key = x.key)
    (ht : ∀ x, (x.typ = 0 ∨ (x.typ = typ_uoption ∧ x.key ≠ [])) →
      ((f x).typ = 0 ∨ ((f x).typ = typ_uoption ∧ (f x).key ≠ []))) :
    EventsOK { o with vdata := o.vdata.modify f n } := by
  refine ⟨fun ev hev => ?_, fun k i hki => ?_⟩
  · obtain ⟨i, hi⟩ := List.get?_of_mem hev
    simp only at hi
    have hlen : i < o.vdata.length := by
      by_contra hc
      rw [List.get?_eq_none.2 (by simpa using Nat.le_of_not_lt hc)] at hi
      cases hi
    obtain ⟨x, hx⟩ : ∃ x, o.vdata.get? i = some x := ⟨_, List.get?_eq_get hlen⟩
    rw [get?_modify_some f _ n i x hx] at hi
    simp only [Option.some.injEq] at hi
    subst hi
    have hxt := h.1 x (List.get?_mem hx)
    split_ifs
    · exact ht x hxt
    · exact hxt
  · obtain ⟨h1, ev, h2, h3⟩ := h.2 k i hki
    refine ⟨h1, _, get?_modify_some f _ n i ev h2, ?_⟩
    split_ifs
    · rw [hk, h3]
    · exact h3

theorem EventsOK_parseFlags (cs : GoString) :
    ∀ (o : option) (lastkey : GoString), EventsOK o → EventsOK (parseFlags cs o lastkey).1 := by
  induction cs with
  | nil => intro o lastkey h; exact h
  | cons c cs ih =>
    intro o lastkey h
    rw [parseFlags]
    exact ih _ _ (EventsOK_push o [c] [] 0 h (by simp) (Or.inl rfl))

theorem rx_gnuKeywordAssign_key (arg key val : GoString)
    (h : rx_gnuKeywordAssign arg = some (key, val)) : key ≠ [] := by
  unfold rx_gnuKeywordAssign at h
  split at h
  · split_ifs at h
    · split at h
      · split_ifs at h
        simp only [Option.some.injEq, Prod.mk.injEq] at h
        rw [← h.1]
        simp
      · cases h
  · cases h

theorem rx_gnuKeyword_key (arg key : GoString) (h : rx_gnuKeyword arg = some key) :
    key ≠ [] := by
  unfold rx_gnuKeyword at h
  split at h
  · split_ifs at h
    simp only [Option.some.injEq] at h
    rw [← h]
    simp
  · cases h

theorem EventsOK_parseValue (o o1 : option) (lastkey arg l1 : GoString) (h : EventsOK o)
    (hp : parseValue o lastkey arg = .ok (o1, l1)) : EventsOK o1 := by
  simp only [parseValue] at hp
  split_ifs at hp
  · cases hd : o.vdata.length with
    | zero => rw [hd] at hp; cases hp
    | succ n =>
      rw [hd] at hp
      simp only [Except.ok.injEq, Prod.mk.injEq] at hp
      rw [← hp.1]
      exact EventsOK_modify o _ n h (fun _ => rfl) (fun _ hx => hx)
  · simp only [Except.ok.injEq, Prod.mk.injEq] at hp
    rw [← hp.1]
    exact EventsOK_positional o _ h

theorem EventsOK_parseArg (o o1 : option) (lastkey arg l1 : GoString) (h : EventsOK o)
    (hp : parseArg o lastkey arg = .ok (o1, l1)) : EventsOK o1 := by
  simp only [parseArg] at hp
  split_ifs at hp
  · rcases h1 : rx_gnuKeywordAssign arg with _ | ⟨key, val⟩
    · rw [h1] at hp
      simp only at hp
      rcases h2 : rx_gnuKeyword arg with _ | key
      · rw [h2] at hp
        simp only at hp
        rcases h3 : rx_flag arg with _ | letters
        · rw [h3] at hp
          exact EventsOK_parseValue o o1 lastkey arg l1 h hp
        · rw [h3] at hp
          simp only [Except.ok.injEq] at hp
          have := EventsOK_parseFlags letters o lastkey h
          rw [hp] at this
          exact this
      · rw [h2] at hp
        simp only [Except.ok.injEq, Prod.mk.injEq] at hp
        rw [← hp.1]
        exact EventsOK_push o key [] 0 h (rx_gnuKeyword_key arg key h2) (Or.inl rfl)
    · rw [h1] at hp
      simp only [Except.ok.injEq, Prod.mk.injEq] at hp
      rw [← hp.1]
      exact EventsOK_push o key _ typ_uoption h (rx_gnuKeywordAssign_key arg key val h1)
        (Or.inr rfl)
  · exact EventsOK_parseValue o o1 lastkey arg l1 h hp

theorem EventsOK_parseLoop (args : List GoString) :
    ∀ (i : Nat) (o o1 : option) (lastkey : GoString), EventsOK o →
      parseLoop args (i + 1) o lastkey = .ok o1 → EventsOK o1 := by
  induction args with
  | nil =>
    intro i o o1 lastkey h hp
    simp only [parseLoop, Except.ok.injEq] at hp
    rw [← hp]
    exact h
  | cons arg rest ih =>
    intro i o o1 lastkey h hp
    rcases ha : parseArg o lastkey arg with p | ⟨o2, l2⟩
    · rw [parseLoop_error _ _ _ _ _ _ ha] at hp
      cases hp
    · rw [parseLoop_ok _ _ _ _ _ _ _ ha] at hp
      exact ih (i + 1) o2 o1 l2 (EventsOK_parseArg o o2 lastkey arg l2 h ha) hp

/-- The event table of a command line is well formed. -/
theorem EventsOK_tokenize (osArgs : List GoString) : EventsOK (tokenize osArgs) := by
  have h := parse_tokenize osArgs
  cases osArgs with
  | nil =>
    simp only [option.parse, parseLoop, Except.ok.injEq] at h
    rw [← h]
    exact EventsOK_init
  | cons cmd args =>
    rw [parse_cons] at h
    exact EventsOK_parseLoop args 0 option.init _ [] EventsOK_init h

theorem EventsOK_withEvents (q o : option) (h : EventsOK o) : EventsOK (q.withEvents o) := h

/-! ## Lemmas on the binding of fields -/

theorem autoKeysGnu_withFrame (o fr : option) (u g : GoString) :
    (o.withFrame fr).autoKeysGnu u g =
      (((o.autoKeysGnu u g).1).withFrame fr, (o.autoKeysGnu u g).2) := by
  simp only [option.autoKeysGnu, option.withFrame]
  split_ifs <;> rfl

theorem autoKeys_withFrame (o fr : option) (name : GoString) :
    (o.withFrame fr).autoKeys name =
      (o.autoKeys name).map fun r => (r.1.withFrame fr, r.2) := by
  simp only [option.autoKeys]
  have hk : (o.withFrame fr).keys = o.keys := rfl
  have hs : ∀ ks, { o.withFrame fr with keys := ks } = ({ o with keys := ks }).withFrame fr :=
    fun _ => rfl
  simp only [hk, hs, autoKeysGnu_withFrame]
  split_ifs <;> rfl

theorem keyCheckGnu_withFrame (o fr : option) (g : GoString) :
    (o.withFrame fr).keyCheckGnu g = (((o.keyCheckGnu g).1).withFrame fr, (o.keyCheckGnu g).2) := by
  simp only [option.keyCheckGnu, option.withFrame]
  split_ifs <;> rfl

theorem keyCheck_withFrame (o fr : option) (u g : GoString) :
    (o.withFrame fr).keyCheck u g = (((o.keyCheck u g).1).withFrame fr, (o.keyCheck u g).2) := by
  simp only [option.keyCheck]
  have hk : (o.withFrame fr).keys = o.keys := rfl
  have hs : ∀ ks, { o.withFrame fr with keys := ks } = ({ o with keys := ks }).withFrame fr :=
    fun _ => rfl
  simp only [hk, hs, keyCheckGnu_withFrame]
  split_ifs <;> rfl

theorem createKeyNamesCheck_withFrame (o fr : option) (k : KeyNames) :
    (o.withFrame fr).createKeyNamesCheck k =
      (o.createKeyNamesCheck k).map fun r => (r.1.withFrame fr, r.2) := by
  simp only [option.createKeyNamesCheck, keyCheck_withFrame]
  rcases h : o.keyCheck k.u_key k.gnu_key with ⟨o1, _ | e⟩ <;> rfl

theorem createKeyNamesAuto_withFrame (o fr : option) (name p h : GoString) :
    (o.withFrame fr).createKeyNamesAuto name p h =
      (o.createKeyNamesAuto name p h).map fun r => (r.1.withFrame fr, r.2) := by
  simp only [option.createKeyNamesAuto, autoKeys_withFrame]
  rcases h : o.autoKeys name with e | ⟨o1, u, g⟩ <;> rfl

theorem createKeyNames_withFrame (o fr : option) (name typ tag : GoString) :
    (o.withFrame fr).createKeyNames name typ tag =
      (o.createKeyNames name typ tag).map fun r => (r.1.withFrame fr, r.2) := by
  simp only [option.createKeyNames, createKeyNamesAuto_withFrame, createKeyNamesCheck_withFrame]
  split_ifs
  · rfl
  · split <;> (try split_ifs) <;> rfl

/-- The loop of `genoptionList` neither reads nor writes the event table, the
argument container and the limits. -/
theorem genoptionListLoop_withFrame (fr : option) (v : List StructField) :
    ∀ o : option, genoptionListLoop v (o.withFrame fr) =
      (genoptionListLoop v o).map fun r => r.withFrame fr := by
  induction v with
  | nil => intro o; rfl
  | cons f rest ih =>
    intro o
    rw [genoptionListLoop, genoptionListLoop]
    rcases hp : isPublic f.Name with p | b
    · rfl
    · cases b
      · rfl
      · simp only
        by_cases hs : isScalar f.fld = false
        · rw [if_pos hs, if_pos hs]
          rfl
        · rw [if_neg hs, if_neg hs, createKeyNames_withFrame]
          rcases hc : o.createKeyNames f.Name f.typ f.Tag with p | ⟨o1, k⟩
          · rfl
          · exact ih
              { o1 with
                opt_count := o1.opt_count + 1
                optionList := o1.optionList ++
                  [opt.mk f.fld f.Name f.typ k.u_key k.gnu_key k.help k.placeholder] }

theorem descriptors_ok (v : List StructField) (ds : List opt) (h : descriptors v = .ok ds) :
    ∃ od, option.init.genoptionList v = .ok od ∧ od.optionList = ds := by
  simp only [descriptors] at h
  rcases hg : option.init.genoptionList v with p | od
  · rw [hg] at h
    cases h
  · rw [hg] at h
    simp only [Except.ok.injEq] at h
    exact ⟨od, rfl, h⟩

/-- In `New` the object after `genoptionList` holds the descriptors of the
record and the frame before. -/
theorem genoptionList_frame (o : option) (v : List StructField) (ds : List opt)
    (hk : o.keys = []) (hl : o.optionList = []) (hc : o.opt_count = 0)
    (h : descriptors v = .ok ds) :
    ∃ o1, o.genoptionList v = .ok o1 ∧ o1.optionList = ds ∧ o1.vmap = o.vmap ∧
      o1.vdata = o.vdata ∧ o1.hasArgSlice = o.hasArgSlice ∧ o1.argSliceRef = o.argSliceRef ∧
      o1.argSliceCap = o.argSliceCap ∧ o1.argLimit = o.argLimit := by
  obtain ⟨od, hod, hds⟩ := descriptors_ok v ds h
  have ho : o = option.init.withFrame o := by
    cases o
    simp only [option.withFrame, option.init] at hk hl hc ⊢
    simp [hk, hl, hc]
  refine ⟨od.withFrame o, ?_, hds, rfl, rfl, rfl, rfl, rfl, rfl⟩
  simp only [option.genoptionList] at hod ⊢
  conv_lhs => rw [ho]
  rw [genoptionListLoop_withFrame, hod]
  rfl

theorem MapOK_of_EventsOK (o : option) (h : EventsOK o) : MapOK o := h.2

theorem hit_some (o : option) (x : opt) (ndx : Nat) (key : GoString)
    (h : o.hit x = some (ndx, key)) :
    o.vmap.get key = some ndx ∧ (key = x.u_key ∨ key = x.gnu_key) := by
  simp only [option.hit] at h
  rcases h1 : o.vmap.get x.u_key with _ | n
  · rw [h1] at h
    rcases h2 : o.vmap.get x.gnu_key with _ | n
    · rw [h2] at h
      cases h
    · rw [h2] at h
      simp only [Option.some.injEq, Prod.mk.injEq] at h
      rw [← h.1, ← h.2]
      exact ⟨h2, Or.inr rfl⟩
  · rw [h1] at h
    simp only [Option.some.injEq, Prod.mk.injEq] at h
    rw [← h.1, ← h.2]
    exact ⟨h1, Or.inl rfl⟩

theorem getOption_miss (fl : FloatLib) (o : option) (x : opt) (h : o.hit x = none) :
    getOption fl o x = .ok (o, x.fld, none) := by
  simp only [getOption, h]

/-- The loop body of `getOptions` for a descriptor that has an event. -/
theorem getOption_hit (fl : FloatLib) (o : option) (x : opt) (ndx : Nat) (key : GoString)
    (ev : vst) (h : o.hit x = some (ndx, key)) (hev : o.vdata.get? ndx = some ev) :
    getOption fl o x = .ok (o.mark x, (setScalar fl x.fld (optionValue x.fld.kind ev)).1,
      (setScalar fl x.fld (optionValue x.fld.kind ev)).2.map fun e => .keyed e key) := by
  simp only [getOption, h, hev, option.mark]
  rcases hs : setScalar fl x.fld (optionValue x.fld.kind ev) with ⟨t, _ | e⟩ <;> rfl

theorem mark_vmap (o : option) (x : opt) : (o.mark x).vmap = o.vmap := by
  simp only [option.mark]
  split <;> rfl

theorem mark_hit (o : option) (x y : opt) : (o.mark x).hit y = o.hit y := by
  simp only [option.hit, mark_vmap]

theorem MapOK_mark (o : option) (x : opt) (h : MapOK o) : MapOK (o.mark x) := by
  intro k i hki
  rw [mark_vmap] at hki
  obtain ⟨h1, ev, h2, h3⟩ := h k i hki
  simp only [option.mark]
  split
  · exact ⟨h1, ev, h2, h3⟩
  · rename_i ndx key hh
    refine ⟨h1, _, get?_modify_some _ _ ndx i ev h2, ?_⟩
    split_ifs
    · exact h3
    · exact h3

/-- The loop body of `getOptions` does not panic on a well-formed event
table. -/
theorem getOption_total (fl : FloatLib) (o : option) (x : opt) (h : MapOK o) :
    ∃ t r, getOption fl o x = .ok (o.mark x, t, r) := by
  rcases hh : o.hit x with _ | ⟨ndx, key⟩
  · refine ⟨x.fld, none, ?_⟩
    rw [getOption_miss fl o x hh]
    simp only [option.mark, hh]
  · obtain ⟨_, ev, hev, _⟩ := h key ndx (hit_some o x ndx key hh).1
    exact ⟨_, _, getOption_hit fl o x ndx key ev hh hev⟩

theorem getOptionsLoop_ok (fl : FloatLib) (x : opt) (rest done : List opt) (o o1 : option)
    (t : Target) (h : getOption fl o x = .ok (o1, t, none)) :
    getOptionsLoop fl (x :: rest) done o = getOptionsLoop fl rest (done ++ [{ x with fld := t }]) o1 := by
  rw [getOptionsLoop]
  simp only [h]

theorem getOptionsLoop_err (fl : FloatLib) (x : opt) (rest done : List opt) (o o1 : option)
    (t : Target) (e : OptError) (h : getOption fl o x = .ok (o1, t, some e)) :
    getOptionsLoop fl (x :: rest) done o =
      .ok ({ o1 with optionList := done ++ { x with fld := t } :: rest }, some e) := by
  rw [getOptionsLoop]
  simp only [h]

/-- Descriptors without an event are passed over by `getOptions`. -/
theorem getOptionsLoop_miss (fl : FloatLib) (pre : List opt) :
    ∀ (rest done : List opt) (o : option), (∀ y ∈ pre, o.hit y = none) →
      getOptionsLoop fl (pre ++ rest) done o = getOptionsLoop fl rest (done ++ pre) o := by
  induction pre with
  | nil => intro rest done o _; simp
  | cons y pre ih =>
    intro rest done o h
    rw [List.cons_append,
      getOptionsLoop_ok fl y (pre ++ rest) done o o y.fld
        (getOption_miss fl o y (h y (List.mem_cons_self _ _))),
      ih rest _ o fun z hz => h z (List.mem_cons_of_mem _ hz)]
    simp

theorem optionTyp_cases (k : Kind) : optionTyp k = typ_flag ∨ optionTyp k = typ_option := by
  simp only [optionTyp]
  split_ifs
  · exact Or.inl rfl
  · exact Or.inr rfl

/-- An event after the loop body of `getOptions` for the descriptor `x`. -/
theorem mark_get? (o : option) (x : opt) (i : Nat) (ev : vst) (h : o.vdata.get? i = some ev) :
    ∃ t : Int, (o.mark x).vdata.get? i = some { ev with typ := t } ∧
      ((∀ key, o.hit x ≠ some (i, key)) → t = ev.typ) ∧
      ((∃ key, o.hit x = some (i, key)) → t = optionTyp x.fld.kind) ∧
      (t = ev.typ ∨ t = typ_flag ∨ t = typ_option) := by
  simp only [option.mark]
  rcases hh : o.hit x with _ | ⟨ndx, key⟩
  · exact ⟨ev.typ, h, fun _ => rfl, (fun hk => by obtain ⟨k, hk⟩ := hk; cases hk), Or.inl rfl⟩
  · simp only
    rw [get?_modify_some _ _ ndx i ev h]
    by_cases hn : ndx = i
    · subst hn
      refine ⟨optionTyp x.fld.kind, by simp, fun hno => absurd rfl (hno key), fun _ => rfl,
        Or.inr (optionTyp_cases _)⟩
    · refine ⟨ev.typ, by simp [hn], fun _ => rfl, fun hk => ?_, Or.inl rfl⟩
      obtain ⟨k, hk⟩ := hk
      simp only [Option.some.injEq, Prod.mk.injEq] at hk
      exact absurd hk.1 hn

theorem foldl_mark_vmap (l : List opt) : ∀ o : option, (l.foldl option.mark o).vmap = o.vmap := by
  induction l with
  | nil => intro o; rfl
  | cons x l ih => intro o; rw [List.foldl_cons, ih, mark_vmap]

theorem mark_frame (o : option) (x : opt) :
    (o.mark x).optionList = o.optionList ∧ (o.mark x).keys = o.keys ∧
      (o.mark x).hasArgSlice = o.hasArgSlice ∧ (o.mark x).argSliceRef = o.argSliceRef ∧
      (o.mark x).argSliceCap = o.argSliceCap ∧ (o.mark x).argLimit = o.argLimit ∧
      (o.mark x).opt_count = o.opt_count := by
  simp only [option.mark]
  split <;> exact ⟨rfl, rfl, rfl, rfl, rfl, rfl, rfl⟩

theorem foldl_mark_frame (l : List opt) :
    ∀ o : option, (l.foldl option.mark o).optionList = o.optionList ∧
      (l.foldl option.mark o).keys = o.keys ∧
      (l.foldl option.mark o).hasArgSlice = o.hasArgSlice ∧
      (l.foldl option.mark o).argSliceRef = o.argSliceRef ∧
      (l.foldl option.mark o).argSliceCap = o.argSliceCap ∧
      (l.foldl option.mark o).argLimit = o.argLimit ∧
      (l.foldl option.mark o).opt_count = o.opt_count := by
  induction l with
  | nil => intro o; exact ⟨rfl, rfl, rfl, rfl, rfl, rfl, rfl⟩
  | cons x l ih =>
    intro o
    rw [List.foldl_cons]
    obtain ⟨a1, a2, a3, a4, a5, a6, a7⟩ := ih (o.mark x)
    obtain ⟨b1, b2, b3, b4, b5, b6, b7⟩ := mark_frame o x
    exact ⟨a1.trans b1, a2.trans b2, a3.trans b3, a4.trans b4, a5.trans b5, a6.trans b6,
      a7.trans b7⟩

theorem foldl_mark_hit (l : List opt) (o : option) (y : opt) :
    (l.foldl option.mark o).hit y = o.hit y := by
  simp only [option.hit, foldl_mark_vmap]

theorem MapOK_foldl_mark (l : List opt) : ∀ o : option, MapOK o → MapOK (l.foldl option.mark o) := by
  induction l with
  | nil => intro o h; exact h
  | cons x l ih => intro o h; exact ih _ (MapOK_mark o x h)

/-- An event after `getOptions` has visited the descriptors `l`: its key and
its value are kept, its type is kept when no descriptor of `l` has this event
and is the type for the kind of such a descriptor otherwise. -/
theorem foldl_mark_get? (l : List opt) :
    ∀ (o : option) (i : Nat) (ev : vst), o.vdata.get? i = some ev →
      ∃ t : Int, (l.foldl option.mark o).vdata.get? i = some { ev with typ := t } ∧
        ((∀ x ∈ l, ∀ key, o.hit x ≠ some (i, key)) → t = ev.typ) ∧
        ((∃ x ∈ l, ∃ key, o.hit x = some (i, key)) →
          ∃ x ∈ l, (∃ key, o.hit x = some (i, key)) ∧ t = optionTyp x.fld.kind) ∧
        (t = ev.typ ∨ t = typ_flag ∨ t = typ_option) := by
  induction l with
  | nil =>
    intro o i ev h
    exact ⟨ev.typ, h, fun _ => rfl, (fun hx => by obtain ⟨x, hx, _⟩ := hx; simp at hx),
      Or.inl rfl⟩
  | cons x l ih =>
    intro o i ev h
    obtain ⟨t1, h1, hn1, hy1, hc1⟩ := mark_get? o x i ev h
    obtain ⟨t, h2, hn2, hy2, hc2⟩ := ih (o.mark x) i _ h1
    simp only [mark_hit] at hn2 hy2
    refine ⟨t, by rw [List.foldl_cons]; exact h2, fun hno => ?_, fun hyes => ?_, ?_⟩
    · have e1 : t1 = ev.typ := hn1 fun key => hno x (List.mem_cons_self _ _) key
      have e2 : t = t1 := hn2 fun y hy key => hno y (List.mem_cons_of_mem _ hy) key
      rw [e2, e1]
    · by_cases hl : ∃ y ∈ l, ∃ key, o.hit y = some (i, key)
      · obtain ⟨y, hy, hk, ht⟩ := hy2 hl
        exact ⟨y, List.mem_cons_of_mem _ hy, hk, ht⟩
      · have e2 : t = t1 := hn2 fun y hy key hk => hl ⟨y, hy, key, hk⟩
        obtain ⟨y, hy, key, hk⟩ := hyes
        rcases List.mem_cons.1 hy with e | e
        · subst e
          exact ⟨y, List.mem_cons_self _ _, ⟨key, hk⟩, by rw [e2]; exact hy1 ⟨key, hk⟩⟩
        · exact absurd ⟨y, e, key, hk⟩ hl
    · rcases hc2 with e | e | e
      · simp only at e
        rw [e]
        exact hc1
      · exact Or.inr (Or.inl e)
      · exact Or.inr (Or.inr e)

theorem foldl_mark_length (l : List opt) :
    ∀ o : option, (l.foldl option.mark o).vdata.length = o.vdata.length := by
  induction l with
  | nil => intro o; rfl
  | cons x l ih =>
    intro o
    rw [List.foldl_cons, ih]
    simp only [option.mark]
    split
    · rfl
    · simp

theorem Bound_of_mark (fl : FloatLib) (o : option) (x y y1 : opt)
    (h : Bound fl (o.mark x) y y1) : Bound fl o y y1 := by
  obtain ⟨h1, h2, h3⟩ := h
  rw [mark_hit] at h2
  refine ⟨h1, h2, fun ndx key ev hh hev => ?_⟩
  obtain ⟨t1, hg, _, _, hc1⟩ := mark_get? o x ndx ev hev
  obtain ⟨t, hc, hs⟩ := h3 ndx key _ (by rw [mark_hit]; exact hh) hg
  refine ⟨t, ?_, hs⟩
  rcases hc with e | e | e
  · simp only at e
    rw [e]
    exact hc1
  · exact Or.inr (Or.inl e)
  · exact Or.inr (Or.inr e)

/-- On a well-formed event table `getOptions` does not panic: it visits a
prefix of the descriptors, all of them when it returns no error, and then
every descriptor is bound. -/
theorem getOptionsLoop_spec (fl : FloatLib) (todo : List opt) :
    ∀ (done : List opt) (o : option), MapOK o →
      ∃ (n : Nat) (flds : List opt) (r : Option OptError), n ≤ todo.length ∧
        getOptionsLoop fl todo done o =
          .ok ({ (todo.take n).foldl option.mark o with optionList := flds }, r) ∧
        (∀ e, r = some e → ∃ err key, e = .keyed err key) ∧
        (r = none → n = todo.length ∧
          ∃ todo1, flds = done ++ todo1 ∧ List.Forall₂ (Bound fl o) todo todo1) := by
  induction todo with
  | nil =>
    intro done o _
    have he : ∀ e : OptError, (none : Option OptError) = some e → ∃ err key, e = .keyed err key :=
      fun e he => by cases he
    exact ⟨0, done, none, le_refl _, rfl, he, fun _ => ⟨rfl, [], by simp, List.Forall₂.nil⟩⟩
  | cons x rest ih =>
    intro done o hm
    rcases hh : o.hit x with _ | ⟨ndx, key⟩
    · have hg := getOption_miss fl o x hh
      have hmk : o.mark x = o := by simp only [option.mark, hh]
      obtain ⟨n, flds, r, hn, hl, he, hr⟩ := ih (done ++ [{ x with fld := x.fld }]) o hm
      refine ⟨n + 1, flds, r, by simpa using hn, ?_, he, fun hnone => ?_⟩
      · rw [getOptionsLoop_ok fl x rest done o o x.fld hg, hl]
        simp only [List.take_succ_cons, List.foldl_cons, hmk]
      · obtain ⟨hlen, todo1, hf, hb⟩ := hr hnone
        refine ⟨by simp [hlen], x :: todo1, by simp [hf], List.Forall₂.cons ?_ hb⟩
        refine ⟨rfl, fun _ => rfl, fun ndx key ev hk _ => ?_⟩
        rw [hh] at hk
        cases hk
    · obtain ⟨_, ev, hev, _⟩ := hm key ndx (hit_some o x ndx key hh).1
      have hg := getOption_hit fl o x ndx key ev hh hev
      rcases hs : setScalar fl x.fld (optionValue x.fld.kind ev) with ⟨t, _ | err⟩
      · rw [hs] at hg
        simp only [Option.map_none'] at hg
        obtain ⟨n, flds, r, hn, hl, he, hr⟩ :=
          ih (done ++ [{ x with fld := t }]) (o.mark x) (MapOK_mark o x hm)
        refine ⟨n + 1, flds, r, by simpa using hn, ?_, he, fun hnone => ?_⟩
        · rw [getOptionsLoop_ok fl x rest done o _ t hg, hl]
          simp only [List.take_succ_cons, List.foldl_cons]
        · obtain ⟨hlen, todo1, hf, hb⟩ := hr hnone
          refine ⟨by simp [hlen], { x with fld := t } :: todo1, by simp [hf],
            List.Forall₂.cons ?_ ?_⟩
          · refine ⟨rfl, fun hno => ?_, fun ndx1 key1 ev1 hk hev1 => ?_⟩
            · rw [hh] at hno
              cases hno
            · rw [hh] at hk
              simp only [Option.some.injEq, Prod.mk.injEq] at hk
              rw [← hk.1, hev] at hev1
              simp only [Option.some.injEq] at hev1
              subst hev1
              exact ⟨ev.typ, Or.inl rfl, hs⟩
          · exact hb.imp fun y y1 hy => Bound_of_mark fl o x y y1 hy
      · rw [hs] at hg
        simp only [Option.map_some'] at hg
        refine ⟨1, done ++ { x with fld := t } :: rest, some (.keyed err key), by simp, ?_,
          fun e he => ⟨err, key, by simpa using he.symm⟩, fun hnone => by cases hnone⟩
        rw [getOptionsLoop_err fl x rest done o _ t _ hg]
        simp only [List.take_succ_cons, List.take_zero, List.foldl_cons, List.foldl_nil]

theorem forall₂_mem_left {α β : Type} (R : α → β → Prop) :
    ∀ (l : List α) (l1 : List β), List.Forall₂ R l l1 → ∀ x ∈ l, ∃ y ∈ l1, R x y := by
  intro l l1 h
  induction h with
  | nil => intro x hx; simp at hx
  | cons hab _ ih =>
    intro x hx
    rcases List.mem_cons.1 hx with e | e
    · subst e
      exact ⟨_, List.mem_cons_self _ _, hab⟩
    · obtain ⟨y, hy, hr⟩ := ih x e
      exact ⟨y, List.mem_cons_of_mem _ hy, hr⟩

/-- A descriptor whose event cannot be decoded makes `getOptions` return an
error. -/
theorem getOptionsLoop_fails (fl : FloatLib) (todo done : List opt) (o : option) (x : opt)
    (ndx : Nat) (key : GoString) (ev : vst) (hm : MapOK o) (hx : x ∈ todo)
    (hh : o.hit x = some (ndx, key)) (hev : o.vdata.get? ndx = some ev)
    (hbad : ∀ t : Int,
      (setScalar fl x.fld (optionValue x.fld.kind { ev with typ := t })).2 ≠ none) :
    ∃ o1 err k, getOptionsLoop fl todo done o = .ok (o1, some (.keyed err k)) := by
  obtain ⟨n, flds, r, _, hl, he, hr⟩ := getOptionsLoop_spec fl todo done o hm
  rcases r with _ | e
  · exfalso
    obtain ⟨_, todo1, _, hb⟩ := hr rfl
    obtain ⟨x1, _, hb1⟩ := forall₂_mem_left _ _ _ hb x hx
    obtain ⟨t, _, hs⟩ := hb1.2.2 ndx key ev hh hev
    exact hbad t (by rw [hs])
  · obtain ⟨err, k, hek⟩ := he e rfl
    exact ⟨_, err, k, by rw [hl, hek]⟩

/-! ## Lemmas on the leftover arguments -/

theorem appendIntLoop_decimal (fuel : Nat) :
    ∀ (u : Nat) (acc : GoString), u < 10 ^ (fuel + 1) →
      appendIntLoop fuel u acc = decimal u ++ acc := by
  have hsmall : ∀ (u : Nat) (acc : GoString), u < 10 → (48 + u) :: acc = decimal u ++ acc := by
    intro u acc hu
    simp only [decimal]
    by_cases h0 : u = 0
    · subst h0
      rfl
    · rw [if_neg h0, Nat.digits_of_lt 10 u h0 hu]
      simp [Nat.add_comm]
  induction fuel with
  | zero =>
    intro u acc hu
    simp only [appendIntLoop]
    exact hsmall u acc (by simpa using hu)
  | succ fuel ih =>
    intro u acc hu
    simp only [appendIntLoop]
    by_cases h10 : u ≥ 10
    · rw [if_pos h10, ih (u / 10) _ (by
        rw [Nat.div_lt_iff_lt_mul (by norm_num)]
        calc u < 10 ^ (fuel + 1 + 1) := hu
          _ = 10 ^ (fuel + 1) * 10 := by ring)]
      have hd : u / 10 ≠ 0 := by
        intro e
        have := Nat.div_eq_zero_iff (by norm_num : 0 < 10) |>.1 e
        omega
      have hu0 : u ≠ 0 := by omega
      have hmod : u - u / 10 * 10 = u % 10 := by omega
      simp only [decimal, if_neg hd, if_neg hu0, hmod]
      conv_rhs => rw [Nat.digits_def' (by norm_num : 1 < 10) (by omega : 0 < u)]
      simp [Nat.add_comm]
    · rw [if_neg h10]
      exact hsmall u acc (by omega)

/-- The verb `%v` writes a capacity as its canonical decimal string. -/
theorem fmtInt_nat (c : Nat) (h : c < 10 ^ 21) : fmtInt (c : Int) = decimal c := by
  have hneg : ¬ ((c : Int) < 0) := by omega
  simp only [fmtInt, appendInt, hneg, if_false, Int.natAbs_ofNat, Nat.zero_sub,
    List.replicate_zero, List.nil_append]
  rw [appendIntLoop_decimal 20 c [] h, List.append_nil]

theorem getArgsLoop_counted (o : option) (v : vst) (rest : List vst) (args : List GoString)
    (count : Int) (hv : v.typ = typ_arg ∨ v.typ = typ_flag) (hc : count + 1 ≤ o.argLimit) :
    getArgsLoop o (v :: rest) args count =
      getArgsLoop o rest (args ++ [v.val].filter fun a => decide (a ≠ [])) (count + 1) := by
  rw [getArgsLoop, if_pos hv, if_neg (by omega)]
  by_cases he : v.val = []
  · simp [he]
  · simp [he]

theorem getArgsLoop_skipped (o : option) (v : vst) (rest : List vst) (args : List GoString)
    (count : Int) (hv : ¬ (v.typ = typ_arg ∨ v.typ = typ_flag)) :
    getArgsLoop o (v :: rest) args count = getArgsLoop o rest args count := by
  rw [getArgsLoop, if_neg hv]

/-- Within the limit `getArgs` returns the values of the events it counts that
are not empty, in their order. -/
theorem getArgsLoop_within (o : option) (l : List vst) :
    ∀ (args : List GoString) (count : Int), count + (argEvents l).length ≤ o.argLimit →
      getArgsLoop o l args count =
        (args ++ ((argEvents l).map vst.val).filter (fun a => decide (a ≠ [])), none) := by
  induction l with
  | nil => intro args count _; simp [getArgsLoop, argEvents]
  | cons v rest ih =>
    intro args count h
    by_cases hv : v.typ = typ_arg ∨ v.typ = typ_flag
    · have hae : argEvents (v :: rest) = v :: argEvents rest := by
        simp only [argEvents, List.filter_cons, hv, decide_True, if_true]
      rw [hae] at h ⊢
      simp only [List.length_cons, Nat.cast_add, Nat.cast_one] at h
      rw [getArgsLoop_counted o v rest args count hv (by omega), ih _ _ (by omega)]
      simp [List.filter_cons]
      split_ifs <;> simp
    · have hae : argEvents (v :: rest) = argEvents rest := by
        simp only [argEvents, List.filter_cons, hv, decide_False]
        simp
      rw [hae] at h ⊢
      rw [getArgsLoop_skipped o v rest args count hv, ih _ _ h]

/-- Beyond the limit `getArgs` returns its error, which names
`o.argSliceCap`. -/
theorem getArgsLoop_beyond (o : option) (l : List vst) :
    ∀ (args : List GoString) (count : Int), count ≤ o.argLimit →
      o.argLimit < count + (argEvents l).length →
      ∃ a, getArgsLoop o l args count =
        (a, some (.text (str "number of arguments supplied exceeds limit (" ++
          fmtInt o.argSliceCap ++ str ")"))) := by
  induction l with
  | nil =>
    intro args count h0 h
    exfalso
    simp only [argEvents, List.filter_nil, List.length_nil, Nat.cast_zero, add_zero] at h
    omega
  | cons v rest ih =>
    intro args count h0 h
    by_cases hv : v.typ = typ_arg ∨ v.typ = typ_flag
    · have hae : argEvents (v :: rest) = v :: argEvents rest := by
        simp only [argEvents, List.filter_cons, hv, decide_True, if_true]
      rw [hae] at h
      simp only [List.length_cons, Nat.cast_add, Nat.cast_one] at h
      by_cases hc : count + 1 > o.argLimit
      · exact ⟨args, by rw [getArgsLoop, if_pos hv, if_pos hc]⟩
      · rw [getArgsLoop_counted o v rest args count hv (by omega)]
        exact ih _ _ (by omega) (by omega)
    · have hae : argEvents (v :: rest) = argEvents rest := by
        simp only [argEvents, List.filter_cons, hv, decide_False]
        simp
      rw [hae] at h
      rw [getArgsLoop_skipped o v rest args count hv]
      exact ih _ _ h0 h

theorem set_append_length {α : Type} (xs ys : List α) (x y : α) :
    (xs ++ x :: ys).set xs.length y = xs ++ y :: ys := by
  induction xs with
  | nil => rfl
  | cons a l ih => simp [ih]

theorem get?_append_cons_length {α : Type} (xs ys : List α) (x : α) :
    (xs ++ x :: ys).get? xs.length = some x := by
  induction xs with
  | nil => rfl
  | cons a l ih =>
    rw [List.cons_append, List.length_cons, List.get?_cons_succ]
    exact ih

/-- The loop of `setArray` on an array with room for the arguments does not
panic; the length of the array is kept. -/
theorem setArrayLoop_array_total (fl : FloatLib) (args : List GoString) :
    ∀ (i : Nat) (elems : List Target), i + args.length ≤ elems.length →
      ∃ elems1 r, setArrayLoop fl args i (.array elems) = .ok (.array elems1, r) ∧
        elems1.length = elems.length ∧ ∀ e, r = some e → ∃ err, e = .decode err := by
  induction args with
  | nil =>
    intro i elems _
    exact ⟨elems, none, rfl, rfl, fun e he => by cases he⟩
  | cons a rest ih =>
    intro i elems h
    simp only [List.length_cons] at h
    have hi : i < elems.length := by omega
    rw [setArrayLoop]
    simp only [SliceRef.Index, List.get?_eq_get hi]
    rcases hs : setScalar fl (elems.get ⟨i, hi⟩) a with ⟨t, _ | err⟩
    · simp only [SliceRef.setIndex]
      obtain ⟨elems1, r, h1, h2, h3⟩ := ih (i + 1) (elems.set i t) (by simp; omega)
      exact ⟨elems1, r, h1, by simpa using h2, h3⟩
    · exact ⟨elems.set i t, some (.decode err), rfl, by simp, fun e he => ⟨err, by simpa using he.symm⟩⟩

/-- The loop of `setArray` on a slice with room for the arguments does not
panic. -/
theorem setArrayLoop_slice_total (fl : FloatLib) (cap : Nat) (zero : Target)
    (args : List GoString) :
    ∀ (i : Nat) (elems : List Target), i + args.length ≤ elems.length →
      ∃ elems1 r, setArrayLoop fl args i (.slice cap elems zero) = .ok (.slice cap elems1 zero, r) ∧
        elems1.length = elems.length ∧ ∀ e, r = some e → ∃ err, e = .decode err := by
  induction args with
  | nil =>
    intro i elems _
    exact ⟨elems, none, rfl, rfl, fun e he => by cases he⟩
  | cons a rest ih =>
    intro i elems h
    simp only [List.length_cons] at h
    have hi : i < elems.length := by omega
    rw [setArrayLoop]
    simp only [SliceRef.Index, List.get?_eq_get hi]
    rcases hs : setScalar fl (elems.get ⟨i, hi⟩) a with ⟨t, _ | err⟩
    · simp only [SliceRef.setIndex]
      obtain ⟨elems1, r, h1, h2, h3⟩ := ih (i + 1) (elems.set i t) (by simp; omega)
      exact ⟨elems1, r, h1, by simpa using h2, h3⟩
    · exact ⟨elems.set i t, some (.decode err), rfl, by simp, fun e he => ⟨err, by simpa using he.symm⟩⟩

theorem setScalar_string (fl : FloatLib) (t : Target) (a : GoString) (h : t.kind = .String) :
    setScalar fl t a = (t.SetString a, none) := by
  simp only [setScalar, h]

/-- The loop of `setArray` on an array of strings: the arguments are stored in
the elements from index `i` on, the other elements are kept. -/
theorem setArrayLoop_array_strings (fl : FloatLib) (args : List GoString) :
    ∀ (done todo : List Target), args.length ≤ todo.length →
      (∀ t ∈ todo, t.kind = .String) →
      setArrayLoop fl args done.length (.array (done ++ todo)) =
        .ok (.array (done ++ List.zipWith (fun t a => t.SetString a) todo args ++
          todo.drop args.length), none) := by
  induction args with
  | nil => intro done todo _ _; simp [setArrayLoop]
  | cons a rest ih =>
    intro done todo h hk
    cases todo with
    | nil => simp at h
    | cons t todo =>
      rw [setArrayLoop]
      simp only [SliceRef.Index, get?_append_cons_length,
        setScalar_string fl t a (hk t (List.mem_cons_self _ _)), SliceRef.setIndex,
        set_append_length]
      have := ih (done ++ [t.SetString a]) todo (by simpa using h)
        fun u hu => hk u (List.mem_cons_of_mem _ hu)
      simp only [List.length_append, List.length_singleton, List.append_assoc,
        List.singleton_append] at this
      rw [this]
      simp

/-- The loop of `setArray` on the new slice of `setSlice`, for strings: the
slice holds the arguments. -/
theorem setArrayLoop_slice_strings (fl : FloatLib) (cap : Nat) (zero : Target)
    (hz : zero.kind = .String) (args : List GoString) :
    ∀ (done : List Target),
      setArrayLoop fl args done.length
          (.slice cap (done ++ List.replicate args.length zero) zero) =
        .ok (.slice cap (done ++ args.map fun a => zero.SetString a) zero, none) := by
  induction args with
  | nil => intro done; simp [setArrayLoop]
  | cons a rest ih =>
    intro done
    rw [setArrayLoop]
    simp only [List.length_cons, List.replicate_succ, SliceRef.Index, get?_append_cons_length,
      setScalar_string fl zero a hz, SliceRef.setIndex, set_append_length]
    have := ih (done ++ [zero.SetString a])
    simp only [List.length_append, List.length_singleton, List.append_assoc,
      List.singleton_append] at this
    rw [this]
    simp

/-! ## Lemmas on the calls of `New` -/

theorem or_none_eq {α : Type} (r : Option α) : r.or none = r := by
  cases r <;> rfl

/-- The object that `New` gives to `varAssign`: the fresh object with the
limits of `calcArgLimit` and the event table of the command line. -/
theorem New_varAssign (fl : FloatLib) (osArgs : List GoString) (v2 : List NewArg) (o1 : option)
    (hn : v2.length = 1 ∨ v2.length = 2) (hargs : osArgs ≠ [])
    (h1 : option.init.calcArgLimit v2 = .ok o1) (hv : o1.vdata = []) (hm : o1.vmap = []) :
    (∀ o3 r, (o1.withEvents (tokenize osArgs)).varAssign fl v2 = .ok (o3, r) →
        New fl osArgs v2 = .ok (o3, r.or o3.checkUndefinedOptions)) ∧
      (∀ p, (o1.withEvents (tokenize osArgs)).varAssign fl v2 = .error p →
        New fl osArgs v2 = .error p) := by
  have h2 := parse_eq_tokenize o1 osArgs hv hm
  refine ⟨fun o3 r h3 => ?_, fun p h3 => New_panic fl osArgs v2 o1 _ p hn hargs h1 h2 h3⟩
  cases r with
  | none => exact New_ok fl osArgs v2 o1 _ o3 hn hargs h1 h2 h3
  | some e => exact New_err fl osArgs v2 o1 _ o3 e hn hargs h1 h2 h3

theorem calcArgLimit_record (fields : List StructField) :
    option.init.calcArgLimit [.pointer (.record fields)] =
      .ok { option.init with argLimit := fields.length } := by
  simp [option.calcArgLimit, calcArgLimitStep, option.init]

theorem calcArgLimit_array (elems : List Target) :
    option.init.calcArgLimit [.pointer (.array elems)] =
      .ok { option.init with argSliceCap := elems.length, argLimit := elems.length } := by
  simp [option.calcArgLimit, calcArgLimitStep, option.init]

theorem calcArgLimit_slice (cap : Nat) (elems : List Target) (zero : Target) (h : cap ≠ 0) :
    option.init.calcArgLimit [.pointer (.slice cap elems zero)] =
      .ok { option.init with argSliceCap := cap, argLimit := cap } := by
  simp [option.calcArgLimit, calcArgLimitStep, option.init, h]

theorem calcArgLimit_slice_zero (elems : List Target) (zero : Target) :
    option.init.calcArgLimit [.pointer (.slice 0 elems zero)] =
      .ok { option.init with argSliceCap := slice_limit, argLimit := slice_limit } := by
  simp [option.calcArgLimit, calcArgLimitStep, option.init]

theorem calcArgLimit_record_slice_zero (fields : List StructField) (elems : List Target)
    (zero : Target) :
    option.init.calcArgLimit [.pointer (.record fields), .pointer (.slice 0 elems zero)] =
      .ok { option.init with argSliceCap := slice_limit, argLimit := slice_limit } := by
  simp [option.calcArgLimit, calcArgLimitStep, option.init]

/-- The loop of `calcArgLimit` writes the two limits only. -/
theorem calcArgLimit_frame (v2 : List NewArg) :
    ∀ o o1 : option, o.calcArgLimit v2 = .ok o1 →
      o1.vmap = o.vmap ∧ o1.vdata = o.vdata ∧ o1.optionList = o.optionList ∧ o1.keys = o.keys ∧
        o1.hasArgSlice = o.hasArgSlice ∧ o1.argSliceRef = o.argSliceRef ∧
        o1.opt_count = o.opt_count := by
  induction v2 with
  | nil =>
    intro o o1 h
    simp only [option.calcArgLimit, Except.ok.injEq] at h
    subst h
    exact ⟨rfl, rfl, rfl, rfl, rfl, rfl, rfl⟩
  | cons a rest ih =>
    intro o o1 h
    rw [option.calcArgLimit] at h
    rcases hs : calcArgLimitStep o a with p | o2
    · rw [hs] at h
      cases h
    · rw [hs] at h
      simp only at h
      obtain ⟨a1, a2, a3, a4, a5, a6, a7⟩ := ih o2 o1 h
      have hf : o2.vmap = o.vmap ∧ o2.vdata = o.vdata ∧ o2.optionList = o.optionList ∧
          o2.keys = o.keys ∧ o2.hasArgSlice = o.hasArgSlice ∧ o2.argSliceRef = o.argSliceRef ∧
          o2.opt_count = o.opt_count := by
        cases a with
        | nonPointer => cases hs
        | pointer e =>
          cases e with
          | record fields =>
            simp only [calcArgLimitStep, Except.ok.injEq] at hs
            subst hs
            exact ⟨rfl, rfl, rfl, rfl, rfl, rfl, rfl⟩
          | slice cap elems zero =>
            simp only [calcArgLimitStep] at hs
            split_ifs at hs <;>
              (simp only [Except.ok.injEq] at hs; subst hs;
                exact ⟨rfl, rfl, rfl, rfl, rfl, rfl, rfl⟩)
          | array elems =>
            simp only [calcArgLimitStep, Except.ok.injEq] at hs
            subst hs
            exact ⟨rfl, rfl, rfl, rfl, rfl, rfl, rfl⟩
          | other k =>
            simp only [calcArgLimitStep, Except.ok.injEq] at hs
            subst hs
            exact ⟨rfl, rfl, rfl, rfl, rfl, rfl, rfl⟩
      obtain ⟨b1, b2, b3, b4, b5, b6, b7⟩ := hf
      exact ⟨a1.trans b1, a2.trans b2, a3.trans b3, a4.trans b4, a5.trans b5, a6.trans b6,
        a7.trans b7⟩

/-- The call of `New` with a record as first argument: the object on which
`getOptions` runs holds the descriptors of the record and the event table of
the command line, and an error of `getOptions` is the error of `New`. -/
theorem New_record (fl : FloatLib) (osArgs : List GoString) (rec : List StructField)
    (more : List NewArg) (ds : List opt) (o1 : option) (hmore : more.length ≤ 1)
    (hargs : osArgs ≠ []) (hd : descriptors rec = .ok ds)
    (h1 : option.init.calcArgLimit (.pointer (.record rec) :: more) = .ok o1) :
    ∃ o3 : option, o3.optionList = ds ∧ o3.vmap = (tokenize osArgs).vmap ∧
      o3.vdata = (tokenize osArgs).vdata ∧ o3.argLimit = o1.argLimit ∧
      o3.argSliceCap = o1.argSliceCap ∧ o3.hasArgSlice = false ∧ o3.argSliceRef = .invalid ∧
      (∀ p, getOptionsLoop fl ds [] o3 = .error p →
        New fl osArgs (.pointer (.record rec) :: more) = .error p) ∧
      (∀ o4 e, getOptionsLoop fl ds [] o3 = .ok (o4, some e) →
        New fl osArgs (.pointer (.record rec) :: more) = .ok (o4, some e)) ∧
      (∀ o4, getOptionsLoop fl ds [] o3 = .ok (o4, none) →
        (∀ o5 r, varAssignLoop fl (1 + more.length) more 1 o4 = .ok (o5, r) →
          New fl osArgs (.pointer (.record rec) :: more) =
            .ok (o5, r.or o5.checkUndefinedOptions)) ∧
        (∀ p, varAssignLoop fl (1 + more.length) more 1 o4 = .error p →
          New fl osArgs (.pointer (.record rec) :: more) = .error p)) := by
  obtain ⟨c1, c2, c3, c4, c5, c6, c7⟩ := calcArgLimit_frame _ _ _ h1
  have hn : (NewArg.pointer (.record rec) :: more).length = 1 ∨
      (NewArg.pointer (.record rec) :: more).length = 2 := by
    simp only [List.length_cons]
    omega
  obtain ⟨hok, herr⟩ := New_varAssign fl osArgs _ o1 hn hargs h1 c2 c1
  obtain ⟨o3, hg, g1, g2, g3, g4, g5, g6, g7⟩ :=
    genoptionList_frame (o1.withEvents (tokenize osArgs)) rec ds c4 c3 c7 hd
  have hlen : (NewArg.pointer (.record rec) :: more).length = 1 + more.length := by
    simp only [List.length_cons]
    omega
  have hva : ∀ res, (match o3.getOptions fl with
        | .error p => .error p
        | .ok (o2, some err) => .ok (o2, some err)
        | .ok (o2, none) => varAssignLoop fl (1 + more.length) more 1 o2) = res →
      (o1.withEvents (tokenize osArgs)).varAssign fl (.pointer (.record rec) :: more) = res := by
    intro res hres
    rw [option.varAssign, hlen, varAssignLoop]
    simp only [Nat.zero_ne_one, if_false, hg, zero_add]
    exact hres
  have hgo : o3.getOptions fl = getOptionsLoop fl ds [] o3 := by
    rw [option.getOptions, g1]
  refine ⟨o3, g1, g2, g3, g7, g6, ?_, ?_, fun p hp => ?_, fun o4 e he => ?_, fun o4 h4 => ⟨fun o5 r h5 => ?_, fun p hp => ?_⟩⟩
  · rw [g4]
    exact c5
  · rw [g5]
    exact c6
  · exact herr p (hva _ (by rw [hgo, hp]))
  · have := hok o4 (some e) (hva _ (by rw [hgo, he]))
    simpa using this
  · exact hok o5 r (hva _ (by rw [hgo, h4]; exact h5))
  · exact herr p (hva _ (by rw [hgo, h4]; exact hp))

/-- The call of `New` with an argument container only: the object on which
`getArgs` runs holds the event table of the command line. -/
theorem New_array (fl : FloatLib) (osArgs : List GoString) (elems : List Target)
    (hargs : osArgs ≠ []) :
    ∃ o2 : option, o2.vdata = (tokenize osArgs).vdata ∧ o2.argLimit = elems.length ∧
      o2.argSliceCap = elems.length ∧ o2.argSliceRef = .array elems ∧ o2.optionList = [] ∧
      (∀ o5 r, option.assignArgs fl o2 false = .ok (o5, r) →
        New fl osArgs [.pointer (.array elems)] = .ok (o5, r.or o5.checkUndefinedOptions)) ∧
      (∀ p, option.assignArgs fl o2 false = .error p →
        New fl osArgs [.pointer (.array elems)] = .error p) := by
  obtain ⟨hok, herr⟩ := New_varAssign fl osArgs [.pointer (.array elems)] _ (Or.inl rfl) hargs
    (calcArgLimit_array elems) rfl rfl
  refine ⟨{ ({ option.init with argSliceCap := elems.length, argLimit := elems.length } :
      option).withEvents (tokenize osArgs) with hasArgSlice := true, argSliceRef := .array elems },
    rfl, rfl, rfl, rfl, rfl, fun o5 r h => ?_, fun p h => ?_⟩
  · apply hok
    rw [option.varAssign, varAssignLoop]
    simp only [List.length_singleton, OfNat.one_ne_ofNat, and_false, if_false, h]
    cases r <;> simp [varAssignLoop]
  · apply herr
    rw [option.varAssign, varAssignLoop]
    simp only [List.length_singleton, OfNat.one_ne_ofNat, and_false, if_false, h]

theorem New_slice (fl : FloatLib) (osArgs : List GoString) (cap : Nat) (elems : List Target)
    (zero : Target) (hargs : osArgs ≠ []) :
    ∃ o2 : option, o2.vdata = (tokenize osArgs).vdata ∧
      o2.argLimit = (if cap = 0 then slice_limit else cap) ∧
      o2.argSliceCap = (if cap = 0 then slice_limit else cap) ∧
      o2.argSliceRef = .slice cap elems zero ∧ o2.optionList = [] ∧
      (∀ o5 r, option.assignArgs fl o2 true = .ok (o5, r) →
        New fl osArgs [.pointer (.slice cap elems zero)] =
          .ok (o5, r.or o5.checkUndefinedOptions)) ∧
      (∀ p, option.assignArgs fl o2 true = .error p →
        New fl osArgs [.pointer (.slice cap elems zero)] = .error p) := by
  have hc : option.init.calcArgLimit [.pointer (.slice cap elems zero)] =
      .ok { option.init with
        argSliceCap := (if cap = 0 then slice_limit else cap)
        argLimit := (if cap = 0 then slice_limit else cap) } := by
    by_cases h0 : cap = 0
    · subst h0
      exact calcArgLimit_slice_zero elems zero
    · rw [calcArgLimit_slice cap elems zero h0]
      simp [h0]
  obtain ⟨hok, herr⟩ := New_varAssign fl osArgs [.pointer (.slice cap elems zero)] _
    (Or.inl rfl) hargs hc rfl rfl
  refine ⟨{ ({ option.init with
        argSliceCap := (if cap = 0 then slice_limit else cap)
        argLimit := (if cap = 0 then slice_limit else cap) } :
      option).withEvents (tokenize osArgs) with
      hasArgSlice := true, argSliceRef := .slice cap elems zero },
    rfl, rfl, rfl, rfl, rfl, fun o5 r h => ?_, fun p h => ?_⟩
  · apply hok
    rw [option.varAssign, varAssignLoop]
    simp only [List.length_singleton, OfNat.one_ne_ofNat, and_false, if_false, h]
    cases r <;> simp [varAssignLoop]
  · apply herr
    rw [option.varAssign, varAssignLoop]
    simp only [List.length_singleton, OfNat.one_ne_ofNat, and_false, if_false, h]

/-- The part of `varAssign` for a container, with the result of `getArgs` and
of the loop of `setArray` given. -/
theorem assignArgs_array (fl : FloatLib) (o : option) (elems elems1 : List Target)
    (args : List GoString) (r : Option OptError) (hr : o.argSliceRef = .array elems)
    (hg : o.getArgs = (args, none))
    (hs : setArrayLoop fl args 0 (.array elems) = .ok (.array elems1, r)) :
    option.assignArgs fl o false = .ok ({ o with argSliceRef := .array elems1 }, r) := by
  simp only [option.assignArgs, hg, Bool.false_eq_true, if_false, option.setArray, hr, hs]

theorem assignArgs_slice (fl : FloatLib) (o : option) (cap : Nat) (elems elems1 : List Target)
    (zero : Target) (args : List GoString) (r : Option OptError)
    (hr : o.argSliceRef = .slice cap elems zero) (hg : o.getArgs = (args, none))
    (hs : setArrayLoop fl args 0 (.slice args.length (List.replicate args.length zero) zero) =
      .ok (.slice args.length elems1 zero, r)) :
    option.assignArgs fl o true = .ok ({ o with argSliceRef := .slice args.length elems1 zero }, r) := by
  simp only [option.assignArgs, hg, if_true, option.setSlice, hr, option.setArray, hs]

theorem assignArgs_error (fl : FloatLib) (o : option) (b : Bool) (args : List GoString)
    (e : OptError) (hg : o.getArgs = (args, some e)) :
    option.assignArgs fl o b = .ok (o, some e) := by
  simp only [option.assignArgs, hg]

theorem positional_cons (v : vst) (rest : List vst) :
    positional (v :: rest) = if v.key = [] then v :: positional rest else positional rest := by
  simp only [positional, List.filter_cons, decide_eq_true_eq]

theorem argEvents_cons (v : vst) (rest : List vst) :
    argEvents (v :: rest) =
      if v.typ = typ_arg ∨ v.typ = typ_flag then v :: argEvents rest else argEvents rest := by
  simp only [argEvents, List.filter_cons, decide_eq_true_eq]

theorem positional_le_argEvents (l : List vst)
    (h : ∀ ev ∈ l, ev.typ = 0 ∨ (ev.typ = typ_uoption ∧ ev.key ≠ [])) :
    (positional l).length ≤ (argEvents l).length := by
  induction l with
  | nil => simp [positional, argEvents]
  | cons v rest ih =>
    have ih1 := ih fun ev hev => h ev (List.mem_cons_of_mem _ hev)
    rw [positional_cons, argEvents_cons]
    by_cases hk : v.key = []
    · have ht : v.typ = typ_arg := by
        rcases h v (List.mem_cons_self _ _) with e | e
        · exact e
        · exact absurd hk e.2
      rw [if_pos hk, if_pos (Or.inl ht)]
      simp only [List.length_cons]
      omega
    · rw [if_neg hk]
      split_ifs
      · simp only [List.length_cons]
        omega
      · exact ih1

theorem leftover_length_le (osArgs : List GoString) :
    (leftover osArgs).length ≤ (argEvents (tokenize osArgs).vdata).length := by
  simp only [leftover]
  exact (List.length_filter_le _ _).trans (by simp)

theorem tooMany_ne_decode (c : Nat) (e : OptError) (h : ∃ err, e = .decode err) :
    e ≠ .text (tooManyArguments c) := by
  obtain ⟨err, rfl⟩ := h
  intro hh
  cases hh

theorem checkUndefinedOptions_ne_tooMany (o : option) (c : Nat) :
    o.checkUndefinedOptions ≠ some (.text (tooManyArguments c)) := by
  have e1 : ∀ X Y : GoString,
      (str "Invalid command line option" ++ X ++ str ": (" ++ Y ++ str ")").head? = some 73 := by
    intro X Y
    rw [List.append_assoc, List.append_assoc, List.append_assoc]
    rfl
  have e2 : (tooManyArguments c).head? = some 110 := rfl
  simp only [option.checkUndefinedOptions]
  by_cases h0 : ((o.vdata.filter fun v =>
      decide (v.key ≠ [] ∧ (v.typ ≠ typ_flag ∧ v.typ ≠ typ_option))).map fun v => v.key).length = 0
  · rw [if_pos h0]
    intro h
    cases h
  · rw [if_neg h0]
    intro h
    simp only [Option.some.injEq, OptError.text.injEq] at h
    have := congrArg List.head? h
    rw [e1, e2] at this
    cases this

theorem tooManyArguments_two :
    tooManyArguments 2 = str "number of arguments supplied exceeds limit (2)" := by
  simp [tooManyArguments, decimal]
  rfl

/-- The error of `getArgs` in a call with a container of capacity `c` only. -/
theorem getArgs_beyond (o : option) (c : Nat) (hc : c < 10 ^ 21) (hl : o.argLimit = c)
    (hs : o.argSliceCap = c) (h : c < (argEvents o.vdata).length) :
    ∃ a, o.getArgs = (a, some (.text (tooManyArguments c))) := by
  obtain ⟨a, ha⟩ := getArgsLoop_beyond o o.vdata [] 0 (by rw [hl]; omega)
    (by rw [hl]; omega)
  refine ⟨a, ?_⟩
  rw [option.getArgs, ha, hs, fmtInt_nat c hc]
  rfl

theorem getArgs_within (o : option) (h : ((argEvents o.vdata).length : Int) ≤ o.argLimit) :
    o.getArgs = (((argEvents o.vdata).map vst.val).filter (fun a => decide (a ≠ [])), none) := by
  rw [option.getArgs, getArgsLoop_within o o.vdata [] 0 (by omega)]
  simp

/-- The loop of `setArray` keeps the elements behind the arguments. -/
theorem setArrayLoop_array_keeps (fl : FloatLib) (args : List GoString) :
    ∀ (i : Nat) (elems elems1 : List Target) (r : Option OptError),
      setArrayLoop fl args i (.array elems) = .ok (.array elems1, r) →
      ∀ j, i + args.length ≤ j → elems1.get? j = elems.get? j := by
  induction args with
  | nil =>
    intro i elems elems1 r h j _
    simp only [setArrayLoop, Except.ok.injEq, Prod.mk.injEq, SliceRef.array.injEq] at h
    rw [h.1]
  | cons a rest ih =>
    intro i elems elems1 r h j hj
    simp only [List.length_cons] at hj
    rw [setArrayLoop] at h
    simp only [SliceRef.Index] at h
    rcases hi : elems.get? i with _ | t
    · rw [hi] at h
      cases h
    · rw [hi] at h
      simp only at h
      have hne : i ≠ j := by omega
      rcases hs : setScalar fl t a with ⟨t1, _ | err⟩
      · rw [hs] at h
        simp only [SliceRef.setIndex] at h
        rw [ih (i + 1) _ elems1 r h j (by omega), List.get?_eq_getElem?, List.get?_eq_getElem?,
          List.getElem?_set_ne hne]
      · rw [hs] at h
        simp only [SliceRef.setIndex, Except.ok.injEq, Prod.mk.injEq, SliceRef.array.injEq] at h
        rw [← h.1, List.get?_eq_getElem?, List.get?_eq_getElem?, List.getElem?_set_ne hne]

/-! ## Lemmas on `checkUndefinedOptions` -/

theorem stringsJoin_intercalate (l : List GoString) (sep : GoString) :
    stringsJoin l sep = sep.intercalate l := by
  induction l with
  | nil => rfl
  | cons s rest ih =>
    cases rest with
    | nil => simp [stringsJoin, List.intercalate]
    | cons t rest =>
      rw [stringsJoin, ih]
      simp [List.intercalate, List.intersperse, List.append_assoc]

theorem isClaimed_iff (ds : List opt) (tok : option) (i : Nat) :
    isClaimed ds tok i = true ↔ claimedBy ds tok i := by
  simp only [isClaimed, claimedBy, List.any_eq_true]
  constructor
  · rintro ⟨x, hx, h⟩
    rcases hh : tok.hit x with _ | ⟨j, key⟩
    · rw [hh] at h
      cases h
    · rw [hh] at h
      simp only [beq_iff_eq] at h
      exact ⟨x, hx, key, by rw [← h]; exact hh⟩
  · rintro ⟨x, hx, key, h⟩
    exact ⟨x, hx, by rw [h]; simp⟩

/-- Filtering a list whose elements are those of another list, changed in what
the filter reads. -/
theorem filter_map_pointwise {α β : Type} (f : α → β) (p : α → Bool) :
    ∀ (l l1 : List α) (n : Nat) (q : Nat → α → Bool), l1.length = l.length →
      (∀ i a a1, l.get? i = some a → l1.get? i = some a1 → f a1 = f a ∧ p a1 = q (n + i) a) →
      (l1.filter p).map f = ((l.enumFrom n).filter fun x => q x.1 x.2).map fun x => f x.2 := by
  intro l
  induction l with
  | nil =>
    intro l1 n q hlen _
    have : l1 = [] := List.length_eq_zero.1 hlen
    subst this
    rfl
  | cons a l ih =>
    intro l1 n q hlen h
    cases l1 with
    | nil => simp at hlen
    | cons a1 l1 =>
      obtain ⟨h1, h2⟩ := h 0 a a1 rfl rfl
      have ih1 := ih l1 (n + 1) q (by simpa using hlen) fun i b b1 hb hb1 => by
        have := h (i + 1) b b1 hb hb1
        rw [Nat.add_assoc, Nat.add_comm 1 i]
        exact this
      simp only [List.enumFrom_cons, List.filter_cons, h2, Nat.add_zero]
      by_cases hq : q n a = true
      · simp only [hq, if_true, List.map_cons, h1, ih1]
      · simp only [hq, Bool.false_eq_true, if_false, ih1]

/-- After a complete run of `getOptions` on the event table of a command line
`checkUndefinedOptions` finds the keys that no descriptor claims. -/
theorem checkUndefinedOptions_unclaimed (ds flds : List opt) (o3 tok : option)
    (hok : EventsOK tok) (hv : o3.vdata = tok.vdata) (hm : o3.vmap = tok.vmap) :
    (({ ds.foldl option.mark o3 with optionList := flds } : option).checkUndefinedOptions =
      if unclaimedKeys ds tok = [] then none
      else some (.text (unknownOptions (unclaimedKeys ds tok)))) ∧
    ∀ i ev1, (ds.foldl option.mark o3).vdata.get? i = some ev1 →
      ((ev1.typ = typ_flag ∨ ev1.typ = typ_option) ↔ claimedBy ds tok i) := by
  have hhit : ∀ x, o3.hit x = tok.hit x := fun x => by simp only [option.hit, hm]
  have hpt : ∀ i ev ev1, tok.vdata.get? i = some ev →
      (ds.foldl option.mark o3).vdata.get? i = some ev1 →
      ev1.key = ev.key ∧ ((ev1.typ = typ_flag ∨ ev1.typ = typ_option) ↔ claimedBy ds tok i) := by
    intro i ev ev1 hev hev1
    obtain ⟨t, hg, hno, hyes, _⟩ := foldl_mark_get? ds o3 i ev (by rw [hv]; exact hev)
    rw [hg] at hev1
    simp only [Option.some.injEq] at hev1
    subst hev1
    refine ⟨rfl, ?_⟩
    simp only [hhit] at hno hyes
    by_cases hc : claimedBy ds tok i
    · obtain ⟨x, _, _, ht⟩ := hyes hc
      simp only [hc, iff_true]
      rw [ht]
      exact optionTyp_cases _
    · have ht : t = ev.typ := hno fun x hx key hk => hc ⟨x, hx, key, hk⟩
      simp only [hc, iff_false, ht]
      rcases hok.1 ev (List.get?_mem hev) with e | e
      · rw [e]
        decide
      · rw [e.1]
        decide
  have hlen : (ds.foldl option.mark o3).vdata.length = tok.vdata.length := by
    rw [foldl_mark_length, hv]
  refine ⟨?_, fun i ev1 hev1 => ?_⟩
  · have hkeys : ((ds.foldl option.mark o3).vdata.filter fun v =>
          decide (v.key ≠ [] ∧ (v.typ ≠ typ_flag ∧ v.typ ≠ typ_option))).map (fun v => v.key) =
        unclaimedKeys ds tok := by
      rw [unclaimedKeys, List.enum]
      refine filter_map_pointwise (fun v => v.key) _ tok.vdata _ 0
        (fun i v => decide (v.key ≠ []) && !isClaimed ds tok i) hlen fun i a a1 ha ha1 => ?_
      obtain ⟨hk, ht⟩ := hpt i a a1 ha ha1
      refine ⟨hk, ?_⟩
      show decide (a1.key ≠ [] ∧ (a1.typ ≠ typ_flag ∧ a1.typ ≠ typ_option)) =
        (decide (a.key ≠ []) && !isClaimed ds tok (0 + i))
      rw [Nat.zero_add, hk]
      by_cases hc : claimedBy ds tok i
      · have h1 := ht.2 hc
        have h2 := (isClaimed_iff ds tok i).2 hc
        rw [h2]
        simp only [Bool.not_true, Bool.and_false, decide_eq_false_iff_not, not_and, not_not]
        intro _ hf
        rcases h1 with e | e
        · exact absurd e hf
        · exact e
      · have h1 : ¬ (a1.typ = typ_flag ∨ a1.typ = typ_option) := fun e => hc (ht.1 e)
        have h2 : isClaimed ds tok i = false := by
          cases hb : isClaimed ds tok i
          · rfl
          · exact absurd ((isClaimed_iff ds tok i).1 hb) hc
        rw [h2]
        simp only [Bool.not_false, Bool.and_true]
        congr 1
        simp only [eq_iff_iff]
        constructor
        · exact fun e => e.1
        · exact fun e => ⟨e, fun e1 => h1 (Or.inl e1), fun e1 => h1 (Or.inr e1)⟩
    simp only [option.checkUndefinedOptions, hkeys, unknownOptions, stringsJoin_intercalate]
    by_cases he : unclaimedKeys ds tok = []
    · simp [he]
    · have : ¬ (unclaimedKeys ds tok).length = 0 := fun e => he (List.length_eq_zero.1 e)
      simp only [this, if_false, he, gt_iff_lt]
  · have hi : i < tok.vdata.length := by
      rw [← hlen]
      by_contra hc
      rw [List.get?_eq_none.2 (by omega)] at hev1
      cases hev1
    exact (hpt i _ ev1 (List.get?_eq_get hi) hev1).2

theorem unclaimedKeys_eq_nil_iff (ds : List opt) (tok : option) :
    unclaimedKeys ds tok = [] ↔
      ∀ i ev, tok.vdata.get? i = some ev → ev.key ≠ [] → claimedBy ds tok i := by
  simp only [unclaimedKeys, List.map_eq_nil_iff, List.filter_eq_nil_iff, Bool.and_eq_true,
    decide_eq_true_eq, Bool.not_eq_true', not_and, Bool.not_eq_false, isClaimed_iff]
  constructor
  · intro h i ev hev hk
    exact h (i, ev) (by
      rw [List.mk_mem_enum_iff_getElem?, ← List.get?_eq_getElem?]
      exact hev) hk
  · rintro h ⟨i, ev⟩ hmem hk
    rw [List.mk_mem_enum_iff_getElem?, ← List.get?_eq_getElem?] at hmem
    exact h i ev hmem hk

/-- The decoder rejects the empty string for every integer kind. -/
theorem setScalar_int_empty (fl : FloatLib) (v : Target)
    (hk : isSignedKind v.kind = true ∨ isUnsignedKind v.kind = true) :
    ∃ e, (setScalar fl v []).2 = some (.num e) :=
  (setScalar_int_fails fl v [] hk ⟨_, rfl⟩ ⟨_, rfl⟩ ⟨_, rfl⟩).2

/-- The decoder rejects the empty string for a float kind when `ParseFloat`
rejects it. -/
theorem setScalar_float_empty (fl : FloatLib) (v : Target)
    (hk : v.kind = .Float32 ∨ v.kind = .Float64)
    (hf : ∀ bits, ∃ e, fl.ParseFloat [] bits = .error e) :
    ∃ e, (setScalar fl v []).2 = some (.num e) := by
  obtain ⟨e32, h32⟩ := hf 32
  obtain ⟨e64, h64⟩ := hf 64
  rcases hk with hk | hk
  · exact ⟨⟨"ParseFloat", [], e32⟩, by simp only [setScalar, hk, set_float, if_true, h32]⟩
  · exact ⟨⟨"ParseFloat", [], e64⟩, by simp [setScalar, hk, set_float, h64]⟩

theorem optionValue_of_not_bool (k : Kind) (ev : vst) (hk : k ≠ .Bool) :
    optionValue k ev = ev.val := by
  simp only [optionValue, hk, if_false]

theorem rx_gnuKeyword_dash (arg key : GoString) (h : rx_gnuKeyword arg = some key) :
    arg.length > 0 ∧ arg.head? = some 45 := by
  unfold rx_gnuKeyword at h
  split at h
  · simp
  · cases h

/-- A bare `--word` goes through the keyword branch of `parse`. -/
theorem parseArg_keyword (o : option) (lastkey arg key : GoString)
    (h1 : rx_gnuKeywordAssign arg = none) (h2 : rx_gnuKeyword arg = some key) :
    parseArg o lastkey arg =
      .ok ({ o with
        vdata := o.vdata ++ [vst.mk key [] 0]
        vmap := o.vmap.set key ((o.vdata ++ [vst.mk key [] 0]).length - 1) }, key) := by
  simp only [parseArg, rx_gnuKeyword_dash arg key h2, and_self, if_true, h1, h2]

theorem set_bool_one (v : Target) : set_bool v (str "1") = (v.SetBool true, none) := by
  have : toLower (str "1") = str "1" := by decide
  simp only [set_bool, this, or_true, if_true]

theorem set_bool_zero (v : Target) : set_bool v (str "0") = (v.SetBool false, none) := by
  have h : toLower (str "0") = str "0" := by decide
  have h1 : ¬ (str "0" = str "true" ∨ str "0" = str "yes" ∨ str "0" = str "on" ∨
      str "0" = str "1") := by decide
  simp only [set_bool, h, h1, if_false, or_true, if_true]

/-! ## Lemmas on command lines of flags and plain words -/

theorem eventValues_append (l1 l2 : List vst) :
    eventValues (l1 ++ l2) = eventValues l1 ++ eventValues l2 := by
  simp [eventValues]

theorem eventValues_flagEvents (cs : GoString) : eventValues (flagEvents cs) = [] := by
  induction cs with
  | nil => rfl
  | cons c cs ih =>
    simp only [flagEvents, List.map_cons, eventValues, List.filter_cons] at ih ⊢
    simp

theorem strippedWords_cons_flags (a : GoString) (rest : List GoString)
    (h : isBareFlags a = true) : strippedWords (a :: rest) = strippedWords rest := by
  have hp : isPlainWord a = false := by
    unfold isBareFlags at h
    split at h
    · simp [isPlainWord]
    · cases h
  simp only [strippedWords, List.filter_cons, hp, Bool.false_eq_true, if_false]

theorem strippedWords_cons_word (w : GoString) (rest : List GoString)
    (h : w.head? ≠ some 45) :
    strippedWords (w :: rest) =
      ([stringsTrim w qt].filter fun a => decide (a ≠ [])) ++ strippedWords rest := by
  have hp : isPlainWord w = true := by simp [isPlainWord, h]
  simp only [strippedWords, List.filter_cons, hp, if_true, List.map_cons]
  split_ifs <;> simp

/-- The loop of `parse` over bare flags and plain words: every event is typed
0, and the values of the events that are not empty are the stripped words in
their order. -/
theorem parseLoop_flags_words (args : List GoString) :
    ∀ (i : Nat) (o : option) (lastkey : GoString),
      (∀ a ∈ args, isBareFlags a = true ∨ a.head? ≠ some 45) →
      (lastkey ≠ [] → ∃ xs x, o.vdata = xs ++ [x] ∧ x.val = []) →
      (∀ ev ∈ o.vdata, ev.typ = 0) →
      ∃ o1, parseLoop args (i + 1) o lastkey = .ok o1 ∧ (∀ ev ∈ o1.vdata, ev.typ = 0) ∧
        eventValues o1.vdata = eventValues o.vdata ++ strippedWords args := by
  induction args with
  | nil =>
    intro i o lastkey _ _ ht
    exact ⟨o, rfl, ht, by simp [strippedWords]⟩
  | cons a rest ih =>
    intro i o lastkey hargs hl ht
    have hrest : ∀ b ∈ rest, isBareFlags b = true ∨ b.head? ≠ some 45 :=
      fun b hb => hargs b (List.mem_cons_of_mem _ hb)
    rcases hargs a (List.mem_cons_self _ _) with hf | hw
    · -- a flag argument
      unfold isBareFlags at hf
      split at hf
      · rename_i c cs
        have hlet : ∀ d ∈ c :: cs, isAsciiLetter d = true := by
          intro d hd
          exact List.all_eq_true.1 hf d hd
        have hpa := parseArg_flag o lastkey c cs hlet
        obtain ⟨hev, hlk⟩ := parseFlags_events (c :: cs) o lastkey
        have hstep : parseArg o lastkey (45 :: c :: cs) =
            .ok ((parseFlags (c :: cs) o lastkey).1, (parseFlags (c :: cs) o lastkey).2) := by
          rw [hpa]
        rw [parseLoop_ok _ _ _ _ _ _ _ hstep]
        have hfe : flagEvents (c :: cs) ≠ [] := by simp [flagEvents]
        obtain ⟨o1, h1, h2, h3⟩ := ih (i + 1) (parseFlags (c :: cs) o lastkey).1
          (parseFlags (c :: cs) o lastkey).2 hrest
          (fun _ => by
            rw [hev]
            obtain ⟨ys, y, hy⟩ : ∃ ys y, flagEvents (c :: cs) = ys ++ [y] :=
              ⟨_, _, (List.dropLast_append_getLast hfe).symm⟩
            refine ⟨o.vdata ++ ys, y, by rw [hy, List.append_assoc], ?_⟩
            have hmem : y ∈ flagEvents (c :: cs) := by rw [hy]; simp
            simp only [flagEvents, List.mem_map] at hmem
            obtain ⟨d, _, hd⟩ := hmem
            rw [← hd])
          (fun ev hev1 => by
            rw [hev] at hev1
            rcases List.mem_append.1 hev1 with e | e
            · exact ht ev e
            · simp only [flagEvents, List.mem_map] at e
              obtain ⟨d, _, hd⟩ := e
              rw [← hd])
        refine ⟨o1, h1, h2, ?_⟩
        rw [h3, hev, eventValues_append, eventValues_flagEvents, List.append_nil,
          strippedWords_cons_flags]
        simp only [isBareFlags]
        exact hf
      · cases hf
    · -- a plain word
      rw [strippedWords_cons_word a rest hw]
      by_cases hlk : lastkey = []
      · subst hlk
        have hstep : parseArg o [] a =
            .ok ({ o with vdata := o.vdata ++ [vst.mk [] (stringsTrim a qt) typ_arg] }, []) := by
          rw [parseArg_plain o [] a hw, parseValue_positional]
        rw [parseLoop_ok _ _ _ _ _ _ _ hstep]
        obtain ⟨o1, h1, h2, h3⟩ := ih (i + 1)
          { o with vdata := o.vdata ++ [vst.mk [] (stringsTrim a qt) typ_arg] } [] hrest
          (fun h => absurd rfl h)
          (fun ev hev1 => by
            rcases List.mem_append.1 hev1 with e | e
            · exact ht ev e
            · simp only [List.mem_singleton] at e
              rw [e]
              rfl)
        refine ⟨o1, h1, h2, ?_⟩
        rw [h3, eventValues_append, List.append_assoc]
        rfl
      · obtain ⟨xs, x, hx, hxv⟩ := hl hlk
        have hstep : parseArg o lastkey a =
            .ok ({ o with vdata := xs ++ [{ x with val := stringsTrim a qt }] }, []) := by
          rw [parseArg_plain o lastkey a hw, parseValue_pending o lastkey a xs x hlk hx]
        rw [parseLoop_ok _ _ _ _ _ _ _ hstep]
        obtain ⟨o1, h1, h2, h3⟩ := ih (i + 1)
          { o with vdata := xs ++ [{ x with val := stringsTrim a qt }] } [] hrest
          (fun h => absurd rfl h)
          (fun ev hev1 => by
            rcases List.mem_append.1 hev1 with e | e
            · exact ht ev (by rw [hx]; exact List.mem_append_left _ e)
            · simp only [List.mem_singleton] at e
              rw [e]
              exact ht x (by rw [hx]; simp))
        refine ⟨o1, h1, h2, ?_⟩
        rw [h3, hx, eventValues_append, eventValues_append, List.append_assoc]
        have hxe : eventValues [x] = [] := by simp [eventValues, hxv]
        rw [hxe, List.append_nil]
        rfl

/-- The event table of a command line of bare flags and plain words. -/
theorem tokenize_flags_words (cmd : GoString) (args : List GoString)
    (h : ∀ a ∈ args, isBareFlags a = true ∨ a.head? ≠ some 45) :
    (∀ ev ∈ (tokenize (cmd :: args)).vdata, ev.typ = 0) ∧
      eventValues (tokenize (cmd :: args)).vdata = strippedWords args := by
  obtain ⟨o1, h1, h2, h3⟩ := parseLoop_flags_words args 0 option.init [] h
    (fun hh => absurd rfl hh) (fun ev hev => by simp [option.init] at hev)
  have ht := parse_tokenize (cmd :: args)
  rw [parse_cons, h1] at ht
  simp only [Except.ok.injEq] at ht
  rw [← ht]
  exact ⟨h2, by rw [h3]; simp [eventValues, option.init]⟩

theorem modify_map_val (l : List vst) (t : Int) :
    ∀ n, (l.modify (fun e => { e with typ := t }) n).map vst.val = l.map vst.val := by
  induction l with
  | nil => intro n; cases n <;> rfl
  | cons a l ih =>
    intro n
    cases n with
    | zero => rfl
    | succ n =>
      rw [List.modify_succ_cons, List.map_cons, List.map_cons, ih]

theorem mark_vals (o : option) (x : opt) : (o.mark x).vdata.map vst.val = o.vdata.map vst.val := by
  simp only [option.mark]
  split
  · rfl
  · exact modify_map_val _ _ _

/-- `getOptions` keeps the values of the events. -/
theorem foldl_mark_vals (l : List opt) :
    ∀ o : option, (l.foldl option.mark o).vdata.map vst.val = o.vdata.map vst.val := by
  induction l with
  | nil => intro o; rfl
  | cons x l ih => intro o; rw [List.foldl_cons, ih, mark_vals]

/-- An error of `getOptions` is the error of the decoder for the value of the
event of one of the descriptors, with the key of that event. -/
theorem getOptionsLoop_error_origin (fl : FloatLib) (todo : List opt) :
    ∀ (done : List opt) (o o1 : option) (e : OptError), MapOK o →
      getOptionsLoop fl todo done o = .ok (o1, some e) →
      ∃ x ∈ todo, ∃ ndx key ev, ∃ t : Int, ∃ err, o.hit x = some (ndx, key) ∧
        o.vdata.get? ndx = some ev ∧ (t = ev.typ ∨ t = typ_flag ∨ t = typ_option) ∧
        (setScalar fl x.fld (optionValue x.fld.kind { ev with typ := t })).2 = some err ∧
        e = .keyed err key := by
  induction todo with
  | nil =>
    intro done o o1 e _ h
    simp only [getOptionsLoop, Except.ok.injEq, Prod.mk.injEq] at h
    cases h.2
  | cons x rest ih =>
    intro done o o1 e hm h
    rcases hh : o.hit x with _ | ⟨ndx, key⟩
    · rw [getOptionsLoop_ok fl x rest done o o x.fld (getOption_miss fl o x hh)] at h
      obtain ⟨y, hy, r⟩ := ih _ o o1 e hm h
      exact ⟨y, List.mem_cons_of_mem _ hy, r⟩
    · obtain ⟨_, ev, hev, _⟩ := hm key ndx (hit_some o x ndx key hh).1
      have hg := getOption_hit fl o x ndx key ev hh hev
      rcases hs : setScalar fl x.fld (optionValue x.fld.kind ev) with ⟨t1, _ | err⟩
      · rw [hs] at hg
        simp only [Option.map_none'] at hg
        rw [getOptionsLoop_ok fl x rest done o _ t1 hg] at h
        obtain ⟨y, hy, ndx1, key1, ev1, t, err, a1, a2, a3, a4, a5⟩ :=
          ih _ (o.mark x) o1 e (MapOK_mark o x hm) h
        rw [mark_hit] at a1
        have hi : ndx1 < o.vdata.length := by
          have := (hm key1 ndx1 (hit_some o y ndx1 key1 a1).1).2
          obtain ⟨ev0, h0, _⟩ := this
          by_contra hc
          rw [List.get?_eq_none.2 (by omega)] at h0
          cases h0
        obtain ⟨t0, hg0, _, _, hc0⟩ := mark_get? o x ndx1 _ (List.get?_eq_get hi)
        rw [hg0] at a2
        simp only [Option.some.injEq] at a2
        subst a2
        refine ⟨y, List.mem_cons_of_mem _ hy, ndx1, key1, _, t, err, a1, List.get?_eq_get hi,
          ?_, a4, a5⟩
        rcases a3 with e3 | e3 | e3
        · simp only at e3
          rw [e3]
          exact hc0
        · exact Or.inr (Or.inl e3)
        · exact Or.inr (Or.inr e3)
      · rw [hs] at hg
        simp only [Option.map_some'] at hg
        rw [getOptionsLoop_err fl x rest done o _ t1 _ hg] at h
        simp only [Except.ok.injEq, Prod.mk.injEq, Option.some.injEq] at h
        refine ⟨x, List.mem_cons_self _ _, ndx, key, ev, ev.typ, err, hh, hev, Or.inl rfl, ?_,
          h.2.symm⟩
        rw [hs]

theorem optionValue_bool_flag (ev : vst) (h : ev.typ ≠ typ_uoption) :
    optionValue .Bool ev = str "1" := by
  simp only [optionValue, if_true, h, if_false]

/-- The step of `varAssign` for a slice given as second argument of `New`. -/
theorem varAssignLoop_slice_last (fl : FloatLib) (o o5 : option) (cap : Nat)
    (elems : List Target) (zero : Target) (r : Option OptError)
    (h : option.assignArgs fl
      { o with hasArgSlice := true, argSliceRef := .slice cap elems zero } true = .ok (o5, r)) :
    varAssignLoop fl (1 + [NewArg.pointer (.slice cap elems zero)].length)
      [.pointer (.slice cap elems zero)] 1 o = .ok (o5, r) := by
  rw [varAssignLoop]
  simp only [OfNat.one_ne_ofNat, false_and, if_false, h]
  cases r <;> simp [varAssignLoop]

/-- The step of `varAssign` for an array given as second argument of `New`. -/
theorem varAssignLoop_array_last (fl : FloatLib) (o o5 : option) (elems : List Target)
    (r : Option OptError)
    (h : option.assignArgs fl
      { o with hasArgSlice := true, argSliceRef := .array elems } false = .ok (o5, r)) :
    varAssignLoop fl (1 + [NewArg.pointer (.array elems)].length)
      [.pointer (.array elems)] 1 o = .ok (o5, r) := by
  rw [varAssignLoop]
  simp only [OfNat.one_ne_ofNat, false_and, if_false, h]
  cases r <;> simp [varAssignLoop]

theorem forall₂_imp_mem {α β : Type} (R S : α → β → Prop) :
    ∀ (l : List α) (l1 : List β), List.Forall₂ R l l1 → (∀ x ∈ l, ∀ y, R x y → S x y) →
      List.Forall₂ S l l1 := by
  intro l l1 h
  induction h with
  | nil => intro _; exact List.Forall₂.nil
  | cons hab _ ih =>
    intro hi
    exact List.Forall₂.cons (hi _ (List.mem_cons_self _ _) _ hab)
      (ih fun x hx y hr => hi x (List.mem_cons_of_mem _ hx) y hr)

theorem argEvents_all (l : List vst) (h : ∀ ev ∈ l, ev.typ = typ_arg ∨ ev.typ = typ_flag) :
    argEvents l = l := by
  simp only [argEvents]
  rw [List.filter_eq_self]
  intro ev hev
  simpa using h ev hev

/-! ## Lemmas on the three syntaxes of an option -/

theorem dropWhile_all_append {α : Type} (p : α → Bool) (l rest : List α) (x : α)
    (hl : l.all p = true) (hx : p x = false) :
    (l ++ x :: rest).dropWhile p = x :: rest ∧ (l ++ x :: rest).takeWhile p = l := by
  induction l with
  | nil => simp [List.dropWhile, List.takeWhile, hx]
  | cons a l ih =>
    simp only [List.all_cons, Bool.and_eq_true] at hl
    obtain ⟨h1, h2⟩ := ih hl.2
    simp [List.dropWhile, List.takeWhile, hl.1, h1, h2]

theorem dropWhile_all {α : Type} (p : α → Bool) (l : List α) (hl : l.all p = true) :
    l.dropWhile p = [] := by
  induction l with
  | nil => rfl
  | cons a l ih =>
    simp only [List.all_cons, Bool.and_eq_true] at hl
    simp [List.dropWhile, hl.1, ih hl.2]

theorem rx_gnuKeyword_longKey (w : GoString) (h : isLongKey w = true) :
    rx_gnuKeyword (45 :: 45 :: w) = some w ∧ rx_gnuKeywordAssign (45 :: 45 :: w) = none := by
  cases w with
  | nil => cases h
  | cons c rest =>
    simp only [isLongKey, Bool.and_eq_true] at h
    refine ⟨by simp [rx_gnuKeyword, h.1, h.2], ?_⟩
    simp only [rx_gnuKeywordAssign, h.1, if_true, dropWhile_all _ _ h.2]

theorem rx_gnuKeywordAssign_longKey (w v : GoString) (h : isLongKey w = true)
    (hv : ∀ b ∈ v, b ≠ 10) :
    rx_gnuKeywordAssign (45 :: 45 :: (w ++ 61 :: v)) = some (w, v) := by
  cases w with
  | nil => cases h
  | cons c rest =>
    simp only [isLongKey, Bool.and_eq_true] at h
    obtain ⟨h1, h2⟩ := dropWhile_all_append isKeyByte rest v 61 h.2 (by decide)
    have hall : (v.all fun b => b != 10) = true := by
      rw [List.all_eq_true]
      intro b hb
      simpa using hv b hb
    simp only [List.cons_append, rx_gnuKeywordAssign, h.1, if_true, h1, h2, hall]

theorem isLongKey_ne_nil (w : GoString) (h : isLongKey w = true) : w ≠ [] := by
  cases w with
  | nil => cases h
  | cons c rest => simp

/-- The event table of `-k v`. -/
theorem tokenize_short (cmd v : GoString) (k : Nat) (hk : isAsciiLetter k = true)
    (hv : v.head? ≠ some 45) :
    tokenize [cmd, [45, k], v] =
      { option.init with
        vdata := [vst.mk [k] (stringsTrim v qt) 0], vmap := [([k], 0)] } := by
  have h := parse_tokenize [cmd, [45, k], v]
  have h1 : parseArg option.init [] [45, k] = .ok (parseFlags [k] option.init []) :=
    parseArg_flag option.init [] k [] (by simpa using hk)
  have h1b : parseArg option.init [] [45, k] =
      .ok ((parseFlags [k] option.init []).1, (parseFlags [k] option.init []).2) := h1
  have h2 : parseArg (parseFlags [k] option.init []).1 (parseFlags [k] option.init []).2 v =
      .ok ({ option.init with
        vdata := [vst.mk [k] (stringsTrim v qt) 0], vmap := [([k], 0)] }, []) := by
    rw [parseArg_plain _ _ v hv,
      parseValue_pending _ _ v [] (vst.mk [k] [] 0) (by simp [parseFlags]) rfl]
    rfl
  rw [parse_cons, parseLoop_ok _ _ _ _ _ _ _ h1b, parseLoop_ok _ _ _ _ _ _ _ h2] at h
  simp only [parseLoop, Except.ok.injEq] at h
  exact h.symm

/-- The event table of `--w v`. -/
theorem tokenize_long (cmd v w : GoString) (hw : isLongKey w = true)
    (hv : v.head? ≠ some 45) :
    tokenize [cmd, 45 :: 45 :: w, v] =
      { option.init with
        vdata := [vst.mk w (stringsTrim v qt) 0], vmap := [(w, 0)] } := by
  have h := parse_tokenize [cmd, 45 :: 45 :: w, v]
  obtain ⟨r1, r2⟩ := rx_gnuKeyword_longKey w hw
  have h1 := parseArg_keyword option.init [] (45 :: 45 :: w) w r2 r1
  have h2 : parseArg ({ option.init with
        vdata := option.init.vdata ++ [vst.mk w [] 0]
        vmap := option.init.vmap.set w
          ((option.init.vdata ++ [vst.mk w [] 0]).length - 1) } : option) w v =
      .ok ({ option.init with
        vdata := [vst.mk w (stringsTrim v qt) 0], vmap := [(w, 0)] }, []) := by
    rw [parseArg_plain _ _ v hv,
      parseValue_pending _ _ v [] (vst.mk w [] 0) (isLongKey_ne_nil w hw) rfl]
    rfl
  rw [parse_cons, parseLoop_ok _ _ _ _ _ _ _ h1, parseLoop_ok _ _ _ _ _ _ _ h2] at h
  simp only [parseLoop, Except.ok.injEq] at h
  exact h.symm

/-- The event table of `--w=v`. -/
theorem tokenize_assign (cmd v w : GoString) (hw : isLongKey w = true)
    (hv : ∀ b ∈ v, b ≠ 10) :
    tokenize [cmd, 45 :: 45 :: (w ++ 61 :: v)] =
      { option.init with
        vdata := [vst.mk w (stringsTrim v qt) typ_uoption], vmap := [(w, 0)] } := by
  have h := parse_tokenize [cmd, 45 :: 45 :: (w ++ 61 :: v)]
  have h1 := parseArg_assign option.init [] _ w v (rx_gnuKeywordAssign_longKey w v hw hv)
  rw [parse_cons, parseLoop_ok _ _ _ _ _ _ _ h1] at h
  simp only [parseLoop, Except.ok.injEq] at h
  exact h.symm

theorem descriptorKeys_append_list (l1 l2 : List opt) :
    descriptorKeys (l1 ++ l2) = descriptorKeys l1 ++ descriptorKeys l2 := by
  simp [descriptorKeys]

theorem mem_descriptorKeys (l : List opt) (y : opt) (hy : y ∈ l) :
    (y.u_key ≠ [] → y.u_key ∈ descriptorKeys l) ∧
      (y.gnu_key ≠ [] → y.gnu_key ∈ descriptorKeys l) := by
  simp only [descriptorKeys, List.mem_filter, List.mem_flatMap, List.mem_cons,
    List.mem_singleton, List.not_mem_nil, or_false, decide_eq_true_eq]
  exact ⟨fun h => ⟨⟨y, hy, Or.inl rfl⟩, h⟩, fun h => ⟨⟨y, hy, Or.inr rfl⟩, h⟩⟩

/-- The keys of the descriptors of a record are pairwise distinct. -/
theorem descriptors_nodup (v : List StructField) (ds : List opt) (h : descriptors v = .ok ds) :
    (descriptorKeys ds).Nodup := by
  obtain ⟨od, hod, hds⟩ := descriptors_ok v ds h
  rw [← hds]
  exact (KeysInvariant_loop v option.init od
    ⟨by simp [descriptorKeys, option.init], by simp [descriptorKeys, option.init]⟩ hod).1

/-- A descriptor with a short and a long key stands at one place of the list,
and no other descriptor has one of its keys. -/
theorem descriptors_split (v : List StructField) (ds : List opt) (x : opt)
    (h : descriptors v = .ok ds) (hx : x ∈ ds) (hu : x.u_key ≠ []) (hg : x.gnu_key ≠ []) :
    x.gnu_key ≠ x.u_key ∧ ∃ pre post, ds = pre ++ x :: post ∧
      ∀ y ∈ pre ++ post, y.u_key ≠ x.u_key ∧ y.u_key ≠ x.gnu_key ∧ y.gnu_key ≠ x.u_key ∧
        y.gnu_key ≠ x.gnu_key := by
  have hnd := descriptors_nodup v ds h
  obtain ⟨pre, post, hsplit⟩ := List.append_of_mem hx
  have hkx : descriptorKeys [x] = [x.u_key, x.gnu_key] := by
    simp [descriptorKeys, hu, hg]
  rw [hsplit, descriptorKeys_append_list, show x :: post = [x] ++ post from rfl,
    descriptorKeys_append_list, hkx] at hnd
  have h1 := List.nodup_append.1 hnd
  have h2 := List.nodup_append.1 h1.2.1
  have hxx : x.gnu_key ≠ x.u_key := by
    have := h2.1
    simp only [List.nodup_cons, List.mem_singleton, List.not_mem_nil, not_false_eq_true,
      List.nodup_nil, and_true] at this
    exact fun e => this e.symm
  refine ⟨hxx, pre, post, hsplit, fun y hy => ?_⟩
  have hdis1 := h1.2.2
  have hdis2 := h2.2.2
  have key : ∀ kk, kk ≠ [] → (kk = y.u_key ∨ kk = y.gnu_key) → kk ≠ x.u_key ∧ kk ≠ x.gnu_key := by
    intro kk hkk hky
    rcases List.mem_append.1 hy with hp | hp
    · have hm : kk ∈ descriptorKeys pre := by
        rcases hky with e | e
        · rw [e]; exact (mem_descriptorKeys pre y hp).1 (e ▸ hkk)
        · rw [e]; exact (mem_descriptorKeys pre y hp).2 (e ▸ hkk)
      constructor
      · intro e
        exact hdis1 hm (by rw [e]; simp)
      · intro e
        exact hdis1 hm (by rw [e]; simp)
    · have hm : kk ∈ descriptorKeys post := by
        rcases hky with e | e
        · rw [e]; exact (mem_descriptorKeys post y hp).1 (e ▸ hkk)
        · rw [e]; exact (mem_descriptorKeys post y hp).2 (e ▸ hkk)
      constructor
      · intro e
        exact hdis2 (by rw [e]; simp) hm
      · intro e
        exact hdis2 (by rw [e]; simp) hm
  refine ⟨?_, ?_, ?_, ?_⟩
  · intro e
    exact (key y.u_key (by rw [e]; exact hu) (Or.inl rfl)).1 e
  · intro e
    exact (key y.u_key (by rw [e]; exact hg) (Or.inl rfl)).2 e
  · intro e
    exact (key y.gnu_key (by rw [e]; exact hu) (Or.inr rfl)).1 e
  · intro e
    exact (key y.gnu_key (by rw [e]; exact hg) (Or.inr rfl)).2 e

theorem hit_single (o : option) (key : GoString) (y : opt) (hm : o.vmap = [(key, 0)]) :
    o.hit y = if key = y.u_key then some (0, y.u_key)
      else if key = y.gnu_key then some (0, y.gnu_key) else none := by
  simp only [option.hit, hm, GoMap.get]
  split_ifs <;> rfl

/-- `getOptions` on an event table of one event, which one descriptor hits:
the field of that descriptor is decoded from the value of the event, the event
becomes an option, and the error is that of the decoder with the key. -/
theorem getOptionsLoop_single (fl : FloatLib) (o : option) (pre post : List opt) (x : opt)
    (key val : GoString) (typ0 : Int) (hv : o.vdata = [vst.mk key val typ0])
    (hx : o.hit x = some (0, key))
    (hmiss : ∀ y ∈ pre ++ post, o.hit y = none) (hnb : x.fld.kind ≠ .Bool) :
    getOptionsLoop fl (pre ++ x :: post) [] o =
      .ok ({ o with
        vdata := [vst.mk key val typ_option]
        optionList := pre ++ { x with fld := (setScalar fl x.fld val).1 } :: post },
        (setScalar fl x.fld val).2.map fun e => .keyed e key) := by
  rw [getOptionsLoop_miss fl pre (x :: post) [] o
    fun y hy => hmiss y (List.mem_append_left _ hy)]
  have hg := getOption_hit fl o x 0 key (vst.mk key val typ0) hx (by rw [hv]; rfl)
  rw [optionValue_of_not_bool _ _ hnb] at hg
  have hmark : o.mark x = { o with vdata := [vst.mk key val typ_option] } := by
    simp only [option.mark, hx, hv, optionTyp, hnb, if_false]
    rfl
  rw [hmark] at hg
  rcases hs : setScalar fl x.fld val with ⟨t, _ | err⟩
  · rw [hs] at hg
    simp only [Option.map_none'] at hg
    rw [getOptionsLoop_ok fl x post _ o _ t hg]
    have := getOptionsLoop_miss fl post [] ([] ++ pre ++ [{ x with fld := t }])
      ({ o with vdata := [vst.mk key val typ_option] })
      fun y hy => by
        have := hmiss y (List.mem_append_right _ hy)
        simp only [option.hit] at this ⊢
        exact this
    rw [List.append_nil] at this
    rw [this]
    simp [getOptionsLoop]
  · rw [hs] at hg
    simp only [Option.map_some'] at hg
    rw [getOptionsLoop_err fl x post _ o _ t _ hg]
    simp

theorem validRest_cases (more : List NewArg) (h : validRest more = true) :
    more = [] ∨ (∃ cap elems zero, more = [.pointer (.slice cap elems zero)]) ∨
      ∃ elems, more = [.pointer (.array elems)] := by
  unfold validRest at h
  split at h
  · exact Or.inl rfl
  · exact Or.inr (Or.inl ⟨_, _, _, rfl⟩)
  · exact Or.inr (Or.inr ⟨_, rfl⟩)
  · cases h

theorem calcArgLimit_valid (rec : List StructField) (more : List NewArg)
    (h : validRest more = true) :
    more.length ≤ 1 ∧
      ∃ o1, option.init.calcArgLimit (.pointer (.record rec) :: more) = .ok o1 := by
  rcases validRest_cases more h with e | ⟨cap, elems, zero, e⟩ | ⟨elems, e⟩
  · subst e
    exact ⟨by simp, _, calcArgLimit_record rec⟩
  · subst e
    refine ⟨by simp, ?_⟩
    by_cases hc : cap = 0
    · exact ⟨_, by simp only [option.calcArgLimit, calcArgLimitStep, hc, if_true]; rfl⟩
    · exact ⟨_, by simp only [option.calcArgLimit, calcArgLimitStep, hc, if_false]; rfl⟩
  · subst e
    exact ⟨by simp, _, by simp only [option.calcArgLimit, calcArgLimitStep]; rfl⟩

theorem checkUndefinedOptions_single (o : option) (key val : GoString)
    (hv : o.vdata = [vst.mk key val typ_option]) : o.checkUndefinedOptions = none := by
  simp [option.checkUndefinedOptions, hv]

theorem getArgs_single (o : option) (key val : GoString)
    (hv : o.vdata = [vst.mk key val typ_option]) : o.getArgs = ([], none) := by
  simp [option.getArgs, hv, getArgsLoop, typ_option, typ_arg, typ_flag]

/-- A call of `New` with a record on a command line that is one option of a
field that is not boolean: the field is decoded from the value of the option,
nothing is left over, and the error of the decoder is returned with the key
of the event. -/
theorem New_single_option (fl : FloatLib) (osArgs : List GoString) (rec : List StructField)
    (more : List NewArg) (ds pre post : List opt) (x : opt) (key val : GoString) (typ0 : Int)
    (hargs : osArgs ≠ []) (hd : descriptors rec = .ok ds) (hds : ds = pre ++ x :: post)
    (htok : tokenize osArgs =
      { option.init with vdata := [vst.mk key val typ0], vmap := [(key, 0)] })
    (hx : key = x.u_key ∨ (key ≠ x.u_key ∧ key = x.gnu_key))
    (hmiss : ∀ y ∈ pre ++ post, key ≠ y.u_key ∧ key ≠ y.gnu_key)
    (hnb : x.fld.kind ≠ .Bool) (hmore : validRest more = true) :
    (∃ o, New fl osArgs (.pointer (.record rec) :: more) =
      .ok (o, (setScalar fl x.fld val).2.map fun e => .keyed e key)) ∧
    outcome (New fl osArgs (.pointer (.record rec) :: more)) =
      .ok (pre ++ { x with fld := (setScalar fl x.fld val).1 } :: post,
        if (setScalar fl x.fld val).2 = none then restRef more else .invalid,
        (setScalar fl x.fld val).2.map .decode) := by
  obtain ⟨hlen, o1, hc⟩ := calcArgLimit_valid rec more hmore
  obtain ⟨o3, g1, g2, g3, _, _, g6, g7, _, herr, hok⟩ :=
    New_record fl osArgs rec more ds o1 hlen hargs hd hc
  rw [htok] at g2 g3
  have hv3 : o3.vdata = [vst.mk key val typ0] := g3
  have hm3 : o3.vmap = [(key, 0)] := g2
  have hhx : o3.hit x = some (0, key) := by
    rw [hit_single o3 key x hm3]
    rcases hx with e | ⟨e1, e2⟩
    · rw [if_pos e, e]
    · rw [if_neg e1, if_pos e2, e2]
  have hhm : ∀ y ∈ pre ++ post, o3.hit y = none := by
    intro y hy
    rw [hit_single o3 key y hm3, if_neg (hmiss y hy).1, if_neg (hmiss y hy).2]
  have hl := getOptionsLoop_single fl o3 pre post x key val typ0 hv3 hhx hhm hnb
  rw [← hds] at hl
  rcases hs : setScalar fl x.fld val with ⟨t, _ | err⟩
  · rw [hs] at hl
    simp only [Option.map_none'] at hl
    simp only [Option.map_none', if_true]
    obtain ⟨hok1, _⟩ := hok _ hl
    rcases validRest_cases more hmore with e | ⟨cap, elems, zero, e⟩ | ⟨elems, e⟩
    · subst e
      have hnew := hok1 _ none rfl
      rw [checkUndefinedOptions_single _ key val rfl] at hnew
      exact ⟨⟨_, hnew⟩, by rw [hnew]; simp only [outcome, g7, restRef]; rfl⟩
    · subst e
      have ha := assignArgs_slice fl
        ({ ({ o3 with
            vdata := [vst.mk key val typ_option]
            optionList := pre ++ { x with fld := t } :: post } : option) with
          hasArgSlice := true, argSliceRef := .slice cap elems zero }) cap elems [] zero []
        none rfl (getArgs_single _ key val rfl) rfl
      have hnew := hok1 _ none (varAssignLoop_slice_last fl _ _ cap elems zero none ha)
      rw [checkUndefinedOptions_single _ key val rfl] at hnew
      exact ⟨⟨_, hnew⟩, by rw [hnew]; rfl⟩
    · subst e
      have ha := assignArgs_array fl
        ({ ({ o3 with
            vdata := [vst.mk key val typ_option]
            optionList := pre ++ { x with fld := t } :: post } : option) with
          hasArgSlice := true, argSliceRef := .array elems }) elems elems []
        none rfl (getArgs_single _ key val rfl) rfl
      have hnew := hok1 _ none (varAssignLoop_array_last fl _ _ elems none ha)
      rw [checkUndefinedOptions_single _ key val rfl] at hnew
      exact ⟨⟨_, hnew⟩, by rw [hnew]; rfl⟩
  · rw [hs] at hl
    simp only [Option.map_some'] at hl
    have hnew := herr _ _ hl
    refine ⟨⟨_, hnew⟩, ?_⟩
    rw [hnew]
    simp only [outcome, g7, Option.map_some', OptError.cause]
    rfl

/-! ## Lemmas on the invariant of the tokenizer -/

theorem getLast?_map_eq_some (l : List vst) (k : GoString) :
    (l.map vst.key).getLast? = some k ↔ ∃ xs x, l = xs ++ [x] ∧ x.key = k := by
  constructor
  · intro h
    rcases List.eq_nil_or_concat l with e | ⟨xs, x, e⟩
    · subst e
      simp at h
    · subst e
      simp at h
      exact ⟨xs, x, by simp, h⟩
  · rintro ⟨xs, x, rfl, rfl⟩
    simp

theorem get?_map_key (l : List vst) (i : Nat) (k : GoString) :
    (l.map vst.key).get? i = some k ↔ ∃ ev, l.get? i = some ev ∧ ev.key = k := by
  rw [List.get?_eq_getElem?, List.getElem?_map, ← List.get?_eq_getElem?]
  cases l.get? i <;> simp

/-- The invariant of the tokenizer reads the keys of the events only. -/
theorem TokenizerInv_iff (o : option) (lastkey : GoString) :
    TokenizerInv o lastkey ↔ KeysInv (o.vdata.map vst.key) o.vmap lastkey := by
  constructor
  · rintro ⟨h1, h2, h3, h4⟩
    refine ⟨fun hl => (getLast?_map_eq_some _ _).2 (h1 hl), fun k i hki => ?_, h3, ?_⟩
    · obtain ⟨ev, a, b, c⟩ := h2 k i hki
      refine ⟨(get?_map_key _ _ _).2 ⟨ev, a, b⟩, fun j hj hc => ?_⟩
      obtain ⟨ev1, d, e⟩ := (get?_map_key _ _ _).1 hc
      exact c j ev1 hj d e
    · intro k hk hkn
      obtain ⟨ev, hev, e⟩ := List.mem_map.1 hk
      subst e
      exact h4 ev hev hkn
  · rintro ⟨h1, h2, h3, h4⟩
    refine ⟨fun hl => (getLast?_map_eq_some _ _).1 (h1 hl), fun k i hki => ?_, h3,
      fun ev hev hk => h4 _ (List.mem_map.2 ⟨ev, hev, rfl⟩) hk⟩
    obtain ⟨a, c⟩ := h2 k i hki
    obtain ⟨ev, a1, b⟩ := (get?_map_key _ _ _).1 a
    exact ⟨ev, a1, b, fun j ev1 hj d e => c j hj ((get?_map_key _ _ _).2 ⟨ev1, d, e⟩)⟩

theorem KeysInv_nil : KeysInv [] [] [] := by
  refine ⟨fun h => absurd rfl h, fun k i h => ?_, fun k i h => ?_, fun k hk => ?_⟩
  · simp [GoMap.get] at h
  · simp [GoMap.get] at h
  · simp at hk

/-- An event with a key is appended and entered in the map. -/
theorem KeysInv_push (keys : List GoString) (vmap : GoMap Nat) (lastkey key : GoString)
    (h : KeysInv keys vmap lastkey) (hk : key ≠ []) :
    KeysInv (keys ++ [key]) (vmap.set key keys.length) key := by
  obtain ⟨_, h2, h3, h4⟩ := h
  refine ⟨fun _ => by simp, fun k i hki => ?_, fun k i hki => ?_, fun k hkm hkn => ?_⟩
  · rw [GoMap.get_set] at hki
    by_cases hkk : k = key
    · rw [if_pos hkk] at hki
      simp only [Option.some.injEq] at hki
      subst hki
      subst hkk
      refine ⟨get?_append_length _ _, fun j hj => ?_⟩
      rw [List.get?_eq_none.2 (by simp; omega)]
      exact fun hc => by cases hc
    · rw [if_neg hkk] at hki
      obtain ⟨a, b⟩ := h2 k i hki
      refine ⟨get?_append_some _ _ _ _ a, fun j hj hc => ?_⟩
      by_cases hjl : j < keys.length
      · rw [List.get?_eq_getElem?, List.getElem?_append_left hjl,
          ← List.get?_eq_getElem?] at hc
        exact b j hj hc
      · have hjn : j = keys.length ∨ keys.length < j := by omega
        rcases hjn with e | e
        · rw [e, get?_append_length] at hc
          simp only [Option.some.injEq] at hc
          exact hkk hc.symm
        · rw [List.get?_eq_none.2 (by simp; omega)] at hc
          cases hc
  · rw [GoMap.get_set] at hki
    by_cases hkk : k = key
    · rw [hkk]
      exact hk
    · rw [if_neg hkk] at hki
      exact h3 k i hki
  · rw [GoMap.get_set]
    by_cases hkk : k = key
    · exact ⟨_, by rw [if_pos hkk]⟩
    · rw [if_neg hkk]
      simp only [List.mem_append, List.mem_singleton, hkk, or_false] at hkm
      exact h4 k hkm hkn

/-- A positional event is appended. -/
theorem KeysInv_positional (keys : List GoString) (vmap : GoMap Nat)
    (h : KeysInv keys vmap []) : KeysInv (keys ++ [[]]) vmap [] := by
  obtain ⟨_, h2, h3, h4⟩ := h
  refine ⟨fun hh => absurd rfl hh, fun k i hki => ?_, h3, fun k hkm hkn => ?_⟩
  · obtain ⟨a, b⟩ := h2 k i hki
    refine ⟨get?_append_some _ _ _ _ a, fun j hj hc => ?_⟩
    by_cases hjl : j < keys.length
    · rw [List.get?_eq_getElem?, List.getElem?_append_left hjl,
        ← List.get?_eq_getElem?] at hc
      exact b j hj hc
    · have hjn : j = keys.length ∨ keys.length < j := by omega
      rcases hjn with e | e
      · rw [e, get?_append_length] at hc
        simp only [Option.some.injEq] at hc
        exact h3 k i hki hc.symm
      · rw [List.get?_eq_none.2 (by simp; omega)] at hc
        cases hc
  · simp only [List.mem_append, List.mem_singleton] at hkm
    rcases hkm with e | e
    · exact h4 k e hkn
    · exact absurd e hkn

/-- The pending key is dropped. -/
theorem KeysInv_clear (keys : List GoString) (vmap : GoMap Nat) (lastkey : GoString)
    (h : KeysInv keys vmap lastkey) : KeysInv keys vmap [] :=
  ⟨fun hh => absurd rfl hh, h.2.1, h.2.2.1, h.2.2.2⟩

theorem TokenizerInv_parseFlags (cs : GoString) :
    ∀ (o : option) (lastkey : GoString), TokenizerInv o lastkey →
      TokenizerInv (parseFlags cs o lastkey).1 (parseFlags cs o lastkey).2 := by
  induction cs with
  | nil => intro o lastkey h; exact h
  | cons c cs ih =>
    intro o lastkey h
    rw [parseFlags]
    apply ih
    rw [TokenizerInv_iff] at h ⊢
    have := KeysInv_push _ _ lastkey [c] h (by simp)
    simpa using this

theorem TokenizerInv_parseValue (o : option) (lastkey arg : GoString)
    (h : TokenizerInv o lastkey) :
    ∃ o1 l1, parseValue o lastkey arg = .ok (o1, l1) ∧ TokenizerInv o1 l1 := by
  by_cases hl : lastkey = []
  · subst hl
    rw [parseValue_positional]
    refine ⟨_, _, rfl, ?_⟩
    rw [TokenizerInv_iff] at h ⊢
    have := KeysInv_positional _ _ h
    simpa using this
  · obtain ⟨xs, x, hx, _⟩ := h.1 hl
    rw [parseValue_pending o lastkey arg xs x hl hx]
    refine ⟨_, _, rfl, ?_⟩
    rw [TokenizerInv_iff] at h ⊢
    have := KeysInv_clear _ _ _ h
    simpa [hx] using this

/-- One turn of the loop of `parse` does not panic on a state that has the
invariant, and leads to such a state. -/
theorem TokenizerInv_parseArg (o : option) (lastkey arg : GoString)
    (h : TokenizerInv o lastkey) :
    ∃ o1 l1, parseArg o lastkey arg = .ok (o1, l1) ∧ TokenizerInv o1 l1 := by
  simp only [parseArg]
  split_ifs
  · rcases h1 : rx_gnuKeywordAssign arg with _ | ⟨key, val⟩
    · rcases h2 : rx_gnuKeyword arg with _ | key
      · rcases h3 : rx_flag arg with _ | letters
        · exact TokenizerInv_parseValue o lastkey arg h
        · exact ⟨_, _, rfl, TokenizerInv_parseFlags letters o lastkey h⟩
      · refine ⟨_, _, rfl, ?_⟩
        rw [TokenizerInv_iff] at h ⊢
        have := KeysInv_push _ _ lastkey key h (rx_gnuKeyword_key arg key h2)
        simpa using this
    · refine ⟨_, _, rfl, ?_⟩
      rw [TokenizerInv_iff] at h ⊢
      have := KeysInv_push _ _ lastkey key h (rx_gnuKeywordAssign_key arg key val h1)
      simpa using this
  · exact TokenizerInv_parseValue o lastkey arg h

theorem TokenizerInv_init : TokenizerInv option.init [] := by
  rw [TokenizerInv_iff]
  exact KeysInv_nil

theorem TokenizerInv_parseLoop (args : List GoString) :
    ∀ (i : Nat) (o : option) (lastkey : GoString), TokenizerInv o lastkey →
      ∃ o1 l1, parseLoop args (i + 1) o lastkey = .ok o1 ∧ TokenizerInv o1 l1 := by
  induction args with
  | nil => intro i o lastkey h; exact ⟨o, lastkey, rfl, h⟩
  | cons arg rest ih =>
    intro i o lastkey h
    obtain ⟨o1, l1, h1, h2⟩ := TokenizerInv_parseArg o lastkey arg h
    rw [parseLoop_ok _ _ _ _ _ _ _ h1]
    exact ih (i + 1) o1 l1 h2

/-- The event table of a command line has the invariant of the tokenizer. -/
theorem TokenizerInv_tokenize (osArgs : List GoString) :
    ∃ lastkey, TokenizerInv (tokenize osArgs) lastkey := by
  have h := parse_tokenize osArgs
  cases osArgs with
  | nil =>
    simp only [option.parse, parseLoop, Except.ok.injEq] at h
    rw [← h]
    exact ⟨[], TokenizerInv_init⟩
  | cons cmd args =>
    obtain ⟨o1, l1, h1, h2⟩ := TokenizerInv_parseLoop args 0 option.init [] TokenizerInv_init
    rw [parse_cons, h1] at h
    simp only [Except.ok.injEq] at h
    rw [← h]
    exact ⟨l1, h2⟩

/-! ## Lemmas on arguments that are no options -/

theorem parseArg_noOptionForm (o : option) (lastkey arg : GoString) (h : noOptionForm arg) :
    parseArg o lastkey arg = parseValue o lastkey arg := by
  obtain ⟨h1, h2, h3⟩ := h
  simp only [parseArg, h1, h2, h3]
  split_ifs <;> rfl

theorem stringsTrim_noOuterQuote (a : GoString) (h : noOuterQuote a) : stringsTrim a qt = a := by
  have := stringsTrim_spec 0 0 a h
  simpa using this

/-- A string that starts with a dash and a digit matches none of the patterns
of an option. -/
theorem noOptionForm_dash_digit (d : Nat) (rest : GoString) (hd : 48 ≤ d ∧ d ≤ 57) :
    noOptionForm (45 :: d :: rest) := by
  have hd45 : d ≠ 45 := by omega
  refine ⟨?_, ?_, ?_⟩
  · unfold rx_gnuKeywordAssign
    split
    · rename_i heq
      simp only [List.cons.injEq, true_and] at heq
      exact absurd heq.1 hd45
    · rfl
  · unfold rx_gnuKeyword
    split
    · rename_i heq
      simp only [List.cons.injEq, true_and] at heq
      exact absurd heq.1 hd45
    · rfl
  · have hl : isLetterByte d = false := by
      simp only [isLetterByte, Bool.or_eq_false_iff, Bool.and_eq_false_iff,
        decide_eq_false_iff_not]
      omega
    simp [rx_flag, hl]

/-- The decimal string of a negative number: a dash and digits, no quote. -/
theorem decimalInt_neg_shape (n : Int) (hn : n < 0) :
    (∃ d rest, decimalInt n = 45 :: d :: rest ∧ 48 ≤ d ∧ d ≤ 57) ∧ noOuterQuote (decimalInt n) := by
  have hdec : decimalInt n = 45 :: decimal n.natAbs := by simp [decimalInt, hn]
  have hne := decimal_ne_nil n.natAbs
  have hdig := decimal_digits n.natAbs
  rcases hds : decimal n.natAbs with _ | ⟨d, rest⟩
  · exact absurd hds hne
  · rw [hds] at hdig
    refine ⟨⟨d, rest, by rw [hdec, hds], hdig d (List.mem_cons_self _ _)⟩, ?_⟩
    rw [hdec, hds]
    refine ⟨by simp, ?_⟩
    intro hl
    have hmem : (34 : Nat) ∈ d :: rest := by
      have h2 : (d :: rest).getLast? = some 34 := by
        rw [List.getLast?_cons_cons] at hl
        exact hl
      exact List.mem_of_getLast?_eq_some h2
    have := hdig 34 hmem
    omega

/-- The loop of `getArgs` never appends an empty string. -/
theorem getArgsLoop_nonempty (o : option) (l : List vst) :
    ∀ (args : List GoString) (count : Int), (∀ a ∈ args, a ≠ []) →
      ∀ a ∈ (getArgsLoop o l args count).1, a ≠ [] := by
  induction l with
  | nil => intro args count h; exact h
  | cons v rest ih =>
    intro args count h
    rw [getArgsLoop]
    split_ifs with h1 h2 h3
    · exact h
    · exact ih _ _ fun a ha => by
        rcases List.mem_append.1 ha with e | e
        · exact h a e
        · simp only [List.mem_singleton] at e
          rw [e]
          exact h3
    · exact ih _ _ h
    · exact ih _ _ h

/-! ## Lemmas on `getOptions` as a map over the descriptors -/

/-- A setter that fails leaves the target as it was. -/
theorem setScalar_error_unchanged (fl : FloatLib) (v1 : Target) (val : GoString)
    (h : (setScalar fl v1 val).2 ≠ none) : (setScalar fl v1 val).1 = v1 := by
  have key : Atomic v1 (setScalar fl v1 val) (fun _ => True) := by
    rcases v1 with ⟨k, t, x⟩
    cases k
    case Bool => exact (set_bool_atomic ⟨.Bool, t, x⟩ val).mono fun _ _ => trivial
    case String => exact Or.inl ⟨rfl, .string val, trivial, rfl⟩
    case Struct =>
      cases t
      · exact Or.inr ⟨by simp [setScalar], by simp [setScalar]⟩
      · exact (set_time_atomic ⟨.Struct, true, x⟩ val).mono fun _ _ => trivial
    case Int8 | Int16 | Int32 => exact (set_int_atomic _ val).mono fun _ _ => trivial
    case Int64 | Int => exact (set_int64_atomic _ val).mono fun _ _ => trivial
    case Uint8 | Uint16 | Uint32 => exact (set_uint_atomic _ val).mono fun _ _ => trivial
    case Uint64 | Uint => exact (set_uint64_atomic _ val).mono fun _ _ => trivial
    case Float32 | Float64 => exact (set_float_atomic fl _ val).mono fun _ _ => trivial
    all_goals exact Or.inr ⟨by simp [setScalar], by simp [setScalar]⟩
  rcases key with ⟨h1, _⟩ | ⟨_, h2⟩
  · exact absurd h1 h
  · exact h2

theorem bindResult_miss (fl : FloatLib) (o : option) (x : opt) (h : o.hit x = none) :
    bindResult fl o x = (x.fld, none) := by
  simp only [bindResult, getOption_miss fl o x h]

theorem bindResult_hit (fl : FloatLib) (o : option) (x : opt) (ndx : Nat) (key : GoString)
    (ev : vst) (h : o.hit x = some (ndx, key)) (hev : o.vdata.get? ndx = some ev) :
    bindResult fl o x = ((setScalar fl x.fld (optionValue x.fld.kind ev)).1,
      (setScalar fl x.fld (optionValue x.fld.kind ev)).2.map fun e => .keyed e key) := by
  simp only [bindResult, getOption_hit fl o x ndx key ev h hev]

/-- The loop body of `getOptions` on a well-formed event table. -/
theorem getOption_bindResult (fl : FloatLib) (o : option) (x : opt) (h : MapOK o) :
    getOption fl o x = .ok (o.mark x, (bindResult fl o x).1, (bindResult fl o x).2) := by
  obtain ⟨t, r, hg⟩ := getOption_total fl o x h
  simp only [bindResult, hg]

/-- A field whose binding fails is left as it was. -/
theorem bound_of_error (fl : FloatLib) (o : option) (x : opt)
    (h : (bindResult fl o x).2 ≠ none) : bound fl o x = x := by
  have hf : (bindResult fl o x).1 = x.fld := by
    rcases hh : o.hit x with _ | ⟨ndx, key⟩
    · rw [bindResult_miss fl o x hh]
    · rcases hev : o.vdata.get? ndx with _ | ev
      · simp only [bindResult, getOption, hh, hev]
      · rw [bindResult_hit fl o x ndx key ev hh hev] at h ⊢
        apply setScalar_error_unchanged
        intro hc
        rw [hc] at h
        exact h rfl
  simp only [bound, hf]

theorem bound_of_miss (fl : FloatLib) (o : option) (x : opt) (h : o.hit x = none) :
    bound fl o x = x := by
  simp only [bound, bindResult_miss fl o x h]

/-- The binding of a descriptor reads the map and the events only. -/
theorem bindResult_congr (fl : FloatLib) (o p : option) (x : opt) (hm : o.vmap = p.vmap)
    (hv : o.vdata = p.vdata) : bindResult fl o x = bindResult fl p x := by
  have hh : o.hit x = p.hit x := by simp only [option.hit, hm]
  rcases hp : p.hit x with _ | ⟨ndx, key⟩
  · rw [bindResult_miss fl p x hp, bindResult_miss fl o x (hh.trans hp)]
  · rcases hev : p.vdata.get? ndx with _ | ev
    · simp only [bindResult, getOption, hh, hp, hv, hev]
    · rw [bindResult_hit fl p x ndx key ev hp hev,
        bindResult_hit fl o x ndx key ev (hh.trans hp) (by rw [hv]; exact hev)]

theorem get?_modify_ne {α : Type} (f : α → α) (xs : List α) (n i : Nat) (h : n ≠ i) :
    (xs.modify f n).get? i = xs.get? i := by
  rw [List.get?_eq_getElem?, List.get?_eq_getElem?, List.getElem?_modify]
  simp [h]

/-- The events that another descriptor has found are not changed by the loop
body of `getOptions`. -/
theorem bindResult_mark (fl : FloatLib) (o : option) (x y : opt)
    (h : ∀ i k j k1, o.hit x = some (i, k) → o.hit y = some (j, k1) → i ≠ j) :
    bindResult fl (o.mark x) y = bindResult fl o y := by
  rcases hy : o.hit y with _ | ⟨j, k1⟩
  · rw [bindResult_miss fl o y hy, bindResult_miss fl _ y (by rw [mark_hit]; exact hy)]
  · have hget : (o.mark x).vdata.get? j = o.vdata.get? j := by
      simp only [option.mark]
      rcases hx : o.hit x with _ | ⟨i, k⟩
      · rfl
      · exact get?_modify_ne _ _ i j (h i k j k1 hx hy)
    have hhit : (o.mark x).hit y = some (j, k1) := by rw [mark_hit]; exact hy
    rcases hev : o.vdata.get? j with _ | ev
    · simp only [bindResult, getOption, hhit, hy, hget, hev]
    · rw [bindResult_hit fl o y j k1 ev hy hev,
        bindResult_hit fl _ y j k1 ev hhit (by rw [hget]; exact hev)]

theorem NoClash_mark (o : option) (x : opt) (l : List opt) (h : NoClash o l) :
    NoClash (o.mark x) l := by
  simp only [NoClash, mark_hit] at h ⊢
  exact h

/-- `getOptions` when every descriptor is bound without error: every field is
what the loop body makes of it on the event table before the loop. -/
theorem getOptionsLoop_all (fl : FloatLib) (todo : List opt) :
    ∀ (done : List opt) (o : option), MapOK o → NoClash o todo →
      (∀ x ∈ todo, (bindResult fl o x).2 = none) →
      getOptionsLoop fl todo done o =
        .ok ({ todo.foldl option.mark o with optionList := done ++ todo.map (bound fl o) },
          none) := by
  induction todo with
  | nil => intro done o _ _ _; simp [getOptionsLoop]
  | cons x rest ih =>
    intro done o hm hc hall
    have hg := getOption_bindResult fl o x hm
    rw [hall x (List.mem_cons_self _ _)] at hg
    rw [getOptionsLoop_ok fl x rest done o _ _ hg]
    have hc1 := List.pairwise_cons.1 hc
    have hb : ∀ y ∈ rest, bindResult fl (o.mark x) y = bindResult fl o y :=
      fun y hy => bindResult_mark fl o x y (hc1.1 y hy)
    rw [ih _ (o.mark x) (MapOK_mark o x hm) (NoClash_mark o x rest hc1.2)
      fun y hy => by rw [hb y hy]; exact hall y (List.mem_cons_of_mem _ hy)]
    have hmap : rest.map (bound fl (o.mark x)) = rest.map (bound fl o) :=
      List.map_congr_left fun y hy => by simp only [bound, hb y hy]
    rw [hmap]
    simp [bound]

/-- `getOptions` when the binding of a descriptor fails: the descriptors before
it are bound, the others are left, and the error is returned. -/
theorem getOptionsLoop_first_failure (fl : FloatLib) (pre : List opt) :
    ∀ (done post : List opt) (x : opt) (o : option) (e : OptError), MapOK o →
      NoClash o (pre ++ x :: post) → (∀ y ∈ pre, (bindResult fl o y).2 = none) →
      (bindResult fl o x).2 = some e →
      getOptionsLoop fl (pre ++ x :: post) done o =
        .ok ({ (pre ++ [x]).foldl option.mark o with
          optionList := done ++ pre.map (bound fl o) ++ x :: post }, some e) := by
  induction pre with
  | nil =>
    intro done post x o e hm _ _ hx
    have hg := getOption_bindResult fl o x hm
    rw [hx] at hg
    have hb : bound fl o x = x := bound_of_error fl o x (by rw [hx]; exact fun hc => by cases hc)
    rw [List.nil_append, getOptionsLoop_err fl x post done o _ _ e hg]
    simp only [bound] at hb
    simp [hb]
  | cons y pre ih =>
    intro done post x o e hm hc hall hx
    have hg := getOption_bindResult fl o y hm
    rw [hall y (List.mem_cons_self _ _)] at hg
    rw [List.cons_append, getOptionsLoop_ok fl y (pre ++ x :: post) done o _ _ hg]
    have hc1 := List.pairwise_cons.1 hc
    have hb : ∀ z ∈ pre ++ x :: post, bindResult fl (o.mark y) z = bindResult fl o z :=
      fun z hz => bindResult_mark fl o y z (hc1.1 z hz)
    rw [ih _ post x (o.mark y) e (MapOK_mark o y hm) (NoClash_mark o y _ hc1.2)
      (fun z hz => by
        rw [hb z (List.mem_append_left _ hz)]
        exact hall z (List.mem_cons_of_mem _ hz))
      (by rw [hb x (by simp)]; exact hx)]
    have hmap : pre.map (bound fl (o.mark y)) = pre.map (bound fl o) :=
      List.map_congr_left fun z hz => by
        simp only [bound, hb z (List.mem_append_left _ hz)]
    rw [hmap]
    simp [bound]

theorem hasKey_mem_descriptorKeys (l : List opt) (x : opt) (k : GoString) (hx : x ∈ l)
    (h : x.hasKey k) : k ∈ descriptorKeys l := by
  obtain ⟨hk, e | e⟩ := h
  · rw [e]
    exact (mem_descriptorKeys l x hx).1 (e ▸ hk)
  · rw [e]
    exact (mem_descriptorKeys l x hx).2 (e ▸ hk)

/-- Two descriptors at different places of the list of a record have no key in
common. -/
theorem pairwise_keys_of_nodup (l : List opt) (h : (descriptorKeys l).Nodup) :
    l.Pairwise fun x y => ∀ k, x.hasKey k → ¬ y.hasKey k := by
  induction l with
  | nil => exact List.Pairwise.nil
  | cons x rest ih =>
    rw [show x :: rest = [x] ++ rest from rfl, descriptorKeys_append_list] at h
    obtain ⟨_, h2, h3⟩ := List.nodup_append.1 h
    refine List.Pairwise.cons (fun y hy k hxk hyk => ?_) (ih h2)
    exact h3 (hasKey_mem_descriptorKeys [x] x k (List.mem_singleton_self x) hxk)
      (hasKey_mem_descriptorKeys rest y k hy hyk)

/-- The key with which a descriptor finds an event is one of its keys and the
key of the event. -/
theorem hit_hasKey (o : option) (x : opt) (i : Nat) (k : GoString) (hm : MapOK o)
    (h : o.hit x = some (i, k)) :
    x.hasKey k ∧ ∃ ev, o.vdata.get? i = some ev ∧ ev.key = k := by
  obtain ⟨h1, h2⟩ := hit_some o x i k h
  obtain ⟨h3, h4⟩ := hm k i h1
  exact ⟨⟨h3, h2⟩, h4⟩

/-- The descriptors of a record never find the same event twice. -/
theorem NoClash_of_nodup (o : option) (l : List opt) (hm : MapOK o)
    (h : (descriptorKeys l).Nodup) : NoClash o l := by
  refine (pairwise_keys_of_nodup l h).imp ?_
  intro x y hxy i k j k1 hx hy hij
  obtain ⟨a1, ev, a2, a3⟩ := hit_hasKey o x i k hm hx
  obtain ⟨b1, ev1, b2, b3⟩ := hit_hasKey o y j k1 hm hy
  rw [← hij, a2] at b2
  simp only [Option.some.injEq] at b2
  rw [← b2, a3] at b3
  rw [← b3] at b1
  exact hxy k a1 b1

/-- Two descriptors of a record that have a key in common are the same. -/
theorem eq_of_common_key (l : List opt) (x y : opt) (k : GoString)
    (h : (descriptorKeys l).Nodup) (hx : x ∈ l) (hy : y ∈ l) (hxk : x.hasKey k)
    (hyk : y.hasKey k) : x = y := by
  induction l with
  | nil => cases hx
  | cons a rest ih =>
    rw [show a :: rest = [a] ++ rest from rfl, descriptorKeys_append_list] at h
    obtain ⟨_, h2, h3⟩ := List.nodup_append.1 h
    have ha : ∀ z, z.hasKey k → z = a → k ∈ descriptorKeys [a] := fun z hz e =>
      hasKey_mem_descriptorKeys [a] a k (List.mem_singleton_self a) (e ▸ hz)
    rcases List.mem_cons.1 hx with e1 | e1 <;> rcases List.mem_cons.1 hy with e2 | e2
    · rw [e1, e2]
    · exact absurd (hasKey_mem_descriptorKeys rest y k e2 hyk) (fun hm => h3 (ha x hxk e1) hm)
    · exact absurd (hasKey_mem_descriptorKeys rest x k e1 hxk) (fun hm => h3 (ha y hyk e2) hm)
    · exact ih h2 e1 e2

/-- `calcArgLimit` panics for a value that is not a pointer only. -/
theorem calcArgLimit_pointers (v2 : List NewArg) :
    ∀ o : option, (∀ a ∈ v2, a ≠ .nonPointer) → ∃ o1, o.calcArgLimit v2 = .ok o1 := by
  induction v2 with
  | nil => intro o _; exact ⟨o, rfl⟩
  | cons a rest ih =>
    intro o h
    have hrest : ∀ b ∈ rest, b ≠ .nonPointer := fun b hb => h b (List.mem_cons_of_mem _ hb)
    rw [option.calcArgLimit]
    cases a with
    | nonPointer => exact absurd rfl (h _ (List.mem_cons_self _ _))
    | pointer e =>
      cases e with
      | record fields => exact ih _ hrest
      | slice cap elems zero =>
        simp only [calcArgLimitStep]
        split_ifs
        · exact ih _ hrest
        · exact ih _ hrest
      | array elems => exact ih _ hrest
      | other k => exact ih _ hrest

/-- The object on which `getOptions` runs in a call of `New` with a record as
first argument: it is well formed, no two descriptors find the same event, and
the binding of a descriptor is that on the event table of the command line. -/
theorem New_record_bind (fl : FloatLib) (osArgs : List GoString) (rec : List StructField)
    (ds : List opt) (o3 : option) (hd : descriptors rec = .ok ds)
    (hm : o3.vmap = (tokenize osArgs).vmap) (hv : o3.vdata = (tokenize osArgs).vdata) :
    MapOK o3 ∧ NoClash o3 ds ∧
      (∀ x, bindResult fl o3 x = bindResult fl (tokenize osArgs) x) ∧
      (∀ x, bound fl o3 x = bound fl (tokenize osArgs) x) ∧
      ∀ x, o3.hit x = (tokenize osArgs).hit x := by
  have hmap : MapOK o3 := by
    intro k i hki
    rw [hm] at hki
    rw [hv]
    exact (EventsOK_tokenize osArgs).2 k i hki
  refine ⟨hmap, NoClash_of_nodup o3 ds hmap (descriptors_nodup rec ds hd),
    fun x => bindResult_congr fl _ _ x hm hv, fun x => ?_, fun x => by simp only [option.hit, hm]⟩
  simp only [bound, bindResult_congr fl _ _ x hm hv]

/-- The binding of a descriptor without error, in the terms of the loop body
of `getOptions`. -/
theorem bindResult_none (fl : FloatLib) (o : option) (x : opt)
    (h : ∀ ndx key ev, o.hit x = some (ndx, key) → o.vdata.get? ndx = some ev →
      (setScalar fl x.fld (optionValue x.fld.kind ev)).2 = none) :
    (bindResult fl o x).2 = none := by
  rcases hh : o.hit x with _ | ⟨ndx, key⟩
  · rw [bindResult_miss fl o x hh]
  · rcases hev : o.vdata.get? ndx with _ | ev
    · simp only [bindResult, getOption, hh, hev]
    · rw [bindResult_hit fl o x ndx key ev hh hev, h ndx key ev hh hev]
      rfl

/-- The binding of a descriptor with an error, in the terms of the loop body
of `getOptions`. -/
theorem bindResult_some (fl : FloatLib) (o : option) (x : opt) (ndx : Nat) (key : GoString)
    (ev : vst) (t : Target) (err : Err) (hh : o.hit x = some (ndx, key))
    (hev : o.vdata.get? ndx = some ev)
    (hs : setScalar fl x.fld (optionValue x.fld.kind ev) = (t, some err)) :
    (bindResult fl o x).2 = some (.keyed err key) := by
  rw [bindResult_hit fl o x ndx key ev hh hev, hs]
  rfl

/-- The field of a descriptor bound without error. -/
theorem bound_spec (fl : FloatLib) (o : option) (x : opt) (h : (bindResult fl o x).2 = none) :
    bound fl o x = { x with fld := (bound fl o x).fld } ∧
      (o.hit x = none → (bound fl o x).fld = x.fld) ∧
      ∀ ndx key ev, o.hit x = some (ndx, key) → o.vdata.get? ndx = some ev →
        setScalar fl x.fld (optionValue x.fld.kind ev) = ((bound fl o x).fld, none) := by
  refine ⟨rfl, fun hh => by rw [bound_of_miss fl o x hh], fun ndx key ev hh hev => ?_⟩
  rw [bindResult_hit fl o x ndx key ev hh hev] at h
  simp only [bound, bindResult_hit fl o x ndx key ev hh hev]
  rcases hs : setScalar fl x.fld (optionValue x.fld.kind ev) with ⟨t, r⟩
  rw [hs] at h
  cases r with
  | none => rfl
  | some err => cases h

/-- The call of `New` with a record whose descriptor `x` is the first that is
bound with an error: the error is returned, the descriptors before `x` are
bound, the others are left, and the container is not reached. -/
theorem New_first_failure (fl : FloatLib) (osArgs : List GoString) (rec : List StructField)
    (more : List NewArg) (ds pre post : List opt) (x : opt) (e : OptError)
    (hargs : osArgs ≠ []) (hmore : more.length ≤ 1) (hptr : ∀ a ∈ more, a ≠ .nonPointer)
    (hd : descriptors rec = .ok ds) (hsplit : ds = pre ++ x :: post)
    (hpre : ∀ y ∈ pre, (bindResult fl (tokenize osArgs) y).2 = none)
    (hx : (bindResult fl (tokenize osArgs) x).2 = some e) :
    ∃ o, New fl osArgs (.pointer (.record rec) :: more) = .ok (o, some e) ∧
      o.optionList = pre.map (bound fl (tokenize osArgs)) ++ x :: post ∧
      o.argSliceRef = .invalid ∧ o.hasArgSlice = false := by
  obtain ⟨o1, h1⟩ := calcArgLimit_pointers (.pointer (.record rec) :: more) option.init
    (fun a ha => by
      rcases List.mem_cons.1 ha with e1 | e1
      · rw [e1]
        exact fun hc => by cases hc
      · exact hptr a e1)
  obtain ⟨o3, g1, g2, g3, _, _, g6, g7, _, herr, _⟩ :=
    New_record fl osArgs rec more ds o1 hmore hargs hd h1
  obtain ⟨hm, hc, hb, hbd, _⟩ := New_record_bind fl osArgs rec ds o3 hd g2 g3
  have hl := getOptionsLoop_first_failure fl pre [] post x o3 e hm (hsplit ▸ hc)
    (fun y hy => by rw [hb y]; exact hpre y hy) (by rw [hb x]; exact hx)
  rw [← hsplit] at hl
  obtain ⟨_, _, f3, f4, _, _, _⟩ := foldl_mark_frame (pre ++ [x]) o3
  refine ⟨_, herr _ e hl, ?_, ?_, ?_⟩
  · simp only [List.nil_append]
    rw [List.map_congr_left fun y _ => hbd y]
  · show ((pre ++ [x]).foldl option.mark o3).argSliceRef = _
    rw [f4, g7]
  · show ((pre ++ [x]).foldl option.mark o3).hasArgSlice = _
    rw [f3, g6]

/-! ## Lemmas on the writes to the argument container -/

/-- A list whose elements do not all have a property splits at the first
element without it. -/
theorem first_failure_split {α : Type} (p : α → Prop) [DecidablePred p] (l : List α) :
    (∀ a ∈ l, p a) ∨ ∃ as a bs, l = as ++ a :: bs ∧ (∀ b ∈ as, p b) ∧ ¬ p a := by
  induction l with
  | nil => exact Or.inl fun a ha => by cases ha
  | cons x rest ih =>
    by_cases hx : p x
    · rcases ih with h | ⟨as, a, bs, h1, h2, h3⟩
      · left
        intro a ha
        rcases List.mem_cons.1 ha with e | e
        · rw [e]
          exact hx
        · exact h a e
      · right
        refine ⟨x :: as, a, bs, by rw [h1]; rfl, fun b hb => ?_, h3⟩
        rcases List.mem_cons.1 hb with e | e
        · rw [e]
          exact hx
        · exact h2 b e
    · exact Or.inr ⟨[], x, rest, rfl, (fun b hb => by cases hb), hx⟩

/-- The loop of `setArray` on a slice or an array (`mk` makes it of its
elements) when every argument is decoded without error: each element holds
what the decoder stores in it for its argument; the elements behind are
kept. -/
theorem setArrayLoop_all (fl : FloatLib) (mk : List Target → SliceRef)
    (hI : ∀ l i, (mk l).Index i = l.get? i)
    (hS : ∀ l i t, (mk l).setIndex i t = mk (l.set i t)) (ts : List Target)
    (args : List GoString) (h : List.Forall₂ (fun t a => (setScalar fl t a).2 = none) ts args) :
    ∀ (done rest : List Target),
      setArrayLoop fl args done.length (mk (done ++ ts ++ rest)) =
        .ok (mk (done ++ List.zipWith (fun t a => (setScalar fl t a).1) ts args ++ rest),
          none) := by
  induction h with
  | nil => intro done rest; simp [setArrayLoop]
  | @cons t a ts args hta _ ih =>
    intro done rest
    rw [setArrayLoop, hI]
    have hget : (done ++ t :: ts ++ rest).get? done.length = some t := by
      rw [List.append_assoc, List.cons_append]
      exact get?_append_cons_length done (ts ++ rest) t
    rw [hget]
    rcases hs : setScalar fl t a with ⟨t1, r⟩
    rw [hs] at hta
    simp only at hta
    subst hta
    simp only [hs]
    rw [hS]
    have hset : (done ++ t :: ts ++ rest).set done.length t1 = (done ++ [t1]) ++ ts ++ rest := by
      rw [List.append_assoc, List.cons_append, set_append_length]
      simp
    rw [hset]
    have := ih (done ++ [t1]) rest
    simp only [List.length_append, List.length_singleton] at this
    rw [this]
    simp [hs]

/-- The loop of `setArray` on a slice or an array when the argument `a` is the
first that the decoder rejects: the error of the decoder is returned as it
is. -/
theorem setArrayLoop_first_failure (fl : FloatLib) (mk : List Target → SliceRef)
    (hI : ∀ l i, (mk l).Index i = l.get? i)
    (hS : ∀ l i t, (mk l).setIndex i t = mk (l.set i t)) (ts : List Target)
    (as : List GoString) (h : List.Forall₂ (fun t a => (setScalar fl t a).2 = none) ts as)
    (a : GoString) (bs : List GoString) (t0 t1 : Target) (err : Err)
    (hs : setScalar fl t0 a = (t1, some err)) :
    ∀ (done rest : List Target),
      setArrayLoop fl (as ++ a :: bs) done.length (mk (done ++ ts ++ t0 :: rest)) =
        .ok (mk (done ++ List.zipWith (fun t a => (setScalar fl t a).1) ts as ++ t1 :: rest),
          some (.decode err)) := by
  induction h with
  | nil =>
    intro done rest
    rw [List.nil_append, setArrayLoop, hI]
    simp only [List.append_nil, get?_append_cons_length, hs, hS, set_append_length,
      List.zipWith_nil_left]
  | @cons t b ts as htb _ ih =>
    intro done rest
    rw [List.cons_append, setArrayLoop, hI]
    have hget : (done ++ t :: ts ++ t0 :: rest).get? done.length = some t := by
      rw [List.append_assoc, List.cons_append]
      exact get?_append_cons_length done (ts ++ t0 :: rest) t
    rw [hget]
    rcases hsb : setScalar fl t b with ⟨u, r⟩
    rw [hsb] at htb
    simp only at htb
    subst htb
    simp only [hsb]
    rw [hS]
    have hset : (done ++ t :: ts ++ t0 :: rest).set done.length u =
        (done ++ [u]) ++ ts ++ t0 :: rest := by
      rw [List.append_assoc, List.cons_append, set_append_length]
      simp
    rw [hset]
    have := ih (done ++ [u]) rest
    simp only [List.length_append, List.length_singleton] at this
    rw [this]
    simp [hsb]

theorem forall₂_replicate_left {α β : Type} (R : α → β → Prop) (z : α) (l : List β)
    (h : ∀ b ∈ l, R z b) : List.Forall₂ R (List.replicate l.length z) l := by
  induction l with
  | nil => exact List.Forall₂.nil
  | cons b rest ih =>
    exact List.Forall₂.cons (h b (List.mem_cons_self _ _))
      (ih fun c hc => h c (List.mem_cons_of_mem _ hc))

theorem zipWith_replicate_left {α β γ : Type} (f : α → β → γ) (z : α) (l : List β) :
    List.zipWith f (List.replicate l.length z) l = l.map (f z) := by
  induction l with
  | nil => rfl
  | cons b rest ih => simp [List.replicate_succ, ih]

/-- The loop of `setArray` on the new slice of `setSlice`, every argument
being decoded without error: the slice holds the decoded arguments. -/
theorem setArrayLoop_fresh_all (fl : FloatLib) (zero : Target) (args : List GoString)
    (h : ∀ a ∈ args, (setScalar fl zero a).2 = none) :
    setArrayLoop fl args 0 (.slice args.length (List.replicate args.length zero) zero) =
      .ok (.slice args.length (args.map fun a => (setScalar fl zero a).1) zero, none) := by
  have := setArrayLoop_all fl (fun l => .slice args.length l zero) (fun _ _ => rfl)
    (fun _ _ _ => rfl) (List.replicate args.length zero) args
    (forall₂_replicate_left _ zero args h) [] []
  simpa [zipWith_replicate_left] using this

/-- The loop of `setArray` on the new slice of `setSlice`, the argument `a`
being the first that the decoder rejects. -/
theorem setArrayLoop_fresh_first_failure (fl : FloatLib) (zero : Target)
    (as : List GoString) (a : GoString) (bs : List GoString) (t1 : Target) (err : Err)
    (h : ∀ b ∈ as, (setScalar fl zero b).2 = none) (hs : setScalar fl zero a = (t1, some err)) :
    setArrayLoop fl (as ++ a :: bs) 0
        (.slice (as ++ a :: bs).length (List.replicate (as ++ a :: bs).length zero) zero) =
      .ok (.slice (as ++ a :: bs).length
        ((as.map fun b => (setScalar fl zero b).1) ++ t1 :: List.replicate bs.length zero) zero,
        some (.decode err)) := by
  have := setArrayLoop_first_failure fl (fun l => .slice (as ++ a :: bs).length l zero)
    (fun _ _ => rfl) (fun _ _ _ => rfl) (List.replicate as.length zero) as
    (forall₂_replicate_left _ zero as h) a bs zero t1 err hs [] (List.replicate bs.length zero)
  have hrep : List.replicate (as ++ a :: bs).length zero =
      List.replicate as.length zero ++ zero :: List.replicate bs.length zero := by
    rw [List.length_append, List.length_cons, List.replicate_add, List.replicate_succ]
  rw [hrep]
  simpa [zipWith_replicate_left] using this

/-- `getArgs` reads the events and the two limits only. -/
theorem getArgs_congr (o p : option) (hv : o.vdata = p.vdata) (hl : o.argLimit = p.argLimit)
    (hc : o.argSliceCap = p.argSliceCap) : o.getArgs = p.getArgs := by
  have key : ∀ (l : List vst) (args : List GoString) (count : Int),
      getArgsLoop o l args count = getArgsLoop p l args count := by
    intro l
    induction l with
    | nil => intro args count; rfl
    | cons v rest ih =>
      intro args count
      simp only [getArgsLoop, hl, hc, ih]
  rw [option.getArgs, option.getArgs, hv, key]

/-- When `getArgs` returns no error it returns the values, if not empty, of
the events that it reads. -/
theorem getArgs_none (o : option) (args : List GoString) (h0 : 0 ≤ o.argLimit)
    (h : o.getArgs = (args, none)) :
    ((argEvents o.vdata).length : Int) ≤ o.argLimit ∧
      args = ((argEvents o.vdata).map vst.val).filter fun a => decide (a ≠ []) := by
  by_cases hw : ((argEvents o.vdata).length : Int) ≤ o.argLimit
  · rw [getArgs_within o hw] at h
    simp only [Prod.mk.injEq, and_true] at h
    exact ⟨hw, h.symm⟩
  · obtain ⟨a, ha⟩ := getArgsLoop_beyond o o.vdata [] 0 h0 (by omega)
    rw [option.getArgs] at h
    rw [h] at ha
    cases ha

/-- The events after `getOptions` depend on the map and the events before. -/
theorem foldl_mark_congr (l : List opt) :
    ∀ o p : option, o.vmap = p.vmap → o.vdata = p.vdata →
      (l.foldl option.mark o).vdata = (l.foldl option.mark p).vdata := by
  induction l with
  | nil => intro o p _ hv; exact hv
  | cons x l ih =>
    intro o p hm hv
    rw [List.foldl_cons, List.foldl_cons]
    apply ih
    · rw [mark_vmap, mark_vmap, hm]
    · have hh : o.hit x = p.hit x := by simp only [option.hit, hm]
      simp only [option.mark, hh, hv]
      split <;> simp [hv]

theorem calcArgLimit_nonneg (v2 : List NewArg) :
    ∀ o o1 : option, 0 ≤ o.argLimit → o.calcArgLimit v2 = .ok o1 → 0 ≤ o1.argLimit := by
  induction v2 with
  | nil =>
    intro o o1 h0 h
    simp only [option.calcArgLimit, Except.ok.injEq] at h
    rw [← h]
    exact h0
  | cons a rest ih =>
    intro o o1 h0 h
    rw [option.calcArgLimit] at h
    rcases hs : calcArgLimitStep o a with p | o2
    · rw [hs] at h
      cases h
    · rw [hs] at h
      refine ih o2 o1 ?_ h
      cases a with
      | nonPointer => cases hs
      | pointer e =>
        cases e with
        | record fields =>
          simp only [calcArgLimitStep, Except.ok.injEq] at hs
          rw [← hs]
          simp only
          omega
        | slice cap elems zero =>
          simp only [calcArgLimitStep] at hs
          split_ifs at hs
          · simp only [Except.ok.injEq] at hs
            rw [← hs]
            simp [slice_limit]
          · simp only [Except.ok.injEq] at hs
            rw [← hs]
            simp only
            omega
        | array elems =>
          simp only [calcArgLimitStep, Except.ok.injEq] at hs
          rw [← hs]
          simp only
          omega
        | other k =>
          simp only [calcArgLimitStep, Except.ok.injEq] at hs
          rw [← hs]
          exact h0

/-- The step of `varAssign` for a container, alone or behind a record. -/
theorem varAssignLoop_container (fl : FloatLib) (o o5 : option) (c : NewArg) (n i : Nat)
    (r : Option OptError) (hc : c.container ≠ .invalid) (hi : ¬ (i = 0 ∧ n = 2))
    (h : option.assignArgs fl { o with hasArgSlice := true, argSliceRef := c.container }
      c.container.isSlice = .ok (o5, r)) :
    varAssignLoop fl n [c] i o = .ok (o5, r) := by
  cases c with
  | nonPointer => exact absurd rfl hc
  | pointer e =>
    cases e with
    | record fields => exact absurd rfl hc
    | other k => exact absurd rfl hc
    | slice cap elems zero =>
      simp only [NewArg.container, SliceRef.isSlice] at h
      rw [varAssignLoop]
      simp only [hi, if_false, h]
      cases r <;> simp [varAssignLoop]
    | array elems =>
      simp only [NewArg.container, SliceRef.isSlice] at h
      rw [varAssignLoop]
      simp only [hi, if_false, h]
      cases r <;> simp [varAssignLoop]

theorem varAssignLoop_container_panic (fl : FloatLib) (o : option) (c : NewArg) (n i : Nat)
    (p : Panic) (hc : c.container ≠ .invalid) (hi : ¬ (i = 0 ∧ n = 2))
    (h : option.assignArgs fl { o with hasArgSlice := true, argSliceRef := c.container }
      c.container.isSlice = .error p) :
    varAssignLoop fl n [c] i o = .error p := by
  cases c with
  | nonPointer => exact absurd rfl hc
  | pointer e =>
    cases e with
    | record fields => exact absurd rfl hc
    | other k => exact absurd rfl hc
    | slice cap elems zero =>
      simp only [NewArg.container, SliceRef.isSlice] at h
      rw [varAssignLoop]
      simp only [hi, if_false, h]
    | array elems =>
      simp only [NewArg.container, SliceRef.isSlice] at h
      rw [varAssignLoop]
      simp only [hi, if_false, h]

theorem container_pointer (c : NewArg) (hc : c.container ≠ .invalid) : c ≠ .nonPointer := by
  intro h
  rw [h] at hc
  exact hc rfl

/-- The call of `New` with a container, alone or behind a record whose
descriptors are all bound without error: the object on which `getArgs` runs
holds the event table after `getOptions` and the limits of `calcArgLimit`, and
the result of `New` is that of the step for the container. -/
theorem New_container (fl : FloatLib) (osArgs : List GoString) (v2 : List NewArg)
    (ds : List opt) (c : NewArg) (hargs : osArgs ≠ []) (hc : c.container ≠ .invalid)
    (hshape : (v2 = [c] ∧ ds = []) ∨
      ∃ rec, v2 = [.pointer (.record rec), c] ∧ descriptors rec = .ok ds)
    (hbind : ∀ x ∈ ds, (bindResult fl (tokenize osArgs) x).2 = none) :
    ∃ o1 o4 : option, option.init.calcArgLimit v2 = .ok o1 ∧ 0 ≤ o1.argLimit ∧
      o4.vdata = (ds.foldl option.mark (tokenize osArgs)).vdata ∧
      o4.vmap = (tokenize osArgs).vmap ∧ o4.argLimit = o1.argLimit ∧
      o4.argSliceCap = o1.argSliceCap ∧ o4.argSliceRef = c.container ∧
      o4.optionList = ds.map (bound fl (tokenize osArgs)) ∧
      (∀ o5 r, option.assignArgs fl o4 c.container.isSlice = .ok (o5, r) →
        New fl osArgs v2 = .ok (o5, r.or o5.checkUndefinedOptions)) ∧
      (∀ p, option.assignArgs fl o4 c.container.isSlice = .error p →
        New fl osArgs v2 = .error p) := by
  have hptr : ∀ a ∈ v2, a ≠ .nonPointer := by
    intro a ha
    rcases hshape with ⟨e, _⟩ | ⟨rec, e, _⟩
    · rw [e, List.mem_singleton] at ha
      rw [ha]
      exact container_pointer c hc
    · rw [e] at ha
      simp only [List.mem_cons, List.mem_singleton, List.not_mem_nil, or_false] at ha
      rcases ha with e1 | e1
      · rw [e1]
        exact fun h => by cases h
      · rw [e1]
        exact container_pointer c hc
  obtain ⟨o1, h1⟩ := calcArgLimit_pointers v2 option.init hptr
  have h0 : 0 ≤ o1.argLimit := calcArgLimit_nonneg v2 option.init o1 (le_refl _) h1
  obtain ⟨c1, c2, c3, c4, c5, c6, c7⟩ := calcArgLimit_frame _ _ _ h1
  rcases hshape with ⟨e, eds⟩ | ⟨rec, e, hd⟩
  · subst e
    subst eds
    obtain ⟨hok, herr⟩ := New_varAssign fl osArgs [c] o1 (Or.inl rfl) hargs h1 c2 c1
    refine ⟨o1, { o1.withEvents (tokenize osArgs) with
        hasArgSlice := true, argSliceRef := c.container },
      h1, h0, rfl, rfl, rfl, rfl, rfl, ?_, fun o5 r h => ?_, fun p h => ?_⟩
    · show o1.optionList = _
      rw [c3]
      rfl
    · apply hok
      rw [option.varAssign]
      exact varAssignLoop_container fl _ o5 c _ 0 r hc (by simp) h
    · apply herr
      rw [option.varAssign]
      exact varAssignLoop_container_panic fl _ c _ 0 p hc (by simp) h
  · subst e
    obtain ⟨o3, g1, g2, g3, g4, g5, g6, g7, _, _, hok⟩ :=
      New_record fl osArgs rec [c] ds o1 (by simp) hargs hd h1
    obtain ⟨hm, hcl, hb, hbd, _⟩ := New_record_bind fl osArgs rec ds o3 hd g2 g3
    have hl := getOptionsLoop_all fl ds [] o3 hm hcl fun x hx => by rw [hb x]; exact hbind x hx
    obtain ⟨hok1, herr1⟩ := hok _ hl
    obtain ⟨f1, f2, f3, f4, f5, f6, f7⟩ := foldl_mark_frame ds o3
    refine ⟨o1, { ({ ds.foldl option.mark o3 with
        optionList := [] ++ ds.map (bound fl o3) } : option) with
        hasArgSlice := true, argSliceRef := c.container },
      h1, h0, ?_, ?_, ?_, ?_, rfl, ?_, fun o5 r h => ?_, fun p h => ?_⟩
    · show (ds.foldl option.mark o3).vdata = _
      exact foldl_mark_congr ds o3 _ g2 g3
    · show (ds.foldl option.mark o3).vmap = _
      rw [foldl_mark_vmap, g2]
    · show (ds.foldl option.mark o3).argLimit = _
      rw [f6, g4]
    · show (ds.foldl option.mark o3).argSliceCap = _
      rw [f5, g5]
    · show [] ++ ds.map (bound fl o3) = _
      rw [List.nil_append]
      exact List.map_congr_left fun y _ => hbd y
    · apply hok1
      exact varAssignLoop_container fl _ o5 c _ 1 r hc (by simp) h
    · apply herr1
      exact varAssignLoop_container_panic fl _ c _ 1 p hc (by simp) h

/-- The step of `varAssign` for a container when the argument `a` is the first
that the decoder rejects: the error of the decoder is returned as it is. -/
theorem assignArgs_first_failure (fl : FloatLib) (o : option) (cref : SliceRef)
    (as : List GoString) (a : GoString) (bs : List GoString) (ts rest : List Target)
    (t0 t1 : Target) (err : Err) (hr : o.argSliceRef = cref)
    (hg : o.getArgs = (as ++ a :: bs, none))
    (hw : writtenElems cref (as ++ a :: bs).length = ts ++ t0 :: rest)
    (hok : List.Forall₂ (fun t b => (setScalar fl t b).2 = none) ts as)
    (hs : setScalar fl t0 a = (t1, some err)) :
    option.assignArgs fl o cref.isSlice =
      .ok ({ o with argSliceRef := (writtenRef cref (as ++ a :: bs).length
        (List.zipWith (fun t b => (setScalar fl t b).1) ts as ++ t1 :: rest)) },
        some (.decode err)) := by
  cases cref with
  | invalid =>
    simp only [writtenElems] at hw
    cases ts <;> cases hw
  | slice cap elems zero =>
    simp only [writtenElems] at hw
    have := setArrayLoop_first_failure fl (fun l => .slice (as ++ a :: bs).length l zero)
      (fun _ _ => rfl) (fun _ _ _ => rfl) ts as hok a bs t0 t1 err hs [] rest
    simp only [List.nil_append, List.length_nil] at this
    simp only [option.assignArgs, hg, SliceRef.isSlice, if_true, option.setSlice, hr,
      option.setArray, hw, this, writtenRef]
  | array elems =>
    simp only [writtenElems] at hw
    have := setArrayLoop_first_failure fl (fun l => .array l)
      (fun _ _ => rfl) (fun _ _ _ => rfl) ts as hok a bs t0 t1 err hs [] rest
    simp only [List.nil_append, List.length_nil] at this
    simp only [option.assignArgs, hg, SliceRef.isSlice, Bool.false_eq_true, if_false,
      option.setArray, hr, hw, this, writtenRef]

/-- The step of `varAssign` for a slice when every argument is decoded without
error: the slice holds the decoded arguments. -/
theorem assignArgs_slice_all (fl : FloatLib) (o : option) (cap : Nat) (elems : List Target)
    (zero : Target) (args : List GoString) (hr : o.argSliceRef = .slice cap elems zero)
    (hg : o.getArgs = (args, none)) (h : ∀ a ∈ args, (setScalar fl zero a).2 = none) :
    option.assignArgs fl o true =
      .ok ({ o with argSliceRef :=
        (.slice args.length (args.map fun a => (setScalar fl zero a).1) zero) }, none) :=
  assignArgs_slice fl o cap elems _ zero args none hr hg (setArrayLoop_fresh_all fl zero args h)

theorem New_ok_args (fl : FloatLib) (osArgs : List GoString) (v2 : List NewArg)
    (r : option × Option OptError) (h : New fl osArgs v2 = .ok r) : osArgs ≠ [] := by
  intro he
  subst he
  simp only [New, List.length_nil, if_true] at h
  split_ifs at h

/-- In a call of `New` that returns no error every descriptor of the record is
bound without error. -/
theorem New_ok_bind (fl : FloatLib) (osArgs : List GoString) (rec : List StructField)
    (more : List NewArg) (ds : List opt) (o : option) (hmore : more.length ≤ 1)
    (hptr : ∀ a ∈ more, a ≠ .nonPointer) (hd : descriptors rec = .ok ds)
    (hnew : New fl osArgs (.pointer (.record rec) :: more) = .ok (o, none)) :
    ∀ x ∈ ds, (bindResult fl (tokenize osArgs) x).2 = none := by
  have hargs := New_ok_args fl osArgs _ _ hnew
  rcases first_failure_split (fun x => (bindResult fl (tokenize osArgs) x).2 = none) ds with
    h | ⟨pre, x, post, h1, h2, h3⟩
  · exact h
  · exfalso
    rcases hb : (bindResult fl (tokenize osArgs) x).2 with _ | e1
    · exact h3 hb
    · obtain ⟨o1, hn1, _⟩ := New_first_failure fl osArgs rec more ds pre post x e1 hargs hmore
        hptr hd h1 h2 hb
      rw [hn1] at hnew
      cases hnew

/-- The key with which a descriptor finds its event: the short key when it is
in the map, the long key otherwise. -/
theorem hit_key (o : option) (x : opt) (ndx : Nat) (key : GoString)
    (h : o.hit x = some (ndx, key)) :
    key = if (o.vmap.get x.u_key).isSome then x.u_key else x.gnu_key := by
  simp only [option.hit] at h
  rcases h1 : o.vmap.get x.u_key with _ | n
  · rw [h1] at h
    rcases h2 : o.vmap.get x.gnu_key with _ | n
    · rw [h2] at h
      cases h
    · rw [h2] at h
      simp only [Option.some.injEq, Prod.mk.injEq] at h
      simp [h.2]
  · rw [h1] at h
    simp only [Option.some.injEq, Prod.mk.injEq] at h
    simp [h.2]

/-! ## Lemmas on the panics of `New` -/

/-- `New` panics when `varAssign` panics on every object that holds no
descriptor and no key of a field. -/
theorem New_panics_of_varAssign_keys (fl : FloatLib) (osArgs : List GoString)
    (v2 : List NewArg)
    (h : ∀ o : option, o.keys = [] → o.optionList = [] → o.opt_count = 0 →
      ∃ p, o.varAssign fl v2 = .error p) :
    ∃ p, New fl osArgs v2 = .error p := by
  by_cases hl : v2.length = 0 ∨ v2.length > 2
  · exact ⟨.msg (str "expected one or two arguments"), by simp only [New, hl, if_true]⟩
  by_cases ha : osArgs.length = 0
  · exact ⟨.runtime, by simp only [New, hl, ha, if_true, if_false]⟩
  rcases h1 : option.init.calcArgLimit v2 with p | o1
  · exact ⟨p, by simp only [New, hl, ha, if_false, h1]⟩
  obtain ⟨c1, c2, c3, c4, c5, c6, c7⟩ := calcArgLimit_frame _ _ _ h1
  have h2 := parse_eq_tokenize o1 osArgs c2 c1
  obtain ⟨p, hp⟩ := h (o1.withEvents (tokenize osArgs)) c4 c3 c7
  exact ⟨p, by simp only [New, hl, ha, if_false, h1, h2, hp]⟩

/-- `New` panics when `varAssign` panics on every object. -/
theorem New_panics_of_varAssign (fl : FloatLib) (osArgs : List GoString) (v2 : List NewArg)
    (h : ∀ o : option, ∃ p, o.varAssign fl v2 = .error p) :
    ∃ p, New fl osArgs v2 = .error p := by
  by_cases hl : v2.length = 0 ∨ v2.length > 2
  · exact ⟨.msg (str "expected one or two arguments"), by simp only [New, hl, if_true]⟩
  by_cases ha : osArgs.length = 0
  · exact ⟨.runtime, by simp only [New, hl, ha, if_true, if_false]⟩
  rcases h1 : option.init.calcArgLimit v2 with p | o1
  · exact ⟨p, by simp only [New, hl, ha, if_false, h1]⟩
  rcases h2 : o1.parse osArgs with p | o2
  · exact ⟨p, by simp only [New, hl, ha, if_false, h1, h2]⟩
  obtain ⟨p, hp⟩ := h o2
  exact ⟨p, by simp only [New, hl, ha, if_false, h1, h2, hp]⟩

theorem calcArgLimit_nonPointer (v2 : List NewArg) (h : .nonPointer ∈ v2) :
    ∀ o : option, ∃ p, o.calcArgLimit v2 = .error p := by
  induction v2 with
  | nil => cases h
  | cons a rest ih =>
    intro o
    rcases hs : calcArgLimitStep o a with p | o1
    · exact ⟨p, by rw [option.calcArgLimit, hs]⟩
    · rcases List.mem_cons.1 h with e | e
      · rw [← e] at hs
        cases hs
      · obtain ⟨p, hp⟩ := ih e o1
        exact ⟨p, by rw [option.calcArgLimit, hs]; exact hp⟩

theorem New_nonPointer (fl : FloatLib) (osArgs : List GoString) (v2 : List NewArg)
    (h : .nonPointer ∈ v2) : ∃ p, New fl osArgs v2 = .error p := by
  by_cases hl : v2.length = 0 ∨ v2.length > 2
  · exact ⟨.msg (str "expected one or two arguments"), by simp only [New, hl, if_true]⟩
  by_cases ha : osArgs.length = 0
  · exact ⟨.runtime, by simp only [New, hl, ha, if_true, if_false]⟩
  obtain ⟨p, hp⟩ := calcArgLimit_nonPointer v2 h option.init
  exact ⟨p, by simp only [New, hl, ha, if_false, hp]⟩

/-- The step of `varAssign` for a second argument that is a record or a pointer
to a value that is no container. -/
theorem varAssignLoop_second (fl : FloatLib) (o : option) (b : NewArg)
    (hb : (∃ rec, b = .pointer (.record rec)) ∨ ∃ k, b = .pointer (.other k)) :
    ∃ p, varAssignLoop fl 2 [b] 1 o = .error p := by
  rcases hb with ⟨rec, e⟩ | ⟨k, e⟩
  · subst e
    exact ⟨.msg (str "second argument should not be a struct pointer"), by
      rw [varAssignLoop]; simp⟩
  · subst e
    exact ⟨_, by rw [varAssignLoop]⟩

/-- A record for which `genoptionList` panics makes `New` panic. -/
theorem New_record_panic (fl : FloatLib) (osArgs : List GoString) (rec : List StructField)
    (more : List NewArg) (p : Panic) (hd : descriptors rec = .error p) :
    ∃ q, New fl osArgs (.pointer (.record rec) :: more) = .error q := by
  refine New_panics_of_varAssign_keys fl osArgs _ fun o hk hl hc => ?_
  have ho : o = option.init.withFrame o := by
    cases o
    simp only [option.withFrame, option.init] at hk hl hc ⊢
    simp [hk, hl, hc]
  have hg : o.genoptionList rec = .error p := by
    simp only [descriptors] at hd
    rcases hg0 : option.init.genoptionList rec with q | od
    · rw [hg0] at hd
      simp only [Except.error.injEq] at hd
      subst hd
      simp only [option.genoptionList] at hg0 ⊢
      rw [ho, genoptionListLoop_withFrame, hg0]
      rfl
    · rw [hg0] at hd
      cases hd
  exact ⟨p, by simp only [option.varAssign, varAssignLoop, Nat.zero_ne_one, if_false, hg]⟩

/-! ## Lemmas on events that repeat a key -/

/-- An event that carries a key of the descriptor `x` and is not the event
that `x` finds is claimed by no descriptor of the record. -/
theorem not_claimed_of_other_event (ds : List opt) (tok : option) (x : opt) (i j : Nat)
    (k : GoString) (ev : vst) (hm : MapOK tok) (hn : (descriptorKeys ds).Nodup) (hx : x ∈ ds)
    (hh : tok.hit x = some (i, k)) (hev : tok.vdata.get? j = some ev) (hk : x.hasKey ev.key)
    (hij : j ≠ i) : ¬ claimedBy ds tok j := by
  rintro ⟨y, hy, ky, hyj⟩
  obtain ⟨hyk, ev1, hev1, hkey⟩ := hit_hasKey tok y j ky hm hyj
  rw [hev] at hev1
  simp only [Option.some.injEq] at hev1
  subst hev1
  rw [← hkey] at hyk
  have hxy := eq_of_common_key ds x y ev.key hn hx hy hk hyk
  subst hxy
  rw [hh] at hyj
  simp only [Option.some.injEq, Prod.mk.injEq] at hyj
  exact hij hyj.1.symm

/-- The key of an event with a key that no descriptor claims is among the
unclaimed keys. -/
theorem mem_unclaimedKeys (ds : List opt) (tok : option) (j : Nat) (ev : vst)
    (hev : tok.vdata.get? j = some ev) (hk : ev.key ≠ []) (hc : ¬ claimedBy ds tok j) :
    ev.key ∈ unclaimedKeys ds tok := by
  simp only [unclaimedKeys, List.mem_map, List.mem_filter, Bool.and_eq_true, decide_eq_true_eq,
    Bool.not_eq_true', ← Bool.not_eq_true, isClaimed_iff]
  exact ⟨(j, ev), ⟨by
    rw [List.mk_mem_enum_iff_getElem?, ← List.get?_eq_getElem?]
    exact hev, hk, hc⟩, rfl⟩

/-! ## Lemmas on a command line of two short options and plain words -/

/-- The decoder on the base-10 string of an integer in the range of a signed
kind. -/
theorem setScalar_signed_decimal (fl : FloatLib) (v : Target) (n : Int)
    (hk : isSignedKind v.kind = true)
    (hlo : -(2 : Int) ^ (v.kind.bitSize - 1) ≤ n)
    (hhi : n ≤ (2 : Int) ^ (v.kind.bitSize - 1) - 1) :
    setScalar fl v (decimalInt n) = ({ v with val := .int n }, none) := by
  have hlit : isIntLiteral (iFix (decimalInt n)) = true := by
    rw [iFix_literal _ (isIntLiteral_decimalInt n)]
    exact isIntLiteral_decimalInt n
  have hnum : numeric (iFix (decimalInt n)) = n := by
    rw [iFix_literal _ (isIntLiteral_decimalInt n)]
    exact numeric_decimalInt n
  have hk2 := hk
  simp only [isSignedKind, Bool.decide_or, Bool.or_eq_true, decide_eq_true_eq] at hk2
  have h64 := signed_range_int64 v.kind n hk hlo hhi
  have hsmall : v.kind = .Int8 ∨ v.kind = .Int16 ∨ v.kind = .Int32 →
      setScalar fl v (decimalInt n) = ({ v with val := .int n }, none) := by
    intro h
    rw [setScalar_set_int fl v _ h]
    have := (set_int_literal v (decimalInt n) h hlit).1 (by rw [hnum]; exact ⟨hlo, hhi⟩)
    rw [hnum] at this
    exact this
  have hbig : v.kind = .Int64 ∨ v.kind = .Int →
      setScalar fl v (decimalInt n) = ({ v with val := .int n }, none) := by
    intro h
    rw [setScalar_set_int64 fl v _ h]
    have := (set_int64_literal v (decimalInt n) h hlit).1 (by rw [hnum]; exact h64)
    rw [hnum] at this
    exact this
  rcases hk2 with h | h | h | h | h
  · exact hsmall (Or.inl h)
  · exact hsmall (Or.inr (Or.inl h))
  · exact hsmall (Or.inr (Or.inr h))
  · exact hbig (Or.inl h)
  · exact hbig (Or.inr h)

/-- The decoder on the base-10 string of a number in the range of an unsigned
kind. -/
theorem setScalar_unsigned_decimal (fl : FloatLib) (v : Target) (n : Nat)
    (hk : isUnsignedKind v.kind = true) (hn : n ≤ 2 ^ v.kind.bitSize - 1) :
    setScalar fl v (decimal n) = ({ v with val := .uint n }, none) := by
  have hlit0 : isIntLiteral (decimal n) = true :=
    isIntLiteral_digits _ (decimal_ne_nil n) (decimal_digits n)
  have hfix : iFix (decimal n) = decimal n := iFix_literal _ hlit0
  have hlit : isIntLiteral (iFix (decimal n)) = true := by rw [hfix]; exact hlit0
  have hnum : numeric (iFix (decimal n)) = (n : Int) := by
    rw [hfix, numeric_digits _ (decimal_ne_nil n) (decimal_digits n), digitsValue_decimal]
  have h45 : (iFix (decimal n)).getD 0 0 ≠ 45 := by
    rw [hfix]
    obtain ⟨c, cs, hcs⟩ := List.exists_cons_of_ne_nil (decimal_ne_nil n)
    have hc := decimal_digits n c (by rw [hcs]; exact List.mem_cons_self _ _)
    rw [hcs, List.getD_cons_zero]
    omega
  have hk2 := hk
  simp only [isUnsignedKind, Bool.decide_or, Bool.or_eq_true, decide_eq_true_eq] at hk2
  have hsmall : v.kind = .Uint8 ∨ v.kind = .Uint16 ∨ v.kind = .Uint32 →
      setScalar fl v (decimal n) = ({ v with val := .uint n }, none) := by
    intro h
    rw [setScalar_set_uint fl v _ h]
    have := (set_uint_literal v (decimal n) h hlit).1 (by rw [hnum]; omega)
    rw [hnum, Int.toNat_ofNat] at this
    exact this
  have hbig : v.kind = .Uint64 ∨ v.kind = .Uint →
      setScalar fl v (decimal n) = ({ v with val := .uint n }, none) := by
    intro h
    have hb : v.kind.bitSize = 64 := by
      rcases h with h | h <;> rw [h] <;> rfl
    rw [hb] at hn
    norm_num at hn
    rw [setScalar_set_uint64 fl v _ h]
    have := (set_uint64_literal v (decimal n) h hlit).2.1 h45 (by rw [hnum]; omega)
    rw [hnum, Int.toNat_ofNat] at this
    exact this
  rcases hk2 with h | h | h | h | h
  · exact hsmall (Or.inl h)
  · exact hsmall (Or.inr (Or.inl h))
  · exact hsmall (Or.inr (Or.inr h))
  · exact hbig (Or.inl h)
  · exact hbig (Or.inr h)

/-- The decoder on the base-10 string of an integer in the range of the kind
of an integer field. -/
theorem setScalar_integer_decimal (fl : FloatLib) (v : Target) (n : Int)
    (hk : isSignedKind v.kind = true ∨ isUnsignedKind v.kind = true)
    (hr : inRange v.kind n) :
    setScalar fl v (decimalInt n) = ({ v with val := integerVal v.kind n }, none) := by
  by_cases hs : isSignedKind v.kind = true
  · simp only [inRange, hs, if_true] at hr
    simp only [integerVal, hs, if_true]
    exact setScalar_signed_decimal fl v n hs hr.1 hr.2
  · have hu : isUnsignedKind v.kind = true := by
      rcases hk with h | h
      · exact absurd h hs
      · exact h
    simp only [inRange, hs, Bool.false_eq_true, if_false] at hr
    simp only [integerVal, hs, Bool.false_eq_true, if_false]
    have hd : decimalInt n = decimal n.toNat := by
      simp only [decimalInt, if_neg (not_lt.2 hr.1)]
    rw [hd]
    refine setScalar_unsigned_decimal fl v n.toNat hu ?_
    have := hr.2
    omega

/-- The base-10 string of an integer has no quote at its ends, and `parse`
reads it as a value. -/
theorem decimalInt_value (n : Int) :
    noOuterQuote (decimalInt n) ∧
      ∀ (o : option) (lastkey : GoString),
        parseArg o lastkey (decimalInt n) = parseValue o lastkey (decimalInt n) := by
  by_cases hn : n < 0
  · obtain ⟨⟨d, rest, hs, hd⟩, hq⟩ := decimalInt_neg_shape n hn
    refine ⟨hq, fun o lastkey => parseArg_noOptionForm o lastkey _ ?_⟩
    rw [hs]
    exact noOptionForm_dash_digit d rest hd
  · have hd : decimalInt n = decimal n.toNat := by simp only [decimalInt, if_neg hn]
    have hne := decimal_ne_nil n.toNat
    have hdig := decimal_digits n.toNat
    rw [hd]
    refine ⟨⟨?_, ?_⟩, fun o lastkey => parseArg_plain o lastkey _ ?_⟩
    · intro h
      have := hdig 34 (List.mem_of_mem_head? h)
      omega
    · intro h
      have := hdig 34 (List.mem_of_getLast?_eq_some h)
      omega
    · intro h
      have := hdig 45 (List.mem_of_mem_head? h)
      omega

/-- The loop of `parse` over plain words when no key is pending: one
positional event for each word. -/
theorem parseLoop_words (ws : List GoString) (h : ∀ w ∈ ws, w.head? ≠ some 45) :
    ∀ (i : Nat) (o : option),
      parseLoop ws (i + 1) o [] = .ok { o with vdata := o.vdata ++ wordsEvents ws } := by
  induction ws with
  | nil => intro i o; simp [parseLoop, wordsEvents]
  | cons w rest ih =>
    intro i o
    have hw : parseArg o [] w =
        .ok ({ o with vdata := o.vdata ++ [vst.mk [] (stringsTrim w qt) typ_arg] }, []) := by
      rw [parseArg_plain o [] w (h w (List.mem_cons_self _ _)), parseValue_positional]
    rw [parseLoop_ok w rest i o _ [] [] hw, ih (fun u hu => h u (List.mem_cons_of_mem _ hu))]
    simp [wordsEvents]

/-- The loop of `parse` over plain words when a key is pending: the first word
is the value of the last event, the others are positional events. -/
theorem parseLoop_words_pending (ws : List GoString) (h : ∀ w ∈ ws, w.head? ≠ some 45)
    (i : Nat) (o : option) (lastkey : GoString) (xs : List vst) (x : vst)
    (hl : lastkey ≠ []) (hv : o.vdata = xs ++ [x]) (hx : x.val = []) :
    parseLoop ws (i + 1) o lastkey =
      .ok { o with vdata := xs ++ [{ x with val := firstValue ws }] ++ wordsEvents ws.tail } := by
  cases ws with
  | nil =>
    simp only [parseLoop, firstValue, List.tail_nil, wordsEvents, List.map_nil, List.append_nil]
    cases x
    simp only at hx
    subst hx
    rw [← hv]
  | cons w rest =>
    have hw : parseArg o lastkey w =
        .ok ({ o with vdata := xs ++ [{ x with val := stringsTrim w qt }] }, []) := by
      rw [parseArg_plain o lastkey w (h w (List.mem_cons_self _ _)),
        parseValue_pending o lastkey w xs x hl hv]
    rw [parseLoop_ok w rest i o _ lastkey [] hw,
      parseLoop_words rest (fun u hu => h u (List.mem_cons_of_mem _ hu))]
    rfl

/-- The event table of the command line `-a n -b w1 .. wk`. -/
theorem tokenize_a_n_b (cmd : GoString) (n : Int) (ws : List GoString)
    (h : ∀ w ∈ ws, w.head? ≠ some 45) :
    tokenize (cmd :: str "-a" :: decimalInt n :: str "-b" :: ws) =
      { option.init with
        vdata := [vst.mk (str "a") (decimalInt n) 0, vst.mk (str "b") (firstValue ws) 0] ++
          wordsEvents ws.tail
        vmap := [(str "a", 0), (str "b", 1)] } := by
  have ht := parse_tokenize (cmd :: str "-a" :: decimalInt n :: str "-b" :: ws)
  obtain ⟨hq, hp⟩ := decimalInt_value n
  have h1 : parseArg option.init [] (str "-a") =
      .ok ({ option.init with
        vdata := [vst.mk (str "a") [] 0], vmap := [(str "a", 0)] }, str "a") := rfl
  have h2 : parseArg ({ option.init with
        vdata := [vst.mk (str "a") [] 0], vmap := [(str "a", 0)] } : option) (str "a")
        (decimalInt n) =
      .ok ({ option.init with
        vdata := [vst.mk (str "a") (decimalInt n) 0], vmap := [(str "a", 0)] }, []) := by
    rw [hp, parseValue_pending _ (str "a") (decimalInt n) [] (vst.mk (str "a") [] 0)
      (by decide) rfl, stringsTrim_noOuterQuote _ hq]
    rfl
  have h3 : parseArg ({ option.init with
        vdata := [vst.mk (str "a") (decimalInt n) 0], vmap := [(str "a", 0)] } : option) []
        (str "-b") =
      .ok ({ option.init with
        vdata := [vst.mk (str "a") (decimalInt n) 0, vst.mk (str "b") [] 0]
        vmap := [(str "a", 0), (str "b", 1)] }, str "b") := rfl
  rw [parse_cons, parseLoop_ok _ _ 0 _ _ _ _ h1, parseLoop_ok _ _ 1 _ _ _ _ h2,
    parseLoop_ok _ _ 2 _ _ _ _ h3,
    parseLoop_words_pending ws h 3 _ (str "b") [vst.mk (str "a") (decimalInt n) 0]
      (vst.mk (str "b") [] 0) (by decide) rfl rfl] at ht
  simp only [Except.ok.injEq] at ht
  rw [← ht]
  rfl

theorem checkUndefinedOptions_congr (o p : option) (h : o.vdata = p.vdata) :
    o.checkUndefinedOptions = p.checkUndefinedOptions := by
  simp only [option.checkUndefinedOptions, h]

theorem integer_kind_ne_bool (k : Kind)
    (h : isSignedKind k = true ∨ isUnsignedKind k = true) : k ≠ .Bool := by
  intro hk
  subst hk
  rcases h with h | h
  · exact absurd h (by decide)
  · exact absurd h (by decide)

/-- Two descriptors of a record that find the same event are the same. -/
theorem eq_of_same_event (ds : List opt) (tok : option) (x y : opt) (i : Nat)
    (k k1 : GoString) (hm : MapOK tok) (hn : (descriptorKeys ds).Nodup) (hx : x ∈ ds)
    (hy : y ∈ ds) (h1 : tok.hit x = some (i, k)) (h2 : tok.hit y = some (i, k1)) : x = y := by
  obtain ⟨a1, ev, a2, a3⟩ := hit_hasKey tok x i k hm h1
  obtain ⟨b1, ev1, b2, b3⟩ := hit_hasKey tok y i k1 hm h2
  rw [a2] at b2
  simp only [Option.some.injEq] at b2
  subst b2
  rw [← a3] at a1
  rw [← b3] at b1
  exact eq_of_common_key ds x y ev.key hn hx hy a1 b1

/-- The event table after `getOptions`, for the event `i`: the type is that
for the kind of the descriptor that finds the event, and the event is as it was
when no descriptor finds it. -/
theorem foldl_mark_event (ds : List opt) (tok : option) (i : Nat) (ev : vst) (hm : MapOK tok)
    (hn : (descriptorKeys ds).Nodup) (hev : tok.vdata.get? i = some ev) :
    (∀ x k, x ∈ ds → tok.hit x = some (i, k) →
      (ds.foldl option.mark tok).vdata.get? i = some { ev with typ := optionTyp x.fld.kind }) ∧
    (ev.key = [] → (ds.foldl option.mark tok).vdata.get? i = some ev) := by
  obtain ⟨t, h1, hno, hyes, _⟩ := foldl_mark_get? ds tok i ev hev
  refine ⟨fun x k hx hh => ?_, fun hk => ?_⟩
  · obtain ⟨y, hy, ⟨k1, hk1⟩, ht⟩ := hyes ⟨x, hx, k, hh⟩
    have := eq_of_same_event ds tok x y i k k1 hm hn hx hy hh hk1
    rw [h1, ht, this]
  · have ht : t = ev.typ := hno fun x hx key hh => by
      obtain ⟨a1, ev1, a2, a3⟩ := hit_hasKey tok x i key hm hh
      rw [hev] at a2
      simp only [Option.some.injEq] at a2
      rw [← a2, hk] at a3
      exact a1.1 a3.symm
    rw [h1, ht]

/-- The event table after `getOptions` when the first two events are found by
the descriptors `xa` and `xb` and the other events have no key. -/
theorem foldl_mark_two (ds : List opt) (tok : option) (xa xb : opt) (ea eb : vst)
    (rest : List vst) (ka kb : GoString) (hm : MapOK tok) (hn : (descriptorKeys ds).Nodup)
    (hv : tok.vdata = ea :: eb :: rest) (ha : xa ∈ ds) (hb : xb ∈ ds)
    (hha : tok.hit xa = some (0, ka)) (hhb : tok.hit xb = some (1, kb))
    (hrest : ∀ ev ∈ rest, ev.key = []) :
    (ds.foldl option.mark tok).vdata =
      { ea with typ := optionTyp xa.fld.kind } :: { eb with typ := optionTyp xb.fld.kind } ::
        rest := by
  apply List.ext_get?
  intro i
  rcases i with _ | _ | i
  · exact (foldl_mark_event ds tok 0 ea hm hn (by rw [hv]; rfl)).1 xa ka ha hha
  · exact (foldl_mark_event ds tok 1 eb hm hn (by rw [hv]; rfl)).1 xb kb hb hhb
  · rcases hr : rest.get? i with _ | ev
    · have hlen := foldl_mark_length ds tok
      rw [hv] at hlen
      simp only [List.length_cons] at hlen
      have hi : rest.length ≤ i := List.get?_eq_none.1 hr
      simp only [List.get?_cons_succ, hr]
      exact List.get?_eq_none.2 (by omega)
    · have hev : tok.vdata.get? (i + 1 + 1) = some ev := by
        rw [hv]
        exact hr
      simp only [List.get?_cons_succ, hr]
      exact (foldl_mark_event ds tok _ ev hm hn hev).2 (hrest ev (List.get?_mem hr))

theorem strippedWords_nil : strippedWords [] = [] := rfl

/-- Plain words that are not empty and have no quote at their ends are their
own stripped words. -/
theorem strippedWords_plain (ws : List GoString)
    (h : ∀ w ∈ ws, isPlainWord w = true ∧ w ≠ [] ∧ noOuterQuote w) : strippedWords ws = ws := by
  induction ws with
  | nil => rfl
  | cons w rest ih =>
    obtain ⟨h1, h2, h3⟩ := h w (List.mem_cons_self _ _)
    have hw : w.head? ≠ some 45 := by simpa [isPlainWord] using h1
    rw [strippedWords_cons_word w rest hw, stringsTrim_noOuterQuote w h3,
      ih fun u hu => h u (List.mem_cons_of_mem _ hu)]
    simp [h2]

/-- The values, if not empty, of the first value and of the positional events
of plain words are the stripped words. -/
theorem values_firstValue (ws : List GoString) (h : ∀ w ∈ ws, isPlainWord w = true) :
    ((firstValue ws :: (wordsEvents ws.tail).map vst.val).filter fun a => decide (a ≠ [])) =
      strippedWords ws := by
  have hf : ws.filter isPlainWord = ws := List.filter_eq_self.2 h
  cases ws with
  | nil => rfl
  | cons w rest =>
    simp only [strippedWords, hf, firstValue, List.tail_cons, wordsEvents, List.map_map,
      List.map_cons]
    rfl

/-- The binding of the descriptors of a record on the event table of the
command line `-a n -b w1 .. wk`: the descriptor with the short key `a` finds
the first event and the one with the short key `b` the second, no other
descriptor finds an event, and every field is bound without error. -/
theorem bind_a_n_b (fl : FloatLib) (cmd : GoString) (rec : List StructField) (ds : List opt)
    (xa xb : opt) (n : Int) (ws : List GoString)
    (hd : descriptors rec = .ok ds) (ha : xa ∈ ds) (hb : xb ∈ ds)
    (hak : xa.u_key = str "a") (hbk : xb.u_key = str "b")
    (hint : isSignedKind xa.fld.kind = true ∨ isUnsignedKind xa.fld.kind = true)
    (hbool : xb.fld.kind = .Bool) (hr : inRange xa.fld.kind n)
    (hws : ∀ w ∈ ws, isPlainWord w = true) :
    (tokenize (cmd :: str "-a" :: decimalInt n :: str "-b" :: ws)).hit xa = some (0, str "a") ∧
      (tokenize (cmd :: str "-a" :: decimalInt n :: str "-b" :: ws)).hit xb =
        some (1, str "b") ∧
      (∀ x ∈ ds, (bindResult fl
        (tokenize (cmd :: str "-a" :: decimalInt n :: str "-b" :: ws)) x).2 = none) ∧
      ds.map (bound fl (tokenize (cmd :: str "-a" :: decimalInt n :: str "-b" :: ws))) =
        boundAB ds xa xb n ∧
      unclaimedKeys ds (tokenize (cmd :: str "-a" :: decimalInt n :: str "-b" :: ws)) = [] ∧
      leftoverAfter ds (cmd :: str "-a" :: decimalInt n :: str "-b" :: ws) = strippedWords ws ∧
      ((argEvents (ds.foldl option.mark
        (tokenize (cmd :: str "-a" :: decimalInt n :: str "-b" :: ws))).vdata).length : Int) ≤
        max 1 ws.length := by
  have hws1 : ∀ w ∈ ws, w.head? ≠ some 45 := fun w hw => by
    simpa [isPlainWord] using hws w hw
  have htok := tokenize_a_n_b cmd n ws hws1
  have hm : MapOK (tokenize (cmd :: str "-a" :: decimalInt n :: str "-b" :: ws)) :=
    (EventsOK_tokenize _).2
  have hn := descriptors_nodup rec ds hd
  simp only [leftoverAfter]
  generalize tokenize (cmd :: str "-a" :: decimalInt n :: str "-b" :: ws) = tok at htok hm ⊢
  have hmap : tok.vmap = [(str "a", 0), (str "b", 1)] := by rw [htok]
  have hvd : tok.vdata = vst.mk (str "a") (decimalInt n) 0 :: vst.mk (str "b") (firstValue ws) 0 ::
      wordsEvents ws.tail := by rw [htok]; rfl
  have hga : ∀ k i, tok.vmap.get k = some i → (k = str "a" ∧ i = 0) ∨ (k = str "b" ∧ i = 1) := by
    intro k i hki
    rw [hmap] at hki
    simp only [GoMap.get] at hki
    split_ifs at hki with h1 h2
    · simp only [Option.some.injEq] at hki
      exact Or.inl ⟨h1.symm, hki.symm⟩
    · simp only [Option.some.injEq] at hki
      exact Or.inr ⟨h2.symm, hki.symm⟩
  have hhit_a : tok.hit xa = some (0, str "a") := by
    simp only [option.hit, hmap, hak, GoMap.get, if_true]
  have hhit_b : tok.hit xb = some (1, str "b") := by
    have : (str "a" = str "b") = False := by decide
    simp only [option.hit, hmap, hbk, GoMap.get, this, if_false, if_true]
  have hka : xa.hasKey (str "a") := ⟨by decide, Or.inl hak.symm⟩
  have hkb : xb.hasKey (str "b") := ⟨by decide, Or.inl hbk.symm⟩
  have hother : ∀ x ∈ ds, x ≠ xa → x ≠ xb → tok.hit x = none := by
    intro x hx hxa hxb
    rcases hh : tok.hit x with _ | ⟨i, k⟩
    · rfl
    · exfalso
      obtain ⟨hk1, _⟩ := hit_hasKey tok x i k hm hh
      rcases hga k i (hit_some tok x i k hh).1 with ⟨e, _⟩ | ⟨e, _⟩
      · exact hxa (eq_of_common_key ds x xa (str "a") hn hx ha (e ▸ hk1) hka)
      · exact hxb (eq_of_common_key ds x xb (str "b") hn hx hb (e ▸ hk1) hkb)
  have hea : tok.vdata.get? 0 = some (vst.mk (str "a") (decimalInt n) 0) := by rw [hvd]; rfl
  have heb : tok.vdata.get? 1 = some (vst.mk (str "b") (firstValue ws) 0) := by rw [hvd]; rfl
  have hba : bindResult fl tok xa = ({ xa.fld with val := integerVal xa.fld.kind n }, none) := by
    rw [bindResult_hit fl tok xa 0 (str "a") _ hhit_a hea,
      optionValue_of_not_bool _ _ (integer_kind_ne_bool _ hint),
      setScalar_integer_decimal fl xa.fld n hint hr]
    rfl
  have hbb : bindResult fl tok xb = (xb.fld.SetBool true, none) := by
    rw [bindResult_hit fl tok xb 1 (str "b") _ hhit_b heb, hbool,
      optionValue_bool_flag (vst.mk (str "b") (firstValue ws) 0)
        (by show (0 : Int) ≠ typ_uoption; decide)]
    simp only [setScalar, hbool, set_bool_one]
    rfl
  have hbo : ∀ x ∈ ds, x ≠ xa → x ≠ xb → bindResult fl tok x = (x.fld, none) :=
    fun x hx h1 h2 => bindResult_miss fl tok x (hother x hx h1 h2)
  have hall : ∀ x ∈ ds, (bindResult fl tok x).2 = none := by
    intro x hx
    by_cases h1 : x = xa
    · rw [h1, hba]
    · by_cases h2 : x = xb
      · rw [h2, hbb]
      · rw [hbo x hx h1 h2]
  have hbound : ds.map (bound fl tok) = boundAB ds xa xb n := by
    simp only [boundAB]
    refine List.map_congr_left fun x hx => ?_
    by_cases h1 : x = xa
    · subst h1
      simp only [bound, hba, if_true]
    · by_cases h2 : x = xb
      · subst h2
        simp only [bound, hbb, h1, if_false, if_true]
      · simp only [bound, hbo x hx h1 h2, h1, h2, if_false]
  have htail : ∀ ev ∈ wordsEvents ws.tail, ev.key = [] := by
    intro ev hev
    simp only [wordsEvents, List.mem_map] at hev
    obtain ⟨w, _, e⟩ := hev
    rw [← e]
  have hun : unclaimedKeys ds tok = [] := by
    rw [unclaimedKeys_eq_nil_iff]
    intro i ev hev hk
    rw [hvd] at hev
    rcases i with _ | _ | i
    · exact ⟨xa, ha, str "a", hhit_a⟩
    · exact ⟨xb, hb, str "b", hhit_b⟩
    · exact absurd (htail ev (List.get?_mem hev)) hk
  have hmarked := foldl_mark_two ds tok xa xb _ _ _ (str "a") (str "b") hm hn hvd ha hb hhit_a
    hhit_b htail
  have hta : optionTyp xa.fld.kind = typ_option := by
    simp only [optionTyp, integer_kind_ne_bool _ hint, if_false]
  have htb : optionTyp xb.fld.kind = typ_flag := by simp only [optionTyp, hbool, if_true]
  have hargEv : argEvents (ds.foldl option.mark tok).vdata =
      vst.mk (str "b") (firstValue ws) typ_flag :: wordsEvents ws.tail := by
    rw [hmarked, hta, htb, argEvents_cons, argEvents_cons]
    have h1 : ¬ (typ_option = typ_arg ∨ typ_option = typ_flag) := by decide
    simp only [h1, if_false, or_true, if_true]
    rw [argEvents_all]
    intro ev hev
    simp only [wordsEvents, List.mem_map] at hev
    obtain ⟨w, _, e⟩ := hev
    rw [← e]
    exact Or.inl rfl
  refine ⟨hhit_a, hhit_b, hall, hbound, hun, ?_, ?_⟩
  · simp only [hargEv, List.map_cons]
    exact values_firstValue ws hws
  · rw [hargEv]
    simp only [List.length_cons, wordsEvents, List.length_map, List.length_tail]
    omega

/-- The error of `checkUndefinedOptions` on an object that holds the event
table after `getOptions`. -/
theorem checkUndefinedOptions_marked (ds : List opt) (tok o : option) (hok : EventsOK tok)
    (hv : o.vdata = (ds.foldl option.mark tok).vdata) :
    o.checkUndefinedOptions =
      if unclaimedKeys ds tok = [] then none
      else some (.text (unknownOptions (unclaimedKeys ds tok))) := by
  rw [← (checkUndefinedOptions_unclaimed ds [] tok tok hok rfl rfl).1]
  exact checkUndefinedOptions_congr _ _ hv

/-- An error of the binding of a descriptor is the error of the decoder for a
key. -/
theorem bindResult_keyed (fl : FloatLib) (o : option) (x : opt) (e : OptError)
    (h : (bindResult fl o x).2 = some e) : ∃ err key, e = .keyed err key := by
  rcases hh : o.hit x with _ | ⟨ndx, key⟩
  · rw [bindResult_miss fl o x hh] at h
    cases h
  · rcases hev : o.vdata.get? ndx with _ | ev
    · simp only [bindResult, getOption, hh, hev] at h
      cases h
    · rw [bindResult_hit fl o x ndx key ev hh hev] at h
      rcases hs : (setScalar fl x.fld (optionValue x.fld.kind ev)).2 with _ | err
      · rw [hs] at h
        cases h
      · rw [hs] at h
        simp only [Option.map_some', Option.some.injEq] at h
        exact ⟨err, key, h.symm⟩

/-- The call of `New` with a record alone whose descriptors are all bound
without error: the fields are bound, and the error is that of
`checkUndefinedOptions`. -/
theorem New_record_all (fl : FloatLib) (osArgs : List GoString) (rec : List StructField)
    (ds : List opt) (hargs : osArgs ≠ []) (hd : descriptors rec = .ok ds)
    (hall : ∀ y ∈ ds, (bindResult fl (tokenize osArgs) y).2 = none) :
    ∃ o, New fl osArgs [.pointer (.record rec)] =
        .ok (o, if unclaimedKeys ds (tokenize osArgs) = [] then none
          else some (.text (unknownOptions (unclaimedKeys ds (tokenize osArgs))))) ∧
      o.optionList = ds.map (bound fl (tokenize osArgs)) := by
  obtain ⟨o3, g1, g2, g3, _, _, _, _, _, _, hok⟩ :=
    New_record fl osArgs rec [] ds _ (by simp) hargs hd (calcArgLimit_record rec)
  obtain ⟨hm, hcl, hbr, hbd, _⟩ := New_record_bind fl osArgs rec ds o3 hd g2 g3
  have hl := getOptionsLoop_all fl ds [] o3 hm hcl fun x hx => by
    rw [hbr x]
    exact hall x hx
  have hnew := (hok _ hl).1 _ none rfl
  have hc := checkUndefinedOptions_marked ds (tokenize osArgs)
    ({ ds.foldl option.mark o3 with optionList := [] ++ ds.map (bound fl o3) } : option)
    (EventsOK_tokenize osArgs) (foldl_mark_congr ds o3 _ g2 g3)
  refine ⟨_, hnew.trans (by rw [hc]; rfl), ?_⟩
  show [] ++ ds.map (bound fl o3) = _
  rw [List.nil_append]
  exact List.map_congr_left fun y _ => hbd y

/-- The call of `New` with a record when the binding of some descriptor fails:
the error of the decoder for a key is returned. -/
theorem New_record_some_failure (fl : FloatLib) (osArgs : List GoString)
    (rec : List StructField) (more : List NewArg) (ds : List opt) (hargs : osArgs ≠ [])
    (hmore : more.length ≤ 1) (hptr : ∀ a ∈ more, a ≠ .nonPointer)
    (hd : descriptors rec = .ok ds)
    (hfail : ¬ ∀ y ∈ ds, (bindResult fl (tokenize osArgs) y).2 = none) :
    ∃ o err key, New fl osArgs (.pointer (.record rec) :: more) =
      .ok (o, some (.keyed err key)) := by
  rcases first_failure_split (fun x => (bindResult fl (tokenize osArgs) x).2 = none) ds with
    h | ⟨pre, x, post, h1, h2, h3⟩
  · exact absurd h hfail
  · rcases hb : (bindResult fl (tokenize osArgs) x).2 with _ | e
    · exact absurd hb h3
    · obtain ⟨err, key, he⟩ := bindResult_keyed fl _ x e hb
      obtain ⟨o, hnew, _⟩ := New_first_failure fl osArgs rec more ds pre post x e hargs hmore
        hptr hd h1 h2 hb
      exact ⟨o, err, key, he ▸ hnew⟩

/-! ## Lemmas on the completion of `genoptionList` -/

/-- `createKeyNames` panics on a tag exactly when the tag is fatal. -/
theorem createKeyNames_panics_iff (o : option) (name typ : GoString) (segs : List GoString)
    (hname : name ≠ []) (hsegs : tagSegments segs) :
    (∃ p, o.createKeyNames name typ (joinColon segs) = .error p) ↔ tagIsFatal o segs := by
  by_cases hlen : 2 ≤ segs.length
  · obtain ⟨h1, h2⟩ := createKeyNames_explicit o name typ segs hsegs hlen
    constructor
    · rintro ⟨p, hp⟩
      by_contra hf
      rw [h2 hf] at hp
      cases hp
    · exact h1
  · match segs, hsegs, hlen with
    | [h], hsegs, _ =>
      simp only [joinColon, createKeyNames_one o name typ h hname hsegs, tagIsFatal]
      simp
    | _ :: _ :: _, _, hlen => exact absurd (by simp) hlen

theorem createKeyNames_fatalTag (o : option) (f : StructField) (hname : f.Name ≠ []) :
    (∃ p, o.createKeyNames f.Name f.typ f.Tag = .error p) ↔ fatalTag o f := by
  constructor
  · intro h
    obtain ⟨segs, hs, hj⟩ := tag_decompose f.Tag
    refine ⟨segs, hs, hj, (createKeyNames_panics_iff o f.Name f.typ segs hname hs).1 ?_⟩
    rw [hj]
    exact h
  · rintro ⟨segs, hs, hj, hf⟩
    have := (createKeyNames_panics_iff o f.Name f.typ segs hname hs).2 hf
    rw [hj] at this
    exact this

/-- The loop of `genoptionList` completes exactly when every field is
admissible and no tag is fatal when the loop reaches its field. -/
theorem genoptionListLoop_completes_iff (v : List StructField) :
    ∀ o : option, (∃ o1, genoptionListLoop v o = .ok o1) ↔
      (∀ f ∈ v, admissible f) ∧
        ∀ pre f post o1, v = pre ++ f :: post → genoptionListLoop pre o = .ok o1 →
          ¬ fatalTag o1 f := by
  induction v with
  | nil =>
    intro o
    refine ⟨fun _ => ⟨(fun f hf => by cases hf), fun pre f post o1 h => ?_⟩,
      fun _ => ⟨o, rfl⟩⟩
    cases pre <;> cases h
  | cons f rest ih =>
    intro o
    constructor
    · rintro ⟨o1, h⟩
      have hadm := (genoptionListLoop_descriptors (f :: rest) o o1 h).1
      refine ⟨hadm, fun pre g post o2 hsplit hpre hfatal => ?_⟩
      have hg : admissible g := hadm g (by rw [hsplit]; simp)
      obtain ⟨p, hp⟩ := (createKeyNames_fatalTag o2 g (exported_ne_nil _ hg.1)).2 hfatal
      rw [hsplit, genoptionListLoop_append pre (g :: post) o o2 hpre,
        genoptionListLoop_cons_error g post o2 p hg hp] at h
      cases h
    · rintro ⟨hadm, hnf⟩
      have hf : admissible f := hadm f (List.mem_cons_self _ _)
      rcases hc : o.createKeyNames f.Name f.typ f.Tag with p | ⟨o2, k⟩
      · exact absurd ((createKeyNames_fatalTag o f (exported_ne_nil _ hf.1)).1 ⟨p, hc⟩)
          (hnf [] f rest o rfl rfl)
      · rw [genoptionListLoop_cons f rest o o2 k hf hc]
        refine (ih _).2 ⟨fun g hg => hadm g (List.mem_cons_of_mem _ hg),
          fun pre g post o3 hsplit hpre => ?_⟩
        refine hnf (f :: pre) g post o3 (by rw [hsplit]; rfl) ?_
        rw [genoptionListLoop_cons f pre o o2 k hf hc]
        exact hpre

/-- A record for which `genoptionList` panics makes `New` panic with the same
panic, when the call has one or two pointers and there is a command line. -/
theorem New_record_panic_exact (fl : FloatLib) (osArgs : List GoString)
    (rec : List StructField) (more : List NewArg) (p : Panic) (hargs : osArgs ≠ [])
    (hmore : more.length ≤ 1) (hptr : ∀ a ∈ more, a ≠ .nonPointer)
    (hd : option.init.genoptionList rec = .error p) :
    New fl osArgs (.pointer (.record rec) :: more) = .error p := by
  obtain ⟨o1, h1⟩ := calcArgLimit_pointers (.pointer (.record rec) :: more) option.init
    (fun a ha => by
      rcases List.mem_cons.1 ha with e | e
      · rw [e]
        exact fun h => by cases h
      · exact hptr a e)
  obtain ⟨c1, c2, c3, c4, c5, c6, c7⟩ := calcArgLimit_frame _ _ _ h1
  have hn : (NewArg.pointer (.record rec) :: more).length = 1 ∨
      (NewArg.pointer (.record rec) :: more).length = 2 := by
    simp only [List.length_cons]
    omega
  obtain ⟨_, herr⟩ := New_varAssign fl osArgs _ o1 hn hargs h1 c2 c1
  apply herr
  have ho : o1.withEvents (tokenize osArgs) =
      option.init.withFrame (o1.withEvents (tokenize osArgs)) := by
    cases o1
    simp only [option.withFrame, option.withEvents, option.init] at c3 c4 c7 ⊢
    simp [c3, c4, c7]
  have hg : (o1.withEvents (tokenize osArgs)).genoptionList rec = .error p := by
    simp only [option.genoptionList] at hd ⊢
    rw [ho, genoptionListLoop_withFrame, hd]
    rfl
  simp only [option.varAssign, varAssignLoop, Nat.zero_ne_one, if_false, hg]

theorem bound_name_typ (fl : FloatLib) (o : option) (l : List opt) :
    (l.map (bound fl o)).map (fun d => (d.name, d.typ)) = l.map fun d => (d.name, d.typ) := by
  rw [List.map_map]
  exact List.map_congr_left fun d _ => rfl

/-- The call of `New` with a record alone returns when `genoptionList`
completes, with one descriptor for each field of the record, in the order of
the fields. -/
theorem New_record_returns (fl : FloatLib) (osArgs : List GoString) (rec : List StructField)
    (o1 : option) (hargs : osArgs ≠ []) (h : option.init.genoptionList rec = .ok o1) :
    ∃ o r, New fl osArgs [.pointer (.record rec)] = .ok (o, r) ∧
      o.optionList.map (fun d => (d.name, d.typ)) = rec.map fun f => (f.Name, f.typ) := by
  have hd : descriptors rec = .ok o1.optionList := by simp only [descriptors, h]
  have horigin := (genoptionListLoop_descriptors rec option.init o1 h).2
  have hnames : o1.optionList.map (fun d => (d.name, d.typ)) =
      rec.map fun f => (f.Name, f.typ) := by
    have := congrArg (List.map fun t : Target × GoString × GoString => t.2) horigin
    simpa [option.init, opt.origin, StructField.origin, List.map_map, Function.comp] using this
  rcases first_failure_split (fun x => (bindResult fl (tokenize osArgs) x).2 = none)
    o1.optionList with hall | ⟨pre, x, post, s1, s2, s3⟩
  · obtain ⟨o, hnew, hl⟩ := New_record_all fl osArgs rec _ hargs hd hall
    exact ⟨o, _, hnew, by rw [hl, bound_name_typ, hnames]⟩
  · rcases hb : (bindResult fl (tokenize osArgs) x).2 with _ | e
    · exact absurd hb s3
    · obtain ⟨o, hnew, hl, _⟩ := New_first_failure fl osArgs rec [] _ pre post x e hargs
        (by simp) (fun a ha => by cases ha) hd s1 s2 hb
      refine ⟨o, _, hnew, ?_⟩
      rw [hl, List.map_append, bound_name_typ, ← hnames, s1, List.map_append]

/-! ## The claims -/

/-- C4: for an integer literal `d` and a suffix letter `L` of exponent `e`,
`iFix (d ++ L)` is `d` followed by `e` zeros, and decoding `d ++ L` into a
64-bit integer target (`int64`, `int`) stores `numeric d * 10 ^ e` when that
product is in range.  The same holds for the unsigned 64-bit targets (`uint64`,
`uint`) when `d` has no sign. -/
theorem C4_suffix_expansion (fl : FloatLib) (v : Target) (d : GoString) (L e : Nat)
    (hd : isIntLiteral d = true) (hL : suffixExponent L = some e) :
    iFix (d ++ [L]) = d ++ List.replicate e 48 ∧
    ((v.kind = .Int64 ∨ v.kind = .Int) →
      -9223372036854775808 ≤ numeric d * 10 ^ e →
      numeric d * 10 ^ e ≤ 9223372036854775807 →
      setScalar fl v (d ++ [L]) = ({ v with val := .int (numeric d * 10 ^ e) }, none)) ∧
    ((v.kind = .Uint64 ∨ v.kind = .Uint) → d.getD 0 0 ≠ 45 →
      numeric d * 10 ^ e ≤ 18446744073709551615 →
      setScalar fl v (d ++ [L]) =
        ({ v with val := .uint (numeric d * 10 ^ e).toNat }, none)) := by
  have hfix := iFix_suffix d L e hd hL
  have hlit := isIntLiteral_append_zeros d e hd
  have hnum := numeric_append_zeros d e hd
  refine ⟨hfix, ?_, ?_⟩
  · intro hk h1 h2
    have hlit2 : isIntLiteral (iFix (d ++ [L])) = true := by rw [hfix]; exact hlit
    have hset := (set_int64_literal v (d ++ [L]) hk hlit2).1
      (by rw [hfix, hnum]; exact ⟨h1, h2⟩)
    rw [hfix, hnum] at hset
    rw [setScalar_set_int64 fl v _ hk]
    exact hset
  · intro hk h45 h2
    have hlit2 : isIntLiteral (iFix (d ++ [L])) = true := by rw [hfix]; exact hlit
    have hhead : (iFix (d ++ [L])).getD 0 0 ≠ 45 := by
      rw [hfix]
      obtain ⟨c, cs, rfl⟩ := List.exists_cons_of_ne_nil (isIntLiteral_ne_nil d hd)
      simpa using h45
    have hset := (set_uint64_literal v (d ++ [L]) hk hlit2).2.1 hhead
      (by rw [hfix, hnum]; exact h2)
    rw [hfix, hnum] at hset
    rw [setScalar_set_uint64 fl v _ hk]
    exact hset

/-- C4 at `"9E"` into an `int`: the stored value is 9 * 10 ^ 18. -/
theorem C4_suffix_expansion_witness :
    iFix (str "9E") = str "9000000000000000000" ∧
    setScalar FloatLib.rejecting ⟨.Int, false, .int 0⟩ (str "9E") =
      (⟨.Int, false, .int 9000000000000000000⟩, none) := by
  have h := C4_suffix_expansion FloatLib.rejecting ⟨.Int, false, .int 0⟩ (str "9") 69 18
    (by decide) (by decide)
  exact ⟨h.1, h.2.1 (Or.inr rfl) (by decide) (by decide)⟩

/-- C5: for an integer literal `d` and a trailing byte `c` that is neither a
digit nor one of `K M G T P E`, `iFix` leaves `d ++ c` as it is and decoding it
into any integer target fails (with the `*NumError` of package strconv, the
target keeping its value); likewise a lone suffix letter is left as it is and
fails to decode. -/
theorem C5_unrecognised_suffix_fails (fl : FloatLib) (v : Target) (d : GoString) (c : Nat)
    (hk : isSignedKind v.kind = true ∨ isUnsignedKind v.kind = true)
    (hd : isIntLiteral d = true) (hb : c < 256) (hc : ¬ (48 ≤ c ∧ c ≤ 57))
    (hs : suffixExponent c = none) :
    (iFix (d ++ [c]) = d ++ [c] ∧ (setScalar fl v (d ++ [c])).1 = v ∧
      ∃ e, (setScalar fl v (d ++ [c])).2 = some (.num e)) ∧
    (∀ L e, suffixExponent L = some e →
      iFix [L] = [L] ∧ (setScalar fl v [L]).1 = v ∧
      ∃ e, (setScalar fl v [L]).2 = some (.num e)) := by
  have hfix : iFix (d ++ [c]) = d ++ [c] := by
    rw [iFix_append d c (isIntLiteral_ne_nil d hd), if_neg hc, is_int_of_literal d hd, hs]
    simp
  refine ⟨⟨hfix, ?_⟩, ?_⟩
  · apply setScalar_int_fails fl v _ hk
    · rw [hfix]
      exact atoi_trailing_nondigit d c hd hb hc
    · rw [hfix]
      obtain ⟨e, he⟩ := parseInt_trailing_nondigit d c hd hc 64 (Or.inr rfl)
      exact ⟨_, he⟩
    · rw [hfix]
      obtain ⟨e, he⟩ := parseUint_nondigit (d ++ [c]) ⟨c, by simp, hc⟩ 64
      exact ⟨_, he⟩
  · intro L e hL
    have hfixL : iFix [L] = [L] := iFix_short [L] (by simp)
    have hLb : L < 256 ∧ ¬ (48 ≤ L ∧ L ≤ 57) := by
      unfold suffixExponent at hL
      split_ifs at hL <;> omega
    have hpu : ∃ e, (parseUint [L] 64).2 = some ⟨"ParseUint", [L], e⟩ :=
      parseUint_nondigit [L] ⟨L, by simp, hLb.2⟩ 64
    refine ⟨hfixL, ?_⟩
    apply setScalar_int_fails fl v _ hk
    · rw [hfixL]
      exact atoi_single_nondigit L hLb.1 hLb.2
    · rw [hfixL]
      have : ∃ e, (parseInt [L] 64).2 = some ⟨"ParseInt", [L], e⟩ := by
        apply parseInt_error _ 64 (Or.inr rfl)
        have h43 : L ≠ 43 := by
          unfold suffixExponent at hL
          split_ifs at hL <;> omega
        have h45 : L ≠ 45 := by
          unfold suffixExponent at hL
          split_ifs at hL <;> omega
        simp only [List.getD_cons_zero, h43, h45, if_false]
        obtain ⟨e, he⟩ := hpu
        rw [he]
        simp
      obtain ⟨e, he⟩ := this
      exact ⟨_, he⟩
    · rw [hfixL]
      obtain ⟨e, he⟩ := hpu
      exact ⟨_, he⟩

/-- C5 at `"9Z"` into an `int`, and at the lone letter `"K"`. -/
theorem C5_unrecognised_suffix_fails_witness :
    (iFix (str "9Z") = str "9Z" ∧
      (setScalar FloatLib.rejecting ⟨.Int, false, .int 7⟩ (str "9Z")).1 = ⟨.Int, false, .int 7⟩ ∧
      ∃ e, (setScalar FloatLib.rejecting ⟨.Int, false, .int 7⟩ (str "9Z")).2 = some (.num e)) ∧
    (iFix (str "K") = str "K" ∧
      ∃ e, (setScalar FloatLib.rejecting ⟨.Int, false, .int 7⟩ (str "K")).2 = some (.num e)) := by
  have h := C5_unrecognised_suffix_fails FloatLib.rejecting ⟨.Int, false, .int 7⟩ (str "9") 90
    (by decide) (by decide) (by decide) (by decide) (by decide)
  exact ⟨h.1, (h.2 75 3 (by decide)).1, (h.2 75 3 (by decide)).2.2⟩

/-- C6: `is_int` does not accept exactly the integer literals.  Its test of the
first byte is `v <= '-'`, so it accepts `"!1"`, `"+1"` and `" 1"`, none of them
an optional `-` followed by digits, and `iFix` expands their suffixed forms
instead of returning them unchanged. -/
theorem C6_is_int_accepts_non_literal :
    isIntLiteral (str "!1") = false ∧ is_int (str "!1") = true ∧
    iFix (str "!1K") = str "!1000" ∧
    isIntLiteral (str "+1") = false ∧ is_int (str "+1") = true ∧
    iFix (str "+1K") = str "+1000" ∧
    isIntLiteral (str " 1") = false ∧ is_int (str " 1") = true ∧
    iFix (str " 1K") = str " 1000" := by
  decide

theorem toLower_eq_asciiLower (s : GoString) : toLower s = asciiLower s := by
  cases s with
  | nil => rfl
  | cons c cs =>
    simp only [toLower, List.length_cons, Nat.add_one_ne_zero, if_false, asciiLower]
    rfl

/-- C7: `set_bool` succeeds exactly when the ASCII-lowercased value is one of
`true yes on 1` (the target becomes true) or `false no off 0` (the target
becomes false); for every other value it returns the error
"invalid value for bool" and leaves the target unchanged. -/
theorem C7_set_bool (v : Target) (val : GoString) :
    (asciiLower val ∈ [str "true", str "yes", str "on", str "1"] →
      set_bool v val = ({ v with val := .bool true }, none)) ∧
    (asciiLower val ∈ [str "false", str "no", str "off", str "0"] →
      set_bool v val = ({ v with val := .bool false }, none)) ∧
    (asciiLower val ∉ [str "true", str "yes", str "on", str "1",
        str "false", str "no", str "off", str "0"] →
      set_bool v val = (v, some (.new "invalid value for bool"))) ∧
    ((set_bool v val).2 = none ↔
      asciiLower val ∈ [str "true", str "yes", str "on", str "1",
        str "false", str "no", str "off", str "0"]) := by
  simp only [set_bool, toLower_eq_asciiLower, Target.SetBool]
  generalize asciiLower val = w
  by_cases ht : w = str "true" ∨ w = str "yes" ∨ w = str "on" ∨ w = str "1"
  · have hm : w ∈ [str "true", str "yes", str "on", str "1"] := by
      simpa [List.mem_cons] using ht
    have hnf : w ∉ [str "false", str "no", str "off", str "0"] := by
      rcases ht with rfl | rfl | rfl | rfl <;> decide
    have hall : w ∈ [str "true", str "yes", str "on", str "1",
        str "false", str "no", str "off", str "0"] := by
      rcases ht with rfl | rfl | rfl | rfl <;> decide
    simp only [ht, if_true, hm, hnf, hall, not_true_eq_false, false_implies, true_implies,
      and_self, iff_true, true_and]
  · by_cases hf : w = str "false" ∨ w = str "no" ∨ w = str "off" ∨ w = str "0"
    · have hm : w ∈ [str "false", str "no", str "off", str "0"] := by
        simpa [List.mem_cons] using hf
      have hnt : w ∉ [str "true", str "yes", str "on", str "1"] := by
        simpa [List.mem_cons] using ht
      have hall : w ∈ [str "true", str "yes", str "on", str "1",
          str "false", str "no", str "off", str "0"] := by
        rcases hf with rfl | rfl | rfl | rfl <;> decide
      simp only [ht, if_false, hf, if_true, hm, hnt, hall, not_true_eq_false, false_implies,
        true_implies, and_self, iff_true, true_and]
    · have hnt : w ∉ [str "true", str "yes", str "on", str "1"] := by
        simpa [List.mem_cons] using ht
      have hnf : w ∉ [str "false", str "no", str "off", str "0"] := by
        simpa [List.mem_cons] using hf
      have hall : w ∉ [str "true", str "yes", str "on", str "1",
          str "false", str "no", str "off", str "0"] := by
        intro h
        simp only [List.mem_cons, List.mem_singleton, List.not_mem_nil, or_false] at h
        rcases h with h | h | h | h | h | h | h | h
        · exact ht (Or.inl h)
        · exact ht (Or.inr (Or.inl h))
        · exact ht (Or.inr (Or.inr (Or.inl h)))
        · exact ht (Or.inr (Or.inr (Or.inr h)))
        · exact hf (Or.inl h)
        · exact hf (Or.inr (Or.inl h))
        · exact hf (Or.inr (Or.inr (Or.inl h)))
        · exact hf (Or.inr (Or.inr (Or.inr h)))
      simp only [ht, if_false, hf, hnt, hnf, hall, not_false_eq_true, false_implies,
        true_implies, and_self, iff_false, true_and, reduceCtorEq]

/-- C10: `setScalar` returns the error `type not allowed: <kind>`, naming the
kind of the target (and leaves the target as it was), when `isScalar` is false
for the target; when `isScalar` admits the target, `setScalar` returns that
error for no kind and no input. -/
theorem C10_type_not_allowed (fl : FloatLib) (v : Target) (val : GoString) :
    (isScalar v = false →
      setScalar fl v val = (v, some (.new ("type not allowed: " ++ kindName v.kind)))) ∧
    (isScalar v = true →
      ∀ k : Kind, (setScalar fl v val).2 ≠ some (.new ("type not allowed: " ++ kindName k))) := by
  constructor
  · intro h
    rcases v with ⟨k, t, x⟩
    cases k <;> simp only [isScalar, Bool.true_eq_false] at h <;>
      first
      | rfl
      | (subst h; rfl)
  · intro h k
    have hne1 : Err.new "invalid value for bool" ≠ .new ("type not allowed: " ++ kindName k) := by
      cases k <;> decide
    have hne2 : Err.new "Overflow" ≠ .new ("type not allowed: " ++ kindName k) := by
      cases k <;> decide
    rcases setScalar_scalar_error fl v val h with h1 | h1 | h1 | ⟨e, h1⟩ | ⟨l, x, h1⟩ <;>
      rw [h1] <;> simp only [ne_eq, Option.some.injEq, reduceCtorEq, not_false_eq_true]
    · exact hne1
    · exact hne2

/-- C1: for every signed kind (`int8`, `int16`, `int32`, `int64`, and `int` as
64 bits) and every integer `n` in the range of its width, `setScalar` on the
canonical base-10 string of `n` returns no error and stores exactly `n`. -/
theorem C1_signed_decimal_roundtrip (fl : FloatLib) (v : Target) (n : Int)
    (hk : isSignedKind v.kind = true)
    (hlo : -(2 : Int) ^ (v.kind.bitSize - 1) ≤ n)
    (hhi : n ≤ (2 : Int) ^ (v.kind.bitSize - 1) - 1) :
    setScalar fl v (decimalInt n) = ({ v with val := .int n }, none) := by
  have hlit : isIntLiteral (iFix (decimalInt n)) = true := by
    rw [iFix_literal _ (isIntLiteral_decimalInt n)]
    exact isIntLiteral_decimalInt n
  have hnum : numeric (iFix (decimalInt n)) = n := by
    rw [iFix_literal _ (isIntLiteral_decimalInt n)]
    exact numeric_decimalInt n
  have hk2 := hk
  simp only [isSignedKind, Bool.decide_or, Bool.or_eq_true, decide_eq_true_eq] at hk2
  have h64 := signed_range_int64 v.kind n hk hlo hhi
  have hsmall : v.kind = .Int8 ∨ v.kind = .Int16 ∨ v.kind = .Int32 →
      set_int v (decimalInt n) = ({ v with val := .int n }, none) := by
    intro h
    have := (set_int_literal v (decimalInt n) h hlit).1 (by rw [hnum]; exact ⟨hlo, hhi⟩)
    rw [hnum] at this
    exact this
  have hbig : v.kind = .Int64 ∨ v.kind = .Int →
      set_int64 v (decimalInt n) = ({ v with val := .int n }, none) := by
    intro h
    have := (set_int64_literal v (decimalInt n) h hlit).1 (by rw [hnum]; exact h64)
    rw [hnum] at this
    exact this
  rcases hk2 with h | h | h | h | h
  · rw [setScalar_set_int fl v _ (Or.inl h)]
    exact hsmall (Or.inl h)
  · rw [setScalar_set_int fl v _ (Or.inr (Or.inl h))]
    exact hsmall (Or.inr (Or.inl h))
  · rw [setScalar_set_int fl v _ (Or.inr (Or.inr h))]
    exact hsmall (Or.inr (Or.inr h))
  · rw [setScalar_set_int64 fl v _ (Or.inl h)]
    exact hbig (Or.inl h)
  · rw [setScalar_set_int64 fl v _ (Or.inr h)]
    exact hbig (Or.inr h)

theorem decimalInt_neg128 : decimalInt (-128) = str "-128" := by
  simp [decimalInt, decimal, str]

/-- C1 at the smallest `int8`: `"-128"` is decoded to -128. -/
theorem C1_signed_decimal_roundtrip_witness :
    setScalar FloatLib.rejecting ⟨.Int8, false, .int 0⟩ (str "-128") =
      (⟨.Int8, false, .int (-128)⟩, none) := by
  have h := C1_signed_decimal_roundtrip FloatLib.rejecting ⟨.Int8, false, .int 0⟩ (-128)
    (by decide) (by decide) (by decide)
  rw [decimalInt_neg128] at h
  exact h

/-- C2: for every unsigned kind (`uint8`, `uint16`, `uint32`, `uint64`, and
`uint` as 64 bits) and every `n` with `0 <= n <= 2^W - 1`, `setScalar` on the
canonical base-10 string of `n` returns no error and stores exactly `n`. -/
theorem C2_unsigned_decimal_roundtrip (fl : FloatLib) (v : Target) (n : Nat)
    (hk : isUnsignedKind v.kind = true) (hn : n ≤ 2 ^ v.kind.bitSize - 1) :
    setScalar fl v (decimal n) = ({ v with val := .uint n }, none) := by
  have hlit0 : isIntLiteral (decimal n) = true :=
    isIntLiteral_digits _ (decimal_ne_nil n) (decimal_digits n)
  have hfix : iFix (decimal n) = decimal n := iFix_literal _ hlit0
  have hlit : isIntLiteral (iFix (decimal n)) = true := by rw [hfix]; exact hlit0
  have hnum : numeric (iFix (decimal n)) = (n : Int) := by
    rw [hfix, numeric_digits _ (decimal_ne_nil n) (decimal_digits n), digitsValue_decimal]
  have h45 : (iFix (decimal n)).getD 0 0 ≠ 45 := by
    rw [hfix]
    obtain ⟨c, cs, hcs⟩ := List.exists_cons_of_ne_nil (decimal_ne_nil n)
    have hc := decimal_digits n c (by rw [hcs]; exact List.mem_cons_self _ _)
    rw [hcs, List.getD_cons_zero]
    omega
  have hk2 := hk
  simp only [isUnsignedKind, Bool.decide_or, Bool.or_eq_true, decide_eq_true_eq] at hk2
  have hsmall : v.kind = .Uint8 ∨ v.kind = .Uint16 ∨ v.kind = .Uint32 →
      setScalar fl v (decimal n) = ({ v with val := .uint n }, none) := by
    intro h
    rw [setScalar_set_uint fl v _ h]
    have := (set_uint_literal v (decimal n) h hlit).1 (by rw [hnum]; omega)
    rw [hnum, Int.toNat_ofNat] at this
    exact this
  have hbig : v.kind = .Uint64 ∨ v.kind = .Uint →
      setScalar fl v (decimal n) = ({ v with val := .uint n }, none) := by
    intro h
    have hb : v.kind.bitSize = 64 := by
      rcases h with h | h <;> rw [h] <;> rfl
    rw [hb] at hn
    norm_num at hn
    rw [setScalar_set_uint64 fl v _ h]
    have := (set_uint64_literal v (decimal n) h hlit).2.1 h45 (by rw [hnum]; omega)
    rw [hnum, Int.toNat_ofNat] at this
    exact this
  rcases hk2 with h | h | h | h | h
  · exact hsmall (Or.inl h)
  · exact hsmall (Or.inr (Or.inl h))
  · exact hsmall (Or.inr (Or.inr h))
  · exact hbig (Or.inl h)
  · exact hbig (Or.inr h)

theorem decimal_maxUint64 : decimal 18446744073709551615 = str "18446744073709551615" := by
  simp [decimal, str]

/-- C2 at the largest `uint64`: `"18446744073709551615"` is decoded to
2^64 - 1. -/
theorem C2_unsigned_decimal_roundtrip_witness :
    setScalar FloatLib.rejecting ⟨.Uint64, false, .uint 0⟩ (str "18446744073709551615") =
      (⟨.Uint64, false, .uint 18446744073709551615⟩, none) := by
  have h := C2_unsigned_decimal_roundtrip FloatLib.rejecting ⟨.Uint64, false, .uint 0⟩
    18446744073709551615 (by decide) (by decide)
  rw [decimal_maxUint64] at h
  exact h

/-- C3, as stated, fails: a negative value for a 64-bit unsigned target is
rejected with the syntax error of `ParseUint`, which is no overflow error. -/
theorem C3_counterexample_uint64_negative :
    numeric (str "-1") = -1 ∧ ¬ inRange .Uint64 (-1) ∧
    setScalar FloatLib.rejecting ⟨.Uint64, false, .uint 7⟩ (str "-1") =
      (⟨.Uint64, false, .uint 7⟩, some (.num ⟨"ParseUint", str "-1", .ErrSyntax⟩)) ∧
    Err.isOverflow (.num ⟨"ParseUint", str "-1", .ErrSyntax⟩) = false := by
  refine ⟨by decide, ?_, by decide, by decide⟩
  simp [inRange, isSignedKind]

/-- C3, amended: for every integer kind and every base-10 integer literal `d`,
taken as it is or followed by a suffix letter, whose value `n` is outside the
range of the kind, `setScalar` fails and stores nothing; the error is an
overflow error (`Overflow`, or the `ErrRange` of package strconv), except that a
negative value for a 64-bit unsigned target (`uint64`, `uint`) is rejected with
the syntax error of `ParseUint`. -/
theorem C3_out_of_range_fails (fl : FloatLib) (v : Target) (s d : GoString) (n : Int)
    (hk : isSignedKind v.kind = true ∨ isUnsignedKind v.kind = true)
    (hd : isIntLiteral d = true)
    (hs : (s = d ∧ n = numeric d) ∨
      ∃ L e, suffixExponent L = some e ∧ s = d ++ [L] ∧ n = numeric d * 10 ^ e)
    (hout : ¬ inRange v.kind n) :
    (setScalar fl v s).1 = v ∧
    ∃ err, (setScalar fl v s).2 = some err ∧
      if (v.kind = .Uint64 ∨ v.kind = .Uint) ∧ n < 0
      then err = .num ⟨"ParseUint", iFix s, .ErrSyntax⟩
      else err.isOverflow = true := by
  have hq : isIntLiteral (iFix s) = true ∧ numeric (iFix s) = n := by
    rcases hs with ⟨rfl, rfl⟩ | ⟨L, e, hL, rfl, rfl⟩
    · rw [iFix_literal _ hd]
      exact ⟨hd, rfl⟩
    · rw [iFix_suffix d L e hd hL]
      exact ⟨isIntLiteral_append_zeros d e hd, numeric_append_zeros d e hd⟩
  obtain ⟨hlit, hnum⟩ := hq
  simp only [isSignedKind, isUnsignedKind, Bool.decide_or, Bool.or_eq_true,
    decide_eq_true_eq] at hk
  have hsmallS : v.kind = .Int8 ∨ v.kind = .Int16 ∨ v.kind = .Int32 → _ := fun h =>
    (set_int_literal v s h hlit).2
  have hbigS : v.kind = .Int64 ∨ v.kind = .Int → _ := fun h =>
    (set_int64_literal v s h hlit).2
  have hsmallU : v.kind = .Uint8 ∨ v.kind = .Uint16 ∨ v.kind = .Uint32 → _ := fun h =>
    (set_uint_literal v s h hlit).2
  have hbigU : v.kind = .Uint64 ∨ v.kind = .Uint → _ := fun h =>
    set_uint64_literal v s h hlit
  rw [hnum] at hsmallS hbigS hsmallU hbigU
  rcases hk with (h | h | h | h | h) | (h | h | h | h | h)
  all_goals first
    | (have hk3 : v.kind = .Int8 ∨ v.kind = .Int16 ∨ v.kind = .Int32 := by simp [h]
       rw [setScalar_set_int fl v s hk3]
       have hr := hsmallS hk3 (by simpa [inRange, isSignedKind, h] using hout)
       rcases hr with hr | hr <;> rw [hr] <;> simp [h, Err.isOverflow])
    | (have hk3 : v.kind = .Int64 ∨ v.kind = .Int := by simp [h]
       rw [setScalar_set_int64 fl v s hk3]
       have hr := hbigS hk3 (by simpa [inRange, isSignedKind, h, Kind.bitSize] using hout)
       rw [hr]
       simp [h, Err.isOverflow])
    | (have hk3 : v.kind = .Uint8 ∨ v.kind = .Uint16 ∨ v.kind = .Uint32 := by simp [h]
       rw [setScalar_set_uint fl v s hk3]
       have hr := hsmallU hk3 (by simpa [inRange, isSignedKind, h] using hout)
       rcases hr with hr | hr <;> rw [hr] <;> simp [h, Err.isOverflow])
    | skip
  all_goals
    have hk3 : v.kind = .Uint64 ∨ v.kind = .Uint := by simp [h]
    have hb : v.kind.bitSize = 64 := by rw [h]; rfl
    rw [setScalar_set_uint64 fl v s hk3]
    have hr := hbigU hk3
    have hout2 : ¬ (0 ≤ n ∧ n ≤ 18446744073709551615) := by
      simpa [inRange, isSignedKind, h, Kind.bitSize] using hout
    by_cases hneg : n < 0
    · have h45 : (iFix s).getD 0 0 = 45 := by
        rcases isIntLiteral_cases _ hlit with ⟨ds, heq, _, _⟩ | ⟨hne, hds⟩
        · rw [heq]
          rfl
        · rw [numeric_digits _ hne hds] at hnum
          omega
      rw [hr.1 h45]
      simp [hk3, hneg]
    · have h45 : (iFix s).getD 0 0 ≠ 45 := by
        intro h45
        rcases isIntLiteral_cases _ hlit with ⟨ds, heq, _, _⟩ | ⟨hne, hds⟩
        · rw [heq, numeric_neg] at hnum
          omega
        · obtain ⟨c, cs, hcs⟩ := List.exists_cons_of_ne_nil hne
          have hc := hds c (by rw [hcs]; exact List.mem_cons_self _ _)
          rw [hcs, List.getD_cons_zero] at h45
          omega
      rw [hr.2.2 h45 (by omega)]
      simp [hneg, Err.isOverflow]

/-- C3 (amended) at `"2148M"` into an `int32`: the target is kept and the error
is `Overflow`. -/
theorem C3_out_of_range_fails_witness :
    (setScalar FloatLib.rejecting ⟨.Int32, false, .int 5⟩ (str "2148M")).1 =
      ⟨.Int32, false, .int 5⟩ ∧
    ∃ err, (setScalar FloatLib.rejecting ⟨.Int32, false, .int 5⟩ (str "2148M")).2 = some err ∧
      err.isOverflow = true := by
  have h := C3_out_of_range_fails FloatLib.rejecting ⟨.Int32, false, .int 5⟩ (str "2148M")
    (str "2148") 2148000000 (Or.inl (by decide)) (by decide)
    (Or.inr ⟨77, 6, by decide, by decide, by decide⟩)
    (by simp [inRange, isSignedKind, Kind.bitSize])
  obtain ⟨h1, err, h2, h3⟩ := h
  refine ⟨h1, err, h2, ?_⟩
  simpa using h3

/-- C9, as stated, fails: `set_time` accepts `"2018-03-14 16:20:00 -0000"`, and
the stored time is formatted with the offset `+0000`; it accepts
`"2018-03-14  6:20:00"`, a one-digit hour after two spaces, and the stored time
is formatted with a two-digit hour after one space. -/
theorem C9_counterexample_roundtrip :
    (set_time ⟨.Struct, true, .other⟩ (str "2018-03-14 16:20:00 -0000") =
      (⟨.Struct, true, .time ⟨2018, 3, 14, 16, 20, 0, 0, 0⟩⟩, none) ∧
     Time.Format ⟨2018, 3, 14, 16, 20, 0, 0, 0⟩ (selectedFormat 25) =
      str "2018-03-14 16:20:00 +0000" ∧
     Time.Format ⟨2018, 3, 14, 16, 20, 0, 0, 0⟩ (selectedFormat 25) ≠
      str "2018-03-14 16:20:00 -0000") ∧
    (set_time ⟨.Struct, true, .other⟩ (str "2018-03-14  6:20:00") =
      (⟨.Struct, true, .time ⟨2018, 3, 14, 6, 20, 0, 0, 0⟩⟩, none) ∧
     Time.Format ⟨2018, 3, 14, 6, 20, 0, 0, 0⟩ (selectedFormat 19) =
      str "2018-03-14 06:20:00" ∧
     Time.Format ⟨2018, 3, 14, 6, 20, 0, 0, 0⟩ (selectedFormat 19) ≠
      str "2018-03-14  6:20:00") := by
  decide

theorem selectedFormat_prefixes (n : Nat) :
    ∀ c ∈ (selectedFormat n).chunks, c.1 = [] ∨ c.1 = [45] ∨ c.1 = [58] ∨ c.1 = [32] := by
  unfold selectedFormat
  split <;> decide

theorem set_time_accepts (v : Target) (s : GoString) (t : Time)
    (hacc : set_time v s = ({ v with val := .time t }, none)) :
    timeParse (selectedFormat s.length) s = .ok t := by
  rw [set_time_eq] at hacc
  cases hp : timeParse (selectedFormat s.length) s with
  | error e => simp [hp] at hacc
  | ok t2 =>
    simp only [hp, Target.SetTime, Prod.mk.injEq, Target.mk.injEq, Val.time.injEq,
      true_and, and_true] at hacc
    rw [hacc]

/-- C9, amended: for every string `s` that `set_time` accepts, formatting the
stored time with the format selected for `len(s)` yields `s` again if, and only
if, `s` has no two adjacent spaces and its offset (the last five bytes, in the
two formats that have one) is neither `-0000` nor has `60` for its minutes. -/
theorem C9_roundtrip (v : Target) (s : GoString) (t : Time)
    (hacc : set_time v s = ({ v with val := .time t }, none)) :
    t.Format (selectedFormat s.length) = s ↔
      (noDoubleSpace s = true ∧
        (s.length = 14 ∨ s.length = 25 → plainOffset (offsetText s) = true)) := by
  have hparse := set_time_accepts v s t hacc
  constructor
  · intro hF
    constructor
    · rw [← hF]
      exact format_noDoubleSpace t _ (selectedFormat_prefixes _)
    · intro hlen
      rcases hlen with h14 | h25
      · rw [h14] at hF
        rw [← hF]
        have hsplit : t.Format (selectedFormat 14) =
            (formatStd t .stdHour ++ ([58] ++ formatStd t .stdZeroMinute) ++
              ([58] ++ formatStd t .stdZeroSecond) ++ [32]) ++ formatStd t .stdNumTZ := by
          simp [Time.Format, selectedFormat, format_offset_time, str]
        rw [hsplit]
        exact (formatTZ_plain t _).2
      · rw [h25] at hF
        rw [← hF]
        have hsplit : t.Format (selectedFormat 25) =
            (formatStd t .stdLongYear ++ ([45] ++ formatStd t .stdZeroMonth) ++
              ([45] ++ formatStd t .stdZeroDay) ++ ([32] ++ formatStd t .stdHour) ++
              ([58] ++ formatStd t .stdZeroMinute) ++
              ([58] ++ formatStd t .stdZeroSecond) ++ [32]) ++ formatStd t .stdNumTZ := by
          simp [Time.Format, selectedFormat, format_offset_datetime, str]
        rw [hsplit]
        exact (formatTZ_plain t _).2
  · rintro ⟨hsp, hoff⟩
    by_cases h25 : s.length = 25
    · rw [h25] at hparse ⊢
      exact roundtrip_layout format_offset_datetime s t (by decide) (by decide) (by decide)
        (by rw [h25]; rfl) hparse hsp (fun _ => hoff (Or.inr h25))
    by_cases h19 : s.length = 19
    · rw [h19] at hparse ⊢
      exact roundtrip_layout format_datetime s t (by decide) (by decide) (by decide)
        (by rw [h19]; rfl) hparse hsp (fun h => absurd h (by decide))
    by_cases h14 : s.length = 14
    · rw [h14] at hparse ⊢
      exact roundtrip_layout format_offset_time s t (by decide) (by decide) (by decide)
        (by rw [h14]; rfl) hparse hsp (fun _ => hoff (Or.inl h14))
    by_cases h10 : s.length = 10
    · rw [h10] at hparse ⊢
      exact roundtrip_layout format_date s t (by decide) (by decide) (by decide)
        (by rw [h10]; rfl) hparse hsp (fun h => absurd h (by decide))
    by_cases h8 : s.length = 8
    · rw [h8] at hparse ⊢
      exact roundtrip_layout format_time s t (by decide) (by decide) (by decide)
        (by rw [h8]; rfl) hparse hsp (fun h => absurd h (by decide))
    · have hsel : selectedFormat s.length = format_empty := by
        unfold selectedFormat
        split <;> first | rfl | omega
      rw [hsel] at hparse ⊢
      obtain ⟨st, hp, _⟩ := timeParse_ok _ _ _ hparse
      simp only [format_empty, parseChunks] at hp
      split_ifs at hp with hv
      simp only [ne_eq, List.length_eq_zero, not_not] at hv
      subst hv
      rfl

/-- C9 (amended) at `"2018-03-14 16:20:00 -0800"`: the stored time is formatted
back with its offset. -/
theorem C9_roundtrip_witness :
    Time.Format ⟨2018, 3, 14, 16, 20, 0, 0, -28800⟩ (selectedFormat 25) =
      str "2018-03-14 16:20:00 -0800" :=
  (C9_roundtrip ⟨.Struct, true, .other⟩ (str "2018-03-14 16:20:00 -0800")
    ⟨2018, 3, 14, 16, 20, 0, 0, -28800⟩ (by decide)).mpr ⟨by decide, by decide⟩

/-- C8: `set_time` does not reject the empty string.  Its length selects no
format, `time.Parse` is called with the empty layout, and that accepts the
empty value: no error is returned and the target is overwritten with the time
0000-01-01 00:00:00 UTC.  (Every non-empty value of another length than 8, 10,
14, 19 or 25 is rejected with the target kept: `set_time_other_length`.) -/
theorem C8_set_time_accepts_empty_string :
    set_time ⟨.Struct, true, .time ⟨2018, 3, 14, 16, 20, 0, 0, 0⟩⟩ [] =
      (⟨.Struct, true, .time ⟨0, 1, 1, 0, 0, 0, 0, 0⟩⟩, none) ∧
    setScalar FloatLib.rejecting ⟨.Struct, true, .time ⟨2018, 3, 14, 16, 20, 0, 0, 0⟩⟩ [] =
      (⟨.Struct, true, .time ⟨0, 1, 1, 0, 0, 0, 0, 0⟩⟩, none) := by
  decide

/-! ## The test vectors of decode_test.go on the model -/

theorem test_decode_integers :
    setScalar FloatLib.rejecting ⟨.Int8, false, .int 0⟩ (str "127") =
      (⟨.Int8, false, .int 127⟩, none) ∧
    setScalar FloatLib.rejecting ⟨.Int16, false, .int 0⟩ (str "32767") =
      (⟨.Int16, false, .int 32767⟩, none) ∧
    setScalar FloatLib.rejecting ⟨.Int32, false, .int 0⟩ (str "2147483647") =
      (⟨.Int32, false, .int 2147483647⟩, none) ∧
    setScalar FloatLib.rejecting ⟨.Int, false, .int 0⟩ (str "9223372036854775807") =
      (⟨.Int, false, .int 9223372036854775807⟩, none) ∧
    setScalar FloatLib.rejecting ⟨.Uint8, false, .uint 0⟩ (str "255") =
      (⟨.Uint8, false, .uint 255⟩, none) ∧
    setScalar FloatLib.rejecting ⟨.Uint16, false, .uint 0⟩ (str "65535") =
      (⟨.Uint16, false, .uint 65535⟩, none) ∧
    setScalar FloatLib.rejecting ⟨.Uint32, false, .uint 0⟩ (str "4294967295") =
      (⟨.Uint32, false, .uint 4294967295⟩, none) ∧
    setScalar FloatLib.rejecting ⟨.Uint, false, .uint 0⟩ (str "18446744073709551615") =
      (⟨.Uint, false, .uint 18446744073709551615⟩, none) := by
  decide

theorem test_decode_suffixes :
    (setScalar FloatLib.rejecting ⟨.Int, false, .int 0⟩ (str "1K")).1.val = .int 1000 ∧
    (setScalar FloatLib.rejecting ⟨.Int, false, .int 0⟩ (str "2M")).1.val = .int 2000000 ∧
    (setScalar FloatLib.rejecting ⟨.Int, false, .int 0⟩ (str "3G")).1.val = .int 3000000000 ∧
    (setScalar FloatLib.rejecting ⟨.Int, false, .int 0⟩ (str "1T")).1.val =
      .int 1000000000000 ∧
    (setScalar FloatLib.rejecting ⟨.Int, false, .int 0⟩ (str "4P")).1.val =
      .int 4000000000000000 ∧
    (setScalar FloatLib.rejecting ⟨.Int, false, .int 0⟩ (str "9E")).1.val =
      .int 9000000000000000000 ∧
    (setScalar FloatLib.rejecting ⟨.Int, false, .int 0⟩ (str "9Z")).2 =
      some (.num ⟨"ParseInt", str "9Z", .ErrSyntax⟩) := by
  decide

theorem test_decode_overflow :
    (setScalar FloatLib.rejecting ⟨.Int8, false, .int 0⟩ (str "128")).2 =
      some (.new "Overflow") ∧
    (setScalar FloatLib.rejecting ⟨.Int64, false, .int 0⟩ (str "9223372036854775808")).2 =
      some (.num ⟨"ParseInt", str "9223372036854775808", .ErrRange⟩) ∧
    (setScalar FloatLib.rejecting ⟨.Uint8, false, .uint 0⟩ (str "256")).2 =
      some (.new "Overflow") ∧
    (setScalar FloatLib.rejecting ⟨.Uint64, false, .uint 0⟩ (str "18446744073709551616")).2 =
      some (.num ⟨"ParseUint", str "18446744073709551616", .ErrRange⟩) ∧
    (setScalar FloatLib.rejecting ⟨.Int32, false, .int 0⟩ (str "2148M")).2 =
      some (.new "Overflow") ∧
    (setScalar FloatLib.rejecting ⟨.Uint32, false, .uint 0⟩ (str "4295M")).2 =
      some (.new "Overflow") ∧
    (setScalar FloatLib.rejecting ⟨.Slice, false, .other⟩ (str "1")).2 =
      some (.new "type not allowed: slice") ∧
    (setScalar FloatLib.rejecting ⟨.Struct, false, .other⟩ (str "yuppers")).2 =
      some (.new "type not allowed: struct") ∧
    (setScalar FloatLib.rejecting ⟨.Bool, false, .bool false⟩ (str "yuppers")).2 =
      some (.new "invalid value for bool") := by
  decide

theorem test_decode_times :
    ((timeParse format_offset_datetime (str "2018-03-14 16:20:00 -0800")).toOption.map
      fun t => t.Format format_offset_datetime) = some (str "2018-03-14 16:20:00 -0800") ∧
    ((timeParse format_datetime (str "2018-03-14 16:20:00")).toOption.map
      fun t => t.Format format_datetime) = some (str "2018-03-14 16:20:00") ∧
    ((timeParse format_offset_time (str "16:20:00 -0800")).toOption.map
      fun t => t.Format format_offset_time) = some (str "16:20:00 -0800") ∧
    ((timeParse format_date (str "2018-03-14")).toOption.map
      fun t => t.Format format_date) = some (str "2018-03-14") ∧
    ((timeParse format_time (str "16:20:00")).toOption.map
      fun t => t.Format format_time) = some (str "16:20:00") ∧
    (set_time ⟨.Struct, true, .other⟩ (str "2017-01-1")).2 =
      some (.timeParse [] (str "2017-01-1")) := by
  decide

/-! ## The claims on the decoder as a whole and on option.go -/

/-- C11 (decoder atomicity): for every target and every input string,
`setScalar` either returns no error and stores a value of the target's type in
the target, or returns an error and leaves the target as it was. -/
theorem C11_setScalar_atomic (fl : FloatLib) (v1 : Target) (val : GoString) :
    ((setScalar fl v1 val).2 = none ∧
        ∃ x, holdsValueOf v1 x = true ∧ (setScalar fl v1 val).1 = { v1 with val := x }) ∨
      ((setScalar fl v1 val).2 ≠ none ∧ (setScalar fl v1 val).1 = v1) := by
  have key : Atomic v1 (setScalar fl v1 val) (fun x => holdsValueOf v1 x = true) := by
    rcases v1 with ⟨k, t, x⟩
    cases k
    case Bool =>
      exact (set_bool_atomic ⟨.Bool, t, x⟩ val).mono (by rintro y ⟨b, rfl⟩; simp [holdsValueOf])
    case String =>
      exact Or.inl ⟨rfl, .string val, by simp [holdsValueOf], rfl⟩
    case Struct =>
      cases t
      · exact Or.inr ⟨by simp [setScalar], by simp [setScalar]⟩
      · exact (set_time_atomic ⟨.Struct, true, x⟩ val).mono
          (by rintro y ⟨b, rfl⟩; simp [holdsValueOf])
    case Int8 | Int16 | Int32 =>
      exact (set_int_atomic _ val).mono
          (by rintro y ⟨b, rfl⟩; simp [holdsValueOf, isSignedKind])
    case Int64 | Int =>
      exact (set_int64_atomic _ val).mono
          (by rintro y ⟨b, rfl⟩; simp [holdsValueOf, isSignedKind])
    case Uint8 | Uint16 | Uint32 =>
      exact (set_uint_atomic _ val).mono
          (by rintro y ⟨b, rfl⟩; simp [holdsValueOf, isUnsignedKind])
    case Uint64 | Uint =>
      exact (set_uint64_atomic _ val).mono
          (by rintro y ⟨b, rfl⟩; simp [holdsValueOf, isUnsignedKind])
    case Float32 | Float64 =>
      exact (set_float_atomic fl _ val).mono
          (by rintro y ⟨b, rfl⟩; simp [holdsValueOf])
    all_goals exact Or.inr ⟨by simp [setScalar], by simp [setScalar]⟩
  exact key

/-- C12 (long-key derivation): for every ASCII field name `s`, `camelToSnake s`
is `s` lower-cased with one `_` put exactly before each uppercase letter that
immediately follows a lowercase letter; no `_` is put next to an existing one
(a name without two adjacent `_` gives a result without two adjacent `_`); and
the long key that `autoKeys` derives (its second statement) is that string
with every `_` replaced by `-`: the long key returned is this string or empty,
and it is this string when the name has two bytes or more and the string is
not in the key registry. -/
theorem C12_long_key_derivation (s : GoString) (h : ∀ c ∈ s, c < 128) :
    camelToSnake s = snakeOf false s ∧
      (noDoubleUnderscore s → noDoubleUnderscore (camelToSnake s)) ∧
      derivedLongKey s = hyphenated (snakeOf false s) ∧
      ∀ o : option, s ≠ [] →
        ∃ o1 u g, o.autoKeys s = .ok (o1, u, g) ∧
          (g = hyphenated (snakeOf false s) ∨ g = []) ∧
          (2 ≤ s.length → o.unused (hyphenated (snakeOf false s)) = true →
            g = hyphenated (snakeOf false s)) := by
  refine ⟨camelToSnake_eq_snakeOf s h, ?_, derivedLongKey_ascii s h, ?_⟩
  · intro hs
    rw [camelToSnake_eq_snakeOf s h]
    exact noDoubleUnderscore_snakeOf s false hs
  · intro o hne
    refine ⟨_, _, _, autoKeys_spec o s hne, ?_, ?_⟩
    · simp only [autoLong, derivedLongKey_ascii s h]
      split_ifs
      · exact Or.inl rfl
      · exact Or.inr rfl
    · intro hlen hun
      have h1 := derivedLongKey_length s
      have h2 := autoShort_length o s
      have hne2 : derivedLongKey s ≠ autoShort o s := by
        intro e
        rw [e] at h1
        omega
      rw [derivedLongKey_ascii s h] at hne2
      simp only [autoLong, derivedLongKey_ascii s h]
      rw [if_pos ⟨hun, hne2⟩]

/-- Witness of C12: the field name `CupOf_Tea` of the tests. -/
theorem C12_long_key_derivation_witness :
    camelToSnake (str "CupOf_Tea") = str "cup_of_tea" ∧
      derivedLongKey (str "CupOf_Tea") = str "cup-of-tea" ∧
      ∃ o1 u, option.init.autoKeys (str "CupOf_Tea") = .ok (o1, u, str "cup-of-tea") := by
  have hascii : ∀ c ∈ str "CupOf_Tea", c < 128 := by decide
  obtain ⟨h1, _, h2, h3⟩ := C12_long_key_derivation (str "CupOf_Tea") hascii
  have hv : hyphenated (snakeOf false (str "CupOf_Tea")) = str "cup-of-tea" := by decide
  refine ⟨by rw [h1]; decide, by rw [h2, hv], ?_⟩
  obtain ⟨o1, u, g, hk, _, hg⟩ := h3 option.init (by decide)
  refine ⟨o1, u, ?_⟩
  rw [hk, hg (by decide) (by decide), hv]

/-- C13 (digit runs): evaluation of `camelToSnake` on the example of its
comment.  No `_` is put before or after the digit: the result is `this2that`,
where the comment and the claim give `this_2_that`. -/
theorem C13_camelToSnake_no_separator_at_digits :
    camelToSnake (str "This2That") = str "this2that" ∧
      camelToSnake (str "This2That") ≠ str "this_2_that" := by
  decide

/-- C14, counterexample: for the one-letter field name `A` and the empty key
registry the derived long key `a` is unused, yet `autoKeys` returns the empty
long key: it has just given `a` out as the short key of the same field. -/
theorem C14_counterexample_one_letter_name :
    option.init.unused (derivedLongKey (str "A")) = true ∧
      derivedLongKey (str "A") = str "a" ∧
      option.init.autoKeys (str "A") =
        .ok ({ option.init with keys := [(str "a", true)] }, str "a", []) :=
  ⟨by decide, by decide, rfl⟩

/-- C14 (auto-derivation), amended: for every field name and every key
registry `autoKeys` returns, without panic, as short key the lowercase first
letter if unused, else the uppercase first letter if unused, else the empty
string; and as long key the derived hyphenated name if it is unused and is not
the short key just given to the field, else the empty string; the keys given
are stored in the registry.  So three fields starting with the same uppercase
letter `c`, neither case of which is in use, get the short keys lowercase `c`,
`c` and none. -/
theorem C14_autoKeys (o : option) (name : GoString) (hname : name ≠ []) :
    o.autoKeys name = .ok
        ({ o with keys := (o.keys.register (autoShort o name)).register (autoLong o name) },
          autoShort o name, autoLong o name) ∧
      ∀ c r1 r2 r3, name = c :: r1 → 65 ≤ c → c ≤ 90 →
        o.unused [c + 32] = true → o.unused [c] = true →
        ∃ o1 o2 o3 g1 g2 g3, o.autoKeys (c :: r1) = .ok (o1, [c + 32], g1) ∧
          o1.autoKeys (c :: r2) = .ok (o2, [c], g2) ∧
          o2.autoKeys (c :: r3) = .ok (o3, [], g3) := by
  refine ⟨autoKeys_spec o name hname, ?_⟩
  intro c r1 r2 r3 _ h1 h2 hlo hup
  have hlow : ∀ r, asciiLower ((c :: r).take 1) = [c + 32] := by
    intro r; simp [asciiLower, h1, h2]
  have hupp : ∀ r, asciiUpper ((c :: r).take 1) = [c] := by
    intro r
    simp only [asciiUpper, List.take_succ_cons, List.take_zero, List.map_cons, List.map_nil]
    rw [if_neg (by omega)]
  have hs1 : autoShort o (c :: r1) = [c + 32] := by
    simp only [autoShort, hlow, hlo, if_true]
  have e1 := autoKeys_spec o (c :: r1) (by simp)
  rw [hs1] at e1
  generalize hk1 : (o.keys.register [c + 32]).register (autoLong o (c :: r1)) = k1 at e1
  generalize ho1 : ({ o with keys := k1 } : option) = o1 at e1
  subst hk1
  have h1lo : o1.unused [c + 32] = false := by
    rw [← ho1]
    exact unused_register_of_false { o with keys := o.keys.register [c + 32] } _ _
      (unused_register_self o _ (by simp))
  have h1up : o1.unused [c] = true := by
    rw [← ho1]
    have h3 := unused_register { o with keys := o.keys.register [c + 32] }
      (autoLong o (c :: r1)) [c]
    have h4 := unused_register o [c + 32] [c]
    have hx : [c] ≠ autoLong o (c :: r1) := fun e => autoLong_ne_upper o _ c h1 h2 e.symm
    rw [hup] at h4
    simp only [List.cons.injEq, and_true, self_eq_add_right, OfNat.ofNat_ne_zero,
      decide_False, Bool.and_false, Bool.not_false, Bool.and_self] at h4
    rw [h4] at h3
    simp only [hx, decide_False, Bool.and_false, Bool.not_false, Bool.and_self] at h3
    exact h3
  have hs2 : autoShort o1 (c :: r2) = [c] := by
    simp only [autoShort, hlow, hupp, h1lo, h1up, if_true, Bool.false_eq_true, if_false]
  have e2 := autoKeys_spec o1 (c :: r2) (by simp)
  rw [hs2] at e2
  generalize hk2 : (o1.keys.register [c]).register (autoLong o1 (c :: r2)) = k2 at e2
  generalize ho2 : ({ o1 with keys := k2 } : option) = o2 at e2
  subst hk2
  have h2lo : o2.unused [c + 32] = false := by
    rw [← ho2]
    exact unused_register_of_false { o1 with keys := o1.keys.register [c] } _ _
      (unused_register_of_false o1 _ _ h1lo)
  have h2up : o2.unused [c] = false := by
    rw [← ho2]
    exact unused_register_of_false { o1 with keys := o1.keys.register [c] } _ _
      (unused_register_self o1 _ (by simp))
  have hs3 : autoShort o2 (c :: r3) = [] := by
    simp only [autoShort, hlow, hupp, h2lo, h2up, Bool.false_eq_true, if_false]
  have e3 := autoKeys_spec o2 (c :: r3) (by simp)
  rw [hs3] at e3
  exact ⟨_, _, _, _, _, _, e1, e2, e3⟩

/-- Witness of C14: the fields `Towel`, `Tarantula` and `Turnbuckle` of the
tests get the short keys `t`, `T` and none. -/
theorem C14_autoKeys_witness :
    ∃ o1 o2 o3 g1 g2 g3, option.init.autoKeys (str "Towel") = .ok (o1, str "t", g1) ∧
      o1.autoKeys (str "Tarantula") = .ok (o2, str "T", g2) ∧
      o2.autoKeys (str "Turnbuckle") = .ok (o3, [], g3) :=
  (C14_autoKeys option.init (str "Towel") (by decide)).2 84 (str "owel") (str "arantula")
    (str "urnbuckle") (by decide) (by decide) (by decide) (by decide) (by decide)

/-- C16 (tag interpretation): a tag is read by position on at most four
segments separated by `:`.  A tag of one segment is the help text, the keys
being those of `autoKeys`; for a tag of two to four segments whatever
`createKeyNames` returns is what the positions say (`key:help` with the key
short when it is one byte long and long otherwise, the other key empty, so
that a key that is not empty gives the field exactly one key;
`short:long:help`; `short:long:placeholder:help`), and it does return that
unless the tag is fatal; the placeholder is the name of the field type unless
the tag has a placeholder segment. -/
theorem C16_tag_interpretation (o : option) (name typ : GoString) (segs : List GoString)
    (hname : name ≠ []) (hsegs : tagSegments segs) :
    (∀ h, segs = [h] →
        ∃ o1 u g, o.autoKeys name = .ok (o1, u, g) ∧
          o.createKeyNames name typ (joinColon segs) = .ok (o1, ⟨u, g, typ, h⟩)) ∧
      (2 ≤ segs.length →
        (∀ o1 kn, o.createKeyNames name typ (joinColon segs) = .ok (o1, kn) →
          kn = tagKeyNames typ segs) ∧
        (¬ tagIsFatal o segs →
          ∃ o1, o.createKeyNames name typ (joinColon segs) = .ok (o1, tagKeyNames typ segs)) ∧
        (segs.length < 4 → (tagKeyNames typ segs).placeholder = typ) ∧
        (∀ k h, segs = [k, h] → k ≠ [] →
          (k.length = 1 ∧ (tagKeyNames typ segs).u_key = k ∧
              (tagKeyNames typ segs).gnu_key = []) ∨
            (k.length ≠ 1 ∧ (tagKeyNames typ segs).u_key = [] ∧
              (tagKeyNames typ segs).gnu_key = k))) := by
  constructor
  · intro h hs
    subst hs
    exact ⟨_, _, _, autoKeys_spec o name hname, createKeyNames_one o name typ h hname hsegs⟩
  · intro hlen
    obtain ⟨h1, h2⟩ := createKeyNames_explicit o name typ segs hsegs hlen
    refine ⟨?_, ?_, ?_, ?_⟩
    · intro o1 kn hk
      by_cases hf : tagIsFatal o segs
      · obtain ⟨p, hp⟩ := h1 hf
        rw [hp] at hk
        cases hk
      · rw [h2 hf] at hk
        simp only [Except.ok.injEq, Prod.mk.injEq] at hk
        exact hk.2.symm
    · intro hf
      exact ⟨_, h2 hf⟩
    · intro h4
      match segs, hsegs, hlen, h4 with
      | [k, h], _, _, _ =>
        simp only [tagKeyNames]
        split_ifs <;> rfl
      | [s, l, h], _, _, _ => rfl
    · intro k h hs _
      subst hs
      simp only [tagKeyNames]
      by_cases hk : k.length = 1
      · left; simp [hk]
      · right; simp [hk]

/-- Witness of C16: the tag `a:ask:question:Ask a question` of the examples,
on the empty registry. -/
theorem C16_tag_interpretation_witness :
    ∃ o1, option.init.createKeyNames (str "Ask") (str "string")
        (str "a:ask:question:Ask a question") =
      .ok (o1, ⟨str "a", str "ask", str "question", str "Ask a question"⟩) :=
  ((C16_tag_interpretation option.init (str "Ask") (str "string")
    [str "a", str "ask", str "question", str "Ask a question"] (by decide)
    ⟨by decide, by decide, by decide⟩).2 (by decide)).2.1
    (by simp only [tagIsFatal, keysCollide]; decide)

/-- C17 (fatal tags): `createKeyNames` panics if and only if the tag has three
or four segments and its short-key segment is longer than one character, or an
explicit key that is not empty is already in the key registry (put there for
an earlier field, or for the short key of the same tag); with a tag of one
segment, the keys being derived automatically, it never panics. -/
theorem C17_fatal_tags (o : option) (name typ : GoString) (segs : List GoString)
    (hname : name ≠ []) (hsegs : tagSegments segs) :
    (∃ p, o.createKeyNames name typ (joinColon segs) = .error p) ↔ tagIsFatal o segs := by
  by_cases hlen : 2 ≤ segs.length
  · obtain ⟨h1, h2⟩ := createKeyNames_explicit o name typ segs hsegs hlen
    constructor
    · rintro ⟨p, hp⟩
      by_contra hf
      rw [h2 hf] at hp
      cases hp
    · exact h1
  · match segs, hsegs, hlen with
    | [h], hsegs, _ =>
      simp only [joinColon, createKeyNames_one o name typ h hname hsegs, tagIsFatal]
      simp
    | _ :: _ :: _, _, hlen => exact absurd (by simp) hlen

/-- Witness of C17: the second field of the test "Given a duplicate key" (tag
`a:A flag`, the key `a` being in use) makes `createKeyNames` panic. -/
theorem C17_fatal_tags_witness :
    ∃ p, option.createKeyNames { option.init with keys := [(str "a", true)] } (str "B")
      (str "int") (str "a:A flag") = .error p :=
  (C17_fatal_tags { option.init with keys := [(str "a", true)] } (str "B") (str "int")
    [str "a", str "A flag"] (by decide) ⟨by decide, by decide⟩).2
    (by simp only [tagIsFatal]; decide)

/-- C15 (key uniqueness): for every record on which `genoptionList` completes
without panic, the short and long keys of all field descriptors that are not
empty are pairwise distinct: no two fields share a key, and no short key of a
field equals a long key of any field, its own included. -/
theorem C15_keys_pairwise_distinct (v : List StructField) (o1 : option)
    (h : option.init.genoptionList v = .ok o1) : (descriptorKeys o1.optionList).Nodup :=
  (KeysInvariant_loop v option.init o1
    ⟨by simp [descriptorKeys, option.init], by simp [descriptorKeys, option.init]⟩ h).1

/-- Witness of C15: the three boolean fields `Towel`, `Tarantula` and
`Turnbuckle` of the tests; the keys are `t`, `towel`, `T`, `tarantula` and
`turnbuckle`. -/
theorem C15_keys_pairwise_distinct_witness :
    ∃ o1, option.init.genoptionList recordFlags = .ok o1 ∧
      descriptorKeys o1.optionList =
        [str "t", str "towel", str "T", str "tarantula", str "turnbuckle"] ∧
      (descriptorKeys o1.optionList).Nodup :=
  ⟨_, rfl, by decide, C15_keys_pairwise_distinct recordFlags _ rfl⟩

/-- C18, counterexample: both fields of the record of the test "Given a
duplicate key" are scalar and exported, yet `genoptionList` panics and produces
no descriptor. -/
theorem C18_counterexample_duplicate_key :
    (∀ f ∈ recordDuplicateKey, admissible f) ∧
      option.init.genoptionList recordDuplicateKey =
        .error (.msg (str "key already used (a)")) := by
  refine ⟨?_, rfl⟩
  intro f hf
  simp only [recordDuplicateKey, List.mem_cons, List.mem_singleton, List.not_mem_nil,
    or_false] at hf
  rcases hf with rfl | rfl <;> exact ⟨by decide, by decide⟩

/-- C18 (field admissibility), amended.  For every record given to `New` as its
first argument: if some field has a type that is not scalar or a name that is
not exported, `genoptionList` panics and so does `New`; the message names the
first such field, unless the tag of a field before it has caused a panic
already.  `genoptionList` completes if and only if every field is scalar and
exported and no tag is fatal when the loop reaches its field, in particular
when no tag has explicit keys; there is then exactly one descriptor per field,
in declaration order, and `New` called with the record returns with one
descriptor per field in that order. -/
theorem C18_field_admissibility (fl : FloatLib) (osArgs : List GoString)
    (v : List StructField) (more : List NewArg) :
    ((∃ f ∈ v, ¬ admissible f) →
      (∃ p, option.init.genoptionList v = .error p) ∧
        ∃ p, New fl osArgs (.pointer (.record v) :: more) = .error p) ∧
    (∀ pre f post o1, v = pre ++ f :: post → ¬ admissible f → f.Name ≠ [] →
      option.init.genoptionList pre = .ok o1 →
      option.init.genoptionList v = .error (.msg (rejection f)) ∧
        (osArgs ≠ [] → more.length ≤ 1 → (∀ a ∈ more, a ≠ .nonPointer) →
          New fl osArgs (.pointer (.record v) :: more) = .error (.msg (rejection f)))) ∧
    ((∃ o1, option.init.genoptionList v = .ok o1) ↔
      (∀ f ∈ v, admissible f) ∧
        ∀ pre f post o1, v = pre ++ f :: post → option.init.genoptionList pre = .ok o1 →
          ¬ fatalTag o1 f) ∧
    ((∀ f ∈ v, admissible f ∧ 58 ∉ f.Tag) → ∃ o1, option.init.genoptionList v = .ok o1) ∧
    ∀ o1, option.init.genoptionList v = .ok o1 →
      (∀ f ∈ v, admissible f) ∧ o1.optionList.map opt.origin = v.map StructField.origin ∧
        (osArgs ≠ [] → ∃ o r, New fl osArgs [.pointer (.record v)] = .ok (o, r) ∧
          o.optionList.map (fun d => (d.name, d.typ)) = v.map fun f => (f.Name, f.typ)) := by
  have hrej : ∀ pre f post o1, v = pre ++ f :: post → ¬ admissible f → f.Name ≠ [] →
      option.init.genoptionList pre = .ok o1 →
      option.init.genoptionList v = .error (.msg (rejection f)) := by
    intro pre f post o1 hv hf hname hpre
    subst hv
    simp only [option.genoptionList] at hpre ⊢
    rw [genoptionListLoop_append pre (f :: post) _ _ hpre]
    exact genoptionListLoop_reject f post o1 hf hname
  refine ⟨fun h => ?_, fun pre f post o1 hv hf hname hpre => ?_,
    genoptionListLoop_completes_iff v option.init, genoptionListLoop_completes v _,
    fun o1 h => ?_⟩
  · obtain ⟨p, hp⟩ := genoptionListLoop_panics v option.init h
    refine ⟨⟨p, hp⟩, New_record_panic fl osArgs v more p ?_⟩
    simp only [descriptors]
    rw [show option.init.genoptionList v = .error p from hp]
  · have hg := hrej pre f post o1 hv hf hname hpre
    exact ⟨hg, fun hargs hmore hptr =>
      New_record_panic_exact fl osArgs v more _ hargs hmore hptr hg⟩
  · have hdesc := genoptionListLoop_descriptors v option.init o1 h
    refine ⟨hdesc.1, by simpa [option.init] using hdesc.2, fun hargs => ?_⟩
    exact New_record_returns fl osArgs v o1 hargs h

/-- The test "Given option struct with disallowed data types" of
option_test.go: `New` panics for the field `Words []string` and for the field
`pvt string`, with the message that names the field. -/
theorem test_New_disallowed_fields :
    New FloatLib.rejecting [str "cmd"]
        [.pointer (.record [⟨str "Words", [], str "[]string", ⟨.Slice, false, .other⟩⟩])] =
        .error (.msg (str "type slice not allowed (Words)")) ∧
      New FloatLib.rejecting [str "cmd"]
        [.pointer (.record [⟨str "pvt", [], str "string", ⟨.String, false, .string []⟩⟩])] =
        .error (.msg (str "private field not allowed (pvt)")) :=
  ⟨rfl, rfl⟩

/-- C19 (rule 1 of the tokenizer): evaluation of `parse` on `--word=value`
followed by the plain word `foo`.  The branch for `--word=value` leaves the key
`word` pending, so `foo` is not a positional event: it replaces the value
`value` of the event of `word`. -/
theorem C19_assignment_leaves_key_pending :
    parseArg option.init [] (str "--word=value") =
        .ok ({ option.init with
          vdata := [vst.mk (str "word") (str "value") typ_uoption]
          vmap := [(str "word", 0)] }, str "word") ∧
      option.init.parse [str "cmd", str "--word=value", str "foo"] =
        .ok { option.init with
          vdata := [vst.mk (str "word") (str "foo") typ_uoption]
          vmap := [(str "word", 0)] } :=
  ⟨rfl, rfl⟩

/-- C20 (ganged flags): for every string of ASCII letters `c1..cn` that is not
empty and every list `rest` of further arguments, the arguments `-c1..cn`
followed by `rest` are tokenized like `-c1`, ..., `-cn` followed by `rest`:
both runs return the same object.  The ganged argument appends one event for
each letter, in order and without a value, and leaves only the last letter
pending; so a plain word that follows becomes the value of the event of the
last letter, the events of the other letters staying without a value. -/
theorem C20_ganged_flags (o : option) (cmd cs : GoString) (rest : List GoString)
    (hne : cs ≠ []) (hletters : ∀ c ∈ cs, isAsciiLetter c = true) :
    (∃ o1, o.parse (cmd :: (45 :: cs) :: rest) = .ok o1 ∧
        o.parse (cmd :: (separateFlags cs ++ rest)) = .ok o1) ∧
      (∀ lastkey, ∃ o1, parseArg o lastkey (45 :: cs) = .ok (o1, [cs.getLast hne]) ∧
        o1.vdata = o.vdata ++ flagEvents cs) ∧
      ∀ lastkey w, w.head? ≠ some 45 →
        ∃ o1 o2, parseArg o lastkey (45 :: cs) = .ok (o1, [cs.getLast hne]) ∧
          parseArg o1 [cs.getLast hne] w = .ok (o2, []) ∧
          o2.vdata = o.vdata ++ flagEvents cs.dropLast ++
            [vst.mk [cs.getLast hne] (stringsTrim w qt) 0] := by
  have hgang : ∀ lastkey, ∃ o1, parseArg o lastkey (45 :: cs) = .ok (o1, [cs.getLast hne]) ∧
      o1.vdata = o.vdata ++ flagEvents cs := by
    intro lastkey
    obtain ⟨c, cs1, rfl⟩ := List.exists_cons_of_ne_nil hne
    obtain ⟨h1, h2⟩ := parseFlags_events (c :: cs1) o lastkey
    refine ⟨(parseFlags (c :: cs1) o lastkey).1, ?_, h1⟩
    rw [parseArg_flag o lastkey c cs1 hletters]
    have h3 : (parseFlags (c :: cs1) o lastkey).2 = [(c :: cs1).getLast hne] := by
      rw [h2, List.getLast?_eq_getLast _ hne]
      rfl
    rw [← h3]
  refine ⟨?_, hgang, ?_⟩
  · obtain ⟨c, cs1, rfl⟩ := List.exists_cons_of_ne_nil hne
    obtain ⟨o1, h1⟩ := parse_total o (cmd :: (45 :: c :: cs1) :: rest)
    refine ⟨o1, h1, ?_⟩
    rw [← h1, parse_cons, parse_cons,
      parseLoop_ok _ _ _ _ _ _ _ (parseArg_flag o [] c cs1 hletters),
      parseLoop_separateFlags (c :: cs1) rest 0 o [] hletters]
    exact parseLoop_index rest 0 1 _ _
  · intro lastkey w hw
    obtain ⟨o1, h1, h2⟩ := hgang lastkey
    have hsplit : flagEvents cs = flagEvents cs.dropLast ++ [vst.mk [cs.getLast hne] [] 0] := by
      conv_lhs => rw [← List.dropLast_append_getLast hne]
      simp [flagEvents]
    have hv : o1.vdata = (o.vdata ++ flagEvents cs.dropLast) ++ [vst.mk [cs.getLast hne] [] 0] := by
      rw [h2, hsplit, List.append_assoc]
    exact ⟨o1, _, h1,
      by rw [parseArg_plain o1 _ w hw, parseValue_pending o1 _ w _ _ (by simp) hv], rfl⟩

/-- Witness of C20: `-tcp Vogon` of the tests is tokenized like
`-t -c -p Vogon`: three events, the value `Vogon` being that of `p`. -/
theorem C20_ganged_flags_witness :
    (∃ o1, option.init.parse [str "cmd", str "-tcp", str "Vogon"] = .ok o1 ∧
        option.init.parse [str "cmd", str "-t", str "-c", str "-p", str "Vogon"] = .ok o1) ∧
      option.init.parse [str "cmd", str "-tcp", str "Vogon"] =
        .ok { option.init with
          vdata := [vst.mk (str "t") [] 0, vst.mk (str "c") [] 0, vst.mk (str "p") (str "Vogon") 0]
          vmap := [(str "t", 0), (str "c", 1), (str "p", 2)] } :=
  ⟨(C20_ganged_flags option.init (str "cmd") (str "tcp") [str "Vogon"] (by decide)
    (by decide)).1, rfl⟩

/-! ## The test vectors of option_test.go and help_test.go on the model -/

/-- The three conversions that Test_misc asserts. -/
theorem test_camelToSnake :
    camelToSnake (str "TeaCup") = str "tea_cup" ∧
      camelToSnake (str "CupOfTea") = str "cup_of_tea" ∧
      camelToSnake (str "CupOf_Tea") = str "cup_of_tea" := by
  decide

/-- The two records of TestNew that make `New` panic: a slice field and a
field that is not exported. -/
theorem test_genoptionList_panics :
    option.init.genoptionList [⟨str "Words", [], str "[]string", ⟨.Slice, false, .other⟩⟩] =
        .error (.msg (str "type slice not allowed (Words)")) ∧
      option.init.genoptionList [⟨str "pvt", [], str "string", ⟨.String, false, .string []⟩⟩] =
        .error (.msg (str "private field not allowed (pvt)")) :=
  ⟨rfl, rfl⟩

/-- The tags of TestHelp and of the examples: no tag, help only, `key:help`
with a short and with a long key, three and four segments. -/
theorem test_createKeyNames :
    option.init.createKeyNames (str "A") (str "string") [] =
        .ok (option.init.withKeys (str "a") [], ⟨str "a", [], str "string", []⟩) ∧
      option.init.createKeyNames (str "A") (str "string") (str "Ask a question") =
        .ok (option.init.withKeys (str "a") [],
          ⟨str "a", [], str "string", str "Ask a question"⟩) ∧
      option.init.createKeyNames (str "A") (str "string") (str "A:Ask a question") =
        .ok (option.init.withKeys (str "A") [],
          ⟨str "A", [], str "string", str "Ask a question"⟩) ∧
      option.init.createKeyNames (str "Translate") (str "bool")
          (str "translate:Enable translation") =
        .ok (option.init.withKeys [] (str "translate"),
          ⟨[], str "translate", str "bool", str "Enable translation"⟩) ∧
      option.init.createKeyNames (str "A") (str "string") (str "A:ask:Ask a question") =
        .ok (option.init.withKeys (str "A") (str "ask"),
          ⟨str "A", str "ask", str "string", str "Ask a question"⟩) ∧
      option.init.createKeyNames (str "Ask") (str "string")
          (str "a:ask:question:Ask a question") =
        .ok (option.init.withKeys (str "a") (str "ask"),
          ⟨str "a", str "ask", str "question", str "Ask a question"⟩) :=
  ⟨rfl, rfl, rfl, rfl, rfl, rfl⟩

/-- The tags of the tests "Given invalid key names in tag" and "Given duplicate
gnu keys" make `genoptionList` panic. -/
theorem test_fatal_tags :
    option.init.genoptionList
        [⟨str "A", str "ask:a:Ask a question", str "string", ⟨.String, false, .string []⟩⟩] =
        .error (.msg (str "unix tyle flag should be a single character")) ∧
      option.init.genoptionList
        [⟨str "A", str "ask:a:question:Ask a question", str "string",
          ⟨.String, false, .string []⟩⟩] =
        .error (.msg (str "unix tyle flag should be a single character")) ∧
      option.init.genoptionList
        [⟨str "A", str "ask:Ask a question", str "string", ⟨.String, false, .string []⟩⟩,
          ⟨str "B", str "ask:Duplicate", str "string", ⟨.String, false, .string []⟩⟩] =
        .error (.msg (str "key already used (ask)")) :=
  ⟨rfl, rfl, rfl⟩

/-- The arguments of the test "Given undefined options": four events, the keys
`more`, `x`, `y` and `z`. -/
theorem test_parse_undefined_options :
    option.init.parse [str "cmd", str "--more=beer", str "-x", str "-yz"] =
      .ok { option.init with
        vdata := [vst.mk (str "more") (str "beer") typ_uoption, vst.mk (str "x") [] 0,
          vst.mk (str "y") [] 0, vst.mk (str "z") [] 0]
        vmap := [(str "more", 0), (str "x", 1), (str "y", 2), (str "z", 3)] } :=
  rfl

/-! ## The claims on the binding of options and on the leftover arguments -/

/-- C22, counterexample: an unpaired leading quote and the inner quotes of a
doubly quoted argument are not preserved: `"abc` is stored as `abc` and
`""a""` as `a`. -/
theorem C22_counterexample_unpaired_quote :
    stringsTrim (str "\"abc") qt = str "abc" ∧ stripOnePair (str "\"abc") = str "\"abc" ∧
      stringsTrim (str "\"\"a\"\"") qt = str "a" ∧ stripOnePair (str "\"\"a\"\"") = str "\"a\"" ∧
      option.init.parse [str "cmd", str "\"abc"] =
        .ok { option.init with vdata := [vst.mk [] (str "abc") typ_arg] } :=
  ⟨by decide, by decide, by decide, by decide, rfl⟩

/-- C22 (quote stripping), amended: every value and every bare argument is
stored without any of its leading and any of its trailing double quotes,
paired or not, and is otherwise kept: a string written as a run of quotes, a
part `m` that neither starts nor ends with a quote, and a run of quotes is
stored as `m` (quotes inside `m` are preserved), and every string is written so.
This holds for a bare argument, for the value of a pending key and for the
value of `--word=value`. -/
theorem C22_quote_stripping (a : GoString) :
    (∃ i j m, noOuterQuote m ∧ a = List.replicate i 34 ++ m ++ List.replicate j 34 ∧
        stringsTrim a qt = m) ∧
      (noOuterQuote a → stringsTrim a qt = a) ∧
      (∀ o : option, a.head? ≠ some 45 →
        parseArg o [] a =
          .ok ({ o with vdata := o.vdata ++ [vst.mk [] (stringsTrim a qt) typ_arg] }, [])) ∧
      (∀ (o : option) (lastkey : GoString) (xs : List vst) (x : vst), a.head? ≠ some 45 →
        lastkey ≠ [] → o.vdata = xs ++ [x] →
        parseArg o lastkey a =
          .ok ({ o with vdata := xs ++ [{ x with val := stringsTrim a qt }] }, [])) ∧
      (∀ (o : option) (lastkey arg key : GoString), rx_gnuKeywordAssign arg = some (key, a) →
        ∃ o1, parseArg o lastkey arg = .ok (o1, key) ∧
          o1.vdata = o.vdata ++ [vst.mk key (stringsTrim a qt) typ_uoption]) := by
  refine ⟨?_, ?_, ?_, ?_, ?_⟩
  · obtain ⟨i, j, m, hm, ha⟩ := quotes_decompose a
    refine ⟨i, j, m, hm, ha, ?_⟩
    rw [ha]
    exact stringsTrim_spec i j m hm
  · intro h
    have := stringsTrim_spec 0 0 a h
    simpa using this
  · intro o h
    rw [parseArg_plain o [] a h, parseValue_positional]
  · intro o lastkey xs x h hl hv
    rw [parseArg_plain o lastkey a h, parseValue_pending o lastkey a xs x hl hv]
  · intro o lastkey arg key h
    exact ⟨_, parseArg_assign o lastkey arg key a h, rfl⟩

/-- C25 (claimed options and the leftover pool): evaluation of `New` on
`--towel=true` with a record of one boolean field `Towel` and a string slice.
The field is set from the inline value `true`, and the same value is written to
the slice as a leftover argument. -/
theorem C25_inline_value_of_bool_is_leftover :
    ∃ o, New FloatLib.rejecting [str "cmd", str "--towel=true"]
        [.pointer (.record [field "Towel" "bool" boolVar]), .pointer (.slice 0 [] stringVar)] =
        .ok (o, none) ∧
      o.fields = [.bool true] ∧
      o.argSliceRef = .slice 1 [stringOf (str "true")] stringVar :=
  ⟨_, rfl, rfl, rfl⟩

/-- C29 (capacity with a record): evaluation of `New` on the two arguments
`Arthur` and `Towel` with a record of one field and a container of capacity 1.
With the array `[1]string` `New` panics on the index 1, with the panic of
`Index` of package reflect; with a slice of capacity 1 it returns no error and
writes both arguments. -/
theorem C29_capacity_not_enforced_with_record :
    New FloatLib.rejecting [str "cmd", str "Arthur", str "Towel"]
        [.pointer (.record [field "Answer" "int" intVar]), .pointer (.array [stringVar])] =
        .error (.msg (str "reflect: array index out of range")) ∧
      ∃ o, New FloatLib.rejecting [str "cmd", str "Arthur", str "Towel"]
          [.pointer (.record [field "Answer" "int" intVar]), .pointer (.slice 1 [] stringVar)] =
          .ok (o, none) ∧
        o.argSliceRef = .slice 2 [stringOf (str "Arthur"), stringOf (str "Towel")] stringVar :=
  ⟨rfl, _, rfl, rfl⟩

/-- C30, counterexample: the test "Given an enpty option" of option_test.go, no
argument at all for a record and an array `[1]int`, and one argument for an
array `[2]string` alone: `New` returns no error. -/
theorem C30_counterexample_fewer_arguments :
    (∃ o, New FloatLib.rejecting [str "/mypath/mycommand"]
        [.pointer (.record [field "Answer" "int" intVar]), .pointer (.array [intVar])] =
        .ok (o, none)) ∧
      ∃ o, New FloatLib.rejecting [str "cmd", str "Arthur"]
          [.pointer (.array [stringVar, stringVar])] = .ok (o, none) ∧
        o.argSliceRef = .array [stringOf (str "Arthur"), stringVar] :=
  ⟨⟨_, rfl⟩, _, rfl, rfl⟩

/-- C28: in a call of `New` with only a fixed array of length `c`, or only a
slice made with cap `c`, where `c >= 1`, a command line with more than `c`
positional arguments makes `New` return the error
"number of arguments supplied exceeds limit (c)".  A slice with cap 0 has the
limit 32767: up to 32767 arguments `New` returns without that error and the
slice holds as many elements as there are leftover arguments, beyond them it
returns the error naming 32767. -/
theorem C28_too_many_arguments (fl : FloatLib) (osArgs : List GoString) (c : Nat)
    (elems selems : List Target) (zero : Target) (hargs : osArgs ≠ []) (hc : 1 ≤ c) (hc63 : c < 2 ^ 63) :
    (c < (positional (tokenize osArgs).vdata).length →
      (elems.length = c →
        ∃ o, New fl osArgs [.pointer (.array elems)] =
          .ok (o, some (.text (tooManyArguments c)))) ∧
      ∃ o, New fl osArgs [.pointer (.slice c selems zero)] =
        .ok (o, some (.text (tooManyArguments c)))) ∧
    ((argEvents (tokenize osArgs).vdata).length ≤ 32767 →
      ∃ o r, New fl osArgs [.pointer (.slice 0 selems zero)] = .ok (o, r) ∧
        o.argSliceRef.Len = (leftover osArgs).length ∧
        ∀ n, r ≠ some (.text (tooManyArguments n))) ∧
    (32767 < (argEvents (tokenize osArgs).vdata).length →
      ∃ o, New fl osArgs [.pointer (.slice 0 selems zero)] =
        .ok (o, some (.text (tooManyArguments 32767)))) := by
  have hpos := positional_le_argEvents _ (EventsOK_tokenize osArgs).1
  have hc21 : c < 10 ^ 21 := lt_trans hc63 (by norm_num)
  refine ⟨fun hmany => ⟨fun hlen => ?_, ?_⟩, fun hfew => ?_, fun hmany => ?_⟩
  · obtain ⟨o2, h1, h2, h3, _, _, hok, _⟩ := New_array fl osArgs elems hargs
    rw [hlen] at h2 h3
    obtain ⟨a, ha⟩ := getArgs_beyond o2 c hc21 h2 h3 (by rw [h1]; omega)
    exact ⟨o2, by rw [hok o2 _ (assignArgs_error fl o2 false a _ ha)]; rfl⟩
  · obtain ⟨o2, h1, h2, h3, _, _, hok, _⟩ := New_slice fl osArgs c selems zero hargs
    have hc0 : c ≠ 0 := by omega
    rw [if_neg hc0] at h2 h3
    obtain ⟨a, ha⟩ := getArgs_beyond o2 c hc21 h2 h3 (by rw [h1]; omega)
    exact ⟨o2, by rw [hok o2 _ (assignArgs_error fl o2 true a _ ha)]; rfl⟩
  · obtain ⟨o2, h1, h2, h3, h4, _, hok, _⟩ := New_slice fl osArgs 0 selems zero hargs
    rw [if_pos rfl] at h2 h3
    have hg := getArgs_within o2 (by rw [h1, h2]; simp only [slice_limit]; omega)
    rw [h1] at hg
    obtain ⟨elems1, r, hs, hl, hr⟩ := setArrayLoop_slice_total fl (leftover osArgs).length zero
      (leftover osArgs) 0 (List.replicate (leftover osArgs).length zero) (by simp)
    have ha := assignArgs_slice fl o2 0 selems elems1 zero (leftover osArgs) r h4 hg hs
    refine ⟨_, _, hok _ r ha, ?_, fun n hn => ?_⟩
    · simp only [SliceRef.Len, hl, List.length_replicate]
    · cases r with
      | none => exact checkUndefinedOptions_ne_tooMany _ n (by simpa using hn)
      | some e =>
        simp only [Option.or, Option.some.injEq] at hn
        exact tooMany_ne_decode n e (hr e rfl) hn
  · obtain ⟨o2, h1, h2, h3, _, _, hok, _⟩ := New_slice fl osArgs 0 selems zero hargs
    rw [if_pos rfl] at h2 h3
    obtain ⟨a, ha⟩ := getArgs_beyond o2 32767 (by norm_num) h2 h3 (by rw [h1]; omega)
    exact ⟨o2, by rw [hok o2 _ (assignArgs_error fl o2 true a _ ha)]; rfl⟩

/-- The repository's tests of C28: `Arthur Towel Vogon` given to a `[2]string`
and to a slice made with cap 2. -/
theorem C28_too_many_arguments_witness :
    (∃ o, New FloatLib.rejecting [str "cmd", str "Arthur", str "Towel", str "Vogon"]
        [.pointer (.array [stringVar, stringVar])] =
      .ok (o, some (.text (str "number of arguments supplied exceeds limit (2)")))) ∧
    (∃ o, New FloatLib.rejecting [str "cmd", str "Arthur", str "Towel", str "Vogon"]
        [.pointer (.slice 2 [] stringVar)] =
      .ok (o, some (.text (str "number of arguments supplied exceeds limit (2)")))) :=
  have h := (C28_too_many_arguments FloatLib.rejecting
    [str "cmd", str "Arthur", str "Towel", str "Vogon"] 2 [stringVar, stringVar] [] stringVar
    (by decide) (by decide) (by norm_num)).1 (by decide)
  ⟨tooManyArguments_two ▸ h.1 rfl, tooManyArguments_two ▸ h.2⟩

/-- C30 (as amended): a fixed array container sets an upper bound only.  In a
call of `New` with only an array of length `n`, a command line with more than
`n` arguments makes `New` return the error
"number of arguments supplied exceeds limit (n)"; with at most `n` arguments
`New` does not panic and returns no error for the missing ones: the leftover
arguments are decoded by `setArray` into the first elements, the elements
behind them keep their values, and the error is that of the decoder or that of
`checkUndefinedOptions`.  For an array of strings every leftover argument is
stored. -/
theorem C30_array_is_an_upper_bound (fl : FloatLib) (osArgs : List GoString)
    (elems : List Target) (hargs : osArgs ≠ []) (hn : elems.length < 2 ^ 63) :
    (elems.length < (argEvents (tokenize osArgs).vdata).length →
      ∃ o, New fl osArgs [.pointer (.array elems)] =
        .ok (o, some (.text (tooManyArguments elems.length)))) ∧
    ((argEvents (tokenize osArgs).vdata).length ≤ elems.length →
      ∃ o elems1 r, New fl osArgs [.pointer (.array elems)] =
          .ok (o, r.or o.checkUndefinedOptions) ∧
        setArrayLoop fl (leftover osArgs) 0 (.array elems) = .ok (.array elems1, r) ∧
        o.argSliceRef = .array elems1 ∧ elems1.length = elems.length ∧
        (∀ j, (leftover osArgs).length ≤ j → elems1.get? j = elems.get? j) ∧
        (∀ e, r = some e → ∃ err, e = .decode err) ∧
        ((∀ t ∈ elems, t.kind = .String) → r = none ∧
          elems1 = List.zipWith (fun t a => t.SetString a) elems (leftover osArgs) ++
            elems.drop (leftover osArgs).length)) := by
  have hc21 : elems.length < 10 ^ 21 := lt_trans hn (by norm_num)
  obtain ⟨o2, h1, h2, h3, h4, _, hok, _⟩ := New_array fl osArgs elems hargs
  refine ⟨fun hmany => ?_, fun hfew => ?_⟩
  · obtain ⟨a, ha⟩ := getArgs_beyond o2 elems.length hc21 h2 h3 (by rw [h1]; omega)
    exact ⟨o2, by rw [hok o2 _ (assignArgs_error fl o2 false a _ ha)]; rfl⟩
  · have hg := getArgs_within o2 (by rw [h1, h2]; omega)
    rw [h1] at hg
    have hle := leftover_length_le osArgs
    obtain ⟨elems1, r, hs, hl, hr⟩ := setArrayLoop_array_total fl (leftover osArgs) 0 elems
      (by omega)
    have ha := assignArgs_array fl o2 elems elems1 (leftover osArgs) r h4 hg hs
    refine ⟨_, elems1, r, hok _ r ha, hs, rfl, hl, fun j hj => ?_, hr, fun hk => ?_⟩
    · exact setArrayLoop_array_keeps fl (leftover osArgs) 0 elems elems1 r hs j (by omega)
    · have := setArrayLoop_array_strings fl (leftover osArgs) [] elems (by omega) hk
      simp only [List.length_nil, List.nil_append] at this
      rw [this] at hs
      simp only [Except.ok.injEq, Prod.mk.injEq, SliceRef.array.injEq] at hs
      exact ⟨hs.2.symm, hs.1.symm⟩

/-- An array that gets no argument: `New(&arg)` with `var arg [1]int` and a
command line without arguments returns no error and leaves the element. -/
theorem C30_array_is_an_upper_bound_witness :
    ∃ o elems1 r, New FloatLib.rejecting [str "/mypath/mycommand"] [.pointer (.array [intVar])] =
        .ok (o, r.or o.checkUndefinedOptions) ∧
      setArrayLoop FloatLib.rejecting (leftover [str "/mypath/mycommand"]) 0 (.array [intVar]) =
        .ok (.array elems1, r) ∧
      o.argSliceRef = .array elems1 ∧ elems1.length = [intVar].length ∧
      (∀ j, (leftover [str "/mypath/mycommand"]).length ≤ j →
        elems1.get? j = [intVar].get? j) ∧
      (∀ e, r = some e → ∃ err, e = .decode err) ∧
      ((∀ t ∈ [intVar], t.kind = .String) → r = none ∧
        elems1 = List.zipWith (fun t a => t.SetString a) [intVar]
            (leftover [str "/mypath/mycommand"]) ++
          [intVar].drop (leftover [str "/mypath/mycommand"]).length) :=
  (C30_array_is_an_upper_bound FloatLib.rejecting [str "/mypath/mycommand"] [intVar]
    (by decide) (by norm_num)).2 (by decide)

/-- C27: for a record with descriptors `ds` and a command line, `New` called
with the record returns, and when the binding of the fields succeeds (the
error is not that of the decoder for a key) the error is that of the unknown
options: there is an error if and only if some event with a key that is not
empty is claimed by no field, its message is "Invalid command line option",
an "s" when there is more than one key, ": (", every unclaimed key in the
order of the events joined by ", ", and ")".  The events that `getOptions` has
typed as flag or option are exactly the claimed ones. -/
theorem C27_unknown_options (fl : FloatLib) (osArgs : List GoString) (rec : List StructField)
    (ds : List opt) (hargs : osArgs ≠ []) (hd : descriptors rec = .ok ds) :
    ∃ o r, New fl osArgs [.pointer (.record rec)] = .ok (o, r) ∧
      ((∃ err key, r = some (.keyed err key)) ∨
        ((r = if unclaimedKeys ds (tokenize osArgs) = [] then none
            else some (.text (unknownOptions (unclaimedKeys ds (tokenize osArgs))))) ∧
          (r = none ↔ ∀ i ev, (tokenize osArgs).vdata.get? i = some ev → ev.key ≠ [] →
            claimedBy ds (tokenize osArgs) i) ∧
          ∀ i ev1, o.vdata.get? i = some ev1 →
            ((ev1.typ = typ_flag ∨ ev1.typ = typ_option) ↔ claimedBy ds (tokenize osArgs) i))) := by
  obtain ⟨o3, g1, g2, g3, _, _, _, _, _, herr, hok⟩ :=
    New_record fl osArgs rec [] ds _ (by simp) hargs hd (calcArgLimit_record rec)
  have hm : MapOK o3 := by
    intro k i hki
    rw [g2] at hki
    rw [g3]
    exact (EventsOK_tokenize osArgs).2 k i hki
  obtain ⟨n, flds, r, hn, hl, he, hr⟩ := getOptionsLoop_spec fl ds [] o3 hm
  cases r with
  | some e =>
    obtain ⟨err, key, hek⟩ := he e rfl
    exact ⟨_, _, herr _ e hl, Or.inl ⟨err, key, by rw [hek]⟩⟩
  | none =>
    obtain ⟨hlen, _⟩ := hr rfl
    rw [hlen, List.take_length] at hl
    have hnew := (hok _ hl).1 _ none rfl
    obtain ⟨hc, hcl⟩ := checkUndefinedOptions_unclaimed ds flds o3 (tokenize osArgs)
      (EventsOK_tokenize osArgs) g3 g2
    refine ⟨_, _, hnew, Or.inr ⟨?_, ?_, hcl⟩⟩
    · rw [← hc]
      rfl
    · rw [← unclaimedKeys_eq_nil_iff]
      have : (none : Option OptError).or
          ({ ds.foldl option.mark o3 with optionList := flds } : option).checkUndefinedOptions =
          ({ ds.foldl option.mark o3 with optionList := flds } : option).checkUndefinedOptions :=
        rfl
      rw [this, hc]
      by_cases hu : unclaimedKeys ds (tokenize osArgs) = []
      · simp [hu]
      · simp [hu]

/-- The test "Given undefined options" of option_test.go, as an instance of
C27: the record `myStk` and `--more=beer -x -yz`; no field claims an event and
the message names `more, x, y, z`. -/
theorem C27_unknown_options_witness :
    (descriptors recordMyStk = .ok descriptorsMyStk ∧
      unknownOptions (unclaimedKeys descriptorsMyStk
        (tokenize [str "cmd", str "--more=beer", str "-x", str "-yz"])) =
        str "Invalid command line options: (more, x, y, z)") ∧
    ∃ o r, New FloatLib.rejecting [str "cmd", str "--more=beer", str "-x", str "-yz"]
        [.pointer (.record recordMyStk)] = .ok (o, r) ∧
      ((∃ err key, r = some (.keyed err key)) ∨
        ((r = if unclaimedKeys descriptorsMyStk
              (tokenize [str "cmd", str "--more=beer", str "-x", str "-yz"]) = [] then none
            else some (.text (unknownOptions (unclaimedKeys descriptorsMyStk
              (tokenize [str "cmd", str "--more=beer", str "-x", str "-yz"]))))) ∧
          (r = none ↔ ∀ i ev,
            (tokenize [str "cmd", str "--more=beer", str "-x", str "-yz"]).vdata.get? i =
              some ev → ev.key ≠ [] →
            claimedBy descriptorsMyStk
              (tokenize [str "cmd", str "--more=beer", str "-x", str "-yz"]) i) ∧
          ∀ i ev1, o.vdata.get? i = some ev1 →
            ((ev1.typ = typ_flag ∨ ev1.typ = typ_option) ↔
              claimedBy descriptorsMyStk
                (tokenize [str "cmd", str "--more=beer", str "-x", str "-yz"]) i))) :=
  ⟨⟨rfl, by decide⟩,
    C27_unknown_options FloatLib.rejecting [str "cmd", str "--more=beer", str "-x", str "-yz"]
      recordMyStk descriptorsMyStk (by decide) rfl⟩

/-- C24: a field that is not boolean and whose event has the empty value (the
key stood last, or before "", a quoted empty string or another option).  A
string field: the loop body of `getOptions` stores the empty string and
returns no error, and `New` returns with the field holding the empty string
unless the binding of another field fails.  An integer, unsigned or float
field (`ParseFloat` rejecting the empty string): the decoder rejects the value
with a `*NumError` and `New` returns the error of the decoder for a key. -/
theorem C24_empty_option_value (fl : FloatLib) (osArgs : List GoString)
    (rec : List StructField) (ds : List opt) (x : opt) (ndx : Nat) (key : GoString) (ev : vst)
    (hargs : osArgs ≠ []) (hd : descriptors rec = .ok ds) (hx : x ∈ ds)
    (hh : (tokenize osArgs).hit x = some (ndx, key))
    (hev : (tokenize osArgs).vdata.get? ndx = some ev) (hval : ev.val = []) :
    (x.fld.kind = .String →
      (∀ o : option, o.hit x = some (ndx, key) → o.vdata.get? ndx = some ev →
        getOption fl o x = .ok (o.mark x, x.fld.SetString [], none)) ∧
      ∃ o r, New fl osArgs [.pointer (.record rec)] = .ok (o, r) ∧
        ((∃ err k, r = some (.keyed err k)) ∨
          { x with fld := x.fld.SetString [] } ∈ o.optionList)) ∧
    ((isSignedKind x.fld.kind = true ∨ isUnsignedKind x.fld.kind = true ∨
        ((x.fld.kind = .Float32 ∨ x.fld.kind = .Float64) ∧
          ∀ bits, ∃ e, fl.ParseFloat [] bits = .error e)) →
      (∃ e, (setScalar fl x.fld ev.val).2 = some (.num e)) ∧
      ∃ o err k, New fl osArgs [.pointer (.record rec)] = .ok (o, some (.keyed err k))) := by
  obtain ⟨o3, g1, g2, g3, _, _, _, _, _, herr, hok⟩ :=
    New_record fl osArgs rec [] ds _ (by simp) hargs hd (calcArgLimit_record rec)
  have hm : MapOK o3 := by
    intro k i hki
    rw [g2] at hki
    rw [g3]
    exact (EventsOK_tokenize osArgs).2 k i hki
  have hh3 : o3.hit x = some (ndx, key) := by
    simp only [option.hit, g2] at hh ⊢
    exact hh
  have hev3 : o3.vdata.get? ndx = some ev := by rw [g3]; exact hev
  obtain ⟨n, flds, r, hn, hl, he, hr⟩ := getOptionsLoop_spec fl ds [] o3 hm
  refine ⟨fun hk => ⟨fun o ho hoe => ?_, ?_⟩, fun hk => ?_⟩
  · have hnb : x.fld.kind ≠ .Bool := by rw [hk]; decide
    rw [getOption_hit fl o x ndx key ev ho hoe, optionValue_of_not_bool _ _ hnb, hval,
      setScalar_string fl x.fld [] hk]
    rfl
  · cases r with
    | some e =>
      obtain ⟨err, k, hek⟩ := he e rfl
      exact ⟨_, _, herr _ e hl, Or.inl ⟨err, k, by rw [hek]⟩⟩
    | none =>
      obtain ⟨hlen, todo1, hf, hb⟩ := hr rfl
      refine ⟨_, _, (hok _ hl).1 _ none rfl, Or.inr ?_⟩
      obtain ⟨x1, hx1, hb1⟩ := forall₂_mem_left _ _ _ hb x hx
      obtain ⟨t, _, hs⟩ := hb1.2.2 ndx key ev hh3 hev3
      have hnb : x.fld.kind ≠ .Bool := by rw [hk]; decide
      rw [optionValue_of_not_bool _ _ hnb] at hs
      simp only [hval, setScalar_string fl x.fld [] hk, Prod.mk.injEq, and_true] at hs
      rw [hs, ← hb1.1]
      simp only [hf, List.nil_append]
      exact hx1
  · have hnb : x.fld.kind ≠ .Bool := by
      intro hb
      rw [hb] at hk
      simp [isSignedKind, isUnsignedKind] at hk
    have hbad : ∃ e, (setScalar fl x.fld []).2 = some (.num e) := by
      rcases hk with hk | hk | ⟨hk, hf⟩
      · exact setScalar_int_empty fl x.fld (Or.inl hk)
      · exact setScalar_int_empty fl x.fld (Or.inr hk)
      · exact setScalar_float_empty fl x.fld hk hf
    obtain ⟨e, hbe⟩ := hbad
    refine ⟨⟨e, by rw [hval]; exact hbe⟩, ?_⟩
    obtain ⟨o1, err, k, hg⟩ := getOptionsLoop_fails fl ds [] o3 x ndx key ev hm hx hh3 hev3
      fun t => by
        rw [optionValue_of_not_bool _ _ hnb]
        simp only [hval, hbe]
        exact fun hc => by cases hc
    exact ⟨o1, err, k, herr _ _ hg⟩

/-- Two instances of C24: `-a` alone for the field `Answer int`, where `New`
returns the error of the decoder, and the test "Given an enpty option" of
option_test.go, `-f -o` for the field `File string` holding "X", where the
loop body of `getOptions` stores the empty string. -/
theorem C24_empty_option_value_witness :
    (∃ o err k, New FloatLib.rejecting [str "cmd", str "-a"]
        [.pointer (.record [field "Answer" "int" intVar])] = .ok (o, some (.keyed err k))) ∧
    ∀ o : option,
      o.hit (opt.mk (stringOf (str "X")) (str "File") (str "string") (str "f") (str "file") []
        (str "string")) = some (0, str "f") →
      o.vdata.get? 0 = some (vst.mk (str "f") [] 0) →
      getOption FloatLib.rejecting o
        (opt.mk (stringOf (str "X")) (str "File") (str "string") (str "f") (str "file") []
          (str "string")) =
        .ok (o.mark (opt.mk (stringOf (str "X")) (str "File") (str "string") (str "f")
          (str "file") [] (str "string")), stringOf [], none) :=
  ⟨((C24_empty_option_value FloatLib.rejecting [str "cmd", str "-a"]
      [field "Answer" "int" intVar]
      [opt.mk intVar (str "Answer") (str "int") (str "a") (str "answer") [] (str "int")]
      (opt.mk intVar (str "Answer") (str "int") (str "a") (str "answer") [] (str "int"))
      0 (str "a") (vst.mk (str "a") [] 0) (by decide) rfl (by decide) rfl rfl rfl).2
        (Or.inl rfl)).2,
    ((C24_empty_option_value FloatLib.rejecting [str "cmd", str "-f", str "-o"]
      [field "File" "string" (stringOf (str "X"))]
      [opt.mk (stringOf (str "X")) (str "File") (str "string") (str "f") (str "file") []
        (str "string")]
      (opt.mk (stringOf (str "X")) (str "File") (str "string") (str "f") (str "file") []
        (str "string"))
      0 (str "f") (vst.mk (str "f") [] 0) (by decide) rfl (by decide) rfl rfl rfl).1 rfl).1⟩

/-- The binding of a boolean field whose key hits the event `ev`.  When the
event is not typed `typ_uoption`, the loop body of `getOptions` decodes "1" and
the field becomes true, whatever the value of the event; when it is typed
`typ_uoption` the field is decoded from the value of the event, and from "0",
which gives false, when that value is empty.  The tokenizer types an event
`typ_uoption` only for `--key=value`: the events of a bare flag, of ganged
flags and of a bare `--word` are typed 0, and an argument that follows them
changes the value of the event and not its type. -/
theorem boolean_binding_of_event (fl : FloatLib) :
    (∀ (o : option) (x : opt) (ndx : Nat) (key : GoString) (ev : vst),
      x.fld.kind = .Bool → o.hit x = some (ndx, key) → o.vdata.get? ndx = some ev →
      (ev.typ ≠ typ_uoption →
        getOption fl o x = .ok (o.mark x, x.fld.SetBool true, none)) ∧
      (ev.typ = typ_uoption → ev.val ≠ [] →
        getOption fl o x = .ok (o.mark x, (setScalar fl x.fld ev.val).1,
          (setScalar fl x.fld ev.val).2.map fun e => .keyed e key)) ∧
      (ev.typ = typ_uoption → ev.val = [] →
        getOption fl o x = .ok (o.mark x, x.fld.SetBool false, none))) ∧
    (∀ (o : option) (lastkey : GoString) (c : Nat) (cs : GoString),
      (∀ d ∈ c :: cs, isAsciiLetter d = true) →
      ∃ o1 l1, parseArg o lastkey (45 :: c :: cs) = .ok (o1, l1) ∧
        o1.vdata = o.vdata ++ (c :: cs).map fun d => vst.mk [d] [] 0) ∧
    (∀ (o : option) (lastkey arg key : GoString),
      rx_gnuKeywordAssign arg = none → rx_gnuKeyword arg = some key →
      ∃ o1 l1, parseArg o lastkey arg = .ok (o1, l1) ∧ o1.vdata = o.vdata ++ [vst.mk key [] 0]) ∧
    (∀ (o : option) (lastkey arg key val : GoString),
      rx_gnuKeywordAssign arg = some (key, val) →
      ∃ o1 l1, parseArg o lastkey arg = .ok (o1, l1) ∧
        o1.vdata = o.vdata ++ [vst.mk key (stringsTrim val qt) typ_uoption]) ∧
    (∀ (o : option) (lastkey w : GoString) (xs : List vst) (x : vst),
      lastkey ≠ [] → o.vdata = xs ++ [x] → w.head? ≠ some 45 →
      ∃ o1 l1, parseArg o lastkey w = .ok (o1, l1) ∧
        o1.vdata = xs ++ [vst.mk x.key (stringsTrim w qt) x.typ]) ∧
    ∀ osArgs : List GoString, ∀ ev ∈ (tokenize osArgs).vdata,
      ev.typ = 0 ∨ (ev.typ = typ_uoption ∧ ev.key ≠ []) := by
  refine ⟨fun o x ndx key ev hk hh hev => ⟨fun ht => ?_, fun ht hv => ?_, fun ht hv => ?_⟩,
    fun o lastkey c cs hl => ?_, fun o lastkey arg key h1 h2 => ?_,
    fun o lastkey arg key val h => ?_, fun o lastkey w xs x hl hv hw => ?_,
    fun osArgs => (EventsOK_tokenize osArgs).1⟩
  · rw [getOption_hit fl o x ndx key ev hh hev]
    have hval : optionValue x.fld.kind ev = str "1" := by
      simp only [optionValue, hk, if_true, ht, if_false]
    have hs : setScalar fl x.fld (str "1") = (x.fld.SetBool true, none) := by
      simp only [setScalar, hk, set_bool_one]
    rw [hval, hs]
    rfl
  · rw [getOption_hit fl o x ndx key ev hh hev]
    have hval : optionValue x.fld.kind ev = ev.val := by
      simp only [optionValue, hk, if_true, ht, hv, if_false]
    rw [hval]
  · rw [getOption_hit fl o x ndx key ev hh hev]
    have hval : optionValue x.fld.kind ev = str "0" := by
      simp only [optionValue, hk, if_true, ht, hv]
    have hs : setScalar fl x.fld (str "0") = (x.fld.SetBool false, none) := by
      simp only [setScalar, hk, set_bool_zero]
    rw [hval, hs]
    rfl
  · rw [parseArg_flag o lastkey c cs hl]
    exact ⟨_, _, rfl, (parseFlags_events (c :: cs) o lastkey).1⟩
  · rw [parseArg_keyword o lastkey arg key h1 h2]
    exact ⟨_, _, rfl, rfl⟩
  · rw [parseArg_assign o lastkey arg key val h]
    exact ⟨_, _, rfl, rfl⟩
  · rw [parseArg_plain o lastkey w hw, parseValue_pending o lastkey w xs x hl hv]
    exact ⟨_, _, rfl, rfl⟩

/-- C23 (boolean binding of `--key=value`): evaluation of `New` with a record
of the one field `Towel bool`.  With `--towel=false` the field is decoded from
the inline value and is false.  With `--towel=false yes` the word `yes` has
replaced the inline value in the event of `towel` before the binding: the
field is decoded from `yes` and is true.  With `--towel=false maybe` the
decoder rejects `maybe` and `New` returns its error for the key `towel`. -/
theorem C23_inline_value_replaced_by_next_word :
    (∃ o, New FloatLib.rejecting [str "cmd", str "--towel=false"]
        [.pointer (.record [field "Towel" "bool" boolVar])] = .ok (o, none) ∧
      o.fields = [.bool false]) ∧
    (tokenize [str "cmd", str "--towel=false", str "yes"]).vdata =
      [vst.mk (str "towel") (str "yes") typ_uoption] ∧
    (∃ o, New FloatLib.rejecting [str "cmd", str "--towel=false", str "yes"]
        [.pointer (.record [field "Towel" "bool" boolVar])] = .ok (o, none) ∧
      o.fields = [.bool true]) ∧
    ∃ o, New FloatLib.rejecting [str "cmd", str "--towel=false", str "maybe"]
        [.pointer (.record [field "Towel" "bool" boolVar])] =
        .ok (o, some (.keyed (.new "invalid value for bool") (str "towel"))) ∧
      o.fields = [.bool false] :=
  ⟨⟨_, rfl, rfl⟩, rfl, ⟨_, rfl, rfl⟩, _, rfl, rfl⟩

/-- C26: for a record of boolean fields with descriptors `ds`, a slice of
strings made without cap, and a command line of bare flags and plain words
(within the limit of 32767 events), `New` returns no error but that of
`checkUndefinedOptions`; the slice holds the plain words, also those that
directly follow a flag, in their order on the command line and stripped of
their surrounding quotes (a word of which nothing is left is not an argument);
every field whose key hits an event is true and the others are untouched. -/
theorem C26_leftover_order (fl : FloatLib) (cmd : GoString) (args : List GoString)
    (rec : List StructField) (ds : List opt) (selems : List Target) (zero : Target)
    (hd : descriptors rec = .ok ds) (hb : ∀ x ∈ ds, x.fld.kind = .Bool)
    (hargs : ∀ a ∈ args, isBareFlags a = true ∨ isPlainWord a = true)
    (hz : zero.kind = .String) (hlim : (tokenize (cmd :: args)).vdata.length ≤ 32767) :
    ∃ o, New fl (cmd :: args) [.pointer (.record rec), .pointer (.slice 0 selems zero)] =
        .ok (o, o.checkUndefinedOptions) ∧
      o.argSliceRef = .slice (strippedWords args).length
        ((strippedWords args).map fun a => zero.SetString a) zero ∧
      List.Forall₂ (fun x x1 => x1 = { x with
        fld := if ((tokenize (cmd :: args)).hit x).isSome then x.fld.SetBool true else x.fld })
        ds o.optionList := by
  have hargs1 : ∀ a ∈ args, isBareFlags a = true ∨ a.head? ≠ some 45 := by
    intro a ha
    rcases hargs a ha with e | e
    · exact Or.inl e
    · exact Or.inr (by simpa [isPlainWord] using e)
  obtain ⟨htyp, hvals⟩ := tokenize_flags_words cmd args hargs1
  obtain ⟨o3, g1, g2, g3, g4, g5, _, _, _, herr, hok⟩ :=
    New_record fl (cmd :: args) rec [.pointer (.slice 0 selems zero)] ds _ (by simp)
      (by simp) hd (calcArgLimit_record_slice_zero rec selems zero)
  have hm : MapOK o3 := by
    intro k i hki
    rw [g2] at hki
    rw [g3]
    exact (EventsOK_tokenize (cmd :: args)).2 k i hki
  have hhit : ∀ x, o3.hit x = (tokenize (cmd :: args)).hit x := fun x => by
    simp only [option.hit, g2]
  -- no descriptor fails: a boolean field is decoded from "1"
  have hone : ∀ x ∈ ds, ∀ ndx key ev, ∀ t : Int, o3.hit x = some (ndx, key) →
      o3.vdata.get? ndx = some ev → (t = ev.typ ∨ t = typ_flag ∨ t = typ_option) →
      setScalar fl x.fld (optionValue x.fld.kind { ev with typ := t }) =
        (x.fld.SetBool true, none) := by
    intro x hx ndx key ev t _ hev ht
    have h0 : ev.typ = 0 := htyp ev (by rw [← g3]; exact List.get?_mem hev)
    have hne : ({ ev with typ := t } : vst).typ ≠ typ_uoption := by
      simp only
      rcases ht with e | e | e
      · rw [e, h0]
        decide
      · rw [e]
        decide
      · rw [e]
        decide
    rw [hb x hx, optionValue_bool_flag _ hne]
    simp only [setScalar, hb x hx, set_bool_one]
  obtain ⟨n, flds, r, hn, hl, he, hr⟩ := getOptionsLoop_spec fl ds [] o3 hm
  cases r with
  | some e =>
    exfalso
    obtain ⟨x, hx, ndx, key, ev, t, err, a1, a2, a3, a4, _⟩ :=
      getOptionsLoop_error_origin fl ds [] o3 _ e hm hl
    rw [hone x hx ndx key ev t a1 a2 a3] at a4
    cases a4
  | none =>
    obtain ⟨hlen, todo1, hf, hbd⟩ := hr rfl
    rw [hlen, List.take_length] at hl
    obtain ⟨f1, f2, f3, f4, f5, f6, f7⟩ := foldl_mark_frame ds o3
    -- the events that `getArgs` reads
    have htyp4 : ∀ ev ∈ (ds.foldl option.mark o3).vdata,
        ev.typ = typ_arg ∨ ev.typ = typ_flag := by
      intro ev1 hev1
      obtain ⟨i, hi⟩ := List.get?_of_mem hev1
      have hlt : i < o3.vdata.length := by
        rw [← foldl_mark_length ds o3]
        by_contra hc
        rw [List.get?_eq_none.2 (by omega)] at hi
        cases hi
      obtain ⟨t, hg, hno, hyes, _⟩ := foldl_mark_get? ds o3 i _ (List.get?_eq_get hlt)
      rw [hg] at hi
      simp only [Option.some.injEq] at hi
      subst hi
      have h0 : (o3.vdata.get ⟨i, hlt⟩).typ = 0 :=
        htyp _ (by rw [← g3]; exact List.get_mem _ _ _)
      by_cases hc : ∃ x ∈ ds, ∃ key, o3.hit x = some (i, key)
      · obtain ⟨x, hx, _, hxt⟩ := hyes hc
        right
        simp only [hxt, optionTyp, hb x hx, if_true]
      · left
        have := hno fun x hx key hk => hc ⟨x, hx, key, hk⟩
        simp only [this]
        exact h0
    let o4 : option := { ds.foldl option.mark o3 with optionList := flds }
    let o4s : option := { o4 with hasArgSlice := true, argSliceRef := .slice 0 selems zero }
    have hg4 : o4s.getArgs = (strippedWords args, none) := by
      have hw := getArgs_within o4s (by
        show ((argEvents (ds.foldl option.mark o3).vdata).length : Int) ≤
          (ds.foldl option.mark o3).argLimit
        rw [f6, g4, argEvents_all _ htyp4, foldl_mark_length, g3]
        simp only [slice_limit]
        omega)
      rw [hw]
      show (((argEvents (ds.foldl option.mark o3).vdata).map vst.val).filter
        (fun a => decide (a ≠ [])), none) = _
      rw [argEvents_all _ htyp4, foldl_mark_vals, g3]
      show (eventValues (tokenize (cmd :: args)).vdata, none) = _
      rw [hvals]
    have hset := setArrayLoop_slice_strings fl (strippedWords args).length zero hz
      (strippedWords args) []
    simp only [List.length_nil, List.nil_append] at hset
    have ha := assignArgs_slice fl o4s 0 selems _ zero (strippedWords args) none rfl hg4 hset
    have hva := varAssignLoop_slice_last fl o4 _ 0 selems zero none ha
    have hnew := (hok o4 hl).1 _ none hva
    refine ⟨_, hnew, rfl, ?_⟩
    show List.Forall₂ _ ds flds
    rw [hf, List.nil_append]
    refine forall₂_imp_mem _ _ _ _ hbd fun x hx x1 hbx => ?_
    obtain ⟨b1, b2, b3⟩ := hbx
    rw [← hhit x]
    rcases hh : o3.hit x with _ | ⟨ndx, key⟩
    · rw [b1, b2 hh]
      rfl
    · obtain ⟨_, ev, hev, _⟩ := hm key ndx (hit_some o3 x ndx key hh).1
      obtain ⟨t, ht, hs⟩ := b3 ndx key ev hh hev
      rw [hone x hx ndx key ev t hh hev ht] at hs
      simp only [Prod.mk.injEq, and_true] at hs
      rw [b1, ← hs]
      rfl

/-- The test "Test args with a few options and a few command line arguments"
of option_test.go, as an instance of C26: the slice holds Arthur, Towel, Vogon
and Don't Panic. -/
theorem C26_leftover_order_witness :
    ∃ o, New FloatLib.rejecting
        [str "cmd", str "Arthur", str "-c", str "Towel", str "-p", str "Vogon",
          str "\"Don't Panic\""]
        [.pointer (.record recordCP), .pointer (.slice 0 [] stringVar)] =
        .ok (o, o.checkUndefinedOptions) ∧
      o.argSliceRef = .slice 4 [stringOf (str "Arthur"), stringOf (str "Towel"),
        stringOf (str "Vogon"), stringOf (str "Don't Panic")] stringVar ∧
      List.Forall₂ (fun x x1 => x1 = { x with
        fld := if ((tokenize [str "cmd", str "Arthur", str "-c", str "Towel", str "-p",
            str "Vogon", str "\"Don't Panic\""]).hit x).isSome
          then x.fld.SetBool true else x.fld })
        descriptorsCP o.optionList :=
  C26_leftover_order FloatLib.rejecting (str "cmd")
    [str "Arthur", str "-c", str "Towel", str "-p", str "Vogon", str "\"Don't Panic\""]
    recordCP descriptorsCP [] stringVar rfl (by decide) (by decide) rfl (by decide)

/-- C21, counterexamples: a value with a newline and a short key that is not a
letter.  For the field `Poem string`, `-p` followed by a value of two lines
stores the value, but `--poem=` with the same value is not read as an option
(the `.` of the pattern does not match a newline) and the field keeps the
empty string.  For a field tagged `4:four:...`, `--four 7` stores 7, but `-4`
is not read as a flag and the field keeps 0. -/
theorem C21_counterexample_newline_and_digit_key :
    (∃ oa oc,
      New FloatLib.rejecting [str "cmd", str "-p", str "a\nb"]
        [.pointer (.record [field "Poem" "string" stringVar])] = .ok (oa, none) ∧
      New FloatLib.rejecting [str "cmd", str "--poem=a\nb"]
        [.pointer (.record [field "Poem" "string" stringVar])] = .ok (oc, none) ∧
      oa.fields = [.string (str "a\nb")] ∧ oc.fields = [.string []]) ∧
    ∃ oa ob,
      New FloatLib.rejecting [str "cmd", str "-4", str "7"]
        [.pointer (.record [⟨str "Four", str "4:four:the number", str "int", intVar⟩])] =
        .ok (oa, none) ∧
      New FloatLib.rejecting [str "cmd", str "--four", str "7"]
        [.pointer (.record [⟨str "Four", str "4:four:the number", str "int", intVar⟩])] =
        .ok (ob, none) ∧
      oa.fields = [.int 0] ∧ ob.fields = [.int 7] :=
  ⟨⟨_, _, rfl, rfl, rfl, rfl⟩, _, _, rfl, rfl, rfl, rfl⟩

/-- C21 (as amended): for a field that is not boolean, with a short key `k`
that is an ASCII letter and a long key `w` of the form `\w[\w-]*`, and a
value `v` that does not begin with `-` and has no newline, the command lines
`-k v`, `--w v` and `--w=v`, given to `New` with the record alone or with the
record and an argument container, have the same outcome: the field holds what
the decoder stores for `v` stripped of its quotes, the other fields are
untouched, nothing is left over for the container, and the failure is that of
the decoder.  The error that `New` returns names the key of the command line,
`k` for the first and `w` for the other two. -/
theorem C21_three_forms (fl : FloatLib) (cmd : GoString) (rec : List StructField)
    (more : List NewArg) (ds : List opt) (x : opt) (k : Nat) (w v : GoString)
    (hd : descriptors rec = .ok ds) (hx : x ∈ ds) (hu : x.u_key = [k]) (hg : x.gnu_key = w)
    (hnb : x.fld.kind ≠ .Bool) (hk : isAsciiLetter k = true) (hw : isLongKey w = true)
    (hv : v.head? ≠ some 45) (hnl : ∀ b ∈ v, b ≠ 10) (hmore : validRest more = true) :
    ∃ pre post, ds = pre ++ x :: post ∧
      outcome (New fl [cmd, [45, k], v] (.pointer (.record rec) :: more)) =
        .ok (pre ++ { x with fld := (setScalar fl x.fld (stringsTrim v qt)).1 } :: post,
          if (setScalar fl x.fld (stringsTrim v qt)).2 = none then restRef more else .invalid,
          (setScalar fl x.fld (stringsTrim v qt)).2.map .decode) ∧
      outcome (New fl [cmd, 45 :: 45 :: w, v] (.pointer (.record rec) :: more)) =
        outcome (New fl [cmd, [45, k], v] (.pointer (.record rec) :: more)) ∧
      outcome (New fl [cmd, 45 :: 45 :: (w ++ 61 :: v)] (.pointer (.record rec) :: more)) =
        outcome (New fl [cmd, [45, k], v] (.pointer (.record rec) :: more)) ∧
      (∃ o, New fl [cmd, [45, k], v] (.pointer (.record rec) :: more) =
        .ok (o, (setScalar fl x.fld (stringsTrim v qt)).2.map fun e => .keyed e [k])) ∧
      (∃ o, New fl [cmd, 45 :: 45 :: w, v] (.pointer (.record rec) :: more) =
        .ok (o, (setScalar fl x.fld (stringsTrim v qt)).2.map fun e => .keyed e w)) ∧
      ∃ o, New fl [cmd, 45 :: 45 :: (w ++ 61 :: v)] (.pointer (.record rec) :: more) =
        .ok (o, (setScalar fl x.fld (stringsTrim v qt)).2.map fun e => .keyed e w) := by
  have hwn : w ≠ [] := isLongKey_ne_nil w hw
  obtain ⟨hne, pre, post, hds, hoth⟩ := descriptors_split rec ds x hd hx (by rw [hu]; simp)
    (by rw [hg]; exact hwn)
  rw [hu, hg] at hne
  have hmk : ∀ y ∈ pre ++ post, [k] ≠ y.u_key ∧ [k] ≠ y.gnu_key := by
    intro y hy
    obtain ⟨a1, _, a3, _⟩ := hoth y hy
    rw [hu] at a1 a3
    exact ⟨fun e => a1 e.symm, fun e => a3 e.symm⟩
  have hmw : ∀ y ∈ pre ++ post, w ≠ y.u_key ∧ w ≠ y.gnu_key := by
    intro y hy
    obtain ⟨_, a2, _, a4⟩ := hoth y hy
    rw [hg] at a2 a4
    exact ⟨fun e => a2 e.symm, fun e => a4 e.symm⟩
  obtain ⟨ea, oa⟩ := New_single_option fl [cmd, [45, k], v] rec more ds pre post x [k]
    (stringsTrim v qt) 0 (by simp) hd hds (tokenize_short cmd v k hk hv) (Or.inl hu.symm) hmk
    hnb hmore
  obtain ⟨eb, ob⟩ := New_single_option fl [cmd, 45 :: 45 :: w, v] rec more ds pre post x w
    (stringsTrim v qt) 0 (by simp) hd hds (tokenize_long cmd v w hw hv)
    (Or.inr ⟨by rw [hu]; exact hne, hg.symm⟩) hmw hnb hmore
  obtain ⟨ec, oc⟩ := New_single_option fl [cmd, 45 :: 45 :: (w ++ 61 :: v)] rec more ds pre
    post x w (stringsTrim v qt) typ_uoption (by simp) hd hds (tokenize_assign cmd v w hw hnl)
    (Or.inr ⟨by rw [hu]; exact hne, hg.symm⟩) hmw hnb hmore
  exact ⟨pre, post, hds, oa, by rw [ob, oa], by rw [oc, oa], ea, eb, ec⟩

/-- An instance of C21: the field `Answer int`, with the keys `a` and `answer`,
and the value 42. -/
theorem C21_three_forms_witness :
    ∃ pre post,
      [opt.mk intVar (str "Answer") (str "int") (str "a") (str "answer") [] (str "int")] =
        pre ++ opt.mk intVar (str "Answer") (str "int") (str "a") (str "answer") []
          (str "int") :: post ∧
      outcome (New FloatLib.rejecting [str "cmd", str "-a", str "42"]
          [.pointer (.record [field "Answer" "int" intVar])]) =
        .ok (pre ++ opt.mk ⟨.Int, false, .int 42⟩ (str "Answer") (str "int") (str "a")
          (str "answer") [] (str "int") :: post, .invalid, none) ∧
      outcome (New FloatLib.rejecting [str "cmd", str "--answer", str "42"]
          [.pointer (.record [field "Answer" "int" intVar])]) =
        outcome (New FloatLib.rejecting [str "cmd", str "-a", str "42"]
          [.pointer (.record [field "Answer" "int" intVar])]) ∧
      outcome (New FloatLib.rejecting [str "cmd", str "--answer=42"]
          [.pointer (.record [field "Answer" "int" intVar])]) =
        outcome (New FloatLib.rejecting [str "cmd", str "-a", str "42"]
          [.pointer (.record [field "Answer" "int" intVar])]) := by
  obtain ⟨pre, post, h1, h2, h3, h4, _⟩ := C21_three_forms FloatLib.rejecting (str "cmd")
    [field "Answer" "int" intVar] []
    [opt.mk intVar (str "Answer") (str "int") (str "a") (str "answer") [] (str "int")]
    (opt.mk intVar (str "Answer") (str "int") (str "a") (str "answer") [] (str "int"))
    97 (str "answer") (str "42") rfl (by decide) rfl rfl (by decide) (by decide) (by decide)
    (by decide) (by decide) rfl
  exact ⟨pre, post, h1, h2, h3, h4⟩

/-! ## The test vectors of option_test.go on the model of `New` -/

/-- The test "Given a blank assignment to a bool" of option_test.go:
`--towel=""` for the field `Towel bool` gives false and no error. -/
theorem test_New_blank_bool :
    ∃ o, New FloatLib.rejecting [str "cmd", str "--towel=\"\""]
        [.pointer (.record [field "Towel" "bool" ⟨.Bool, false, .bool true⟩])] = .ok (o, none) ∧
      o.fields = [.bool false] :=
  ⟨_, rfl, rfl⟩

/-- The test "Given undefined options" of option_test.go. -/
theorem test_New_undefined_options :
    ∃ o, New FloatLib.rejecting [str "cmd", str "--more=beer", str "-x", str "-yz"]
        [.pointer (.record recordMyStk)] =
      .ok (o, some (.text (str "Invalid command line options: (more, x, y, z)"))) :=
  ⟨_, rfl⟩

/-- The test "Given one defined option and one argument" of option_test.go:
`-a 42 1024` for the field `Answer int` and an array `[1]int`. -/
theorem test_New_option_and_argument :
    ∃ o, New FloatLib.rejecting [str "cmd", str "-a", str "42", str "1024"]
        [.pointer (.record [field "Answer" "int" intVar]), .pointer (.array [intVar])] =
        .ok (o, none) ∧
      o.fields = [.int 42] ∧ o.argSliceRef = .array [⟨.Int, false, .int 1024⟩] :=
  ⟨_, rfl, rfl, rfl⟩

/-- The test "Given flags ganged with one string option" of option_test.go:
`-tcp Vogon` sets `Creator` and `Towel` and gives `Poem` the value. -/
theorem test_New_ganged_with_option :
    ∃ o, New FloatLib.rejecting [str "cmd", str "-tcp", str "Vogon"]
        [.pointer (.record [field "Creator" "bool" boolVar, field "Towel" "bool" boolVar,
          field "Poem" "string" stringVar])] = .ok (o, none) ∧
      o.fields = [.bool true, .bool true, .string (str "Vogon")] :=
  ⟨_, rfl, rfl⟩

/-- The tests "Given integer slice arguments" and "Given integer array, extra
argument" of option_test.go. -/
theorem test_New_integer_containers :
    (∃ o, New FloatLib.rejecting [str "cmd", str "255", str "1024", str "-1"]
        [.pointer (.slice 0 [] intVar)] = .ok (o, none) ∧
      o.argSliceRef = .slice 3 [⟨.Int, false, .int 255⟩, ⟨.Int, false, .int 1024⟩,
        ⟨.Int, false, .int (-1)⟩] intVar) ∧
    ∃ o, New FloatLib.rejecting [str "cmd", str "255", str "255"]
        [.pointer (.array [⟨.Uint8, false, .uint 0⟩])] =
      .ok (o, some (.text (str "number of arguments supplied exceeds limit (1)"))) :=
  ⟨⟨_, rfl, rfl⟩, _, rfl⟩

/-- The test "Given an enpty option" of option_test.go for the field
`File string` holding "X": each of the command lines leaves it empty. -/
theorem test_New_empty_option :
    ∀ args ∈ [[str "-f"], [str "-f", []], [str "-f", str "\"\""], [str "-f", str "-o"],
        [str "--file"], [str "--file", []], [str "--file", str "\"\""],
        [str "--file", str "-o"]],
      ∃ o r, New FloatLib.rejecting (str "cmd" :: args)
          [.pointer (.record [field "File" "string" (stringOf (str "X"))])] = .ok (o, r) ∧
        o.fields = [.string []] := by
  intro args h
  simp only [List.mem_cons, List.mem_singleton, List.not_mem_nil, or_false] at h
  rcases h with rfl | rfl | rfl | rfl | rfl | rfl | rfl | rfl <;> exact ⟨_, _, rfl, rfl⟩

/-! ## The claims on the tokenizer, on `getArgs` and on `wrap` -/

/-- C40: the invariant of the tokenizer.  It holds of the fresh object with no
pending key; one turn of the loop of `parse`, for every argument, does not
panic on a state that has it and leads to a state that has it, and so does
every letter of a flag argument; so the event table of every command line has
it.  In a state that has it: (1) when the pending key is not empty the event
list is not empty, its last event carries that key and the index `len - 1` is
in range; (2) every key of the map maps to an index in range whose event
carries that key and is the last event with that key; (3) no positional event
is in the map. -/
theorem C40_tokenizer_invariant :
    TokenizerInv option.init [] ∧
    (∀ (o : option) (lastkey arg : GoString), TokenizerInv o lastkey →
      ∃ o1 l1, parseArg o lastkey arg = .ok (o1, l1) ∧ TokenizerInv o1 l1) ∧
    (∀ (cs : GoString) (o : option) (lastkey : GoString), TokenizerInv o lastkey →
      TokenizerInv (parseFlags cs o lastkey).1 (parseFlags cs o lastkey).2) ∧
    (∀ osArgs : List GoString, ∃ o lastkey, option.init.parse osArgs = .ok o ∧
      TokenizerInv o lastkey) ∧
    ∀ (o : option) (lastkey : GoString), TokenizerInv o lastkey →
      (lastkey ≠ [] → o.vdata ≠ [] ∧ o.vdata.length - 1 < o.vdata.length ∧
        ∃ ev, o.vdata.get? (o.vdata.length - 1) = some ev ∧ ev.key = lastkey) ∧
      (∀ k i, o.vmap.get k = some i → i < o.vdata.length ∧
        ∃ ev, o.vdata.get? i = some ev ∧ ev.key = k ∧
          ∀ j ev1, i < j → o.vdata.get? j = some ev1 → ev1.key ≠ k) ∧
      ∀ i ev, o.vdata.get? i = some ev → ev.key = [] → ∀ k, o.vmap.get k ≠ some i := by
  refine ⟨TokenizerInv_init, TokenizerInv_parseArg, TokenizerInv_parseFlags, fun osArgs => ?_,
    fun o lastkey h => ⟨fun hl => ?_, fun k i hki => ?_, fun i ev hev hk k hki => ?_⟩⟩
  · obtain ⟨lk, h⟩ := TokenizerInv_tokenize osArgs
    exact ⟨_, lk, parse_tokenize osArgs, h⟩
  · obtain ⟨xs, x, hx, hxk⟩ := h.1 hl
    refine ⟨by rw [hx]; simp, by rw [hx]; simp, x, ?_, hxk⟩
    rw [hx]
    simp only [List.length_append, List.length_singleton, Nat.add_sub_cancel]
    exact get?_append_length xs x
  · obtain ⟨ev, a, b, c⟩ := h.2.1 k i hki
    refine ⟨?_, ev, a, b, c⟩
    by_contra hc
    rw [List.get?_eq_none.2 (by omega)] at a
    cases a
  · obtain ⟨ev1, a, b, _⟩ := h.2.1 k i hki
    rw [hev] at a
    simp only [Option.some.injEq] at a
    rw [← a, hk] at b
    exact h.2.2.1 k i hki b.symm

/-- C36: an argument that matches none of the three patterns of an option,
also when it begins with a dash, is handled by the statement of `parse` that
handles a plain word: it becomes the value of the last event when a key is
pending, and a positional event otherwise, in both cases without its
surrounding quotes.  Every negative decimal number is such an argument and is
stored as it is. -/
theorem C36_dash_led_data :
    (∀ (o : option) (lastkey w : GoString), w.head? ≠ some 45 →
      parseArg o lastkey w = parseValue o lastkey w) ∧
    (∀ (o : option) (lastkey arg : GoString), noOptionForm arg →
      parseArg o lastkey arg = parseValue o lastkey arg) ∧
    (∀ (o : option) (lastkey arg : GoString) (xs : List vst) (x : vst), noOptionForm arg →
      lastkey ≠ [] → o.vdata = xs ++ [x] →
      parseArg o lastkey arg =
        .ok ({ o with vdata := xs ++ [{ x with val := stringsTrim arg qt }] }, [])) ∧
    (∀ (o : option) (arg : GoString), noOptionForm arg →
      parseArg o [] arg =
        .ok ({ o with vdata := o.vdata ++ [vst.mk [] (stringsTrim arg qt) typ_arg] }, [])) ∧
    ∀ n : Int, n < 0 →
      (decimalInt n).head? = some 45 ∧ noOptionForm (decimalInt n) ∧
        stringsTrim (decimalInt n) qt = decimalInt n := by
  refine ⟨parseArg_plain, parseArg_noOptionForm, fun o lastkey arg xs x h hl hv => ?_,
    fun o arg h => ?_, fun n hn => ?_⟩
  · rw [parseArg_noOptionForm o lastkey arg h, parseValue_pending o lastkey arg xs x hl hv]
  · rw [parseArg_noOptionForm o [] arg h, parseValue_positional]
  · obtain ⟨⟨d, rest, hs, hd⟩, hq⟩ := decimalInt_neg_shape n hn
    refine ⟨by rw [hs]; rfl, ?_, stringsTrim_noOuterQuote _ hq⟩
    rw [hs]
    exact noOptionForm_dash_digit d rest hd

/-- The test "Given integer slice arguments" of option_test.go has the
argument `-1`, and the tests of the three forms of an option the value
`-6764018660779421696`: both are read as data. -/
theorem test_parse_negative_numbers :
    option.init.parse [str "cmd", str "255", str "1024", str "-1"] =
      .ok { option.init with
        vdata := [vst.mk [] (str "255") typ_arg, vst.mk [] (str "1024") typ_arg,
          vst.mk [] (str "-1") typ_arg] } ∧
    option.init.parse [str "cmd", str "-i", str "-6764018660779421696"] =
      .ok { option.init with
        vdata := [vst.mk (str "i") (str "-6764018660779421696") 0]
        vmap := [(str "i", 0)] } :=
  ⟨rfl, rfl⟩

/-- C39: `getArgs` reads the events typed `typ_arg` or `typ_flag`.  When they
are no more than `o.argLimit` it returns no error and exactly the values of
these events that are not empty, in the order of the events; when they are
more than `o.argLimit` it returns its error, whether their values are empty or
not; and in both cases no string that it returns is empty. -/
theorem C39_getArgs (o : option) :
    (((argEvents o.vdata).length : Int) ≤ o.argLimit →
      o.getArgs = (((argEvents o.vdata).map vst.val).filter (fun a => decide (a ≠ [])), none)) ∧
    (0 ≤ o.argLimit → o.argLimit < ((argEvents o.vdata).length : Int) →
      ∃ a, o.getArgs = (a, some (.text (str "number of arguments supplied exceeds limit (" ++
        fmtInt o.argSliceCap ++ str ")")))) ∧
    (∀ a ∈ o.getArgs.1, a ≠ []) ∧
    argEvents o.vdata = o.vdata.filter fun v => decide (v.typ = typ_arg ∨ v.typ = typ_flag) := by
  refine ⟨getArgs_within o, fun h0 h => ?_, ?_, rfl⟩
  · exact getArgsLoop_beyond o o.vdata [] 0 h0 (by omega)
  · exact getArgsLoop_nonempty o o.vdata [] 0 fun a ha => by simp at ha

/-- Three positional events, the second with an empty value: within the limit
3 the empty string is dropped, and with the limit 2 the three events are too
many although only two values are left. -/
theorem test_getArgs_empty_value :
    ({ option.init with
        vdata := [vst.mk [] (str "a") typ_arg, vst.mk [] [] typ_arg, vst.mk [] (str "b") typ_arg]
        argLimit := 3, argSliceCap := 3 } : option).getArgs = ([str "a", str "b"], none) ∧
    ({ option.init with
        vdata := [vst.mk [] (str "a") typ_arg, vst.mk [] [] typ_arg, vst.mk [] (str "b") typ_arg]
        argLimit := 2, argSliceCap := 2 } : option).getArgs =
      ([str "a"], some (.text (str "number of arguments supplied exceeds limit (2)"))) ∧
    ∃ o, New FloatLib.rejecting [str "cmd", str "a", [], str "b"]
        [.pointer (.array [stringVar, stringVar])] =
      .ok (o, some (.text (str "number of arguments supplied exceeds limit (2)"))) :=
  ⟨rfl, rfl, _, rfl⟩

/-- C37 (wrapping at the width): evaluation of `wrap` at the width 5.  The
words of "aa bb ccc" are shorter than 5, and the second line of the result,
"bb ccc", has 6 characters; while "aaa b", which has 5 characters, is broken
after "aaa". -/
theorem C37_wrap_exceeds_width :
    (∀ w ∈ textWords (str "aa bb ccc"), w.length < 5) ∧
    wrap (str "aa bb ccc") 5 = str "aa\nbb ccc" ∧
    (textLines (wrap (str "aa bb ccc") 5)).map List.length = [2, 6] ∧
    wrap (str "aaa b") 5 = str "aaa\nb" :=
  ⟨by decide, by decide, by decide, by decide⟩

set_option maxRecDepth 100000 in
/-- The second paragraph of the test "Given two paragraphs" of help_test.go,
wrapped at 75 as `sectionString` does: two lines of 70 and 74 characters. -/
theorem test_wrap_paragraph :
    (textLines (wrap (str ("Finite probability cabin quite desert while concave into " ++
      "used Galactic machine Kakrafoon which instantly realized " ++
      "mental carrier denies thinkers.")) 75)).map List.length = [70, 74] :=
  rfl

/-! ## The claims on errors, on the calls of `New` and on repeated keys -/

/-- C33: a call of `New` with a record (alone, or followed by one more
pointer) in which the descriptor `x` is the first whose value is rejected by
the decoder, the descriptors `pre` before it being bound without error.  `New`
returns the error of `x`; the list of descriptors is then `pre1 ++ x :: post`,
where a descriptor of `pre1` is the one of `pre` with its field holding what
the decoder has stored for the value of its event (the field is untouched when
no key of it was supplied), and `x` and the descriptors after it are as they
were: the decoder has left the field of `x` as it was, and nothing is undone. -/
theorem C33_partial_failure (fl : FloatLib) (osArgs : List GoString) (rec : List StructField)
    (more : List NewArg) (ds pre post : List opt) (x : opt) (ndx : Nat) (key : GoString)
    (ev : vst) (t : Target) (err : Err)
    (hargs : osArgs ≠ []) (hmore : more.length ≤ 1) (hptr : ∀ a ∈ more, a ≠ .nonPointer)
    (hd : descriptors rec = .ok ds) (hsplit : ds = pre ++ x :: post)
    (hpre : ∀ y ∈ pre, ∀ i k ev1, (tokenize osArgs).hit y = some (i, k) →
      (tokenize osArgs).vdata.get? i = some ev1 →
      (setScalar fl y.fld (optionValue y.fld.kind ev1)).2 = none)
    (hh : (tokenize osArgs).hit x = some (ndx, key))
    (hev : (tokenize osArgs).vdata.get? ndx = some ev)
    (hs : setScalar fl x.fld (optionValue x.fld.kind ev) = (t, some err)) :
    ∃ o pre1, New fl osArgs (.pointer (.record rec) :: more) = .ok (o, some (.keyed err key)) ∧
      o.optionList = pre1 ++ x :: post ∧ t = x.fld ∧
      List.Forall₂ (fun y y1 => y1 = { y with fld := y1.fld } ∧
        ((tokenize osArgs).hit y = none → y1.fld = y.fld) ∧
        ∀ i k ev1, (tokenize osArgs).hit y = some (i, k) →
          (tokenize osArgs).vdata.get? i = some ev1 →
          setScalar fl y.fld (optionValue y.fld.kind ev1) = (y1.fld, none)) pre pre1 := by
  have hpre1 : ∀ y ∈ pre, (bindResult fl (tokenize osArgs) y).2 = none :=
    fun y hy => bindResult_none fl _ y (hpre y hy)
  obtain ⟨o, hnew, hl, _, _⟩ := New_first_failure fl osArgs rec more ds pre post x _ hargs hmore
    hptr hd hsplit hpre1 (bindResult_some fl _ x ndx key ev t err hh hev hs)
  refine ⟨o, pre.map (bound fl (tokenize osArgs)), hnew, hl, ?_, ?_⟩
  · have := setScalar_error_unchanged fl x.fld (optionValue x.fld.kind ev)
      (by rw [hs]; exact fun hc => by cases hc)
    rw [hs] at this
    exact this
  · rw [List.forall₂_map_right_iff]
    exact List.forall₂_same.2 fun y hy => bound_spec fl _ y (hpre1 y hy)

/-- The record of the example of `New` with the command line
`-a 42 --babel=maybe -q What?`: the value of `Babel` is rejected; `Answer`
holds 42, `Babel` and `Question` are as they were, and the error names
`babel`. -/
theorem C33_partial_failure_witness :
    descriptors recordExample = .ok descriptorsExample ∧
    ∃ o pre1, New FloatLib.rejecting
        [str "cmd", str "-a", str "42", str "--babel=maybe", str "-q", str "What?"]
        (.pointer (.record recordExample) :: []) =
          .ok (o, some (.keyed (.new "invalid value for bool") (str "babel"))) ∧
      o.optionList = pre1 ++
        opt.mk boolVar (str "Babel") (str "bool") (str "b") (str "babel") [] (str "bool") ::
          [opt.mk stringVar (str "Question") (str "string") (str "q") (str "question") []
            (str "string")] ∧
      boolVar = (opt.mk boolVar (str "Babel") (str "bool") (str "b") (str "babel") []
        (str "bool")).fld ∧
      List.Forall₂ (fun y y1 => y1 = { y with fld := y1.fld } ∧
        ((tokenize [str "cmd", str "-a", str "42", str "--babel=maybe", str "-q",
            str "What?"]).hit y = none → y1.fld = y.fld) ∧
        ∀ i k ev1, (tokenize [str "cmd", str "-a", str "42", str "--babel=maybe", str "-q",
            str "What?"]).hit y = some (i, k) →
          (tokenize [str "cmd", str "-a", str "42", str "--babel=maybe", str "-q",
            str "What?"]).vdata.get? i = some ev1 →
          setScalar FloatLib.rejecting y.fld (optionValue y.fld.kind ev1) = (y1.fld, none))
        [opt.mk intVar (str "Answer") (str "int") (str "a") (str "answer") [] (str "int")]
        pre1 :=
  ⟨rfl,
    C33_partial_failure FloatLib.rejecting
      [str "cmd", str "-a", str "42", str "--babel=maybe", str "-q", str "What?"]
      recordExample [] descriptorsExample
      [opt.mk intVar (str "Answer") (str "int") (str "a") (str "answer") [] (str "int")]
      [opt.mk stringVar (str "Question") (str "string") (str "q") (str "question") []
        (str "string")]
      (opt.mk boolVar (str "Babel") (str "bool") (str "b") (str "babel") [] (str "bool"))
      1 (str "babel") (vst.mk (str "babel") (str "maybe") typ_uoption) boolVar
      (.new "invalid value for bool") (by decide) (by decide) (by simp) rfl rfl
      (fun y hy i k ev1 hh hev => by
        simp only [List.mem_singleton] at hy
        subst hy
        have h1 : (tokenize [str "cmd", str "-a", str "42", str "--babel=maybe", str "-q",
            str "What?"]).hit
              (opt.mk intVar (str "Answer") (str "int") (str "a") (str "answer") [] (str "int")) =
            some (0, str "a") := rfl
        rw [h1] at hh
        cases hh
        have h2 : (tokenize [str "cmd", str "-a", str "42", str "--babel=maybe", str "-q",
            str "What?"]).vdata.get? 0 = some (vst.mk (str "a") (str "42") 0) := rfl
        rw [h2] at hev
        cases hev
        rfl)
      rfl rfl rfl⟩

/-- C31: a call of `New` with a slice, alone or behind a record with
descriptors `ds`, that returns no error.  The leftover arguments are the
values, if not empty, of the events typed as argument or as flag after the
binding of the fields, in the order of the events; `getArgs` returns them.
Every one of them is decoded without error against a zero element of the
slice, and the slice afterwards is a new one: its length is the number of the
leftover arguments and its element `i` is what the decoder has stored for the
leftover argument `i`; the elements `elems` that the slice held before are not
in it. -/
theorem C31_slice_write (fl : FloatLib) (osArgs : List GoString) (v2 : List NewArg)
    (ds : List opt) (cap : Nat) (elems : List Target) (zero : Target) (o : option)
    (hshape : (v2 = [.pointer (.slice cap elems zero)] ∧ ds = []) ∨
      ∃ rec, v2 = [.pointer (.record rec), .pointer (.slice cap elems zero)] ∧
        descriptors rec = .ok ds)
    (hnew : New fl osArgs v2 = .ok (o, none)) :
    o.getArgs = (leftoverAfter ds osArgs, none) ∧
      o.argSliceRef = .slice (leftoverAfter ds osArgs).length
        ((leftoverAfter ds osArgs).map fun a => (setScalar fl zero a).1) zero ∧
      (∀ a ∈ leftoverAfter ds osArgs, (setScalar fl zero a).2 = none) ∧
      (ds = [] → leftoverAfter ds osArgs = leftover osArgs) := by
  have hargs := New_ok_args fl osArgs _ _ hnew
  have hbind : ∀ x ∈ ds, (bindResult fl (tokenize osArgs) x).2 = none := by
    rcases hshape with ⟨_, eds⟩ | ⟨rec, e, hd⟩
    · subst eds
      intro x hx
      cases hx
    · rw [e] at hnew
      exact New_ok_bind fl osArgs rec _ ds o (by simp) (by simp) hd hnew
  obtain ⟨o1, o4, h1, h0, v1, v2m, v3, v4, v5, v6, hok, herr⟩ :=
    New_container fl osArgs v2 ds (.pointer (.slice cap elems zero)) hargs
      (by simp [NewArg.container]) hshape hbind
  have hlast : ds = [] → leftoverAfter ds osArgs = leftover osArgs := by
    intro e
    subst e
    rfl
  rcases hg : o4.getArgs with ⟨args, _ | e⟩
  · obtain ⟨_, hargsEq⟩ := getArgs_none o4 args (by rw [v3]; exact h0) hg
    have hl : args = leftoverAfter ds osArgs := by
      rw [hargsEq, v1]
      rfl
    rcases first_failure_split (fun a => (setScalar fl zero a).2 = none) args with
      h | ⟨as, a, bs, hs1, hs2, hs3⟩
    · have ha := assignArgs_slice_all fl o4 cap elems zero args v5 hg h
      have hn := hok _ none ha
      rw [hnew] at hn
      simp only [Except.ok.injEq, Prod.mk.injEq] at hn
      obtain ⟨ho, _⟩ := hn
      subst ho
      rw [← hl]
      refine ⟨?_, rfl, h, hl ▸ hlast⟩
      rw [← hg]
      exact getArgs_congr _ _ rfl rfl rfl
    · exfalso
      rcases hsa : setScalar fl zero a with ⟨t1, _ | err⟩
      · rw [hsa] at hs3
        exact hs3 rfl
      · have hw : writtenElems (.slice cap elems zero) (as ++ a :: bs).length =
            List.replicate as.length zero ++ zero :: List.replicate bs.length zero := by
          simp only [writtenElems]
          rw [List.length_append, List.length_cons, List.replicate_add, List.replicate_succ]
        have ha := assignArgs_first_failure fl o4 (.slice cap elems zero) as a bs _ _ zero t1
          err v5 (hs1 ▸ hg) hw (forall₂_replicate_left _ zero as hs2) hsa
        have hn := hok _ _ ha
        rw [hnew] at hn
        cases hn
  · exfalso
    have hn := hok _ _ (assignArgs_error fl o4 true args e hg)
    rw [hnew] at hn
    cases hn

/-- The test "Given integer slice arguments" of option_test.go: `255 1024 -1`
into a slice of `int`, here one of capacity 4 that holds 7, gives 255, 1024
and -1. -/
theorem C31_slice_write_witness :
    leftoverAfter [] [str "cmd", str "255", str "1024", str "-1"] =
      [str "255", str "1024", str "-1"] ∧
    ((leftoverAfter [] [str "cmd", str "255", str "1024", str "-1"]).map
      fun a => (setScalar FloatLib.rejecting intVar a).1) =
      [⟨.Int, false, .int 255⟩, ⟨.Int, false, .int 1024⟩, ⟨.Int, false, .int (-1)⟩] ∧
    ∃ o, New FloatLib.rejecting [str "cmd", str "255", str "1024", str "-1"]
        [.pointer (.slice 4 [⟨.Int, false, .int 7⟩] intVar)] = .ok (o, none) ∧
      o.getArgs = (leftoverAfter [] [str "cmd", str "255", str "1024", str "-1"], none) ∧
      o.argSliceRef = .slice (leftoverAfter [] [str "cmd", str "255", str "1024", str "-1"]).length
        ((leftoverAfter [] [str "cmd", str "255", str "1024", str "-1"]).map
          fun a => (setScalar FloatLib.rejecting intVar a).1) intVar ∧
      (∀ a ∈ leftoverAfter [] [str "cmd", str "255", str "1024", str "-1"],
        (setScalar FloatLib.rejecting intVar a).2 = none) ∧
      (([] : List opt) = [] → leftoverAfter [] [str "cmd", str "255", str "1024", str "-1"] =
        leftover [str "cmd", str "255", str "1024", str "-1"]) :=
  ⟨by decide, by decide, _, rfl,
    C31_slice_write FloatLib.rejecting [str "cmd", str "255", str "1024", str "-1"]
      [.pointer (.slice 4 [⟨.Int, false, .int 7⟩] intVar)] [] 4 [⟨.Int, false, .int 7⟩] intVar _
      (Or.inl ⟨rfl, rfl⟩) rfl⟩

/-- C32: the errors of the decoder that `New` returns.  (1) When the value of
the event of a descriptor is rejected by the decoder (the descriptors before it
being bound without error), `New` returns an error whose message is the message
of the decoder, a space and, in double quotes, the key with which the event was
found: the short key of the field when it is in the map of events, its long key
otherwise.  (2) When a leftover argument is rejected by the decoder (the fields
being bound without error, the events within the limit, and the arguments before
it being decoded into their elements of the container), `New` returns the error
of the decoder as it is. -/
theorem C32_error_context (fl : FloatLib) (errorText : Err → GoString)
    (osArgs : List GoString) :
    (∀ (rec : List StructField) (more : List NewArg) (ds pre post : List opt) (x : opt)
        (ndx : Nat) (key : GoString) (ev : vst) (t : Target) (err : Err),
      osArgs ≠ [] → more.length ≤ 1 → (∀ a ∈ more, a ≠ .nonPointer) →
      descriptors rec = .ok ds → ds = pre ++ x :: post →
      (∀ y ∈ pre, ∀ i k ev1, (tokenize osArgs).hit y = some (i, k) →
        (tokenize osArgs).vdata.get? i = some ev1 →
        (setScalar fl y.fld (optionValue y.fld.kind ev1)).2 = none) →
      (tokenize osArgs).hit x = some (ndx, key) →
      (tokenize osArgs).vdata.get? ndx = some ev →
      setScalar fl x.fld (optionValue x.fld.kind ev) = (t, some err) →
      (key = if ((tokenize osArgs).vmap.get x.u_key).isSome then x.u_key else x.gnu_key) ∧
        ∃ o e, New fl osArgs (.pointer (.record rec) :: more) = .ok (o, some e) ∧
          e.Error errorText = errorText err ++ str " \"" ++ key ++ str "\"") ∧
    ∀ (v2 : List NewArg) (ds : List opt) (c : NewArg) (o1 : option) (as : List GoString)
        (a : GoString) (bs : List GoString) (ts rest : List Target) (t0 t1 : Target)
        (err : Err),
      osArgs ≠ [] → c.container ≠ .invalid →
      ((v2 = [c] ∧ ds = []) ∨
        ∃ rec, v2 = [.pointer (.record rec), c] ∧ descriptors rec = .ok ds) →
      (∀ y ∈ ds, ∀ i k ev1, (tokenize osArgs).hit y = some (i, k) →
        (tokenize osArgs).vdata.get? i = some ev1 →
        (setScalar fl y.fld (optionValue y.fld.kind ev1)).2 = none) →
      option.init.calcArgLimit v2 = .ok o1 →
      ((argEvents (ds.foldl option.mark (tokenize osArgs)).vdata).length : Int) ≤ o1.argLimit →
      leftoverAfter ds osArgs = as ++ a :: bs →
      writtenElems c.container (as ++ a :: bs).length = ts ++ t0 :: rest →
      List.Forall₂ (fun t b => (setScalar fl t b).2 = none) ts as →
      setScalar fl t0 a = (t1, some err) →
      ∃ o e, New fl osArgs v2 = .ok (o, some e) ∧ e = .decode err ∧
        e.Error errorText = errorText err := by
  refine ⟨?_, ?_⟩
  · intro rec more ds pre post x ndx key ev t err hargs hmore hptr hd hsplit hpre hh hev hs
    refine ⟨hit_key _ x ndx key hh, ?_⟩
    obtain ⟨o, hnew, _⟩ := New_first_failure fl osArgs rec more ds pre post x _ hargs hmore
      hptr hd hsplit (fun y hy => bindResult_none fl _ y (hpre y hy))
      (bindResult_some fl _ x ndx key ev t err hh hev hs)
    exact ⟨o, _, hnew, rfl⟩
  · intro v2 ds c o1 as a bs ts rest t0 t1 err hargs hc hshape hbind h1 hlim hleft hw hok hs
    obtain ⟨o1a, o4, h1a, _, v1, _, v3, _, v5, _, hnew, _⟩ :=
      New_container fl osArgs v2 ds c hargs hc hshape
        fun y hy => bindResult_none fl _ y (hbind y hy)
    rw [h1] at h1a
    simp only [Except.ok.injEq] at h1a
    subst h1a
    have hg : o4.getArgs = (as ++ a :: bs, none) := by
      rw [getArgs_within o4 (by rw [v1, v3]; exact hlim), v1, ← hleft]
      rfl
    have ha := assignArgs_first_failure fl o4 c.container as a bs ts rest t0 t1 err v5 hg hw
      hok hs
    exact ⟨_, _, hnew _ _ ha, rfl, rfl⟩

/-- The record of the example of `New` with `-a 42 --babel=maybe -q What?`:
the message ends in the long key `babel`, with which the event was found.  The
slice of `int` of the test "Given integer slice arguments" with `255 x 3`: the
error is that of `ParseInt` for `x`. -/
theorem C32_error_context_witness :
    ((str "babel" = if ((tokenize [str "cmd", str "-a", str "42", str "--babel=maybe", str "-q",
          str "What?"]).vmap.get (str "b")).isSome then str "b" else str "babel") ∧
      ∃ o e, New FloatLib.rejecting
          [str "cmd", str "-a", str "42", str "--babel=maybe", str "-q", str "What?"]
          (.pointer (.record recordExample) :: []) = .ok (o, some e) ∧
        e.Error sampleErrorText =
          sampleErrorText (.new "invalid value for bool") ++ str " \"" ++ str "babel" ++
            str "\"") ∧
    sampleErrorText (.new "invalid value for bool") ++ str " \"" ++ str "babel" ++ str "\"" =
      str "invalid value for bool \"babel\"" ∧
    ∃ o e, New FloatLib.rejecting [str "cmd", str "255", str "x", str "3"]
        [.pointer (.slice 0 [] intVar)] = .ok (o, some e) ∧
      e = .decode (.num ⟨"ParseInt", str "x", .ErrSyntax⟩) ∧
      e.Error sampleErrorText = sampleErrorText (.num ⟨"ParseInt", str "x", .ErrSyntax⟩) :=
  ⟨(C32_error_context FloatLib.rejecting sampleErrorText
      [str "cmd", str "-a", str "42", str "--babel=maybe", str "-q", str "What?"]).1
      recordExample [] descriptorsExample
      [opt.mk intVar (str "Answer") (str "int") (str "a") (str "answer") [] (str "int")]
      [opt.mk stringVar (str "Question") (str "string") (str "q") (str "question") []
        (str "string")]
      (opt.mk boolVar (str "Babel") (str "bool") (str "b") (str "babel") [] (str "bool"))
      1 (str "babel") (vst.mk (str "babel") (str "maybe") typ_uoption) boolVar
      (.new "invalid value for bool") (by decide) (by decide) (by simp) rfl rfl
      (fun y hy i k ev1 hh hev => by
        simp only [List.mem_singleton] at hy
        subst hy
        have h1 : (tokenize [str "cmd", str "-a", str "42", str "--babel=maybe", str "-q",
            str "What?"]).hit
              (opt.mk intVar (str "Answer") (str "int") (str "a") (str "answer") [] (str "int")) =
            some (0, str "a") := rfl
        rw [h1] at hh
        cases hh
        have h2 : (tokenize [str "cmd", str "-a", str "42", str "--babel=maybe", str "-q",
            str "What?"]).vdata.get? 0 = some (vst.mk (str "a") (str "42") 0) := rfl
        rw [h2] at hev
        cases hev
        rfl)
      rfl rfl rfl,
    by decide,
    (C32_error_context FloatLib.rejecting sampleErrorText
      [str "cmd", str "255", str "x", str "3"]).2
      [.pointer (.slice 0 [] intVar)] [] (.pointer (.slice 0 [] intVar))
      { option.init with argSliceCap := slice_limit, argLimit := slice_limit }
      [str "255"] (str "x") [str "3"] [intVar] [intVar] intVar intVar
      (.num ⟨"ParseInt", str "x", .ErrSyntax⟩) (by decide) (by decide) (Or.inl ⟨rfl, rfl⟩)
      (fun y hy => by cases hy) rfl (by decide) (by decide) rfl
      (List.Forall₂.cons rfl List.Forall₂.nil) rfl⟩

/-- C34, counterexample: with the record of the example as first argument and
the command line `-a x`, the binding of `Answer` fails and `New` returns the
error of the decoder for the key `a`; a second argument that is a record, or a
pointer to an `int`, is not reached and there is no panic. -/
theorem C34_counterexample_error_before_second_argument :
    (∃ o, New FloatLib.rejecting [str "cmd", str "-a", str "x"]
        [.pointer (.record recordExample), .pointer (.record recordExample)] =
      .ok (o, some (.keyed (.num ⟨"ParseInt", str "x", .ErrSyntax⟩) (str "a")))) ∧
    ∃ o, New FloatLib.rejecting [str "cmd", str "-a", str "x"]
        [.pointer (.record recordExample), .pointer (.other .Int)] =
      .ok (o, some (.keyed (.num ⟨"ParseInt", str "x", .ErrSyntax⟩) (str "a"))) :=
  ⟨⟨_, rfl⟩, _, rfl⟩

/-- C34, amended: for every command line `New` panics when it is called with no
argument or with more than two, with an argument that is not a pointer, with a
pointer to a value that is neither record, slice nor array as first argument,
and with a slice or an array as the first of two arguments.  With a record, or
a pointer to a value that is no container, as second argument `New` panics,
unless the first argument is a record and the binding of its fields fails:
then `New` returns the error of the decoder for the key.  When the first
argument is a record whose descriptors are all bound without error, `New`
panics. -/
theorem C34_bad_call_shapes (fl : FloatLib) (osArgs : List GoString) :
    (∀ v2 : List NewArg, v2.length = 0 ∨ v2.length > 2 →
      New fl osArgs v2 = .error (.msg (str "expected one or two arguments"))) ∧
    (∀ v2 : List NewArg, .nonPointer ∈ v2 → ∃ p, New fl osArgs v2 = .error p) ∧
    (∀ (k : Kind) (more : List NewArg),
      ∃ p, New fl osArgs (.pointer (.other k) :: more) = .error p) ∧
    (∀ c b : NewArg, c.container ≠ .invalid → ∃ p, New fl osArgs [c, b] = .error p) ∧
    (∀ a b : NewArg, ((∃ rec, b = .pointer (.record rec)) ∨ ∃ k, b = .pointer (.other k)) →
      (∃ p, New fl osArgs [a, b] = .error p) ∨
        ∃ rec o err key, a = .pointer (.record rec) ∧
          New fl osArgs [a, b] = .ok (o, some (.keyed err key))) ∧
    ∀ (rec : List StructField) (b : NewArg) (ds : List opt),
      ((∃ rec1, b = .pointer (.record rec1)) ∨ ∃ k, b = .pointer (.other k)) →
      descriptors rec = .ok ds →
      (∀ y ∈ ds, ∀ i k ev1, (tokenize osArgs).hit y = some (i, k) →
        (tokenize osArgs).vdata.get? i = some ev1 →
        (setScalar fl y.fld (optionValue y.fld.kind ev1)).2 = none) →
      ∃ p, New fl osArgs [.pointer (.record rec), b] = .error p := by
  have h3 : ∀ (k : Kind) (more : List NewArg),
      ∃ p, New fl osArgs (.pointer (.other k) :: more) = .error p := fun k more =>
    New_panics_of_varAssign fl osArgs _ fun o =>
      ⟨_, by rw [option.varAssign, varAssignLoop]⟩
  have h4 : ∀ c b : NewArg, c.container ≠ .invalid → ∃ p, New fl osArgs [c, b] = .error p := by
    intro c b hc
    refine New_panics_of_varAssign fl osArgs _ fun o => ?_
    cases c with
    | nonPointer => exact absurd rfl hc
    | pointer e =>
      cases e with
      | record fields => exact absurd rfl hc
      | other k => exact absurd rfl hc
      | slice cap elems zero =>
        exact ⟨.msg (str "first argument cannot be a slice"), by
          rw [option.varAssign, varAssignLoop]; simp⟩
      | array elems =>
        exact ⟨.msg (str "first argument cannot be an array"), by
          rw [option.varAssign, varAssignLoop]; simp⟩
  -- a record first, then a record or a value that is no container
  have h5 : ∀ (rec : List StructField) (b : NewArg),
      ((∃ rec1, b = .pointer (.record rec1)) ∨ ∃ k, b = .pointer (.other k)) →
      (∃ p, New fl osArgs [.pointer (.record rec), b] = .error p) ∨
        ∃ o err key, New fl osArgs [.pointer (.record rec), b] = .ok (o, some (.keyed err key)) := by
    intro rec b hb
    by_cases hargs : osArgs = []
    · left
      subst hargs
      exact ⟨.runtime, by simp [New]⟩
    have hptr : ∀ x ∈ [b], x ≠ NewArg.nonPointer := by
      intro x hx
      rw [List.mem_singleton] at hx
      rcases hb with ⟨r, e⟩ | ⟨k, e⟩
      · rw [hx, e]
        exact fun h => by cases h
      · rw [hx, e]
        exact fun h => by cases h
    rcases hd : descriptors rec with p | ds
    · exact Or.inl (New_record_panic fl osArgs rec [b] p hd)
    · obtain ⟨o1, h1⟩ := calcArgLimit_pointers [.pointer (.record rec), b] option.init
        (fun x hx => by
          rcases List.mem_cons.1 hx with e | e
          · rw [e]
            exact fun h => by cases h
          · exact hptr x e)
      obtain ⟨o3, g1, g2, g3, _, _, _, _, hpanic, herr, hok⟩ :=
        New_record fl osArgs rec [b] ds o1 (by simp) hargs hd h1
      obtain ⟨hm, _⟩ := New_record_bind fl osArgs rec ds o3 hd g2 g3
      obtain ⟨n, flds, r, _, hl, he, _⟩ := getOptionsLoop_spec fl ds [] o3 hm
      cases r with
      | some e =>
        obtain ⟨err, key, hek⟩ := he e rfl
        exact Or.inr ⟨_, err, key, hek ▸ herr _ e hl⟩
      | none =>
        obtain ⟨p, hp⟩ := varAssignLoop_second fl
          ({ (ds.take n).foldl option.mark o3 with optionList := flds } : option) b hb
        exact Or.inl ⟨p, (hok _ hl).2 p hp⟩
  refine ⟨fun v2 h => by simp only [New, h, if_true], New_nonPointer fl osArgs, h3, h4, ?_, ?_⟩
  · intro a b hb
    cases a with
    | nonPointer => exact Or.inl (New_nonPointer fl osArgs _ (List.mem_cons_self _ _))
    | pointer e =>
      cases e with
      | other k => exact Or.inl (h3 k [b])
      | slice cap elems zero =>
        exact Or.inl (h4 _ b (by simp [NewArg.container]))
      | array elems => exact Or.inl (h4 _ b (by simp [NewArg.container]))
      | record rec =>
        rcases h5 rec b hb with h | ⟨o, err, key, h⟩
        · exact Or.inl h
        · exact Or.inr ⟨rec, o, err, key, rfl, h⟩
  · intro rec b ds hb hd hbind
    rcases h5 rec b hb with h | ⟨o, err, key, h⟩
    · exact h
    · exfalso
      have hargs := New_ok_args fl osArgs _ _ h
      rcases first_failure_split (fun x => (bindResult fl (tokenize osArgs) x).2 = none) ds with
        hall | ⟨pre, x, post, s1, s2, s3⟩
      · obtain ⟨o1, h1⟩ := calcArgLimit_pointers [.pointer (.record rec), b] option.init
          (fun x hx => by
            simp only [List.mem_cons, List.mem_singleton, List.not_mem_nil, or_false] at hx
            rcases hx with e | e
            · rw [e]
              exact fun h => by cases h
            · rcases hb with ⟨r, eb⟩ | ⟨k, eb⟩
              · rw [e, eb]
                exact fun h => by cases h
              · rw [e, eb]
                exact fun h => by cases h)
        obtain ⟨o3, g1, g2, g3, _, _, _, _, _, _, hok⟩ :=
          New_record fl osArgs rec [b] ds o1 (by simp) hargs hd h1
        obtain ⟨hm, hcl, hbr, _⟩ := New_record_bind fl osArgs rec ds o3 hd g2 g3
        have hl := getOptionsLoop_all fl ds [] o3 hm hcl fun x hx => by
          rw [hbr x]
          exact hall x hx
        obtain ⟨p, hp⟩ := varAssignLoop_second fl _ b hb
        have := (hok _ hl).2 p hp
        rw [h] at this
        cases this
      · exact s3 (bindResult_none fl _ x (hbind x (by rw [s1]; simp)))

/-- A key given twice, and the short and the long key of one field: the field
holds the value of the event that it finds, and the other event is an invalid
option. -/
theorem test_New_repeated_key :
    (∃ o, New FloatLib.rejecting [str "cmd", str "-a", str "1", str "-a", str "2"]
        [.pointer (.record recordMyStk)] =
        .ok (o, some (.text (str "Invalid command line option: (a)"))) ∧
      o.fields = [.int 2, .string [], .bool false]) ∧
    ∃ o, New FloatLib.rejecting [str "cmd", str "-a", str "1", str "--answer", str "2"]
        [.pointer (.record recordMyStk)] =
        .ok (o, some (.text (str "Invalid command line option: (answer)"))) ∧
      o.fields = [.int 1, .string [], .bool false] :=
  ⟨⟨_, rfl, rfl⟩, _, rfl, rfl⟩

/-- C35: a record with descriptors `ds`, among them `xa` with the short key
`a` for an integer field and `xb` with the short key `b` for a boolean field,
an integer `n` in the range of the kind of the integer field, and plain words
`ws`.  With the command line `-a n -b w1 .. wk` (`n` in base 10) `New` returns
no error, called with the record alone and called with the record and a slice
of strings made without cap; the integer field holds `n`, the boolean field is
true and the other fields are as they were; the slice holds the words stripped
of their surrounding quotes: nothing when there is no word, and exactly
`w1 .. wk` when no word is empty or has a quote at an end. -/
theorem C35_end_to_end (fl : FloatLib) (cmd : GoString) (rec : List StructField)
    (ds : List opt) (xa xb : opt) (n : Int) (ws : List GoString) (selems : List Target)
    (zero : Target)
    (hd : descriptors rec = .ok ds) (ha : xa ∈ ds) (hb : xb ∈ ds)
    (hak : xa.u_key = str "a") (hbk : xb.u_key = str "b")
    (hint : isSignedKind xa.fld.kind = true ∨ isUnsignedKind xa.fld.kind = true)
    (hbool : xb.fld.kind = .Bool) (hr : inRange xa.fld.kind n)
    (hws : ∀ w ∈ ws, isPlainWord w = true) (hlen : ws.length ≤ 32767)
    (hz : zero.kind = .String) :
    (∃ o, New fl (cmd :: str "-a" :: decimalInt n :: str "-b" :: ws) [.pointer (.record rec)] =
        .ok (o, none) ∧ o.optionList = boundAB ds xa xb n) ∧
    (∃ o, New fl (cmd :: str "-a" :: decimalInt n :: str "-b" :: ws)
        [.pointer (.record rec), .pointer (.slice 0 selems zero)] = .ok (o, none) ∧
      o.optionList = boundAB ds xa xb n ∧ o.getArgs = (strippedWords ws, none) ∧
      o.argSliceRef = .slice (strippedWords ws).length
        ((strippedWords ws).map fun a => zero.SetString a) zero) ∧
    { xa with fld := { xa.fld with val := integerVal xa.fld.kind n } } ∈ boundAB ds xa xb n ∧
    { xb with fld := xb.fld.SetBool true } ∈ boundAB ds xa xb n ∧
    (ws = [] → strippedWords ws = []) ∧
    ((∀ w ∈ ws, w ≠ [] ∧ noOuterQuote w) → strippedWords ws = ws) := by
  obtain ⟨_, _, hall, hbound, hun, hleft, hcount⟩ :=
    bind_a_n_b fl cmd rec ds xa xb n ws hd ha hb hak hbk hint hbool hr hws
  have hargs : cmd :: str "-a" :: decimalInt n :: str "-b" :: ws ≠ [] := fun h => by cases h
  have hev := EventsOK_tokenize (cmd :: str "-a" :: decimalInt n :: str "-b" :: ws)
  refine ⟨?_, ?_, ?_, ?_, fun h => by rw [h]; rfl,
    fun h => strippedWords_plain ws fun w hw => ⟨hws w hw, h w hw⟩⟩
  · obtain ⟨o3, g1, g2, g3, _, _, _, _, _, _, hok⟩ :=
      New_record fl _ rec [] ds _ (by simp) hargs hd (calcArgLimit_record rec)
    obtain ⟨hm, hcl, hbr, hbd, _⟩ := New_record_bind fl _ rec ds o3 hd g2 g3
    have hl := getOptionsLoop_all fl ds [] o3 hm hcl fun x hx => by
      rw [hbr x]
      exact hall x hx
    have hnew := (hok _ hl).1 _ none rfl
    have hc := checkUndefinedOptions_marked ds _
      ({ ds.foldl option.mark o3 with optionList := [] ++ ds.map (bound fl o3) } : option) hev
      (foldl_mark_congr ds o3 _ g2 g3)
    rw [hun] at hc
    rw [hc] at hnew
    refine ⟨_, hnew, ?_⟩
    show [] ++ ds.map (bound fl o3) = _
    rw [List.nil_append, ← hbound]
    exact List.map_congr_left fun y _ => hbd y
  · obtain ⟨o1, o4, h1, _, v1, _, v3, _, v5, v6, hok, _⟩ :=
      New_container fl _ [.pointer (.record rec), .pointer (.slice 0 selems zero)] ds
        (.pointer (.slice 0 selems zero)) hargs (by simp [NewArg.container])
        (Or.inr ⟨rec, rfl, hd⟩) hall
    rw [calcArgLimit_record_slice_zero] at h1
    simp only [Except.ok.injEq] at h1
    have hlim : o4.argLimit = slice_limit := by rw [v3, ← h1]
    have hg : o4.getArgs = (strippedWords ws, none) := by
      rw [getArgs_within o4 (by
        rw [v1, hlim]
        simp only [slice_limit]
        omega), v1, ← hleft]
      rfl
    have hstr : ∀ a ∈ strippedWords ws, (setScalar fl zero a).2 = none := fun a _ => by
      rw [setScalar_string fl zero a hz]
    have has := assignArgs_slice_all fl o4 0 selems zero (strippedWords ws) v5 hg hstr
    have hnew := hok _ none has
    have hc := checkUndefinedOptions_marked ds _
      ({ o4 with argSliceRef := (.slice (strippedWords ws).length
        ((strippedWords ws).map fun a => (setScalar fl zero a).1) zero) } : option) hev v1
    rw [hun] at hc
    rw [hc] at hnew
    refine ⟨_, hnew, ?_, ?_, ?_⟩
    · show o4.optionList = _
      rw [v6, hbound]
    · rw [← hg]
      exact getArgs_congr _ _ rfl rfl rfl
    · show SliceRef.slice _ _ _ = _
      congr 1
      exact List.map_congr_left fun a _ => by rw [setScalar_string fl zero a hz]
  · simp only [boundAB, List.mem_map]
    exact ⟨xa, ha, by simp⟩
  · have hne : xb ≠ xa := fun h => by
      rw [h, hak] at hbk
      exact absurd hbk (by decide)
    simp only [boundAB, List.mem_map]
    exact ⟨xb, hb, by simp [hne]⟩

/-- The record of the example of `New` in examples_test.go with the command
line `-a 42 -b Towel Vogon`: `Answer` holds 42, `Babel` is true, `Question` is
as it was, and the slice of strings holds Towel and Vogon. -/
theorem C35_end_to_end_witness :
    decimalInt 42 = str "42" ∧ descriptors recordExample = .ok descriptorsExample ∧
    boundAB descriptorsExample
        (opt.mk intVar (str "Answer") (str "int") (str "a") (str "answer") [] (str "int"))
        (opt.mk boolVar (str "Babel") (str "bool") (str "b") (str "babel") [] (str "bool")) 42 =
      [opt.mk ⟨.Int, false, .int 42⟩ (str "Answer") (str "int") (str "a") (str "answer") []
          (str "int"),
        opt.mk ⟨.Bool, false, .bool true⟩ (str "Babel") (str "bool") (str "b") (str "babel") []
          (str "bool"),
        opt.mk stringVar (str "Question") (str "string") (str "q") (str "question") []
          (str "string")] ∧
    strippedWords [str "Towel", str "Vogon"] = [str "Towel", str "Vogon"] ∧
    ∃ o, New FloatLib.rejecting
        (str "mycommand" :: str "-a" :: decimalInt 42 :: str "-b" ::
          [str "Towel", str "Vogon"])
        [.pointer (.record recordExample), .pointer (.slice 0 [] stringVar)] = .ok (o, none) ∧
      o.optionList = boundAB descriptorsExample
        (opt.mk intVar (str "Answer") (str "int") (str "a") (str "answer") [] (str "int"))
        (opt.mk boolVar (str "Babel") (str "bool") (str "b") (str "babel") [] (str "bool")) 42 ∧
      o.getArgs = (strippedWords [str "Towel", str "Vogon"], none) ∧
      o.argSliceRef = .slice (strippedWords [str "Towel", str "Vogon"]).length
        ((strippedWords [str "Towel", str "Vogon"]).map fun a => stringVar.SetString a)
        stringVar :=
  ⟨by simp [decimalInt, decimal, str], rfl, by decide, by decide,
    (C35_end_to_end FloatLib.rejecting (str "mycommand") recordExample descriptorsExample
      (opt.mk intVar (str "Answer") (str "int") (str "a") (str "answer") [] (str "int"))
      (opt.mk boolVar (str "Babel") (str "bool") (str "b") (str "babel") [] (str "bool"))
      42 [str "Towel", str "Vogon"] [] stringVar rfl (by decide) (by decide) rfl rfl
      (Or.inl rfl) rfl (by norm_num [inRange, isSignedKind, intVar, Kind.bitSize]) (by decide)
      (by decide) rfl).2.1⟩

/-- The example of `New` in examples_test.go: `-a 42 -b -q What? Towel` gives
42, true, "What?" and the one argument Towel. -/
theorem test_New_example :
    ∃ o, New FloatLib.rejecting
        [str "mycommand", str "-a", str "42", str "-b", str "-q", str "What?", str "Towel"]
        [.pointer (.record recordExample), .pointer (.slice 0 [] stringVar)] = .ok (o, none) ∧
      o.fields = [.int 42, .bool true, .string (str "What?")] ∧
      o.argSliceRef = .slice 1 [stringOf (str "Towel")] stringVar :=
  ⟨_, rfl, rfl, rfl⟩

/-- C38, counterexample: with `-a 1 -a x` and the record `myStk` the field
`Answer` finds the second event, the decoder rejects `x`, and `New` returns the
error of the decoder for the key `a` and not the error of the invalid options;
the first event is not reported. -/
theorem C38_counterexample_decoder_error_first :
    ∃ o, New FloatLib.rejecting [str "cmd", str "-a", str "1", str "-a", str "x"]
        [.pointer (.record recordMyStk)] =
        .ok (o, some (.keyed (.num ⟨"ParseInt", str "x", .ErrSyntax⟩) (str "a"))) ∧
      o.fields = [.int 0, .string [], .bool false] :=
  ⟨_, rfl, rfl⟩

/-- C38, amended: a record with descriptors `ds`, a descriptor `x` of it that
finds the event `i` with the key `k`, and another event `j` that carries a key
of `x` (the same key once more, or the other key of the field).  The key `k` is
the short key of the field when it is in the map of events and the long key
otherwise, and the event `i` is the last one with the key `k`.  The event `j`
is claimed by no field and its key is among the unclaimed keys.  When every
field is bound without error, `New` called with the record returns the error
of the invalid options, whose message names the unclaimed keys in the order of
their events, and the field of `x` holds what the decoder has stored for the
value of the event `i`.  When the binding of a field fails, `New` returns the
error of the decoder for a key instead. -/
theorem C38_repeated_key (fl : FloatLib) (osArgs : List GoString) (rec : List StructField)
    (ds : List opt) (x : opt) (i j : Nat) (k : GoString) (ev : vst)
    (hargs : osArgs ≠ []) (hd : descriptors rec = .ok ds) (hx : x ∈ ds)
    (hh : (tokenize osArgs).hit x = some (i, k))
    (hev : (tokenize osArgs).vdata.get? j = some ev) (hk : x.hasKey ev.key) (hij : j ≠ i) :
    (k = if ((tokenize osArgs).vmap.get x.u_key).isSome then x.u_key else x.gnu_key) ∧
      (∃ ev0, (tokenize osArgs).vdata.get? i = some ev0 ∧ ev0.key = k ∧
        ∀ j1 ev1, i < j1 → (tokenize osArgs).vdata.get? j1 = some ev1 → ev1.key ≠ k) ∧
      ¬ claimedBy ds (tokenize osArgs) j ∧ ev.key ∈ unclaimedKeys ds (tokenize osArgs) ∧
      ((∀ y ∈ ds, ∀ i1 k1 ev1, (tokenize osArgs).hit y = some (i1, k1) →
          (tokenize osArgs).vdata.get? i1 = some ev1 →
          (setScalar fl y.fld (optionValue y.fld.kind ev1)).2 = none) →
        ∃ o ev0 t, New fl osArgs [.pointer (.record rec)] =
            .ok (o, some (.text (unknownOptions (unclaimedKeys ds (tokenize osArgs))))) ∧
          (tokenize osArgs).vdata.get? i = some ev0 ∧
          setScalar fl x.fld (optionValue x.fld.kind ev0) = (t, none) ∧
          { x with fld := t } ∈ o.optionList) ∧
      ((∃ y ∈ ds, ∃ i1 k1 ev1, (tokenize osArgs).hit y = some (i1, k1) ∧
          (tokenize osArgs).vdata.get? i1 = some ev1 ∧
          (setScalar fl y.fld (optionValue y.fld.kind ev1)).2 ≠ none) →
        ∃ o err key, New fl osArgs [.pointer (.record rec)] =
          .ok (o, some (.keyed err key))) := by
  obtain ⟨lk, _, hlast, _, _⟩ := TokenizerInv_tokenize osArgs
  have hm : MapOK (tokenize osArgs) := (EventsOK_tokenize osArgs).2
  have hnc := not_claimed_of_other_event ds _ x i j k ev hm (descriptors_nodup rec ds hd) hx hh
    hev hk hij
  have hmem := mem_unclaimedKeys ds _ j ev hev hk.1 hnc
  have hne : unclaimedKeys ds (tokenize osArgs) ≠ [] := fun h0 => by
    rw [h0] at hmem
    cases hmem
  obtain ⟨ev0, hev0, hkey0, hlast0⟩ := hlast k i (hit_some _ x i k hh).1
  refine ⟨hit_key _ x i k hh, ⟨ev0, hev0, hkey0, hlast0⟩, hnc, hmem, fun hall => ?_,
    fun hfail => ?_⟩
  · have hall1 : ∀ y ∈ ds, (bindResult fl (tokenize osArgs) y).2 = none :=
      fun y hy => bindResult_none fl _ y (hall y hy)
    obtain ⟨o, hnew, hl⟩ := New_record_all fl osArgs rec ds hargs hd hall1
    rw [if_neg hne] at hnew
    refine ⟨o, ev0, (bound fl (tokenize osArgs) x).fld, hnew, hev0,
      (bound_spec fl _ x (hall1 x hx)).2.2 i k ev0 hh hev0, ?_⟩
    rw [hl]
    exact List.mem_map.2 ⟨x, hx, rfl⟩
  · refine New_record_some_failure fl osArgs rec [] ds hargs (by simp)
      (fun a ha => by cases ha) hd fun hall => ?_
    obtain ⟨y, hy, i1, k1, ev1, h1, h2, h3⟩ := hfail
    have := hall y hy
    rw [bindResult_hit fl _ y i1 k1 ev1 h1 h2] at this
    rcases hs : (setScalar fl y.fld (optionValue y.fld.kind ev1)).2 with _ | err
    · exact h3 hs
    · rw [hs] at this
      cases this

/-- The command line `-a 1 -a 2` with the record `myStk`: the field `Answer`
finds the second event, every field is bound without error, and `New` returns
the error of the invalid option `a`, the field holding what the decoder stores
for the value of the second event. -/
theorem C38_repeated_key_witness :
    unknownOptions (unclaimedKeys descriptorsMyStk
        (tokenize [str "cmd", str "-a", str "1", str "-a", str "2"])) =
      str "Invalid command line option: (a)" ∧
    setScalar FloatLib.rejecting intVar (optionValue intVar.kind (vst.mk (str "a") (str "2") 0)) =
      (⟨.Int, false, .int 2⟩, none) ∧
    ∃ o ev0 t, New FloatLib.rejecting [str "cmd", str "-a", str "1", str "-a", str "2"]
          [.pointer (.record recordMyStk)] =
        .ok (o, some (.text (unknownOptions (unclaimedKeys descriptorsMyStk
          (tokenize [str "cmd", str "-a", str "1", str "-a", str "2"]))))) ∧
      (tokenize [str "cmd", str "-a", str "1", str "-a", str "2"]).vdata.get? 1 = some ev0 ∧
      setScalar FloatLib.rejecting intVar (optionValue intVar.kind ev0) = (t, none) ∧
      opt.mk t (str "Answer") (str "int") (str "a") (str "answer") [] (str "int") ∈
        o.optionList :=
  ⟨by decide, rfl,
    (C38_repeated_key FloatLib.rejecting [str "cmd", str "-a", str "1", str "-a", str "2"]
      recordMyStk descriptorsMyStk
      (opt.mk intVar (str "Answer") (str "int") (str "a") (str "answer") [] (str "int")) 1 0
      (str "a") (vst.mk (str "a") (str "1") 0) (by decide) rfl (by decide) rfl rfl
      ⟨by decide, Or.inl rfl⟩ (by decide)).2.2.2.2.1
      (fun y hy i1 k1 ev1 hh hev => by
        simp only [descriptorsMyStk, List.mem_cons, List.mem_singleton, List.not_mem_nil,
          or_false] at hy
        rcases hy with rfl | rfl | rfl
        · have h1 : (tokenize [str "cmd", str "-a", str "1", str "-a", str "2"]).hit
              (opt.mk intVar (str "Answer") (str "int") (str "a") (str "answer") [] (str "int")) =
              some (1, str "a") := rfl
          rw [h1] at hh
          cases hh
          have h2 : (tokenize [str "cmd", str "-a", str "1", str "-a", str "2"]).vdata.get? 1 =
              some (vst.mk (str "a") (str "2") 0) := rfl
          rw [h2] at hev
          cases hev
          rfl
        · have h1 : (tokenize [str "cmd", str "-a", str "1", str "-a", str "2"]).hit
              (opt.mk stringVar (str "Poem") (str "string") (str "p") (str "poem") []
                (str "string")) = none := rfl
          rw [h1] at hh
          cases hh
        · have h1 : (tokenize [str "cmd", str "-a", str "1", str "-a", str "2"]).hit
              (opt.mk boolVar (str "Towel") (str "bool") (str "t") (str "towel") []
                (str "bool")) = none := rfl
          rw [h1] at hh
          cases hh)⟩

end GoOption
